import Mathlib

/-!
# Verification of the `rap` recording codecs

Shallow embedding of the event codec (`format/encoding/event/event.go`), of the
Oct24 position codec (`format/encoding/position/oct24.go`) and of the scalar and
octree quantizers (`pkg/encoding/position/oct48.go`), followed by theorems about
them.

Conventions of the embedding.

* A byte is a `Nat`; byte-typed Go arithmetic carries an explicit `% 256`, and
  `uint64` conversions an explicit `% 2 ^ 64`.
* A Go `string` is the list of its bytes.
* A `bytes.Buffer`/`bytes.Reader` being read is the list of bytes not yet consumed.
* The `float64` time of an event capture is never used in arithmetic by the event
  codec, so it is carried as its IEEE-754 bit pattern (`math.Float64bits`).
* The quantizers compute on `float64`; they are embedded over `ℚ` (exact arithmetic).
  The scalar quantizer is embedded a second time in `float64` arithmetic
  (`Float64.floatBSTToBytes`, `Float64.bytesToFloatBST`), every operation rounded by
  `binary64Round`.
-/

namespace Rap

/-! ## Go results -/

/-- Error values returned by the embedded functions. -/
inductive GoError where
  | eof
  | unexpectedEOF
  | overflow
  | notEvent
  deriving DecidableEq, Repr

/-- The text of an error value (`err.Error()`). -/
def GoError.text : GoError → String
  | .eof => "EOF"
  | .unexpectedEOF => "unexpected EOF"
  | .overflow => "binary: varint overflows a 64-bit integer"
  | .notEvent => "capture is not of type event"

/-- Outcome of a Go call: a normal return, a returned non-nil `error`, or a run-time panic. -/
inductive Res (α : Type) where
  | ok (a : α)
  | error (e : GoError)
  | panic
  deriving DecidableEq, Repr

/-- Sequencing of outcomes: errors and panics abort. -/
def Res.bind {α β : Type} : Res α → (α → Res β) → Res β
  | .ok a, f => f a
  | .error e, _ => .error e
  | .panic, _ => .panic

/-- Apply a function to a normal return value. -/
def Res.map {α β : Type} (f : α → β) : Res α → Res β
  | .ok a => .ok (f a)
  | .error e => .error e
  | .panic => .panic

deriving instance DecidableEq for Except

/-- A Go string: its bytes. -/
abbrev GoString := List Nat

/-! ## `encoding/binary` -/

/-- `binary.PutUvarint(buf, x)` for a buffer of `cap` bytes: the bytes written
(`buf[:n]`), or `none` when the loop indexes past the end of the buffer (panic). -/
def PutUvarint : Nat → Nat → Option (List Nat)
  | 0, _ => none
  | cap + 1, x =>
    if 0x80 ≤ x then
      (PutUvarint cap (x >>> 7)).map (fun bs => ((x % 256) ||| 0x80) :: bs)
    else some [x % 256]

/-- Loop of `binary.ReadUvarint`: `k` is the number of iterations left out of
`MaxVarintLen64 = 10`, `x` the accumulated value and `s` the current shift. -/
def ReadUvarint.loop : Nat → Nat → Nat → List Nat → Except GoError Nat × List Nat
  | 0, _, _, r => (.error .overflow, r)
  | k + 1, _, _, [] => (.error (if k + 1 = 10 then .eof else .unexpectedEOF), [])
  | k + 1, x, s, b :: r =>
    if b < 0x80 then
      if k = 0 ∧ 1 < b then (.error .overflow, r)
      else (.ok ((x ||| (b <<< s)) % 2 ^ 64), r)
    else ReadUvarint.loop k ((x ||| ((b &&& 0x7f) <<< s)) % 2 ^ 64) (s + 7) r

/-- `binary.ReadUvarint(r)`: the value or the error, and the bytes left in the reader. -/
def ReadUvarint (r : List Nat) : Except GoError Nat × List Nat :=
  ReadUvarint.loop 10 0 0 r

/-- Little-endian bytes of the low `n` bytes of `x` (`binary.LittleEndian.PutUintNN`). -/
def leBytes : Nat → Nat → List Nat
  | 0, _ => []
  | n + 1, x => x % 256 :: leBytes n (x / 256)

/-- The unsigned integer held little-endian in a byte list (`binary.LittleEndian.UintNN`). -/
def leValue : List Nat → Nat
  | [] => 0
  | b :: bs => b % 256 + 256 * leValue bs

/-- `binary.Read(r, binary.LittleEndian, &v)` for a fixed-width `v` of `n` bytes:
`io.ReadFull` of `n` bytes. With fewer than `n` bytes left the reader is drained,
`v` keeps its value and an error is returned. -/
def readFixed (n : Nat) (r : List Nat) : Except GoError Nat × List Nat :=
  if n ≤ r.length then (.ok (leValue (r.take n)), r.drop n)
  else (.error (if r = [] then .eof else .unexpectedEOF), [])

/-- Conversions between `float64` and `float32` bit patterns (`float32(x)` and
`float64(y)`), parameters of the event codec. -/
structure FloatConv where
  /-- Bits of `float32(x)` from the bits of the `float64` `x`. -/
  narrow : Nat → Nat
  /-- Bits of `float64(y)` from the bits of the `float32` `y`. -/
  widen : Nat → Nat

/-! ## `internal/io/binary` (rapbinary) -/

/-- Modelled from the spec: the uvarint encoding used by the helpers of
`internal/io/binary` for counts and lengths (§4.A, "LEB128-style unsigned integer"),
that package being absent; the argument is converted to `uint64` and written into a
buffer of `binary.MaxVarintLen64` bytes. -/
def uvarintBytes (x : Nat) : List Nat :=
  (PutUvarint 10 (x % 2 ^ 64)).getD []

/-- Modelled from the spec: `rapbinary.StringToBytes`, absent from the sources
(§4.A: "uvarint length `n` followed by `n` raw bytes; no terminator"). -/
def StringToBytes (s : GoString) : List Nat :=
  uvarintBytes s.length ++ s

/-- Modelled from the spec: `rapbinary.StringArrayToBytes`, absent from the sources
(§4.A: "uvarint count, then that many strings"). -/
def StringArrayToBytes (a : List GoString) : List Nat :=
  uvarintBytes a.length ++ (a.map StringToBytes).flatten

/-- Modelled from the spec: `rapbinary.UintArrayToBytes`, absent from the sources
(§4.A: "uvarint count, then that many uvarints"). -/
def UintArrayToBytes (a : List Nat) : List Nat :=
  uvarintBytes a.length ++ (a.map uvarintBytes).flatten

/-- Modelled from the spec: `rapbinary.ReadString`, absent from the sources: reads
the uvarint length and then that many bytes; a short read is an error. -/
def ReadString (r : List Nat) : Except GoError GoString × List Nat :=
  match ReadUvarint r with
  | (.error e, r1) => (.error e, r1)
  | (.ok n, r1) =>
    if n ≤ r1.length then (.ok (r1.take n), r1.drop n)
    else (.error (if r1 = [] then .eof else .unexpectedEOF), [])

/-- Element loop of `ReadStringArray`. -/
def ReadStringArray.loop : Nat → List Nat → Except GoError (List GoString) × List Nat
  | 0, r => (.ok [], r)
  | n + 1, r =>
    match ReadString r with
    | (.error e, r1) => (.error e, r1)
    | (.ok s, r1) =>
      match ReadStringArray.loop n r1 with
      | (.error e, r2) => (.error e, r2)
      | (.ok ss, r2) => (.ok (s :: ss), r2)

/-- Modelled from the spec: `rapbinary.ReadStringArray`, absent from the sources:
reads the uvarint count and then that many strings. -/
def ReadStringArray (r : List Nat) : Except GoError (List GoString) × List Nat :=
  match ReadUvarint r with
  | (.error e, r1) => (.error e, r1)
  | (.ok n, r1) => ReadStringArray.loop n r1

/-- Element loop of `ReadUintArray`. -/
def ReadUintArray.loop : Nat → List Nat → Except GoError (List Nat) × List Nat
  | 0, r => (.ok [], r)
  | n + 1, r =>
    match ReadUvarint r with
    | (.error e, r1) => (.error e, r1)
    | (.ok x, r1) =>
      match ReadUintArray.loop n r1 with
      | (.error e, r2) => (.error e, r2)
      | (.ok xs, r2) => (.ok (x :: xs), r2)

/-- Modelled from the spec: `rapbinary.ReadUintArray`, absent from the sources:
reads the uvarint count and then that many uvarints. -/
def ReadUintArray (r : List Nat) : Except GoError (List Nat) × List Nat :=
  match ReadUvarint r with
  | (.error e, r1) => (.error e, r1)
  | (.ok n, r1) => ReadUintArray.loop n r1

/-! ## Event codec (`format/encoding/event/event.go`) -/

/-- `Raw64` encodes time with 64 bit precision. -/
def Raw64 : Nat := 0

/-- `Raw32` encodes time with 32 bit precision. -/
def Raw32 : Nat := 1

/-- A `format.Capture` handed to the event encoder: an `event.Capture` (time bits,
name, metadata in the order in which the Go map is enumerated) or a capture of
another type. -/
inductive Capture where
  | event (time : Nat) (name : GoString) (metadata : List (GoString × GoString))
  | other (time : Nat)
  deriving DecidableEq, Repr

/-- A `format.CaptureStream`. -/
structure CaptureStream where
  name : GoString
  signature : GoString
  captures : List Capture
  deriving DecidableEq, Repr

/-- A decoded `event.Capture`. -/
structure EventCapture where
  time : Nat
  name : GoString
  metadata : List (GoString × GoString)
  deriving DecidableEq, Repr

/-- A decoded event stream (`event.NewStream(streamName, captures)`). -/
structure EventStream where
  name : GoString
  captures : List EventCapture
  deriving DecidableEq, Repr

/-- A Go `map[string]int` as built by `Encode`: its entries in insertion order. -/
abbrev Dict := List (GoString × Nat)

/-- `if _, ok := set[k]; !ok { set[k] = len(set) }`. -/
def setIfAbsent (d : Dict) (k : GoString) : Dict :=
  match d.lookup k with
  | some _ => d
  | none => d ++ [(k, d.length)]

/-- `set[k]` (the zero value when `k` is absent). -/
def Dict.index (d : Dict) (k : GoString) : Nat :=
  (d.lookup k).getD 0

/-- The loop of `Encode` over a capture's metadata (lines 82-92): the key
dictionary after the loop, `allKeyIndxes` and `allValueStrings`. -/
def encodeMetadata : Dict → List (GoString × GoString) → Dict × List Nat × List GoString
  | keys, [] => (keys, [], [])
  | keys, (k, v) :: md =>
    let keys1 := setIfAbsent keys k
    let out := encodeMetadata keys1 md
    (out.1, keys1.index k :: out.2.1, v :: out.2.2)

/-- The bytes written for a capture's time (`switch p.technique`, lines 67-72). -/
def encodeTime (cv : FloatConv) (technique : Nat) (time : Nat) : List Nat :=
  if technique = Raw64 then leBytes 8 time
  else if technique = Raw32 then leBytes 4 (cv.narrow time)
  else []

/-- Body of the loop of `Encode` over the captures of a stream (lines 61-96): the
dictionaries after the capture and the bytes appended to the stream's buffer. -/
def encodeCapture (cv : FloatConv) (technique : Nat) (st : Dict × Dict) :
    Capture → Res ((Dict × Dict) × List Nat)
  | .other _ => .error .notEvent
  | .event time name md =>
    let names1 := setIfAbsent st.1 name
    match PutUvarint 4 (names1.index name % 2 ^ 64) with
    | none => .panic
    | some nameIndex =>
      let out := encodeMetadata st.2 md
      .ok ((names1, out.1),
        encodeTime cv technique time ++ nameIndex ++ UintArrayToBytes out.2.1
          ++ StringArrayToBytes out.2.2)

/-- The loop of `Encode` over the captures of a stream. -/
def encodeCaptures (cv : FloatConv) (technique : Nat) :
    Dict × Dict → List Capture → Res ((Dict × Dict) × List Nat)
  | st, [] => .ok (st, [])
  | st, c :: cs =>
    (encodeCapture cv technique st c).bind fun r1 =>
      (encodeCaptures cv technique r1.1 cs).bind fun r2 =>
        .ok (r2.1, r1.2 ++ r2.2)

/-- Body of the loop of `Encode` over the streams (lines 48-97). -/
def encodeStream (cv : FloatConv) (technique : Nat) (st : Dict × Dict) (s : CaptureStream) :
    Res ((Dict × Dict) × List Nat) :=
  match PutUvarint 4 (s.captures.length % 2 ^ 64) with
  | none => .panic
  | some numCaptures =>
    (encodeCaptures cv technique st s.captures).bind fun r =>
      .ok (r.1, StringToBytes s.name ++ [technique % 256] ++ numCaptures ++ r.2)

/-- The loop of `Encode` over the streams: the final dictionaries and `streamData`. -/
def encodeStreams (cv : FloatConv) (technique : Nat) :
    Dict × Dict → List CaptureStream → Res ((Dict × Dict) × List (List Nat))
  | st, [] => .ok (st, [])
  | st, s :: ss =>
    (encodeStream cv technique st s).bind fun r1 =>
      (encodeStreams cv technique r1.1 ss).bind fun r2 =>
        .ok (r2.1, r1.2 :: r2.2)

/-- `all := make([]string, len(set)); for key, index := range set { all[index] = key }`. -/
def dictToArray (d : Dict) : List GoString :=
  d.foldl (fun acc kv => acc.set kv.2 kv.1) (List.replicate d.length [])

/-- `Encoder.Encode`: the shared header and one body per stream. -/
def Encoder.Encode (cv : FloatConv) (technique : Nat) (streams : List CaptureStream) :
    Res (List Nat × List (List Nat)) :=
  (encodeStreams cv technique ([], []) streams).bind fun r =>
    .ok (StringArrayToBytes (dictToArray r.1.1) ++ StringArrayToBytes (dictToArray r.1.2), r.2)

/-- The value part of a `(value, error)` pair: the zero value `nil` on error. -/
def valueOrNil {α : Type} : Except GoError (List α) → List α
  | .ok v => v
  | .error _ => []

/-- The error part of a `(value, error)` pair. -/
def errorOf {α : Type} : Except GoError α → Option GoError
  | .ok _ => none
  | .error e => some e

/-- `readHeader`: both string arrays are read from the same reader and the error
of the second read is the one returned. -/
def readHeader (header : List Nat) : List GoString × List GoString × Option GoError :=
  let r1 := ReadStringArray header
  let r2 := ReadStringArray r1.2
  (valueOrNil r1.1, valueOrNil r2.1, errorOf r2.1)

/-- `m[k] = v` on a Go map kept as its entries in insertion order. -/
def mapInsert (m : List (GoString × GoString)) (k v : GoString) : List (GoString × GoString) :=
  match m with
  | [] => [(k, v)]
  | (k1, v1) :: rest => if k1 = k then (k1, v) :: rest else (k1, v1) :: mapInsert rest k v

/-- The metadata loop of `Decode` (lines 184-187): `none` is an index out of range. -/
def rehydrate (metadataKeys : List GoString) :
    List Nat → List GoString → List (GoString × GoString) → Option (List (GoString × GoString))
  | [], _, m => some m
  | i :: is, values, m =>
    match metadataKeys[i]?, values with
    | some k, v :: vs => rehydrate metadataKeys is vs (mapInsert m k v)
    | _, _ => none

/-- The time read for a capture by `Decode` (`switch encodingTechnique`, lines 159-167);
the errors of `binary.Read` are dropped by the source. -/
def decodeTime (cv : FloatConv) (technique : Nat) (buf : List Nat) : Nat × List Nat :=
  if technique = Raw64 then
    match readFixed 8 buf with
    | (.ok t, r) => (t, r)
    | (.error _, r) => (0, r)
  else if technique = Raw32 then
    match readFixed 4 buf with
    | (.ok t, r) => (cv.widen t, r)
    | (.error _, r) => (cv.widen 0, r)
  else (0, buf)

/-- The capture loop of `Decode` (lines 156-189), `n` iterations left. -/
def decodeCaptures (cv : FloatConv) (eventNames metadataKeys : List GoString) (technique : Nat) :
    Nat → List Nat → Res (List EventCapture)
  | 0, _ => .ok []
  | n + 1, buf =>
    let t := decodeTime cv technique buf
    match ReadUvarint t.2 with
    | (.error e, _) => .error e
    | (.ok eventNameIndex, buf2) =>
      match ReadUintArray buf2 with
      | (.error e, _) => .error e
      | (.ok metadataIndeces, buf3) =>
        match ReadStringArray buf3 with
        | (.error e, _) => .error e
        | (.ok metadataValues, buf4) =>
          match rehydrate metadataKeys metadataIndeces metadataValues [] with
          | none => .panic
          | some metadata =>
            if 2 ^ 63 ≤ eventNameIndex then .panic
            else
              match eventNames[eventNameIndex]? with
              | none => .panic
              | some name =>
                (decodeCaptures cv eventNames metadataKeys technique n buf4).map
                  fun cs => ⟨t.1, name, metadata⟩ :: cs

/-- `Encoder.Decode`. The receiver's technique `p` is not consulted. -/
def Encoder.Decode (cv : FloatConv) (_p : Nat) (header streamData : List Nat) : Res EventStream :=
  let h := readHeader header
  match h.2.2 with
  | some e => .error e
  | none =>
    match ReadString streamData with
    | (.error e, _) => .error e
    | (.ok streamName, buf1) =>
      match buf1 with
      | [] => .error .eof
      | typeByte :: buf2 =>
        match ReadUvarint buf2 with
        | (.error e, _) => .error e
        | (.ok numCaptures, buf3) =>
          if 2 ^ 63 ≤ numCaptures then .panic
          else
            (decodeCaptures cv h.1 h.2.1 (typeByte % 256) numCaptures buf3).map
              fun cs => ⟨streamName, cs⟩

/-! ## Scalar and octree quantizers (`pkg/encoding/position/oct48.go`)

`format/encoding/position/oct24.go` calls functions of the same names from its own
package; the definitions below are those of `pkg/encoding/position/oct48.go`. -/

/-- Inner loop of `floatBSTToBytes` over the bits of one byte: `k` bits left,
starting at `bitIndex`; returns the byte, `curValue` and `increment`. -/
def floatBSTToBytes.bitLoop (value : ℚ) : Nat → Nat → Nat → ℚ → ℚ → Nat × ℚ × ℚ
  | 0, _, byte, curValue, increment => (byte, curValue, increment)
  | k + 1, bitIndex, byte, curValue, increment =>
    if value < curValue then
      floatBSTToBytes.bitLoop value k (bitIndex + 1) byte (curValue - increment) (increment / 2)
    else
      floatBSTToBytes.bitLoop value k (bitIndex + 1) ((byte ||| (1 <<< bitIndex)) % 256)
        (curValue + increment) (increment / 2)

/-- Outer loop of `floatBSTToBytes` over the bytes of `out`. -/
def floatBSTToBytes.byteLoop (value : ℚ) : List Nat → ℚ → ℚ → List Nat
  | [], _, _ => []
  | _ :: out, curValue, increment =>
    let r := floatBSTToBytes.bitLoop value 8 0 0 curValue increment
    r.1 :: floatBSTToBytes.byteLoop value out r.2.1 r.2.2

/-- `floatBSTToBytes(value, start, duration, out)`: the content of `out` afterwards. -/
def floatBSTToBytes (value start duration : ℚ) (out : List Nat) : List Nat :=
  floatBSTToBytes.byteLoop value out (start + duration / 2) (duration / 4)

/-- Inner loop of `bytesToFloatBST` over the bits of the byte `b`. -/
def bytesToFloatBST.bitLoop (b : Nat) : Nat → Nat → ℚ → ℚ → ℚ × ℚ
  | 0, _, curValue, increment => (curValue, increment)
  | k + 1, bitIndex, curValue, increment =>
    if (b >>> (bitIndex % 256)) &&& 1 = 1 then
      bytesToFloatBST.bitLoop b k (bitIndex + 1) (curValue + increment) (increment / 2)
    else
      bytesToFloatBST.bitLoop b k (bitIndex + 1) (curValue - increment) (increment / 2)

/-- Outer loop of `bytesToFloatBST` over the bytes of `in`. -/
def bytesToFloatBST.byteLoop : List Nat → ℚ → ℚ → ℚ
  | [], curValue, _ => curValue
  | b :: rest, curValue, increment =>
    let r := bytesToFloatBST.bitLoop b 8 0 curValue increment
    bytesToFloatBST.byteLoop rest r.1 r.2

/-- `bytesToFloatBST(start, duration, in)`. -/
def bytesToFloatBST (start duration : ℚ) (input : List Nat) : ℚ :=
  bytesToFloatBST.byteLoop input (start + duration / 2) (duration / 4)

/-- The binary search shared by the quantizers, on exact values: `k` steps from
`curValue` with step `increment`; returns the final `curValue` and `increment`. -/
def bstWalk (value : ℚ) : Nat → ℚ → ℚ → ℚ × ℚ
  | 0, curValue, increment => (curValue, increment)
  | k + 1, curValue, increment =>
    if value < curValue then bstWalk value k (curValue - increment) (increment / 2)
    else bstWalk value k (curValue + increment) (increment / 2)

/-- A `vector.Vector3`. -/
structure Vector3 where
  x : ℚ
  y : ℚ
  z : ℚ
  deriving DecidableEq, Repr

/-- `a.Add(b)`. -/
def Vector3.Add (a b : Vector3) : Vector3 := ⟨a.x + b.x, a.y + b.y, a.z + b.z⟩

/-- `a.Sub(b)`. -/
def Vector3.Sub (a b : Vector3) : Vector3 := ⟨a.x - b.x, a.y - b.y, a.z - b.z⟩

/-- `a.DivByConstant(t)`. -/
def Vector3.DivByConstant (a : Vector3) (t : ℚ) : Vector3 := ⟨a.x / t, a.y / t, a.z / t⟩

/-- `octCellsToBytes24(cells, buffer)`: the content of `buffer` afterwards, or `none`
when `cells` has fewer than 8 entries or `buffer` fewer than 3 (index out of range). -/
def octCellsToBytes24 : List Nat → List Nat → Option (List Nat)
  | c0 :: c1 :: c2 :: c3 :: c4 :: c5 :: c6 :: c7 :: _, _ :: _ :: _ :: rest =>
    some (((c0 % 256) ||| ((c1 % 256) <<< 3) % 256 ||| ((c2 % 256) <<< 6) % 256)
      :: (((c2 % 256) >>> 2) ||| ((c3 % 256) <<< 1) % 256 ||| ((c4 % 256) <<< 4) % 256
            ||| ((c5 % 256) <<< 7) % 256)
      :: (((c5 % 256) >>> 1) ||| ((c6 % 256) <<< 2) % 256 ||| ((c7 % 256) <<< 5) % 256)
      :: rest)
  | _, _ => none

/-- `bytesToOctCells24(cells, buffer)`: the content of `cells` afterwards, or `none`
when `cells` has fewer than 8 entries or `buffer` fewer than 3 (index out of range). -/
def bytesToOctCells24 : List Nat → List Nat → Option (List Nat)
  | _ :: _ :: _ :: _ :: _ :: _ :: _ :: _ :: rest, b0 :: b1 :: b2 :: _ =>
    some ((b0 &&& 0b111)
      :: ((b0 &&& 0b111000) >>> 3)
      :: ((b0 >>> 6) ||| ((b1 &&& 0b1) <<< 2) % 256)
      :: ((b1 &&& 0b1110) >>> 1)
      :: ((b1 &&& 0b1110000) >>> 4)
      :: ((b1 >>> 7) ||| ((b2 &&& 0b11) <<< 1) % 256)
      :: ((b2 &&& 0b11100) >>> 2)
      :: ((b2 &&& 0b11100000) >>> 5)
      :: rest)
  | _, _ => none

/-- The cell emitted by `Vec3ToOctCells` at one level: `topBit<<2 | rightBit<<1 | forwardBit`. -/
def octCellOf (v center : Vector3) : Nat :=
  ((if v.y < center.y then 1 else 0) <<< 2) ||| ((if v.x < center.x then 1 else 0) <<< 1)
    ||| (if v.z < center.z then 1 else 0)

/-- The center of the next level in `Vec3ToOctCells`. -/
def octNextCenter (v center : Vector3) (incrementX incrementY incrementZ : ℚ) : Vector3 :=
  ⟨if v.x < center.x then center.x - incrementX else center.x + incrementX,
   if v.y < center.y then center.y - incrementY else center.y + incrementY,
   if v.z < center.z then center.z - incrementZ else center.z + incrementZ⟩

/-- Loop of `Vec3ToOctCells` over the entries of `cells`. -/
def Vec3ToOctCells.loop (v : Vector3) : List Nat → Vector3 → ℚ → ℚ → ℚ → List Nat
  | [], _, _, _, _ => []
  | _ :: cells, center, incrementX, incrementY, incrementZ =>
    octCellOf v center ::
      Vec3ToOctCells.loop v cells (octNextCenter v center incrementX incrementY incrementZ)
        (incrementX / 2) (incrementY / 2) (incrementZ / 2)

/-- `Vec3ToOctCells(v, min, max, cells)`: the content of `cells` afterwards. -/
def Vec3ToOctCells (v min max : Vector3) (cells : List Nat) : List Nat :=
  Vec3ToOctCells.loop v cells ((min.Add max).DivByConstant 2) ((max.Sub min).x / 4)
    ((max.Sub min).y / 4) ((max.Sub min).z / 4)

/-- Loop of `OctCellsToVec3` over the cells. -/
def OctCellsToVec3.loop : List Nat → Vector3 → ℚ → ℚ → ℚ → Vector3
  | [], center, _, _, _ => center
  | cell :: cells, center, incrementX, incrementY, incrementZ =>
    OctCellsToVec3.loop cells
      ⟨if cell &&& 0b010 = 0 then center.x + incrementX else center.x - incrementX,
       if cell &&& 0b100 = 0 then center.y + incrementY else center.y - incrementY,
       if cell &&& 0b001 = 0 then center.z + incrementZ else center.z - incrementZ⟩
      (incrementX / 2) (incrementY / 2) (incrementZ / 2)

/-- `OctCellsToVec3(min, max, cells)`. -/
def OctCellsToVec3 (min max : Vector3) (cells : List Nat) : Vector3 :=
  OctCellsToVec3.loop cells ((min.Add max).DivByConstant 2) ((max.Sub min).x / 4)
    ((max.Sub min).y / 4) ((max.Sub min).z / 4)

/-! ## Oct24 position codec (`format/encoding/position/oct24.go`) -/

/-- The conversions `float32(x)` and `float64(y)` between an exact value and the bit
pattern of a `float32`, parameters of the position codec. -/
structure Float32 where
  /-- `math.Float32bits(float32(x))`. -/
  bits : ℚ → Nat
  /-- `float64(math.Float32frombits(b))`. -/
  value : Nat → ℚ

/-- The value `float64(float32(x))` read back from a written `float32(x)`. -/
def Float32.round (F : Float32) (x : ℚ) : ℚ := F.value (F.bits x % 2 ^ 32)

/-- `binary.Write(streamData, binary.LittleEndian, float32(x))`: the bytes written. -/
def writeFloat32 (F : Float32) (x : ℚ) : List Nat := leBytes 4 (F.bits x)

/-- `binary.Read(streamData, binary.LittleEndian, &f)` for a `float32` `f`, followed
by `float64(f)`. -/
def readFloat32 (F : Float32) (r : List Nat) : Except GoError ℚ × List Nat :=
  match readFixed 4 r with
  | (.ok b, r1) => (.ok (F.value b), r1)
  | (.error e, r1) => (.error e, r1)

/-- The value of a `float32` variable after a `binary.Read` whose error is dropped:
the zero value if the read failed. -/
def float32OrZero (F : Float32) : Except GoError ℚ → ℚ
  | .ok v => v
  | .error _ => F.value 0

/-- `(*bytes.Reader).Read(b)`: as many bytes as are left, at most `len(b)`, are copied
to the front of `b`; the rest of `b` keeps its content. Returns `b` and the reader. -/
def readInto (b r : List Nat) : List Nat × List Nat :=
  (r.take b.length ++ b.drop r.length, r.drop b.length)

/-- A `position.Capture`. -/
structure PositionCapture where
  time : ℚ
  position : Vector3
  deriving DecidableEq, Repr

/-- `if x < acc { acc = x }`, `none` being the initial `math.Inf(1)`. -/
def lowerTo (acc : Option ℚ) (x : ℚ) : Option ℚ :=
  match acc with
  | none => some x
  | some a => if x < a then some x else some a

/-- `if x > acc { acc = x }`, `none` being the initial `math.Inf(-1)`. -/
def raiseTo (acc : Option ℚ) (x : ℚ) : Option ℚ :=
  match acc with
  | none => some x
  | some a => if x > a then some x else some a

/-- The accumulators of the first loop of `encodeOct24`; `none` is the infinity an
accumulator starts from. -/
structure Bounds where
  startingTime : Option ℚ
  endingTime : Option ℚ
  maxTimeDifference : Option ℚ
  minX : Option ℚ
  minY : Option ℚ
  minZ : Option ℚ
  maxX : Option ℚ
  maxY : Option ℚ
  maxZ : Option ℚ
  deriving DecidableEq, Repr

namespace Format

/-- First loop of `encodeOct24` (lines 78-115); `prev` is `captures[i-1]`, absent
when `i = 0`. -/
def encodeOct24.boundsLoop : Option PositionCapture → Bounds → List PositionCapture → Bounds
  | _, b, [] => b
  | prev, b, capture :: rest =>
    let startingTime := lowerTo b.startingTime capture.time
    let endingTime := raiseTo b.endingTime capture.time
    match prev with
    | none =>
      encodeOct24.boundsLoop (some capture) { b with
        startingTime := startingTime, endingTime := endingTime } rest
    | some p =>
      let distance := capture.position.Sub p.position
      encodeOct24.boundsLoop (some capture)
        { startingTime := startingTime
          endingTime := endingTime
          maxTimeDifference := raiseTo b.maxTimeDifference (capture.time - p.time)
          maxX := raiseTo b.maxX distance.x
          maxY := raiseTo b.maxY distance.y
          maxZ := raiseTo b.maxZ distance.z
          minX := lowerTo b.minX distance.x
          minY := lowerTo b.minY distance.y
          minZ := lowerTo b.minZ distance.z } rest

/-- The bounds computed by the first loop of `encodeOct24`. -/
def encodeOct24.bounds (captures : List PositionCapture) : Bounds :=
  encodeOct24.boundsLoop none ⟨none, none, none, none, none, none, none, none, none⟩ captures

/-- State carried by the second loop of `encodeOct24`. -/
structure Drift where
  totalledQuantizedDuration : ℚ
  quantizedPosition : Vector3
  deriving DecidableEq, Repr

/-- Body of the second loop of `encodeOct24` (lines 140-168) for the capture of
index `i`, `first` telling `i = 0`: the bytes written and the state afterwards.
`timeBuffer`, `octBuffer` and `octByteBuffer` are overwritten in full before they
are read, so they are taken fresh. -/
def encodeOct24.step (maxTimeDifference : ℚ) (min max : Vector3) (first : Bool)
    (capture : PositionCapture) (st : Drift) : Res (List Nat × Drift) :=
  let duration := capture.time - st.totalledQuantizedDuration
  let timeBuffer := floatBSTToBytes duration 0 maxTimeDifference [0, 0]
  let total := st.totalledQuantizedDuration + bytesToFloatBST 0 maxTimeDifference timeBuffer
  if first then .ok (timeBuffer, ⟨total, st.quantizedPosition⟩)
  else
    let dir := capture.position.Sub st.quantizedPosition
    let octBuffer := Vec3ToOctCells dir min max [0, 0, 0, 0, 0, 0, 0, 0]
    match octCellsToBytes24 octBuffer [0, 0, 0] with
    | none => .panic
    | some octByteBuffer =>
      .ok (timeBuffer ++ octByteBuffer,
        ⟨total, st.quantizedPosition.Add (OctCellsToVec3 min max octBuffer)⟩)

/-- Second loop of `encodeOct24`: the bytes written and the state after each capture. -/
def encodeOct24.loop (maxTimeDifference : ℚ) (min max : Vector3) :
    Bool → List PositionCapture → Drift → Res (List Nat × List Drift)
  | _, [], _ => .ok ([], [])
  | first, capture :: rest, st =>
    (encodeOct24.step maxTimeDifference min max first capture st).bind fun r1 =>
      (encodeOct24.loop maxTimeDifference min max false rest r1.2).bind fun r2 =>
        .ok (r1.1 ++ r2.1, r1.2 :: r2.2)

/-- The part of `encodeOct24` for two captures or more (lines 72-170), `c0` being
`captures[0]`: the bytes written after the count and the first time, and the state
of the second loop after each capture. With two captures or more every accumulator
of the first loop is finite, so the default of `getD` is not used. -/
def encodeOct24.many (F : Float32) (c0 : PositionCapture) (captures : List PositionCapture) :
    Res (List Nat × List Drift) :=
  let b := encodeOct24.bounds captures
  let maxTimeDifference := b.maxTimeDifference.getD 0
  let min : Vector3 := ⟨b.minX.getD 0, b.minY.getD 0, b.minZ.getD 0⟩
  let max : Vector3 := ⟨b.maxX.getD 0, b.maxY.getD 0, b.maxZ.getD 0⟩
  (encodeOct24.loop maxTimeDifference min max true captures
      ⟨b.startingTime.getD 0, c0.position⟩).bind fun r =>
    .ok (writeFloat32 F maxTimeDifference
      ++ writeFloat32 F min.x ++ writeFloat32 F min.y ++ writeFloat32 F min.z
      ++ writeFloat32 F max.x ++ writeFloat32 F max.y ++ writeFloat32 F max.z
      ++ writeFloat32 F c0.position.x ++ writeFloat32 F c0.position.y
      ++ writeFloat32 F c0.position.z ++ r.1, r.2)

/-- `encodeOct24(captures)`. Writes to a `bytes.Buffer` do not fail, so the only
outcomes are the bytes and the panic of `PutUvarint` on its 8-byte buffer. -/
def encodeOct24 (F : Float32) (captures : List PositionCapture) : Res (List Nat) :=
  match PutUvarint 8 (captures.length % 2 ^ 64) with
  | none => .panic
  | some count =>
    match captures with
    | [] => .ok count
    | [c0] =>
      .ok (count ++ writeFloat32 F c0.time ++ writeFloat32 F c0.position.x
        ++ writeFloat32 F c0.position.y ++ writeFloat32 F c0.position.z)
    | c0 :: _ :: _ =>
      (encodeOct24.many F c0 captures).bind fun r =>
        .ok (count ++ writeFloat32 F c0.time ++ r.1)

/-- The state of the encoder after each capture of the second loop of `encodeOct24`
(`totalledQuantizedDuration` and `quantizedPosition`); empty when the loop is not
reached. -/
def encodeOct24.trace (F : Float32) (captures : List PositionCapture) : List Drift :=
  match captures with
  | c0 :: _ :: _ =>
    match encodeOct24.many F c0 captures with
    | .ok r => r.2
    | _ => []
  | _ => []

/-- Loop of `decodeOct24` (lines 234-247): `n` iterations left, `first` telling
`i = 0`. -/
def decodeOct24.loop (maxTimeDifference : ℚ) (min max : Vector3) :
    Nat → Bool → List Nat → List Nat → List Nat → List Nat → ℚ → Vector3 →
      Res (List PositionCapture)
  | 0, _, _, _, _, _, _, _ => .ok []
  | n + 1, first, streamData, timeBuffer, octBytesBuffer, octBuffer, currentTime,
      currentPosition =>
    let rt := readInto timeBuffer streamData
    let time := currentTime + bytesToFloatBST 0 maxTimeDifference rt.1
    if first then
      (decodeOct24.loop maxTimeDifference min max n false rt.2 rt.1 octBytesBuffer octBuffer
          time currentPosition).map fun cs => ⟨time, currentPosition⟩ :: cs
    else
      let ro := readInto octBytesBuffer rt.2
      match bytesToOctCells24 octBuffer ro.1 with
      | none => .panic
      | some cells =>
        let pos := currentPosition.Add (OctCellsToVec3 min max cells)
        (decodeOct24.loop maxTimeDifference min max n false ro.2 rt.1 ro.1 cells
            time pos).map fun cs => ⟨time, pos⟩ :: cs

/-- `decodeOct24(streamData)`. A returned non-nil error is the outcome `error`,
whatever capture list comes with it. -/
def decodeOct24 (F : Float32) (streamData : List Nat) : Res (List PositionCapture) :=
  match ReadUvarint streamData with
  | (.error e, _) => .error e
  | (.ok numCaptures, r0) =>
    if numCaptures = 0 then .ok []
    else
      match readFloat32 F r0 with
      | (.error e, _) => .error e
      | (.ok startTime, r1) =>
        if numCaptures = 1 then
          let posX := readFloat32 F r1
          let posY := readFloat32 F posX.2
          let posZ := readFloat32 F posY.2
          match posZ.1 with
          | .error e => .error e
          | .ok z => .ok [⟨startTime, ⟨float32OrZero F posX.1, float32OrZero F posY.1, z⟩⟩]
        else
          match readFloat32 F r1 with
          | (.error e, _) => .error e
          | (.ok maxTimeDifference, r2) =>
            let minX := readFloat32 F r2
            let minY := readFloat32 F minX.2
            let minZ := readFloat32 F minY.2
            let maxX := readFloat32 F minZ.2
            let maxY := readFloat32 F maxX.2
            let maxZ := readFloat32 F maxY.2
            let startingX := readFloat32 F maxZ.2
            let startingY := readFloat32 F startingX.2
            let startingZ := readFloat32 F startingY.2
            if 2 ^ 63 ≤ numCaptures then .panic
            else
              decodeOct24.loop maxTimeDifference
                ⟨float32OrZero F minX.1, float32OrZero F minY.1, float32OrZero F minZ.1⟩
                ⟨float32OrZero F maxX.1, float32OrZero F maxY.1, float32OrZero F maxZ.1⟩
                numCaptures true startingZ.2 [0, 0] [0, 0, 0] [0, 0, 0, 0, 0, 0, 0, 0]
                startTime
                ⟨float32OrZero F startingX.1, float32OrZero F startingY.1,
                  float32OrZero F startingZ.1⟩

end Format

/-- The center and the three increments of `Vec3ToOctCells` at the start of level `k`. -/
def octLevel (v min max : Vector3) : Nat → Vector3 × ℚ × ℚ × ℚ
  | 0 => ((min.Add max).DivByConstant 2, (max.Sub min).x / 4, (max.Sub min).y / 4,
      (max.Sub min).z / 4)
  | k + 1 =>
    let s := octLevel v min max k
    (octNextCenter v s.1 s.2.1 s.2.2.1 s.2.2.2, s.2.1 / 2, s.2.2.1 / 2, s.2.2.2 / 2)

/-- The differences `t[i] - t[i-1]` of consecutive capture times, `i ≥ 1`. -/
def timeDeltas : List PositionCapture → List ℚ
  | a :: b :: rest => (b.time - a.time) :: timeDeltas (b :: rest)
  | _ => []

/-- The largest difference between consecutive capture times (0 when there is none). -/
def maxTimeDelta (captures : List PositionCapture) : ℚ :=
  match timeDeltas captures with
  | [] => 0
  | d :: ds => ds.foldl max d

namespace Format

/-- The values that `encodeOct24` writes as `float32` for two captures or more: the
first time, `maxTimeDifference`, the bounds `min` and `max`, the starting position. -/
def encodeOct24.headerFields (captures : List PositionCapture) : List ℚ :=
  match captures with
  | [] => []
  | c0 :: _ =>
    let b := encodeOct24.bounds captures
    [c0.time, b.maxTimeDifference.getD 0, b.minX.getD 0, b.minY.getD 0, b.minZ.getD 0,
      b.maxX.getD 0, b.maxY.getD 0, b.maxZ.getD 0, c0.position.x, c0.position.y, c0.position.z]

end Format

/-! ## IEEE-754 binary32, an instance of `Float32` -/

/-- The rational value of a binary32 bit pattern; the infinities and NaN, which have
no rational value, are given 0. -/
def binary32Value (b : Nat) : ℚ :=
  let sign : ℚ := if b / 2 ^ 31 % 2 = 1 then -1 else 1
  let e : Nat := b / 2 ^ 23 % 256
  let m : Nat := b % 2 ^ 23
  if e = 0 then sign * m / 2 ^ 149
  else if e = 255 then 0
  else sign * (2 ^ 23 + m) * 2 ^ ((e : ℤ) - 150)

/-- Rounding of a non-negative rational to the nearest integer, ties to even. -/
def roundHalfEven (q : ℚ) : Nat :=
  let f := ⌊q⌋₊
  if q - f < 1 / 2 then f
  else if 1 / 2 < q - f then f + 1
  else if f % 2 = 0 then f else f + 1

/-- The exponent `⌊log₂ a⌋` of a positive rational. -/
def binary32Exponent (a : ℚ) : ℤ :=
  let e0 : ℤ := (Nat.log2 a.num.natAbs : ℤ) - (Nat.log2 a.den : ℤ)
  if a < 2 ^ e0 then e0 - 1 else e0

/-- The binary32 bit pattern nearest to a rational (round to nearest, ties to even;
overflow gives an infinity). -/
def binary32Bits (x : ℚ) : Nat :=
  if x = 0 then 0
  else
    let s := if x < 0 then 2 ^ 31 else 0
    let e : ℤ := max (binary32Exponent |x|) (-126)
    let n := roundHalfEven (|x| / 2 ^ (e - 23))
    let mag := ((e + 126).toNat <<< 23) + n
    s + (if 255 * 2 ^ 23 ≤ mag then 255 * 2 ^ 23 else mag)

/-- The conversions of Go between `float64` values and `float32`, on exact values. -/
def binary32 : Float32 := ⟨binary32Bits, binary32Value⟩

/-- Three captures at rest, the second at the time of the first: times 0, 0, 1. -/
def repeatedTimeCaptures : List PositionCapture :=
  [⟨0, ⟨0, 0, 0⟩⟩, ⟨0, ⟨0, 0, 0⟩⟩, ⟨1, ⟨0, 0, 0⟩⟩]

/-- Two captures: from the origin at time 0 to (1, 1, 1) at time 1. -/
def unitStepCaptures : List PositionCapture :=
  [⟨0, ⟨0, 0, 0⟩⟩, ⟨1, ⟨1, 1, 1⟩⟩]

/-! ## Notions used to state the event codec's properties -/

/-- The keys of a dictionary of `Encode`, in insertion order. -/
def keysOf (d : Dict) : List GoString := d.map Prod.fst

/-- Invariant of the dictionaries of `Encode`: the entry inserted `i`-th holds the
index `i`, and no key occurs twice. -/
def DictOk (d : Dict) : Prop :=
  d.map Prod.snd = List.range d.length ∧ (keysOf d).Nodup

/-- The decoded form of an event capture; `none` for a capture of another type. -/
def Capture.toEvent? : Capture → Option EventCapture
  | .event time name metadata => some ⟨time, name, metadata⟩
  | .other _ => none

/-- `c.(event.Capture)` succeeds. -/
def Capture.isEvent : Capture → Bool
  | .event _ _ _ => true
  | .other _ => false

/-- The event name of a capture, if it is an event capture. -/
def Capture.name? : Capture → Option GoString
  | .event _ name _ => some name
  | .other _ => none

/-- The metadata keys of a capture. -/
def Capture.keys : Capture → List GoString
  | .event _ _ metadata => metadata.map Prod.fst
  | .other _ => []

/-- A capture that exists as a Go value: the time is the bit pattern of a `float64`,
lengths are values of type `int`, and the metadata, a Go map, holds each key once. -/
def Capture.WellFormed : Capture → Prop
  | .event time name metadata =>
    time < 2 ^ 64 ∧ name.length < 2 ^ 63 ∧ metadata.length < 2 ^ 63 ∧
      (metadata.map Prod.fst).Nodup ∧
      ∀ kv ∈ metadata, kv.1.length < 2 ^ 63 ∧ kv.2.length < 2 ^ 63
  | .other time => time < 2 ^ 64

/-- A stream that exists as a Go value. -/
def CaptureStream.WellFormed (s : CaptureStream) : Prop :=
  s.name.length < 2 ^ 63 ∧ s.captures.length < 2 ^ 63 ∧ ∀ c ∈ s.captures, c.WellFormed

/-- Every event name occurring in the streams, in order of occurrence. -/
def allEventNames (streams : List CaptureStream) : List GoString :=
  streams.flatMap fun s => s.captures.filterMap Capture.name?

/-- Every metadata key occurring in the streams, in order of occurrence. -/
def allMetadataKeys (streams : List CaptureStream) : List GoString :=
  streams.flatMap fun s => s.captures.flatMap Capture.keys

/-- The signature of event streams, `"recolude.event"`, as bytes. -/
def eventSignature : GoString :=
  [114, 101, 99, 111, 108, 117, 100, 101, 46, 101, 118, 101, 110, 116]

/-- An event capture at time 0 without metadata whose name is `i` zero bytes. -/
def numberedCapture (i : Nat) : Capture := .event 0 (List.replicate i 0) []

/-- An unnamed event stream of the `n` captures numbered `lo, lo + 1, ...`. -/
def numberedStream (lo n : Nat) : CaptureStream :=
  ⟨[], eventSignature, (List.range' lo n).map numberedCapture⟩

/-- Two streams, of `2^27 + 1` and `2^27` captures, whose `2^28 + 1` event names are
all different. -/
def manyNamesStreams : List CaptureStream :=
  [numberedStream 0 (2 ^ 27 + 1), numberedStream (2 ^ 27 + 1) (2 ^ 27)]

/-- Two small event streams sharing names and keys. -/
def sampleStreams : List CaptureStream :=
  [⟨[104, 105], eventSignature,
      [.event 5 [97] [([107], [118]), ([108], [119, 120])], .event 300 [98] [([108], [1])],
        .event 7 [97] []]⟩,
    ⟨[], eventSignature, [.event 1 [98] [([109], []), ([107], [2])]]⟩]

/-! ## Event codec: acceptance (`event.go`, lines 31-37) -/

/-- `Encoder.Accepts(stream)`: `stream.Signature() == "recolude.event"`; `p` is the
receiver's technique. -/
def Encoder.Accepts (_p : Nat) (stream : CaptureStream) : Bool :=
  stream.signature == eventSignature

/-- `Encoder.Signature()`: `"recolude.event"`. -/
def Encoder.Signature (_p : Nat) : GoString := eventSignature

/-! ## Inputs at which `Decode` is evaluated -/

/-- A header whose first string array starts with an overlong uvarint (ten
continuation bytes), followed by an empty string array. -/
def overlongCountHeader : List Nat :=
  [0x80, 0x80, 0x80, 0x80, 0x80, 0x80, 0x80, 0x80, 0x80, 0x80, 0x00]

/-- The body of an unnamed stream with technique `Raw64` and no capture. -/
def emptyStreamBody : List Nat := [0, 0, 0]

/-- The body of an unnamed stream with technique `Raw64` and one capture at time 0
with name index 0, no key index and no value. -/
def oneCaptureBody : List Nat := [0, 0, 1, 0, 0, 0, 0, 0, 0, 0, 0, 0, 0, 0]

/-- As `oneCaptureBody`, with the key indexes `[0]` and no value. -/
def oneKeyNoValueBody : List Nat := [0, 0, 1, 0, 0, 0, 0, 0, 0, 0, 0, 0, 1, 0, 0]

/-- A header with the names `["a"]` and the keys `[]`. -/
def oneNameHeader : List Nat := [1, 1, 97, 0]

/-- A header with the names `["a"]` and the keys `["k"]`. -/
def oneNameOneKeyHeader : List Nat := [1, 1, 97, 1, 1, 107]

/-! ## Notions used to state the bounds of Oct24 -/

/-- The differences `p[i] - p[i-1]` of consecutive capture positions, `i ≥ 1`. -/
def positionDeltas : List PositionCapture → List Vector3
  | a :: b :: rest => b.position.Sub a.position :: positionDeltas (b :: rest)
  | _ => []

/-! ## Notions used to state the layout of the event codec's output -/

/-- The elements of `l` that are neither in `seen` nor earlier in `l`, in the order
of `l`. -/
def unseen : List GoString → List GoString → List GoString
  | _, [] => []
  | seen, k :: l => if k ∈ seen then unseen seen l else k :: unseen (seen ++ [k]) l

/-- The strings of `l`, each once, in the order in which they first occur. -/
def firstOccurrences (l : List GoString) : List GoString := unseen [] l

/-- The position of the first occurrence of `k` in `l` (`l.length` when there is
none). -/
def positionOf (k : GoString) : List GoString → Nat
  | [] => 0
  | x :: l => if x = k then 0 else positionOf k l + 1

/-- The bytes of one event capture in a stream body, given the two dictionaries of
the header: the time, the uvarint of the position of the name in `names`, the uvarint
array of the positions of the metadata keys in `keys`, the string array of the
metadata values. -/
def eventCaptureBytes (cv : FloatConv) (technique : Nat) (names keys : List GoString) :
    Capture → List Nat
  | .event time name md =>
    encodeTime cv technique time ++ uvarintBytes (positionOf name names)
      ++ UintArrayToBytes (md.map fun kv => positionOf kv.1 keys)
      ++ StringArrayToBytes (md.map Prod.snd)
  | .other _ => []

/-- The body of one event stream, given the two dictionaries of the header: the
stream name, the technique byte, the uvarint of the number of captures, the captures. -/
def eventBodyBytes (cv : FloatConv) (technique : Nat) (names keys : List GoString)
    (s : CaptureStream) : List Nat :=
  StringToBytes s.name ++ [technique % 256] ++ uvarintBytes s.captures.length
    ++ s.captures.flatMap (eventCaptureBytes cv technique names keys)

/-- The header that `Encode` returns for `sampleStreams`: the names `a`, `b` and the
keys `k`, `l`, `m`. -/
def sampleHeader : List Nat := [2, 1, 97, 1, 98, 3, 1, 107, 1, 108, 1, 109]

/-- The bodies that `Encode` returns for `sampleStreams` with technique `Raw64`. -/
def sampleBodies : List (List Nat) :=
  [[2, 104, 105, 0, 3, 5, 0, 0, 0, 0, 0, 0, 0, 0, 2, 0, 1, 2, 1, 118, 2, 119, 120, 44, 1, 0, 0,
      0, 0, 0, 0, 1, 1, 1, 1, 1, 1, 7, 0, 0, 0, 0, 0, 0, 0, 0, 0, 0],
    [0, 0, 1, 1, 0, 0, 0, 0, 0, 0, 0, 1, 2, 2, 0, 2, 0, 1, 2]]

/-! ## Inputs at which `Encode` is evaluated -/

/-- One unnamed stream of `2^28` captures that are not event captures. -/
def foreignStreams : List CaptureStream :=
  [⟨[], eventSignature, List.replicate (2 ^ 28) (.other 0)⟩]

/-! ## Notions used to state the independence of the enumeration order -/

/-- Two captures that are the same Go value, their metadata maps enumerated in
possibly different orders. -/
def Capture.SameUpToOrder : Capture → Capture → Prop
  | .event t n md, .event t1 n1 md1 => t = t1 ∧ n = n1 ∧ md.Perm md1
  | .other t, .other t1 => t = t1
  | _, _ => False

/-- Two streams that are the same Go value, the metadata maps of their captures
enumerated in possibly different orders. -/
def CaptureStream.SameUpToOrder (a b : CaptureStream) : Prop :=
  a.name = b.name ∧ a.signature = b.signature ∧
    List.Forall₂ Capture.SameUpToOrder a.captures b.captures

/-- Two decoded captures with the same time, name and key-to-value map. -/
def EventCapture.SameMap (a b : EventCapture) : Prop :=
  a.time = b.time ∧ a.name = b.name ∧ ∀ k, a.metadata.lookup k = b.metadata.lookup k

/-- One stream of one event capture with two metadata entries, enumerated `k`, `l`. -/
def orderedStreams : List CaptureStream :=
  [⟨[], eventSignature, [.event 0 [97] [([107], [1]), ([108], [2])]]⟩]

/-- The stream of `orderedStreams`, the metadata enumerated `l`, `k`. -/
def swappedStreams : List CaptureStream :=
  [⟨[], eventSignature, [.event 0 [97] [([108], [2]), ([107], [1])]]⟩]

/-! ## Notions used to state the closed form of the scalar quantizer -/

/-- The bits of a byte in the order in which `floatBSTToBytes` emits them: bit 0
first. -/
def emittedBits (b : Nat) : List Nat :=
  (List.range 8).map fun i => (b >>> i) &&& 1

/-- The integer whose binary digits, most significant first, are the bits of the
bytes in emission order (byte 0 bit 0 first). -/
def emittedNumber (bytes : List Nat) : Nat :=
  (bytes.flatMap emittedBits).foldl (fun n bit => 2 * n + bit) 0

/-! ## Typed properties and metadata blocks (`format`, `format/metadata`) -/

/-- Modelled from the spec: a `Property`, whose type is absent from the sources (§4.B:
"Each property carries a one-byte type code", "Encoding a property is `code byte` +
code-specific payload"): what `Code()` and `Data()` return. -/
structure Property where
  code : Nat
  data : List Nat
  deriving DecidableEq, Repr

/-- Modelled from the spec: `NewStringProperty`, absent from the sources (§4.B: code
`0=String`; §4.A: "**string**: uvarint length `n` followed by `n` raw bytes"). -/
def NewStringProperty (s : GoString) : Property := ⟨0, StringToBytes s⟩

/-- Modelled from the spec: `String()` of a string property, absent from the sources:
the string that the payload holds. -/
def Property.String (p : Property) : GoString := valueOrNil (ReadString p.data).1

/-- `metadata.Block` (`metadata.go`, lines 3-5): the mapping, a Go map, as its entries
in the order in which the map is enumerated. -/
structure Block where
  mapping : List (GoString × Property)
  deriving DecidableEq, Repr

/-- `metadata.NewBlock(mapping)` (`metadata.go`, lines 7-9). -/
def NewBlock (mapping : List (GoString × Property)) : Block := ⟨mapping⟩

/-- `metadata.EmptyBlock()` (`metadata.go`, lines 11-13). -/
def EmptyBlock : Block := ⟨[]⟩

/-- `Block.Mapping()` (`metadata.go`, lines 15-17). -/
def Block.Mapping (m : Block) : List (GoString × Property) := m.mapping

/-! ## Container (`format/io`) -/

/-- Modelled from the spec: the error kinds of the container, which is absent from
the sources (§7): `NoEncoderFor(signature)`, `UnsupportedVersion(signature, version)`,
`BadMetadata`, an error of a codec or of a binary primitive, and the refusal of a file
that is not of the current container version (§4.K leaves other versions to a legacy
path). -/
inductive ContainerError where
  | noEncoder (signature : GoString)
  | unsupportedVersion (signature : GoString) (version : Nat)
  | badMetadata
  | codec (e : GoError)
  | unsupportedContainer
  deriving DecidableEq, Repr

/-- The bytes of a text. -/
def bytesOf (s : String) : GoString := s.toList.map Char.toNat

/-- Modelled from the spec: the text of an error of the container where a test of the
absent writer states it (`writer_test.go`, line 30: "no encoder registered to handle
stream: test.data"); an error of a codec keeps its text. -/
def ContainerError.text : ContainerError → Option GoString
  | .noEncoder signature => some (bytesOf "no encoder registered to handle stream: " ++ signature)
  | .codec e => some (bytesOf e.text)
  | _ => none

/-- Outcome of a call of the writer or the reader: a normal return, a returned
error, or a panic with the text of its error. -/
inductive IoRes (α : Type) where
  | ok (a : α)
  | error (e : ContainerError)
  | panic (text : String)
  deriving DecidableEq, Repr

/-- Sequencing of outcomes: errors and panics abort (§7: "errors abort the current
write or read"). -/
def IoRes.bind {α β : Type} : IoRes α → (α → IoRes β) → IoRes β
  | .ok a, f => f a
  | .error e, _ => .error e
  | .panic t, _ => .panic t

/-- The outcome of a read of a binary primitive, as an outcome of the container. -/
def liftRead {α : Type} : Except GoError α × List Nat → IoRes (α × List Nat)
  | (.ok a, r) => .ok (a, r)
  | (.error e, _) => .error (.codec e)

/-- The outcome of a codec, as an outcome of the container; the panics of the codecs
are index errors. -/
def liftRes {α : Type} : Res α → IoRes α
  | .ok a => .ok a
  | .error e => .error (.codec e)
  | .panic => .panic "runtime error: index out of range"

/-- Modelled from the spec: the encoder contract (§6: `signature()`, `version()`,
`accepts(collection)`, `encode(collections) -> (headerBytes, [bodyBytes], Error?)`,
`decode(headerBytes, bodyBytes) -> (collection, Error?)`), the interface
`encoding.Encoder` being absent from the sources. -/
structure encoding.Encoder where
  signature : GoString
  version : Nat
  accepts : CaptureStream → Bool
  encode : List CaptureStream → Res (List Nat × List (List Nat))
  decode : List Nat → List Nat → Res CaptureStream

/-- The event encoder of `event.go` as an `encoding.Encoder`: `Signature`, `Version`
(lines 39-41: `return 0`), `Accepts`, `Encode` and `Decode`, the decoded event stream
taken as a collection of signature `"recolude.event"`. -/
def eventEncoder (cv : FloatConv) (technique : Nat) : encoding.Encoder where
  signature := Encoder.Signature technique
  version := 0
  accepts := Encoder.Accepts technique
  encode := Encoder.Encode cv technique
  decode := fun header body =>
    (Encoder.Decode cv technique header body).map fun s =>
      ⟨s.name, eventSignature, s.captures.map fun c => .event c.time c.name c.metadata⟩

/-- Modelled from the spec: a `BinaryReference`, absent from the sources (§3:
`{ name: string, uri: string, size: u64, metadata: Block }`). -/
structure BinaryReference where
  name : GoString
  uri : GoString
  size : Nat
  metadata : Block
  deriving DecidableEq, Repr

/-- Modelled from the spec: a `Recording`, absent from the sources (§3: `{ id: string,
name: string, metadata: Block, collections: [CaptureCollection], children: [Recording],
binaries: [BinaryReference] }`, "Nodes form a finite tree"). -/
inductive Recording where
  | mk (id name : GoString) (metadata : Block) (collections : List CaptureStream)
      (children : List Recording) (binaries : List BinaryReference)

/-- The `id` of a recording. -/
def Recording.id : Recording → GoString
  | .mk id _ _ _ _ _ => id

/-- The `name` of a recording. -/
def Recording.name : Recording → GoString
  | .mk _ name _ _ _ _ => name

/-- The `metadata` of a recording. -/
def Recording.metadata : Recording → Block
  | .mk _ _ metadata _ _ _ => metadata

/-- The `collections` of a recording. -/
def Recording.collections : Recording → List CaptureStream
  | .mk _ _ _ collections _ _ => collections

/-- The `children` of a recording. -/
def Recording.children : Recording → List Recording
  | .mk _ _ _ _ children _ => children

/-- The `binaries` of a recording. -/
def Recording.binaries : Recording → List BinaryReference
  | .mk _ _ _ _ _ binaries => binaries

mutual
/-- The nodes of a recording tree, depth first: the node, then the nodes of its
children. -/
def Recording.nodes : Recording → List Recording
  | .mk id name metadata collections children binaries =>
    .mk id name metadata collections children binaries :: Recording.nodesOf children
/-- The nodes of the trees of a list. -/
def Recording.nodesOf : List Recording → List Recording
  | [] => []
  | r :: rs => r.nodes ++ Recording.nodesOf rs
end

/-! ### Writing -/

/-- Modelled from the spec: the magic of a file, the writer being absent from the
sources (§4.I: "magic bytes `"RAP\0"`"). -/
def magic : List Nat := [82, 65, 80, 0]

/-- Modelled from the spec: one entry of a block on the wire (§4.C: "for each entry
emit the key string, the property code, and the property payload"). -/
def writeEntry (kv : GoString × Property) : List Nat :=
  StringToBytes kv.1 ++ [kv.2.code % 256] ++ kv.2.data

/-- Modelled from the spec: a block on the wire (§4.C: "uvarint key count, then for
each entry ..."). -/
def writeBlock (m : Block) : List Nat :=
  uvarintBytes m.mapping.length ++ m.mapping.flatMap writeEntry

/-- Modelled from the spec: a binary reference on the wire (§4.I: `[ string name ]
[ string uri ][ uvarint size ][ Block metadata ]`). -/
def writeBinary (b : BinaryReference) : List Nat :=
  StringToBytes b.name ++ StringToBytes b.uri ++ uvarintBytes b.size ++ writeBlock b.metadata

/-- Modelled from the spec: dispatch of one collection (§4.I: "the first registered
encoder whose `accepts(collection)` is true"): the encoder and its place in the
list of registered encoders. -/
def dispatch : List encoding.Encoder → CaptureStream → Option (Nat × encoding.Encoder)
  | [], _ => none
  | e :: es, c =>
    if e.accepts c then some (0, e) else (dispatch es c).map fun p => (p.1 + 1, p.2)

/-- Modelled from the spec: a group of collections that one encoder handles (§2: "each
group is handed to its encoder"), the writer being absent from the sources: the place
of the encoder in the list of registered encoders, the encoder, the collections. -/
structure EncoderGroup where
  index : Nat
  encoder : encoding.Encoder
  collections : List CaptureStream

/-- Modelled from the spec: one step of the grouping of §2: add a collection to the
group of its encoder, after the collections already there; an encoder without a group
gets one, after the groups already there. -/
def addToGroup (i : Nat) (e : encoding.Encoder) (c : CaptureStream) :
    List EncoderGroup → List EncoderGroup
  | [] => [⟨i, e, [c]⟩]
  | g :: gs =>
    if g.index = i then ⟨g.index, g.encoder, g.collections ++ [c]⟩ :: gs
    else g :: addToGroup i e c gs

/-- Modelled from the spec: the grouping of the collections of a node (§2: "for each
node, all capture collections are grouped by their encoder's signature"; §4.I: "If no
encoder accepts a collection, writing fails with `NoEncoderFor(signature)`"): the
groups, or the signature of the first collection that no encoder accepts. -/
def groupCollections (encoders : List encoding.Encoder) :
    List CaptureStream → List EncoderGroup → Except GoString (List EncoderGroup)
  | [], gs => .ok gs
  | c :: cs, gs =>
    match dispatch encoders c with
    | none => .error c.signature
    | some (i, e) => groupCollections encoders cs (addToGroup i e c gs)

/-- The collections of a node in the order in which their groups hold them. -/
def regroup (encoders : List encoding.Encoder) (collections : List CaptureStream) :
    List CaptureStream :=
  match groupCollections encoders collections [] with
  | .ok gs => gs.flatMap fun g => g.collections
  | .error _ => []

/-- Modelled from the spec: one encoder group on the wire (§4.I: `[ string signature ]
[ uvarint version ][ uvarint headerLen ][ headerLen bytes header ][ uvarint nStreams ]`,
then per stream `[ uvarint bodyLen ][ bodyLen bytes body ]`); header and bodies are
what the encoder of the group returns for the collections of the group, and an error
of the encoder aborts. -/
def writeGroup (g : EncoderGroup) : IoRes (List Nat) :=
  (liftRes (g.encoder.encode g.collections)).bind fun r =>
    .ok (StringToBytes g.encoder.signature ++ uvarintBytes g.encoder.version
      ++ StringToBytes r.1 ++ uvarintBytes r.2.length ++ r.2.flatMap StringToBytes)

/-- Modelled from the spec: the groups of a node on the wire, one after the other
(§4.I: `repeat nEncoderGroups`). -/
def writeGroups : List EncoderGroup → IoRes (List Nat)
  | [] => .ok []
  | g :: gs => (writeGroup g).bind fun a => (writeGroups gs).bind fun b => .ok (a ++ b)

mutual
/-- Modelled from the spec: a node on the wire (§4.I, "Wire layout for a node": id,
name, metadata, the encoder groups, the binary references, the children, each list
after its uvarint count). -/
def writeNode (encoders : List encoding.Encoder) : Recording → IoRes (List Nat)
  | .mk id name metadata collections children binaries =>
    match groupCollections encoders collections [] with
    | .error signature => .error (.noEncoder signature)
    | .ok groups =>
      (writeGroups groups).bind fun gs =>
        (writeNodes encoders children).bind fun cs =>
          .ok (StringToBytes id ++ StringToBytes name ++ writeBlock metadata
            ++ uvarintBytes groups.length ++ gs
            ++ uvarintBytes binaries.length ++ binaries.flatMap writeBinary
            ++ uvarintBytes children.length ++ cs)
/-- Modelled from the spec: the children of a node on the wire, one after the other
(§4.I: `[ uvarint nChildren ] repeat: <Node>`). -/
def writeNodes (encoders : List encoding.Encoder) : List Recording → IoRes (List Nat)
  | [] => .ok []
  | r :: rs =>
    (writeNode encoders r).bind fun a => (writeNodes encoders rs).bind fun b => .ok (a ++ b)
end

mutual
/-- Modelled from the spec: the check that every collection of the tree has an
encoder (§3: "Collections with unknown signatures fail the write"; §8: "a writer
rejects any R containing a collection whose signature has no registered encoder"):
the signature of the first collection, depth first, that no registered encoder
accepts. -/
def firstUnhandled (encoders : List encoding.Encoder) : Recording → Option GoString
  | .mk _ _ _ collections children _ =>
    match collections.find? fun c => (dispatch encoders c).isNone with
    | some c => some c.signature
    | none => firstUnhandledOf encoders children
/-- Modelled from the spec: the same check over the children of a node, in order. -/
def firstUnhandledOf (encoders : List encoding.Encoder) : List Recording → Option GoString
  | [] => none
  | r :: rs =>
    match firstUnhandled encoders r with
    | some signature => some signature
    | none => firstUnhandledOf encoders rs
end

/-- Modelled from the spec: `Writer.Write`, absent from the sources, for a writer with
the registered `encoders` that emits the container version `version`: the bytes
written to the sink and their count (§4.I: "File header preceding the root node:
magic bytes, a single uvarint container version, and then a single root node. The
writer returns the total byte count"). A nil recording (`none`) panics
(`writer_test.go`, line 38: `"can not write nil recording"`); a collection that no
encoder accepts fails the write before anything is written (§4.I, and
`writer_test.go`, lines 13-31, where nothing but the collections is asked of the
recording). -/
def Write (encoders : List encoding.Encoder) (version : Nat) :
    Option Recording → IoRes (List Nat × Nat)
  | none => .panic "can not write nil recording"
  | some recording =>
    match firstUnhandled encoders recording with
    | some signature => .error (.noEncoder signature)
    | none =>
      (writeNode encoders recording).bind fun node =>
        .ok (magic ++ uvarintBytes version ++ node,
          (magic ++ uvarintBytes version ++ node).length)

/-! ### Reading -/

/-- Modelled from the spec: the `repeat` of the layout of §4.I read back, the reader
being absent from the sources: read `n` items one after the other. -/
def readMany {α : Type} (read : List Nat → IoRes (α × List Nat)) :
    Nat → List Nat → IoRes (List α × List Nat)
  | 0, r => .ok ([], r)
  | n + 1, r =>
    (read r).bind fun x => (readMany read n x.2).bind fun xs => .ok (x.1 :: xs.1, xs.2)

/-- Modelled from the spec: a counted list of the layout of §4.I read back: a uvarint
count and then that many items. -/
def readCounted {α : Type} (read : List Nat → IoRes (α × List Nat)) (r : List Nat) :
    IoRes (List α × List Nat) :=
  (liftRead (ReadUvarint r)).bind fun n => readMany read n.1 n.2

/-- Modelled from the spec: one entry of a block read back (§4.C: "Decode: mirror"):
the key, the code byte, and the payload, which `payload` delimits for the code
(the payloads of the codes are not in the sources and the spec leaves their sizes
open, §9). -/
def readEntry (payload : Nat → List Nat → IoRes (List Nat × List Nat)) (r : List Nat) :
    IoRes ((GoString × Property) × List Nat) :=
  (liftRead (ReadString r)).bind fun key =>
    match key.2 with
    | [] => .error (.codec .eof)
    | code :: r1 => (payload code r1).bind fun p => .ok ((key.1, ⟨code, p.1⟩), p.2)

/-- Modelled from the spec: a block read back (§4.C). -/
def readBlock (payload : Nat → List Nat → IoRes (List Nat × List Nat)) (r : List Nat) :
    IoRes (Block × List Nat) :=
  (readCounted (readEntry payload) r).bind fun m => .ok (⟨m.1⟩, m.2)

/-- Modelled from the spec: the payloads of a format whose only property type is the
string (§4.B: code `0=String`; "Unknown codes fail with `BadMetadata`"). -/
def stringPayload (code : Nat) (r : List Nat) : IoRes (List Nat × List Nat) :=
  if code = 0 then (liftRead (ReadString r)).bind fun s => .ok (StringToBytes s.1, s.2)
  else .error .badMetadata

/-- Modelled from the spec: a binary reference read back (§4.I). -/
def readBinary (payload : Nat → List Nat → IoRes (List Nat × List Nat)) (r : List Nat) :
    IoRes (BinaryReference × List Nat) :=
  (liftRead (ReadString r)).bind fun name =>
    (liftRead (ReadString name.2)).bind fun uri =>
      (liftRead (ReadUvarint uri.2)).bind fun size =>
        (readBlock payload size.2).bind fun m => .ok (⟨name.1, uri.1, size.1, m.1⟩, m.2)

/-- Modelled from the spec: one stream of a group read back: the length-prefixed
body, decoded by the encoder of the group with the header of the group. -/
def readStream (e : encoding.Encoder) (header : List Nat) (r : List Nat) :
    IoRes (CaptureStream × List Nat) :=
  (liftRead (ReadString r)).bind fun body =>
    (liftRes (e.decode header body.1)).bind fun c => .ok (c, body.2)

/-- Modelled from the spec: one encoder group read back (§4.I: "On read, the reader
looks up the encoder by `signature` and `version`; mismatched version is fatal
(`UnsupportedVersion`)"). -/
def readGroup (encoders : List encoding.Encoder) (r : List Nat) :
    IoRes (List CaptureStream × List Nat) :=
  (liftRead (ReadString r)).bind fun signature =>
    (liftRead (ReadUvarint signature.2)).bind fun version =>
      match encoders.find? fun e => e.signature = signature.1 ∧ e.version = version.1 with
      | none => .error (.unsupportedVersion signature.1 version.1)
      | some e =>
        (liftRead (ReadString version.2)).bind fun header =>
          readCounted (readStream e header.1) header.2

/-- Modelled from the spec: a node read back (§2: "Read reverses this exactly"). The
first argument bounds the depth of the nodes read; `Read` passes the length of the
input, and a node takes more than one byte. -/
def readNode (encoders : List encoding.Encoder)
    (payload : Nat → List Nat → IoRes (List Nat × List Nat)) :
    Nat → List Nat → IoRes (Recording × List Nat)
  | 0, _ => .error (.codec .unexpectedEOF)
  | fuel + 1, r =>
    (liftRead (ReadString r)).bind fun id =>
      (liftRead (ReadString id.2)).bind fun name =>
        (readBlock payload name.2).bind fun metadata =>
          (readCounted (readGroup encoders) metadata.2).bind fun groups =>
            (readCounted (readBinary payload) groups.2).bind fun binaries =>
              (readCounted (readNode encoders payload fuel) binaries.2).bind fun children =>
                .ok (.mk id.1 name.1 metadata.1 groups.1.flatten children.1 binaries.1,
                  children.2)

/-- Modelled from the spec: `Reader.Read`, absent from the sources, for a reader with
the registered `encoders` of the container version `version`, on the bytes of the
source: the decoded root and the count of the bytes consumed (§4.I: "the reader
returns the decoded root and the same count"). -/
def Read (encoders : List encoding.Encoder)
    (payload : Nat → List Nat → IoRes (List Nat × List Nat)) (version : Nat)
    (source : List Nat) : IoRes (Recording × Nat) :=
  if source.take 4 = magic then
    (liftRead (ReadUvarint (source.drop 4))).bind fun v =>
      if v.1 = version then
        (readNode encoders payload source.length v.2).bind fun root =>
          .ok (root.1, source.length - root.2.length)
      else .error .unsupportedContainer
  else .error .unsupportedContainer

/-! ### Notions used to state the round trip of the container -/

/-- The time of a capture. -/
def Capture.time : Capture → Nat
  | .event time _ _ => time
  | .other time => time

/-- Two collections with the same name and the same capture times. -/
def SameNameAndTimes (a b : CaptureStream) : Prop :=
  b.name = a.name ∧ b.captures.map Capture.time = a.captures.map Capture.time

mutual
/-- The recording `r'` matches `r`: same id, name, metadata and binary references,
the collections of `r'` related by `P` one by one to the collections of `r` in the
order of their groups, and as many children, matching one by one in order. -/
def Recording.Matches (encoders : List encoding.Encoder)
    (P : CaptureStream → CaptureStream → Prop) : Recording → Recording → Prop
  | .mk id name metadata collections children binaries, r' =>
    r'.id = id ∧ r'.name = name ∧ r'.metadata = metadata ∧ r'.binaries = binaries ∧
      List.Forall₂ P (regroup encoders collections) r'.collections ∧
      Recording.MatchesAll encoders P children r'.children
/-- Two lists of recordings of the same length that match one by one. -/
def Recording.MatchesAll (encoders : List encoding.Encoder)
    (P : CaptureStream → CaptureStream → Prop) : List Recording → List Recording → Prop
  | [], rs' => rs' = []
  | r :: rs, rs' =>
    ∃ r' rest, rs' = r' :: rest ∧ Recording.Matches encoders P r r' ∧
      Recording.MatchesAll encoders P rs rest
end

/-- A block that exists as a Go value and whose payloads `payload` delimits: lengths
are values of type `int`, codes are bytes, and reading the payload of an entry back,
whatever follows it, gives the payload and what follows. -/
def Block.WellFormed (payload : Nat → List Nat → IoRes (List Nat × List Nat)) (m : Block) :
    Prop :=
  m.mapping.length < 2 ^ 63 ∧
    ∀ kv ∈ m.mapping, kv.1.length < 2 ^ 63 ∧ kv.2.code < 256 ∧
      ∀ rest, payload kv.2.code (kv.2.data ++ rest) = .ok (kv.2.data, rest)

/-- A node that exists as a Go value: lengths are values of type `int`, sizes are
`uint64`, blocks are well formed. -/
def Recording.NodeWellFormed (payload : Nat → List Nat → IoRes (List Nat × List Nat))
    (r : Recording) : Prop :=
  r.id.length < 2 ^ 63 ∧ r.name.length < 2 ^ 63 ∧ r.metadata.WellFormed payload ∧
    r.collections.length < 2 ^ 63 ∧ r.children.length < 2 ^ 63 ∧
    r.binaries.length < 2 ^ 63 ∧
    ∀ b ∈ r.binaries, b.name.length < 2 ^ 63 ∧ b.uri.length < 2 ^ 63 ∧ b.size < 2 ^ 64 ∧
      b.metadata.WellFormed payload

/-- The registered encoders decode what they encode for a group: the encoder of the
group is the one that the reader finds under its signature and version, it encodes
the collections of the group into a header and one body per collection (Go values:
lengths are values of type `int`), and it decodes each body, with the header, into a
collection that `P` relates to the one encoded. -/
def EncoderGroup.Decodable (encoders : List encoding.Encoder)
    (P : CaptureStream → CaptureStream → Prop) (g : EncoderGroup) : Prop :=
  (encoders.find? fun e => e.signature = g.encoder.signature ∧ e.version = g.encoder.version)
      = some g.encoder ∧
    g.encoder.signature.length < 2 ^ 63 ∧ g.encoder.version < 2 ^ 64 ∧
    ∃ header bodies, g.encoder.encode g.collections = .ok (header, bodies) ∧
      header.length < 2 ^ 63 ∧ bodies.length < 2 ^ 63 ∧
      List.Forall₂ (fun c body => body.length < 2 ^ 63 ∧
        ∃ c', g.encoder.decode header body = .ok c' ∧ P c c') g.collections bodies

/-- Every collection of the node has an encoder, and every group of the node is
decodable. -/
def Recording.NodeDecodable (encoders : List encoding.Encoder)
    (P : CaptureStream → CaptureStream → Prop) (r : Recording) : Prop :=
  ∃ groups, groupCollections encoders r.collections [] = .ok groups ∧
    groups.length < 2 ^ 63 ∧ ∀ g ∈ groups, g.Decodable encoders P

/-- A sample recording: a root with a string property, the two event streams of
`sampleStreams`, a binary reference, and two children, the second with a child. -/
def sampleRecording : Recording :=
  .mk [52, 52] [114, 111, 111, 116] ⟨[([97], NewStringProperty [98, 101, 101])]⟩ sampleStreams
    [.mk [49] [] ⟨[]⟩ [] [] [],
      .mk [] [50] ⟨[]⟩ [⟨[120], eventSignature, [.event 9 [97] []]⟩]
        [.mk [51] [51] ⟨[]⟩ [] [] []] []]
    [⟨[98, 105, 110], [117, 114, 105], 300, ⟨[([107], NewStringProperty [])]⟩⟩]

/-- The file that `Write` emits for `sampleRecording` with the event encoder of
technique `Raw64` registered and the container version 2. -/
def sampleFile : List Nat :=
  [82, 65, 80, 0, 2, 2, 52, 52, 4, 114, 111, 111, 116, 1, 1, 97, 0, 3, 98, 101, 101, 1, 14, 114,
    101, 99, 111, 108, 117, 100, 101, 46, 101, 118, 101, 110, 116, 0, 12, 2, 1, 97, 1, 98, 3, 1,
    107, 1, 108, 1, 109, 2, 48, 2, 104, 105, 0, 3, 5, 0, 0, 0, 0, 0, 0, 0, 0, 2, 0, 1, 2, 1, 118,
    2, 119, 120, 44, 1, 0, 0, 0, 0, 0, 0, 1, 1, 1, 1, 1, 1, 7, 0, 0, 0, 0, 0, 0, 0, 0, 0, 0, 19,
    0, 0, 1, 1, 0, 0, 0, 0, 0, 0, 0, 1, 2, 2, 0, 2, 0, 1, 2, 1, 3, 98, 105, 110, 3, 117, 114, 105,
    172, 2, 1, 1, 107, 0, 0, 2, 1, 49, 0, 0, 0, 0, 0, 0, 1, 50, 0, 1, 14, 114, 101, 99, 111, 108,
    117, 100, 101, 46, 101, 118, 101, 110, 116, 0, 4, 1, 1, 97, 0, 1, 15, 1, 120, 0, 1, 9, 0, 0,
    0, 0, 0, 0, 0, 0, 0, 0, 0, 1, 1, 51, 1, 51, 0, 0, 0, 0]

/-- The collections of a node come encoder by encoder: the list is made of runs of
adjacent collections, no run empty, each run the collections of one encoder, and no
encoder with two runs. -/
def AdjacentByEncoder (encoders : List encoding.Encoder) (collections : List CaptureStream) :
    Prop :=
  ∃ runs : List EncoderGroup, collections = (runs.flatMap fun g => g.collections) ∧
    (∀ g ∈ runs, g.collections ≠ [] ∧
      ∀ c ∈ g.collections, dispatch encoders c = some (g.index, g.encoder)) ∧
    (runs.map fun g => g.index).Nodup

/-! ## Notions used to compare the octree codec with the scalar codec -/

/-- The byte whose bit `i` is 1 iff `cells[i] & mask == 0`, bit 0 for the first cell:
the path of the octree along one axis, with the polarity of the scalar codec. -/
def axisByte (mask : Nat) : List Nat → Nat
  | [] => 0
  | cell :: cells => (if cell &&& mask = 0 then 1 else 0) + 2 * axisByte mask cells

/-! ## Oct24 position codec, absolute variant (`pkg/encoding/position/oct48.go`) -/

namespace Pkg

/-- The accumulators of the first loop of `encodeOct24` (lines 221-251): `none` is
the infinity an accumulator starts from. -/
structure Extent where
  startingTime : Option ℚ
  endingTime : Option ℚ
  minX : Option ℚ
  minY : Option ℚ
  minZ : Option ℚ
  maxX : Option ℚ
  maxY : Option ℚ
  maxZ : Option ℚ
  deriving DecidableEq, Repr

/-- First loop of `encodeOct24` (lines 226-251). -/
def encodeOct24.boundsLoop : Extent → List PositionCapture → Extent
  | b, [] => b
  | b, capture :: rest =>
    encodeOct24.boundsLoop
      { startingTime := lowerTo b.startingTime capture.time
        endingTime := raiseTo b.endingTime capture.time
        maxX := raiseTo b.maxX capture.position.x
        maxY := raiseTo b.maxY capture.position.y
        maxZ := raiseTo b.maxZ capture.position.z
        minX := lowerTo b.minX capture.position.x
        minY := lowerTo b.minY capture.position.y
        minZ := lowerTo b.minZ capture.position.z } rest

/-- The time range and the bounding box computed by the first loop of `encodeOct24`. -/
def encodeOct24.bounds (captures : List PositionCapture) : Extent :=
  encodeOct24.boundsLoop ⟨none, none, none, none, none, none, none, none⟩ captures

/-- Body of the second loop of `encodeOct24` (lines 273-289): the five bytes written
for one capture. `timeBuffer`, `octBuffer` and `octByteBuffer` are overwritten in
full before they are read, so they are taken fresh. -/
def encodeOct24.step (startingTime duration : ℚ) (min max : Vector3)
    (capture : PositionCapture) : Res (List Nat) :=
  let timeBuffer := floatBSTToBytes capture.time startingTime duration [0, 0]
  let octBuffer := Vec3ToOctCells capture.position min max [0, 0, 0, 0, 0, 0, 0, 0]
  match octCellsToBytes24 octBuffer [0, 0, 0] with
  | none => .panic
  | some octByteBuffer => .ok (timeBuffer ++ octByteBuffer)

/-- Second loop of `encodeOct24`: the bytes written for the captures. -/
def encodeOct24.loop (startingTime duration : ℚ) (min max : Vector3) :
    List PositionCapture → Res (List Nat)
  | [] => .ok []
  | capture :: rest =>
    (encodeOct24.step startingTime duration min max capture).bind fun b =>
      (encodeOct24.loop startingTime duration min max rest).bind fun bs => .ok (b ++ bs)

/-- `encodeOct24(captures)` of the package `pkg/encoding/position`. It reads
`captures[0]` first, which panics on the empty list; on a non-empty list every
accumulator of the first loop is finite, so the default of `getD` is not used.
Writes to a `bytes.Buffer` do not fail, so the other outcomes are the bytes and the
panic of `PutUvarint` on its 8-byte buffer. -/
def encodeOct24 (F : Float32) (captures : List PositionCapture) : Res (List Nat) :=
  match captures with
  | [] => .panic
  | c0 :: _ =>
    let b := encodeOct24.bounds captures
    let startingTime := b.startingTime.getD 0
    let duration := b.endingTime.getD 0 - startingTime
    let min : Vector3 := ⟨b.minX.getD 0, b.minY.getD 0, b.minZ.getD 0⟩
    let max : Vector3 := ⟨b.maxX.getD 0, b.maxY.getD 0, b.maxZ.getD 0⟩
    match PutUvarint 8 (captures.length % 2 ^ 64) with
    | none => .panic
    | some count =>
      (encodeOct24.loop startingTime duration min max captures).bind fun body =>
        .ok (writeFloat32 F c0.time ++ writeFloat32 F duration
          ++ writeFloat32 F min.x ++ writeFloat32 F min.y ++ writeFloat32 F min.z
          ++ writeFloat32 F max.x ++ writeFloat32 F max.y ++ writeFloat32 F max.z
          ++ count ++ body)

/-- The values that `encodeOct24` writes as `float32`: the first time, the duration,
the bounds `min` and `max`. -/
def encodeOct24.headerFields (captures : List PositionCapture) : List ℚ :=
  match captures with
  | [] => []
  | c0 :: _ =>
    let b := encodeOct24.bounds captures
    [c0.time, b.endingTime.getD 0 - b.startingTime.getD 0,
      b.minX.getD 0, b.minY.getD 0, b.minZ.getD 0, b.maxX.getD 0, b.maxY.getD 0, b.maxZ.getD 0]

/-- Loop of `decodeOct24` (lines 198-207), `n` iterations left; the results of
`streamData.Read` are not looked at. -/
def decodeOct24.loop (startTime duration : ℚ) (min max : Vector3) :
    Nat → List Nat → List Nat → List Nat → List Nat → Res (List PositionCapture)
  | 0, _, _, _, _ => .ok []
  | n + 1, streamData, timeBuffer, octBytesBuffer, octBuffer =>
    let rt := readInto timeBuffer streamData
    let time := bytesToFloatBST startTime duration rt.1
    let ro := readInto octBytesBuffer rt.2
    match bytesToOctCells24 octBuffer ro.1 with
    | none => .panic
    | some cells =>
      (decodeOct24.loop startTime duration min max n ro.2 rt.1 ro.1 cells).map
        fun cs => ⟨time, OctCellsToVec3 min max cells⟩ :: cs

/-- `decodeOct24(streamData)` of the package `pkg/encoding/position`. The errors of
the six reads of the bounds are overwritten, the last by the result of `ReadUvarint`;
`make` panics on a count that is not a valid length. -/
def decodeOct24 (F : Float32) (streamData : List Nat) : Res (List PositionCapture) :=
  match readFloat32 F streamData with
  | (.error e, _) => .error e
  | (.ok startTime, r1) =>
    match readFloat32 F r1 with
    | (.error e, _) => .error e
    | (.ok duration, r2) =>
      let minX := readFloat32 F r2
      let minY := readFloat32 F minX.2
      let minZ := readFloat32 F minY.2
      let maxX := readFloat32 F minZ.2
      let maxY := readFloat32 F maxX.2
      let maxZ := readFloat32 F maxY.2
      match ReadUvarint maxZ.2 with
      | (.error e, _) => .error e
      | (.ok numCaptures, r3) =>
        if 2 ^ 63 ≤ numCaptures then .panic
        else
          decodeOct24.loop startTime duration
            ⟨float32OrZero F minX.1, float32OrZero F minY.1, float32OrZero F minZ.1⟩
            ⟨float32OrZero F maxX.1, float32OrZero F maxY.1, float32OrZero F maxZ.1⟩
            numCaptures r3 [0, 0] [0, 0, 0] [0, 0, 0, 0, 0, 0, 0, 0]

end Pkg

/-! ## The scalar quantizer in `float64` arithmetic -/

/-- The `float64` nearest to a rational, as a rational: IEEE 754 binary64 (53
significant bits, least exponent `-1022`, below which the spacing stays `2^-1074`),
round to nearest, ties to even, which is how every `float64` operation of Go rounds
its exact result. A result of magnitude `2^1024` or more is an infinity in Go and has
no rational value: the definition is evaluated below that magnitude only. -/
def binary64Round (x : ℚ) : ℚ :=
  if x = 0 then 0
  else
    let e : ℤ := max (binary32Exponent |x|) (-1022)
    (if x < 0 then -1 else 1) * (roundHalfEven (|x| / 2 ^ (e - 52)) : ℚ) * 2 ^ (e - 52)

/-- Inner loop of `floatBSTToBytes` (lines 21-29) in `float64` arithmetic:
`curValue -= increment`, `curValue += increment` and `increment /= 2.0` each round
their result. -/
def Float64.floatBSTToBytes.bitLoop (value : ℚ) : Nat → Nat → Nat → ℚ → ℚ → Nat × ℚ × ℚ
  | 0, _, byte, curValue, increment => (byte, curValue, increment)
  | k + 1, bitIndex, byte, curValue, increment =>
    if value < curValue then
      Float64.floatBSTToBytes.bitLoop value k (bitIndex + 1) byte
        (binary64Round (curValue - increment)) (binary64Round (increment / 2))
    else
      Float64.floatBSTToBytes.bitLoop value k (bitIndex + 1) ((byte ||| (1 <<< bitIndex)) % 256)
        (binary64Round (curValue + increment)) (binary64Round (increment / 2))

/-- Outer loop of `floatBSTToBytes` (lines 16-30) in `float64` arithmetic. -/
def Float64.floatBSTToBytes.byteLoop (value : ℚ) : List Nat → ℚ → ℚ → List Nat
  | [], _, _ => []
  | _ :: out, curValue, increment =>
    let r := Float64.floatBSTToBytes.bitLoop value 8 0 0 curValue increment
    r.1 :: Float64.floatBSTToBytes.byteLoop value out r.2.1 r.2.2

/-- `floatBSTToBytes(value, start, duration, out)` in `float64` arithmetic, for
`float64` arguments: the content of `out` afterwards (`curValue := start +
(duration / 2.0)`, `increment := duration / 4.0`, each operation rounded). -/
def Float64.floatBSTToBytes (value start duration : ℚ) (out : List Nat) : List Nat :=
  Float64.floatBSTToBytes.byteLoop value out
    (binary64Round (start + binary64Round (duration / 2))) (binary64Round (duration / 4))

/-- Inner loop of `bytesToFloatBST` (lines 38-46) in `float64` arithmetic. -/
def Float64.bytesToFloatBST.bitLoop (b : Nat) : Nat → Nat → ℚ → ℚ → ℚ × ℚ
  | 0, _, curValue, increment => (curValue, increment)
  | k + 1, bitIndex, curValue, increment =>
    if (b >>> (bitIndex % 256)) &&& 1 = 1 then
      Float64.bytesToFloatBST.bitLoop b k (bitIndex + 1) (binary64Round (curValue + increment))
        (binary64Round (increment / 2))
    else
      Float64.bytesToFloatBST.bitLoop b k (bitIndex + 1) (binary64Round (curValue - increment))
        (binary64Round (increment / 2))

/-- Outer loop of `bytesToFloatBST` (lines 37-47) in `float64` arithmetic. -/
def Float64.bytesToFloatBST.byteLoop : List Nat → ℚ → ℚ → ℚ
  | [], curValue, _ => curValue
  | b :: rest, curValue, increment =>
    let r := Float64.bytesToFloatBST.bitLoop b 8 0 curValue increment
    Float64.bytesToFloatBST.byteLoop rest r.1 r.2

/-- `bytesToFloatBST(start, duration, in)` in `float64` arithmetic, for `float64`
arguments. -/
def Float64.bytesToFloatBST (start duration : ℚ) (input : List Nat) : ℚ :=
  Float64.bytesToFloatBST.byteLoop input
    (binary64Round (start + binary64Round (duration / 2))) (binary64Round (duration / 4))

/-! ### Notions used to state the order of the collections read back -/

mutual
/-- The recording `r'` matches `r` field by field: same id, name, metadata and binary
references, the collections of `r'` related by `P` to the collections of `r` index by
index, and as many children, matching one by one in order (the comparison of
`assertRecordingsMatch`, `io_test.go`, lines 27-99, which takes the collections and
the children by index). -/
def Recording.MatchesInOrder (P : CaptureStream → CaptureStream → Prop) :
    Recording → Recording → Prop
  | .mk id name metadata collections children binaries, r' =>
    r'.id = id ∧ r'.name = name ∧ r'.metadata = metadata ∧ r'.binaries = binaries ∧
      List.Forall₂ P collections r'.collections ∧
      Recording.MatchesAllInOrder P children r'.children
/-- Two lists of recordings of the same length that match field by field, one by one. -/
def Recording.MatchesAllInOrder (P : CaptureStream → CaptureStream → Prop) :
    List Recording → List Recording → Prop
  | [], rs' => rs' = []
  | r :: rs, rs' =>
    ∃ r' rest, rs' = r' :: rest ∧ Recording.MatchesInOrder P r r' ∧
      Recording.MatchesAllInOrder P rs rest
end

/-- The signature `"test.data"` (`writer_test.go`, line 19). -/
def testSignature : GoString := [116, 101, 115, 116, 46, 100, 97, 116, 97]

/-- Modelled from the spec: a second encoder in the sense of §6, registered for the
collections of the signature `signature`; the encoders of the other capture types
being absent from the sources, its codec is the one of the event encoder of
`event.go`. The container handles an encoder through the contract of §6 alone. -/
def secondEncoder (cv : FloatConv) (technique : Nat) (signature : GoString) :
    encoding.Encoder where
  signature := signature
  version := 0
  accepts := fun c => c.signature == signature
  encode := Encoder.Encode cv technique
  decode := fun header body =>
    (Encoder.Decode cv technique header body).map fun s =>
      ⟨s.name, signature, s.captures.map fun c => .event c.time c.name c.metadata⟩

/-- The event encoder of technique `Raw64` and a second encoder for the signature
`"test.data"`. -/
def interleavedEncoders : List encoding.Encoder :=
  [eventEncoder ⟨id, id⟩ Raw64, secondEncoder ⟨id, id⟩ Raw64 testSignature]

/-- A recording without children whose three collections `a`, `b`, `c`, of one capture
each, belong in turn to the event encoder, to the second encoder and to the event
encoder again. -/
def interleavedRecording : Recording :=
  .mk [] [114] ⟨[]⟩
    [⟨[97], eventSignature, [.event 1 [110] []]⟩,
      ⟨[98], testSignature, [.event 2 [110] []]⟩,
      ⟨[99], eventSignature, [.event 3 [110] []]⟩] [] []

/-- The file that `Write` emits for `interleavedRecording` with `interleavedEncoders`
registered and the container version 2: the group of the event encoder with the
bodies of `a` and `c`, then the group of the second encoder with the body of `b`. -/
def interleavedFile : List Nat :=
  [82, 65, 80, 0, 2, 0, 1, 114, 0, 2, 14, 114, 101, 99, 111, 108, 117, 100, 101, 46, 101, 118,
    101, 110, 116, 0, 4, 1, 1, 110, 0, 2, 15, 1, 97, 0, 1, 1, 0, 0, 0, 0, 0, 0, 0, 0, 0, 0, 15, 1,
    99, 0, 1, 3, 0, 0, 0, 0, 0, 0, 0, 0, 0, 0, 9, 116, 101, 115, 116, 46, 100, 97, 116, 97, 0, 4,
    1, 1, 110, 0, 1, 15, 1, 98, 0, 1, 2, 0, 0, 0, 0, 0, 0, 0, 0, 0, 0, 0, 0]

/-- The recording that `Read` returns for `interleavedFile`: the collections `a`, `c`,
`b`. -/
def interleavedReadBack : Recording :=
  .mk [] [114] ⟨[]⟩
    [⟨[97], eventSignature, [.event 1 [110] []]⟩,
      ⟨[99], eventSignature, [.event 3 [110] []]⟩,
      ⟨[98], testSignature, [.event 2 [110] []]⟩] [] []

/-! # Theorems -/

/-! ## The scalar quantizer -/

theorem bstWalk_add (v : ℚ) (a b : Nat) (cur inc : ℚ) :
    bstWalk v (a + b) cur inc = bstWalk v b (bstWalk v a cur inc).1 (bstWalk v a cur inc).2 := by
  induction a generalizing cur inc with
  | zero => simp [bstWalk]
  | succ a ih =>
    rw [Nat.succ_add]
    simp only [bstWalk]
    split <;> exact ih _ _

set_option maxRecDepth 100000 in
theorem or_bit_eq_add : ∀ i : Fin 8, ∀ b : Fin 256, b.val < 2 ^ i.val →
    (b.val ||| (1 <<< i.val)) % 256 = b.val + 2 ^ i.val := by decide

theorem bit_of_mod (r i byte : Nat) (hi : i < 8) (h : r % 2 ^ (i + 1) = byte) :
    ((r >>> (i % 256)) &&& 1 = 1 ↔ 2 ^ i ≤ byte) ∧ r % 2 ^ i = byte % 2 ^ i := by
  have hi' : i % 256 = i := by omega
  rw [hi', Nat.shiftRight_eq_div_pow, Nat.and_one_is_mod]
  subst h
  interval_cases i <;> simp <;> omega

theorem bitLoop_spec (v : ℚ) (k : Nat) : ∀ (i byte : Nat) (cur inc : ℚ), i + k ≤ 8 →
    byte < 2 ^ i →
    (floatBSTToBytes.bitLoop v k i byte cur inc).2 = bstWalk v k cur inc ∧
    (floatBSTToBytes.bitLoop v k i byte cur inc).1 < 2 ^ (i + k) ∧
    (floatBSTToBytes.bitLoop v k i byte cur inc).1 % 2 ^ i = byte ∧
    bytesToFloatBST.bitLoop (floatBSTToBytes.bitLoop v k i byte cur inc).1 k i cur inc
      = bstWalk v k cur inc := by
  induction k with
  | zero =>
    intro i byte cur inc _ hb
    simp [floatBSTToBytes.bitLoop, bstWalk, bytesToFloatBST.bitLoop, hb, Nat.mod_eq_of_lt hb]
  | succ k ih =>
    intro i byte cur inc hik hb
    have hi : i < 8 := by omega
    simp only [floatBSTToBytes.bitLoop, bstWalk, bytesToFloatBST.bitLoop]
    by_cases hv : v < cur
    · simp only [hv, if_true]
      have hb' : byte < 2 ^ (i + 1) := by
        rw [pow_succ]; omega
      obtain ⟨h1, h2, h3, h4⟩ := ih (i + 1) byte (cur - inc) (inc / 2) (by omega) hb'
      have hbit := bit_of_mod _ i byte hi h3
      refine ⟨h1, by rw [show i + (k + 1) = i + 1 + k by omega]; exact h2, ?_, ?_⟩
      · rw [hbit.2, Nat.mod_eq_of_lt hb]
      · have : ¬ ((floatBSTToBytes.bitLoop v k (i + 1) byte (cur - inc) (inc / 2)).1
            >>> (i % 256) &&& 1 = 1) := by
          rw [hbit.1]; omega
        simp only [this, if_false]
        exact h4
    · simp only [hv, if_false]
      have hlt : byte < 256 := lt_of_lt_of_le hb (by
        calc 2 ^ i ≤ 2 ^ 8 := Nat.pow_le_pow_right (by norm_num) (by omega)
          _ = 256 := by norm_num)
      have hor : (byte ||| (1 <<< i)) % 256 = byte + 2 ^ i :=
        or_bit_eq_add ⟨i, hi⟩ ⟨byte, hlt⟩ hb
      rw [hor]
      have hb' : byte + 2 ^ i < 2 ^ (i + 1) := by
        rw [pow_succ]; omega
      obtain ⟨h1, h2, h3, h4⟩ := ih (i + 1) (byte + 2 ^ i) (cur + inc) (inc / 2) (by omega) hb'
      have hbit := bit_of_mod _ i (byte + 2 ^ i) hi h3
      refine ⟨h1, by rw [show i + (k + 1) = i + 1 + k by omega]; exact h2, ?_, ?_⟩
      · rw [hbit.2, Nat.add_mod_right, Nat.mod_eq_of_lt hb]
      · have : ((floatBSTToBytes.bitLoop v k (i + 1) (byte + 2 ^ i) (cur + inc) (inc / 2)).1
            >>> (i % 256) &&& 1 = 1) := by
          rw [hbit.1]; omega
        simp only [this, if_true]
        exact h4

theorem byteLoop_length (v : ℚ) (out : List Nat) : ∀ (cur inc : ℚ),
    (floatBSTToBytes.byteLoop v out cur inc).length = out.length := by
  induction out with
  | nil => intro _ _; rfl
  | cons _ out ih => intro cur inc; simp [floatBSTToBytes.byteLoop, ih]

theorem byteLoop_spec (v : ℚ) (out : List Nat) : ∀ (cur inc : ℚ),
    bytesToFloatBST.byteLoop (floatBSTToBytes.byteLoop v out cur inc) cur inc
      = (bstWalk v (8 * out.length) cur inc).1 := by
  induction out with
  | nil => intro cur inc; simp [floatBSTToBytes.byteLoop, bytesToFloatBST.byteLoop, bstWalk]
  | cons _ out ih =>
    intro cur inc
    obtain ⟨h1, _, _, h4⟩ := bitLoop_spec v 8 0 0 cur inc (by omega) (by norm_num)
    simp only [floatBSTToBytes.byteLoop, bytesToFloatBST.byteLoop, List.length_cons]
    rw [h4, h1, ih, show 8 * (out.length + 1) = 8 + 8 * out.length by ring, bstWalk_add]

theorem bytesToFloatBST_floatBSTToBytes (v start duration : ℚ) (out : List Nat) :
    bytesToFloatBST start duration (floatBSTToBytes v start duration out)
      = (bstWalk v (8 * out.length) (start + duration / 2) (duration / 4)).1 :=
  byteLoop_spec v out _ _

/-- Invariant of the binary search: the walk stays centred on a sub-interval of
`[lo, hi]` that contains the value clamped to `[lo, hi]`. -/
theorem bstWalk_bounds (v lo hi : ℚ) (k : Nat) : ∀ (cur inc : ℚ), 0 ≤ inc →
    lo ≤ cur - 2 * inc → cur + 2 * inc ≤ hi →
    cur - 2 * inc ≤ max lo (min v hi) → max lo (min v hi) ≤ cur + 2 * inc →
    (bstWalk v k cur inc).2 = inc / 2 ^ k ∧
    lo ≤ (bstWalk v k cur inc).1 - 2 * (bstWalk v k cur inc).2 ∧
    (bstWalk v k cur inc).1 + 2 * (bstWalk v k cur inc).2 ≤ hi ∧
    (bstWalk v k cur inc).1 - 2 * (bstWalk v k cur inc).2 ≤ max lo (min v hi) ∧
    max lo (min v hi) ≤ (bstWalk v k cur inc).1 + 2 * (bstWalk v k cur inc).2 := by
  induction k with
  | zero => intro cur inc h0 h1 h2 h3 h4; simp [bstWalk, h1, h2, h3, h4]
  | succ k ih =>
    intro cur inc h0 h1 h2 h3 h4
    simp only [bstWalk]
    have hpow : inc / 2 / 2 ^ k = inc / 2 ^ (k + 1) := by
      rw [div_div, pow_succ, mul_comm]
    by_cases hv : v < cur
    · simp only [hv, if_true]
      have hw : max lo (min v hi) ≤ cur := by
        apply max_le
        · linarith
        · exact le_trans (min_le_left _ _) (le_of_lt hv)
      have := ih (cur - inc) (inc / 2) (by linarith) (by linarith) (by linarith) (by linarith)
        (by linarith)
      rw [hpow] at this
      exact this
    · simp only [hv, if_false]
      have hv' : cur ≤ v := not_lt.mp hv
      have hw : cur ≤ max lo (min v hi) := by
        apply le_max_of_le_right
        apply le_min hv'
        linarith
      have := ih (cur + inc) (inc / 2) (by linarith) (by linarith) (by linarith) (by linarith)
        (by linarith)
      rw [hpow] at this
      exact this

theorem bst_decoded_bounds (v start duration : ℚ) (out : List Nat) (hd : 0 ≤ duration) :
    start ≤ bytesToFloatBST start duration (floatBSTToBytes v start duration out) ∧
    bytesToFloatBST start duration (floatBSTToBytes v start duration out) ≤ start + duration ∧
    |bytesToFloatBST start duration (floatBSTToBytes v start duration out)
        - max start (min v (start + duration))| ≤ duration / 2 ^ (8 * out.length + 1) := by
  rw [bytesToFloatBST_floatBSTToBytes]
  obtain ⟨h1, h2, h3, h4, h5⟩ := bstWalk_bounds v start (start + duration) (8 * out.length)
    (start + duration / 2) (duration / 4) (by linarith) (by linarith) (by linarith)
    (by
      have : start ≤ max start (min v (start + duration)) := le_max_left _ _
      linarith)
    (by
      have : max start (min v (start + duration)) ≤ start + duration :=
        max_le (by linarith) (min_le_right _ _)
      linarith)
  have hinc : 2 * (bstWalk v (8 * out.length) (start + duration / 2) (duration / 4)).2
      = duration / 2 ^ (8 * out.length + 1) := by
    rw [h1, pow_succ]; field_simp; ring
  have hpos : 0 ≤ duration / 2 ^ (8 * out.length + 1) := by positivity
  refine ⟨by linarith, by linarith, ?_⟩
  rw [abs_le]
  constructor <;> linarith

/-- C2. BST quantizer error bound: for every `start`, every `duration ≥ 0`, every
value `v` in `[start, start + duration]` and every output buffer of `n` bytes, the
value decoded by `bytesToFloatBST` from the bytes written by `floatBSTToBytes` is
within `duration / 2^(8n+1)` of `v`; in particular for `v = 0.5`, `start = 0`,
`duration = 1` and two bytes it is within `2^-17` of `0.5`. -/
theorem bst_error_bound (start duration v : ℚ) (out : List Nat) (hd : 0 ≤ duration)
    (hlo : start ≤ v) (hhi : v ≤ start + duration) :
    |bytesToFloatBST start duration (floatBSTToBytes v start duration out) - v|
        ≤ duration / 2 ^ (8 * out.length + 1) ∧
    |bytesToFloatBST 0 1 (floatBSTToBytes (1 / 2) 0 1 [0, 0]) - 1 / 2| ≤ 1 / 2 ^ 17 := by
  constructor
  · have h := (bst_decoded_bounds v start duration out hd).2.2
    rwa [min_eq_left hhi, max_eq_right hlo] at h
  · have h := (bst_decoded_bounds (1 / 2) 0 1 [0, 0] (by norm_num)).2.2
    rw [min_eq_left (by norm_num), max_eq_right (by norm_num)] at h
    simpa using h

theorem bst_error_bound_witness :
    (0 : ℚ) ≤ 1 ∧ (0 : ℚ) ≤ 1 / 2 ∧ (1 / 2 : ℚ) ≤ 0 + 1 ∧
    |bytesToFloatBST 0 1 (floatBSTToBytes (1 / 2) 0 1 [0, 0]) - 1 / 2|
        ≤ 1 / 2 ^ (8 * [0, 0].length + 1) :=
  ⟨by norm_num, by norm_num, by norm_num,
    (bst_error_bound 0 1 (1 / 2) [0, 0] (by norm_num) (by norm_num) (by norm_num)).1⟩

/-- C3, amended. BST quantizer range, in exact arithmetic (the operations of the two
loops taken without rounding): for every `start`, every `duration ≥ 0`, every value
`v` whatsoever and every length of the buffer, the value decoded from the bytes
written for `v` lies in `[start, start + duration]`. -/
theorem bst_decoded_in_range (start duration v : ℚ) (out : List Nat) (hd : 0 ≤ duration) :
    start ≤ bytesToFloatBST start duration (floatBSTToBytes v start duration out) ∧
    bytesToFloatBST start duration (floatBSTToBytes v start duration out) ≤ start + duration :=
  ⟨(bst_decoded_bounds v start duration out hd).1, (bst_decoded_bounds v start duration out hd).2.1⟩

/-- C3, amended, at `start = 0`, `duration = 1`, `v = 7` and a buffer of two bytes. -/
theorem bst_decoded_in_range_witness :
    (0 : ℚ) ≤ 1 ∧
    (0 : ℚ) ≤ bytesToFloatBST 0 1 (floatBSTToBytes 7 0 1 [0, 0]) ∧
    bytesToFloatBST 0 1 (floatBSTToBytes 7 0 1 [0, 0]) ≤ 0 + 1 :=
  ⟨by norm_num, bst_decoded_in_range 0 1 7 [0, 0] (by norm_num)⟩

/-! ## The octree quantizer -/

theorem octCellOf_bits (v c : Vector3) :
    (octCellOf v c &&& 0b010 = 0 ↔ ¬ v.x < c.x) ∧
    (octCellOf v c &&& 0b100 = 0 ↔ ¬ v.y < c.y) ∧
    (octCellOf v c &&& 0b001 = 0 ↔ ¬ v.z < c.z) := by
  unfold octCellOf
  by_cases hx : v.x < c.x <;> by_cases hy : v.y < c.y <;> by_cases hz : v.z < c.z <;>
    simp [hx, hy, hz] <;> decide

theorem octLoop_spec (v : Vector3) (cells : List Nat) : ∀ (c : Vector3) (ix iy iz : ℚ),
    OctCellsToVec3.loop (Vec3ToOctCells.loop v cells c ix iy iz) c ix iy iz
      = ⟨(bstWalk v.x cells.length c.x ix).1, (bstWalk v.y cells.length c.y iy).1,
          (bstWalk v.z cells.length c.z iz).1⟩ := by
  induction cells with
  | nil => intro c ix iy iz; simp [Vec3ToOctCells.loop, OctCellsToVec3.loop, bstWalk]
  | cons _ cells ih =>
    intro c ix iy iz
    obtain ⟨hx, hy, hz⟩ := octCellOf_bits v c
    simp only [Vec3ToOctCells.loop, OctCellsToVec3.loop, List.length_cons, bstWalk]
    have flip : ∀ (p q : Prop) [Decidable p] [Decidable q] (a b : ℚ), (p ↔ ¬ q) →
        (if p then a else b) = (if q then b else a) := by
      intro p q _ _ a b hpq
      by_cases hq : q
      · rw [if_pos hq, if_neg (fun hp => (hpq.mp hp) hq)]
      · rw [if_neg hq, if_pos (hpq.mpr hq)]
    rw [flip _ _ _ _ hx, flip _ _ _ _ hy, flip _ _ _ _ hz]
    have e := ih (octNextCenter v c ix iy iz) (ix / 2) (iy / 2) (iz / 2)
    unfold octNextCenter at e ⊢
    rw [e]
    by_cases h1 : v.x < c.x <;> by_cases h2 : v.y < c.y <;> by_cases h3 : v.z < c.z <;>
      simp only [h1, h2, h3, if_true, if_false]

theorem Vec3ToOctCells_length (v min max : Vector3) (cells : List Nat) :
    (Vec3ToOctCells v min max cells).length = cells.length := by
  unfold Vec3ToOctCells
  generalize (min.Add max).DivByConstant 2 = c
  generalize (max.Sub min).x / 4 = ix
  generalize (max.Sub min).y / 4 = iy
  generalize (max.Sub min).z / 4 = iz
  induction cells generalizing c ix iy iz with
  | nil => rfl
  | cons _ cells ih => simp [Vec3ToOctCells.loop, ih]

theorem OctCellsToVec3_Vec3ToOctCells (v min max : Vector3) (cells : List Nat) :
    OctCellsToVec3 min max (Vec3ToOctCells v min max cells)
      = ⟨(bstWalk v.x cells.length (min.x + (max.x - min.x) / 2) ((max.x - min.x) / 4)).1,
         (bstWalk v.y cells.length (min.y + (max.y - min.y) / 2) ((max.y - min.y) / 4)).1,
         (bstWalk v.z cells.length (min.z + (max.z - min.z) / 2) ((max.z - min.z) / 4)).1⟩ := by
  unfold OctCellsToVec3 Vec3ToOctCells
  rw [octLoop_spec]
  simp only [Vector3.Add, Vector3.Sub, Vector3.DivByConstant]
  have e : ∀ a b : ℚ, (a + b) / 2 = a + (b - a) / 2 := by intro a b; ring
  rw [e min.x, e min.y, e min.z]

theorem bstWalk_error (v lo d : ℚ) (k : Nat) (hd : 0 ≤ d) :
    lo ≤ (bstWalk v k (lo + d / 2) (d / 4)).1 ∧ (bstWalk v k (lo + d / 2) (d / 4)).1 ≤ lo + d ∧
    |(bstWalk v k (lo + d / 2) (d / 4)).1 - max lo (min v (lo + d))| ≤ d / 2 ^ (k + 1) := by
  obtain ⟨h1, h2, h3, h4, h5⟩ := bstWalk_bounds v lo (lo + d) k
    (lo + d / 2) (d / 4) (by linarith) (by linarith) (by linarith)
    (by
      have : lo ≤ max lo (min v (lo + d)) := le_max_left _ _
      linarith)
    (by
      have : max lo (min v (lo + d)) ≤ lo + d :=
        max_le (by linarith) (min_le_right _ _)
      linarith)
  have hinc : 2 * (bstWalk v k (lo + d / 2) (d / 4)).2 = d / 2 ^ (k + 1) := by
    rw [h1, pow_succ]; field_simp; ring
  have hpos : 0 ≤ d / 2 ^ (k + 1) := by positivity
  refine ⟨by linarith, by linarith, ?_⟩
  rw [abs_le]
  constructor <;> linarith

/-- C6. Octree quantization error: for a box with `min ≤ max` on each axis and a
point `v` inside it, the point rebuilt by `OctCellsToVec3` from the 8 cells written
by `Vec3ToOctCells` differs from `v`, on each axis, by at most `(max - min) / 2^9`
of that axis. -/
theorem octree_error_bound (v min max : Vector3) (cells : List Nat) (hlen : cells.length = 8)
    (hx : min.x ≤ v.x ∧ v.x ≤ max.x) (hy : min.y ≤ v.y ∧ v.y ≤ max.y)
    (hz : min.z ≤ v.z ∧ v.z ≤ max.z) :
    |(OctCellsToVec3 min max (Vec3ToOctCells v min max cells)).x - v.x|
        ≤ (max.x - min.x) / 2 ^ 9 ∧
    |(OctCellsToVec3 min max (Vec3ToOctCells v min max cells)).y - v.y|
        ≤ (max.y - min.y) / 2 ^ 9 ∧
    |(OctCellsToVec3 min max (Vec3ToOctCells v min max cells)).z - v.z|
        ≤ (max.z - min.z) / 2 ^ 9 := by
  rw [OctCellsToVec3_Vec3ToOctCells, hlen]
  have key : ∀ a lo hi : ℚ, lo ≤ a → a ≤ hi →
      |(bstWalk a 8 (lo + (hi - lo) / 2) ((hi - lo) / 4)).1 - a| ≤ (hi - lo) / 2 ^ 9 := by
    intro a lo hi h1 h2
    have h := (bstWalk_error a lo (hi - lo) 8 (by linarith)).2.2
    rw [show lo + (hi - lo) = hi by ring, min_eq_left h2, max_eq_right h1] at h
    exact h
  exact ⟨key _ _ _ hx.1 hx.2, key _ _ _ hy.1 hy.2, key _ _ _ hz.1 hz.2⟩

theorem octree_error_bound_witness :
    [0, 0, 0, 0, 0, 0, 0, 0].length = 8 ∧
    ((0 : ℚ) ≤ 1 / 3 ∧ (1 / 3 : ℚ) ≤ 1) ∧ ((0 : ℚ) ≤ 1 / 5 ∧ (1 / 5 : ℚ) ≤ 2) ∧
    ((-1 : ℚ) ≤ 1 / 7 ∧ (1 / 7 : ℚ) ≤ 1) ∧
    |(OctCellsToVec3 ⟨0, 0, -1⟩ ⟨1, 2, 1⟩
        (Vec3ToOctCells ⟨1 / 3, 1 / 5, 1 / 7⟩ ⟨0, 0, -1⟩ ⟨1, 2, 1⟩ [0, 0, 0, 0, 0, 0, 0, 0])).x
        - 1 / 3| ≤ (1 - 0) / 2 ^ 9 :=
  ⟨rfl, by norm_num, by norm_num, by norm_num,
    (octree_error_bound ⟨1 / 3, 1 / 5, 1 / 7⟩ ⟨0, 0, -1⟩ ⟨1, 2, 1⟩ [0, 0, 0, 0, 0, 0, 0, 0] rfl
      (by norm_num) (by norm_num) (by norm_num)).1⟩

/-! ## Cell packing and octant numbering -/

set_option maxRecDepth 100000 in
theorem byte0_arith : ∀ a b c : Fin 8,
    ((a.val % 256) ||| ((b.val % 256) <<< 3) % 256 ||| ((c.val % 256) <<< 6) % 256)
      = a.val + 8 * b.val + 64 * (c.val % 4) ∧
    (a.val ||| b.val <<< 3 ||| (c.val &&& 3) <<< 6) = a.val + 8 * b.val + 64 * (c.val % 4) := by
  decide

set_option maxRecDepth 100000 in
theorem byte1_arith : ∀ a b c d : Fin 8,
    (((a.val % 256) >>> 2) ||| ((b.val % 256) <<< 1) % 256 ||| ((c.val % 256) <<< 4) % 256
            ||| ((d.val % 256) <<< 7) % 256)
      = a.val / 4 + 2 * b.val + 16 * c.val + 128 * (d.val % 2) ∧
    ((a.val >>> 2) ||| b.val <<< 1 ||| c.val <<< 4 ||| (d.val &&& 1) <<< 7)
      = a.val / 4 + 2 * b.val + 16 * c.val + 128 * (d.val % 2) := by
  decide

set_option maxRecDepth 100000 in
theorem byte2_arith : ∀ a b c : Fin 8,
    (((a.val % 256) >>> 1) ||| ((b.val % 256) <<< 2) % 256 ||| ((c.val % 256) <<< 5) % 256)
      = a.val / 2 + 4 * b.val + 32 * c.val ∧
    ((a.val >>> 1) ||| b.val <<< 2 ||| c.val <<< 5) = a.val / 2 + 4 * b.val + 32 * c.val := by
  decide

/-- The bytes written by `octCellsToBytes24`, in arithmetic form. -/
theorem octCellsToBytes24_arith (c0 c1 c2 c3 c4 c5 c6 c7 x0 x1 x2 : Nat)
    (h0 : c0 < 8) (h1 : c1 < 8) (h2 : c2 < 8) (h3 : c3 < 8) (h4 : c4 < 8) (h5 : c5 < 8)
    (h6 : c6 < 8) (h7 : c7 < 8) :
    octCellsToBytes24 [c0, c1, c2, c3, c4, c5, c6, c7] [x0, x1, x2]
      = some [c0 + 8 * c1 + 64 * (c2 % 4), c2 / 4 + 2 * c3 + 16 * c4 + 128 * (c5 % 2),
          c5 / 2 + 4 * c6 + 32 * c7] := by
  have e0 := (byte0_arith ⟨c0, h0⟩ ⟨c1, h1⟩ ⟨c2, h2⟩).1
  have e1 := (byte1_arith ⟨c2, h2⟩ ⟨c3, h3⟩ ⟨c4, h4⟩ ⟨c5, h5⟩).1
  have e2 := (byte2_arith ⟨c5, h5⟩ ⟨c6, h6⟩ ⟨c7, h7⟩).1
  simp only at e0 e1 e2
  simp only [octCellsToBytes24, e0, e1, e2]

/-- C7. Oct24 bit assignment: for 8 cells `c0..c7` each in `0..7`,
`octCellsToBytes24` writes `byte0 = c0 | c1<<3 | (c2 & 3)<<6`,
`byte1 = (c2>>2) | c3<<1 | c4<<4 | (c5 & 1)<<7`, `byte2 = (c5>>1) | c6<<2 | c7<<5`;
bit `3k+j` of the 24-bit little-endian word is bit `j` of cell `k`. -/
theorem octCellsToBytes24_bit_assignment (c0 c1 c2 c3 c4 c5 c6 c7 x0 x1 x2 : Nat)
    (h0 : c0 < 8) (h1 : c1 < 8) (h2 : c2 < 8) (h3 : c3 < 8) (h4 : c4 < 8) (h5 : c5 < 8)
    (h6 : c6 < 8) (h7 : c7 < 8) :
    ∃ b0 b1 b2, octCellsToBytes24 [c0, c1, c2, c3, c4, c5, c6, c7] [x0, x1, x2]
        = some [b0, b1, b2] ∧
      b0 = (c0 ||| c1 <<< 3 ||| (c2 &&& 3) <<< 6) ∧
      b1 = ((c2 >>> 2) ||| c3 <<< 1 ||| c4 <<< 4 ||| (c5 &&& 1) <<< 7) ∧
      b2 = ((c5 >>> 1) ||| c6 <<< 2 ||| c7 <<< 5) ∧
      ∀ k j, k < 8 → j < 3 →
        (b0 + 256 * b1 + 65536 * b2).testBit (3 * k + j)
          = ([c0, c1, c2, c3, c4, c5, c6, c7].getD k 0).testBit j := by
  refine ⟨_, _, _, octCellsToBytes24_arith c0 c1 c2 c3 c4 c5 c6 c7 x0 x1 x2 h0 h1 h2 h3 h4 h5 h6 h7,
    ((byte0_arith ⟨c0, h0⟩ ⟨c1, h1⟩ ⟨c2, h2⟩).2).symm,
    ((byte1_arith ⟨c2, h2⟩ ⟨c3, h3⟩ ⟨c4, h4⟩ ⟨c5, h5⟩).2).symm,
    ((byte2_arith ⟨c5, h5⟩ ⟨c6, h6⟩ ⟨c7, h7⟩).2).symm, ?_⟩
  intro k j hk hj
  have hw : c0 + 8 * c1 + 64 * (c2 % 4)
      + 256 * (c2 / 4 + 2 * c3 + 16 * c4 + 128 * (c5 % 2))
      + 65536 * (c5 / 2 + 4 * c6 + 32 * c7)
      = c0 + 8 * c1 + 64 * c2 + 512 * c3 + 4096 * c4 + 32768 * c5 + 262144 * c6
        + 2097152 * c7 := by omega
  rw [hw]
  simp only [Nat.testBit_to_div_mod]
  interval_cases k <;> interval_cases j <;> simp <;> omega

theorem octCellsToBytes24_bit_assignment_witness :
    (1 : Nat) < 8 ∧
    ∃ b0 b1 b2, octCellsToBytes24 [1, 2, 3, 4, 5, 6, 7, 0] [9, 9, 9] = some [b0, b1, b2] ∧
      b0 = (1 ||| 2 <<< 3 ||| (3 &&& 3) <<< 6) ∧
      b1 = ((3 >>> 2) ||| 4 <<< 1 ||| 5 <<< 4 ||| (6 &&& 1) <<< 7) ∧
      b2 = ((6 >>> 1) ||| 7 <<< 2 ||| 0 <<< 5) ∧
      ∀ k j, k < 8 → j < 3 →
        (b0 + 256 * b1 + 65536 * b2).testBit (3 * k + j)
          = ([1, 2, 3, 4, 5, 6, 7, 0].getD k 0).testBit j :=
  ⟨by decide, octCellsToBytes24_bit_assignment 1 2 3 4 5 6 7 0 9 9 9 (by decide) (by decide)
    (by decide) (by decide) (by decide) (by decide) (by decide) (by decide)⟩

set_option maxRecDepth 100000 in
theorem unpack_low : ∀ b : Fin 256,
    b.val &&& 0b111 = b.val % 8 ∧ (b.val &&& 0b111000) >>> 3 = b.val / 8 % 8 ∧
    (b.val &&& 0b1110) >>> 1 = b.val / 2 % 8 ∧ (b.val &&& 0b1110000) >>> 4 = b.val / 16 % 8 ∧
    (b.val &&& 0b11100) >>> 2 = b.val / 4 % 8 ∧ (b.val &&& 0b11100000) >>> 5 = b.val / 32 ∧
    b.val >>> 6 = b.val / 64 ∧ b.val >>> 7 = b.val / 128 ∧
    b.val &&& 0b1 = b.val % 2 ∧ b.val &&& 0b11 = b.val % 4 := by
  decide

theorem unpack_straddle : (∀ a : Fin 4, ∀ b : Fin 2,
    (a.val ||| (b.val <<< 2) % 256) = a.val + 4 * b.val) ∧
    (∀ a : Fin 2, ∀ b : Fin 4, (a.val ||| (b.val <<< 1) % 256) = a.val + 2 * b.val) := by
  decide

/-- The cells read by `bytesToOctCells24`, in arithmetic form. -/
theorem bytesToOctCells24_arith (b0 b1 b2 : Nat) (h0 : b0 < 256) (h1 : b1 < 256)
    (h2 : b2 < 256) (y0 y1 y2 y3 y4 y5 y6 y7 : Nat) :
    bytesToOctCells24 [y0, y1, y2, y3, y4, y5, y6, y7] [b0, b1, b2]
      = some [b0 % 8, b0 / 8 % 8, b0 / 64 + 4 * (b1 % 2), b1 / 2 % 8, b1 / 16 % 8,
          b1 / 128 + 2 * (b2 % 4), b2 / 4 % 8, b2 / 32] := by
  have e0 := unpack_low ⟨b0, h0⟩
  have e1 := unpack_low ⟨b1, h1⟩
  have e2 := unpack_low ⟨b2, h2⟩
  simp only at e0 e1 e2
  have s0 := unpack_straddle.1 ⟨b0 / 64, by omega⟩ ⟨b1 % 2, by omega⟩
  have s1 := unpack_straddle.2 ⟨b1 / 128, by omega⟩ ⟨b2 % 4, by omega⟩
  simp only at s0 s1
  simp only [bytesToOctCells24, e0.1, e0.2.1, e1.2.2.1, e1.2.2.2.1, e2.2.2.2.2.1,
    e2.2.2.2.2.2.1, e0.2.2.2.2.2.2.1, e1.2.2.2.2.2.2.2.1, e1.2.2.2.2.2.2.2.2.1,
    e2.2.2.2.2.2.2.2.2.2, s0, s1]

/-- C8. Oct24 cell packing round trip: for 8 cells each in `0..7`,
`bytesToOctCells24` applied to the 3 bytes written by `octCellsToBytes24` returns the
same 8 cells. -/
theorem bytesToOctCells24_octCellsToBytes24 (c0 c1 c2 c3 c4 c5 c6 c7 x0 x1 x2 : Nat)
    (y0 y1 y2 y3 y4 y5 y6 y7 : Nat)
    (h0 : c0 < 8) (h1 : c1 < 8) (h2 : c2 < 8) (h3 : c3 < 8) (h4 : c4 < 8) (h5 : c5 < 8)
    (h6 : c6 < 8) (h7 : c7 < 8) :
    (octCellsToBytes24 [c0, c1, c2, c3, c4, c5, c6, c7] [x0, x1, x2]).bind
        (bytesToOctCells24 [y0, y1, y2, y3, y4, y5, y6, y7])
      = some [c0, c1, c2, c3, c4, c5, c6, c7] := by
  rw [octCellsToBytes24_arith c0 c1 c2 c3 c4 c5 c6 c7 x0 x1 x2 h0 h1 h2 h3 h4 h5 h6 h7]
  simp only [Option.bind_some, Option.some_bind]
  rw [bytesToOctCells24_arith _ _ _ (by omega) (by omega) (by omega)]
  simp only [Option.some.injEq, List.cons.injEq, and_true]
  refine ⟨?_, ?_, ?_, ?_, ?_, ?_, ?_, ?_⟩ <;> omega

theorem bytesToOctCells24_octCellsToBytes24_witness :
    (1 : Nat) < 8 ∧
    (octCellsToBytes24 [1, 2, 3, 4, 5, 6, 7, 0] [9, 9, 9]).bind
        (bytesToOctCells24 [0, 0, 0, 0, 0, 0, 0, 0])
      = some [1, 2, 3, 4, 5, 6, 7, 0] :=
  ⟨by decide, bytesToOctCells24_octCellsToBytes24 1 2 3 4 5 6 7 0 9 9 9 0 0 0 0 0 0 0 0
    (by decide) (by decide) (by decide) (by decide) (by decide) (by decide) (by decide)
    (by decide)⟩

theorem octCellOf_arith (v c : Vector3) :
    octCellOf v c = 4 * (if v.y < c.y then 1 else 0) + 2 * (if v.x < c.x then 1 else 0)
      + (if v.z < c.z then 1 else 0) := by
  unfold octCellOf
  by_cases hx : v.x < c.x <;> by_cases hy : v.y < c.y <;> by_cases hz : v.z < c.z <;>
    simp only [hx, hy, hz, if_true, if_false] <;> decide

theorem Vec3ToOctCells_loop_getElem (v min max : Vector3) (cells : List Nat) :
    ∀ (n k : Nat), k < cells.length →
    (Vec3ToOctCells.loop v cells (octLevel v min max n).1 (octLevel v min max n).2.1
        (octLevel v min max n).2.2.1 (octLevel v min max n).2.2.2)[k]?
      = some (octCellOf v (octLevel v min max (n + k)).1) := by
  induction cells with
  | nil => intro n k hk; simp at hk
  | cons _ cells ih =>
    intro n k hk
    cases k with
    | zero => simp [Vec3ToOctCells.loop]
    | succ k =>
      simp only [Vec3ToOctCells.loop, List.getElem?_cons_succ]
      have := ih (n + 1) k (by simpa using hk)
      simp only [octLevel] at this
      rw [this, show n + 1 + k = n + (k + 1) by omega]

/-- C9. Octant numbering: the cell emitted by `Vec3ToOctCells` at level `k` is
`4*[v.Y < center.Y] + 2*[v.X < center.X] + [v.Z < center.Z]` for the center of that
level, the first center being the midpoint of `min` and `max`; every emitted cell is
in `0..7`, for every `v`, `min` and `max`. -/
theorem Vec3ToOctCells_octant_numbering (v min max : Vector3) (cells : List Nat) (k : Nat)
    (hk : k < cells.length) :
    (octLevel v min max 0).1 = ⟨(min.x + max.x) / 2, (min.y + max.y) / 2, (min.z + max.z) / 2⟩ ∧
    (Vec3ToOctCells v min max cells)[k]?
      = some (4 * (if v.y < (octLevel v min max k).1.y then 1 else 0)
          + 2 * (if v.x < (octLevel v min max k).1.x then 1 else 0)
          + (if v.z < (octLevel v min max k).1.z then 1 else 0)) ∧
    ∀ c ∈ Vec3ToOctCells v min max cells, c ≤ 7 := by
  refine ⟨rfl, ?_, ?_⟩
  · have h := Vec3ToOctCells_loop_getElem v min max cells 0 k hk
    rw [Nat.zero_add, octCellOf_arith] at h
    exact h
  · intro c hc
    obtain ⟨i, hi, rfl⟩ := List.getElem_of_mem hc
    have hi' : i < cells.length := by rwa [Vec3ToOctCells_length] at hi
    have h := Vec3ToOctCells_loop_getElem v min max cells 0 i hi'
    have h2 : (Vec3ToOctCells v min max cells)[i] = octCellOf v (octLevel v min max (0 + i)).1 := by
      apply Option.some.inj
      rw [← h]
      exact (List.getElem?_eq_getElem hi).symm
    rw [h2, octCellOf_arith]
    split_ifs <;> omega

theorem Vec3ToOctCells_octant_numbering_witness :
    (0 : Nat) < [0, 0, 0, 0, 0, 0, 0, 0].length ∧
    (octLevel ⟨1, 2, 3⟩ ⟨0, 0, 0⟩ ⟨4, 4, 4⟩ 0).1 = ⟨(0 + 4) / 2, (0 + 4) / 2, (0 + 4) / 2⟩ ∧
    (Vec3ToOctCells ⟨1, 2, 3⟩ ⟨0, 0, 0⟩ ⟨4, 4, 4⟩ [0, 0, 0, 0, 0, 0, 0, 0])[0]?
      = some (4 * (if (2 : ℚ) < (octLevel ⟨1, 2, 3⟩ ⟨0, 0, 0⟩ ⟨4, 4, 4⟩ 0).1.y then 1 else 0)
          + 2 * (if (1 : ℚ) < (octLevel ⟨1, 2, 3⟩ ⟨0, 0, 0⟩ ⟨4, 4, 4⟩ 0).1.x then 1 else 0)
          + (if (3 : ℚ) < (octLevel ⟨1, 2, 3⟩ ⟨0, 0, 0⟩ ⟨4, 4, 4⟩ 0).1.z then 1 else 0)) ∧
    ∀ c ∈ Vec3ToOctCells ⟨1, 2, 3⟩ ⟨0, 0, 0⟩ ⟨4, 4, 4⟩ [0, 0, 0, 0, 0, 0, 0, 0], c ≤ 7 :=
  ⟨by decide, Vec3ToOctCells_octant_numbering ⟨1, 2, 3⟩ ⟨0, 0, 0⟩ ⟨4, 4, 4⟩ [0, 0, 0, 0, 0, 0, 0, 0]
    0 (by decide)⟩

/-- C10. Zero-capture Oct24 stream: `encodeOct24` of the empty capture list returns
exactly the single byte `0x00`, and `decodeOct24` of that byte returns an empty
capture list with no error. -/
theorem oct24_zero_captures (F : Float32) :
    Format.encodeOct24 F [] = .ok [0x00] ∧ Format.decodeOct24 F [0x00] = .ok [] := by
  constructor
  · rfl
  · rfl

/-! ## Binary primitives -/

set_option maxRecDepth 100000 in
theorem continuation_byte : ∀ b : Fin 256,
    ¬ ((b.val ||| 0x80) < 0x80) ∧ (b.val ||| 0x80) &&& 0x7f = b.val % 128 := by
  decide

theorem or_shiftLeft_eq_add (acc b s : Nat) (h : acc < 2 ^ s) :
    acc ||| (b <<< s) = acc + b * 2 ^ s := by
  rw [Nat.shiftLeft_eq, Nat.or_comm, Nat.mul_comm b, ← Nat.mul_add_lt_is_or h, Nat.add_comm]

theorem PutUvarint_length (cap : Nat) : ∀ (x : Nat) (bs : List Nat),
    PutUvarint cap x = some bs → 0 < bs.length ∧ bs.length ≤ cap := by
  induction cap with
  | zero => intro x bs h; simp [PutUvarint] at h
  | succ cap ih =>
    intro x bs h
    simp only [PutUvarint] at h
    split at h
    · cases hp : PutUvarint cap (x >>> 7) with
      | none => simp [hp] at h
      | some bs' =>
        simp only [hp, Option.map_some', Option.some.injEq] at h
        subst h
        have := ih _ _ hp
        simp only [List.length_cons]
        omega
    · simp only [Option.some.injEq] at h
      subst h
      simp

theorem PutUvarint_isSome (cap : Nat) : ∀ (x : Nat), x < 2 ^ (7 * (cap + 1)) →
    ∃ bs, PutUvarint (cap + 1) x = some bs := by
  induction cap with
  | zero =>
    intro x h
    have : ¬ (0x80 ≤ x) := by
      have : x < 128 := by simpa using h
      omega
    exact ⟨[x % 256], by simp only [PutUvarint, this, if_false]⟩
  | succ cap ih =>
    intro x h
    rw [PutUvarint]
    split
    · have hx : x >>> 7 < 2 ^ (7 * (cap + 1)) := by
        rw [Nat.shiftRight_eq_div_pow]
        apply Nat.div_lt_of_lt_mul
        rw [← pow_add]
        rwa [show 7 + 7 * (cap + 1) = 7 * (cap + 1 + 1) by ring]
      obtain ⟨bs, hbs⟩ := ih _ hx
      exact ⟨_, by rw [hbs]; rfl⟩
    · exact ⟨_, rfl⟩

theorem PutUvarint_none (cap : Nat) : ∀ (x : Nat), 2 ^ (7 * cap) ≤ x → PutUvarint cap x = none := by
  induction cap with
  | zero => intro x _; rfl
  | succ cap ih =>
    intro x h
    have h128 : 0x80 ≤ x := by
      calc 0x80 = 2 ^ 7 := by norm_num
        _ ≤ 2 ^ (7 * (cap + 1)) := Nat.pow_le_pow_right (by norm_num) (by omega)
        _ ≤ x := h
    have hx : 2 ^ (7 * cap) ≤ x >>> 7 := by
      rw [Nat.shiftRight_eq_div_pow, Nat.le_div_iff_mul_le (by norm_num), ← pow_add]
      rwa [show 7 * cap + 7 = 7 * (cap + 1) by ring]
    simp only [PutUvarint, h128, if_true, ih _ hx, Option.map_none']

theorem ReadUvarint_loop_PutUvarint (cap : Nat) : ∀ (x : Nat) (bs : List Nat) (i acc : Nat)
    (rest : List Nat), i ≤ 9 → PutUvarint cap x = some bs → acc < 2 ^ (7 * i) →
    x < 2 ^ (64 - 7 * i) →
    ReadUvarint.loop (10 - i) acc (7 * i) (bs ++ rest) = (.ok (acc + x * 2 ^ (7 * i)), rest) := by
  induction cap with
  | zero => intro x bs i acc rest _ h; simp [PutUvarint] at h
  | succ cap ih =>
    intro x bs i acc rest hi h hacc hx
    obtain ⟨k, hk⟩ : ∃ k, 10 - i = k + 1 := ⟨9 - i, by omega⟩
    have hbound : acc + x * 2 ^ (7 * i) < 2 ^ 64 := by
      have h1 : (x + 1) * 2 ^ (7 * i) ≤ 2 ^ (64 - 7 * i) * 2 ^ (7 * i) :=
        Nat.mul_le_mul_right _ hx
      rw [← pow_add, show 64 - 7 * i + 7 * i = 64 by omega] at h1
      have h2 : (x + 1) * 2 ^ (7 * i) = x * 2 ^ (7 * i) + 2 ^ (7 * i) := by ring
      omega
    simp only [PutUvarint] at h
    split at h
    · rename_i hge
      cases hp : PutUvarint cap (x >>> 7) with
      | none => simp [hp] at h
      | some bs' =>
        simp only [hp, Option.map_some', Option.some.injEq] at h
        subst h
        have hb := continuation_byte ⟨x % 256, Nat.mod_lt _ (by norm_num)⟩
        simp only at hb
        have hi8 : i ≤ 8 := by
          by_contra hcon
          have : i = 9 := by omega
          subst this
          have : x < 2 := by simpa using hx
          omega
        rw [hk]
        simp only [List.cons_append, List.append_eq, ReadUvarint.loop, hb.1, if_false, hb.2]
        have hmod : x % 256 % 128 = x % 128 := by omega
        rw [hmod, or_shiftLeft_eq_add _ _ _ hacc]
        have hlow : acc + x % 128 * 2 ^ (7 * i) < 2 ^ (7 * (i + 1)) := by
          have h1 : (x % 128 + 1) * 2 ^ (7 * i) ≤ 128 * 2 ^ (7 * i) :=
            Nat.mul_le_mul_right _ (by omega)
          have h2 : (x % 128 + 1) * 2 ^ (7 * i) = x % 128 * 2 ^ (7 * i) + 2 ^ (7 * i) := by ring
          have h3 : 2 ^ (7 * (i + 1)) = 128 * 2 ^ (7 * i) := by
            rw [show 7 * (i + 1) = 7 + 7 * i by ring, pow_add]; norm_num
          omega
        have hlt64 : acc + x % 128 * 2 ^ (7 * i) < 2 ^ 64 :=
          lt_of_lt_of_le hlow (Nat.pow_le_pow_right (by norm_num) (by omega))
        rw [Nat.mod_eq_of_lt hlt64]
        have hx' : x >>> 7 < 2 ^ (64 - 7 * (i + 1)) := by
          rw [Nat.shiftRight_eq_div_pow]
          apply Nat.div_lt_of_lt_mul
          rw [← pow_add, show 7 + (64 - 7 * (i + 1)) = 64 - 7 * i by omega]
          exact hx
        have hk' : k = 10 - (i + 1) := by omega
        have := ih (x >>> 7) bs' (i + 1) (acc + x % 128 * 2 ^ (7 * i)) rest (by omega) hp hlow hx'
        rw [← hk', show 7 * (i + 1) = 7 * i + 7 by ring] at this
        rw [this]
        congr 2
        rw [Nat.shiftRight_eq_div_pow, pow_add]
        have : x = x / 2 ^ 7 * 2 ^ 7 + x % 128 := by
          have := Nat.div_add_mod x 128
          norm_num
          omega
        conv_rhs => rw [this]
        ring
    · rename_i hlt
      simp only [Option.some.injEq] at h
      subst h
      have hx128 : x < 0x80 := by omega
      have hmod : x % 256 = x := by omega
      rw [hk]
      simp only [List.cons_append, List.nil_append, List.append_eq, ReadUvarint.loop, hmod,
        hx128, if_true]
      have hnot : ¬ (k = 0 ∧ 1 < x) := by
        rintro ⟨hk0, h1⟩
        have : i = 9 := by omega
        subst this
        have : x < 2 := by simpa using hx
        omega
      rw [if_neg hnot, or_shiftLeft_eq_add _ _ _ hacc, Nat.mod_eq_of_lt hbound]

theorem ReadUvarint_PutUvarint (cap x : Nat) (bs rest : List Nat) (hx : x < 2 ^ 64)
    (h : PutUvarint cap x = some bs) : ReadUvarint (bs ++ rest) = (.ok x, rest) := by
  have := ReadUvarint_loop_PutUvarint cap x bs 0 0 rest (by omega) h (by norm_num) (by simpa using hx)
  simpa [ReadUvarint] using this

theorem ReadUvarint_uvarintBytes (x : Nat) (rest : List Nat) (hx : x < 2 ^ 64) :
    ReadUvarint (uvarintBytes x ++ rest) = (.ok x, rest) := by
  obtain ⟨bs, hbs⟩ := PutUvarint_isSome 9 x
    (lt_of_lt_of_le hx (Nat.pow_le_pow_right (by norm_num) (by norm_num)))
  unfold uvarintBytes
  rw [Nat.mod_eq_of_lt hx, hbs]
  exact ReadUvarint_PutUvarint 10 x bs rest hx hbs

theorem leBytes_length (n : Nat) : ∀ x, (leBytes n x).length = n := by
  induction n with
  | zero => intro x; rfl
  | succ n ih => intro x; simp [leBytes, ih]

theorem leValue_leBytes (n : Nat) : ∀ x, leValue (leBytes n x) = x % 256 ^ n := by
  induction n with
  | zero => intro x; simp [leBytes, leValue, Nat.mod_one]
  | succ n ih =>
    intro x
    simp only [leBytes, leValue, ih, Nat.mod_mod]
    rw [pow_succ, Nat.mul_comm (256 ^ n) 256, Nat.mod_mul]

theorem readFixed_leBytes (n x : Nat) (rest : List Nat) :
    readFixed n (leBytes n x ++ rest) = (.ok (x % 256 ^ n), rest) := by
  unfold readFixed
  have hl := leBytes_length n x
  rw [if_pos (by simp [hl])]
  rw [List.take_left' hl, List.drop_left' hl, leValue_leBytes]

theorem readFloat32_writeFloat32 (F : Float32) (x : ℚ) (rest : List Nat) :
    readFloat32 F (writeFloat32 F x ++ rest) = (.ok (F.round x), rest) := by
  unfold readFloat32 writeFloat32
  rw [readFixed_leBytes]
  simp [Float32.round]

/-! ## The Oct24 codec: encoder and decoder in lock-step -/

theorem Vec3ToOctCells_lt_eight (v min max : Vector3) (cells : List Nat) :
    ∀ c ∈ Vec3ToOctCells v min max cells, c < 8 := by
  intro c hc
  obtain ⟨i, hi, rfl⟩ := List.getElem_of_mem hc
  have hi' : i < cells.length := by rwa [Vec3ToOctCells_length] at hi
  have h := Vec3ToOctCells_loop_getElem v min max cells 0 i hi'
  have h2 : (Vec3ToOctCells v min max cells)[i] = octCellOf v (octLevel v min max (0 + i)).1 := by
    apply Option.some.inj
    rw [← h]
    exact (List.getElem?_eq_getElem hi).symm
  rw [h2, octCellOf_arith]
  split_ifs <;> omega

theorem list_length_eight (l : List Nat) (h : l.length = 8) :
    ∃ c0 c1 c2 c3 c4 c5 c6 c7, l = [c0, c1, c2, c3, c4, c5, c6, c7] := by
  match l, h with
  | [c0, c1, c2, c3, c4, c5, c6, c7], _ => exact ⟨c0, c1, c2, c3, c4, c5, c6, c7, rfl⟩

theorem list_length_three (l : List Nat) (h : l.length = 3) :
    ∃ c0 c1 c2, l = [c0, c1, c2] := by
  match l, h with
  | [c0, c1, c2], _ => exact ⟨c0, c1, c2, rfl⟩

/-- Packing a full buffer of octants and unpacking it again, on lists. -/
theorem oct_pack_unpack (l ob cells : List Nat) (hl : l.length = 8) (hlt : ∀ c ∈ l, c < 8)
    (hob : ob.length = 3) (hcells : cells.length = 8) :
    ∃ bs, octCellsToBytes24 l ob = some bs ∧ bs.length = 3 ∧
      bytesToOctCells24 cells bs = some l := by
  obtain ⟨c0, c1, c2, c3, c4, c5, c6, c7, rfl⟩ := list_length_eight l hl
  obtain ⟨x0, x1, x2, rfl⟩ := list_length_three ob hob
  obtain ⟨y0, y1, y2, y3, y4, y5, y6, y7, rfl⟩ := list_length_eight cells hcells
  have h0 := hlt c0 (by simp)
  have h1 := hlt c1 (by simp)
  have h2 := hlt c2 (by simp)
  have h3 := hlt c3 (by simp)
  have h4 := hlt c4 (by simp)
  have h5 := hlt c5 (by simp)
  have h6 := hlt c6 (by simp)
  have h7 := hlt c7 (by simp)
  refine ⟨_, octCellsToBytes24_arith c0 c1 c2 c3 c4 c5 c6 c7 x0 x1 x2 h0 h1 h2 h3 h4 h5 h6 h7,
    rfl, ?_⟩
  rw [bytesToOctCells24_arith _ _ _ (by omega) (by omega) (by omega)]
  simp only [Option.some.injEq, List.cons.injEq, and_true]
  refine ⟨?_, ?_, ?_, ?_, ?_, ?_, ?_, ?_⟩ <;> omega

theorem readInto_append (b w r : List Nat) (h : b.length = w.length) :
    readInto b (w ++ r) = (w, r) := by
  unfold readInto
  rw [h, List.take_left, List.drop_left]
  have : List.drop (w ++ r).length b = [] := by
    apply List.drop_eq_nil_of_le
    simp [h]
  rw [this, List.append_nil]

theorem floatBSTToBytes_length (v start duration : ℚ) (out : List Nat) :
    (floatBSTToBytes v start duration out).length = out.length :=
  byteLoop_length v out _ _

/-- One iteration of the second loop of `encodeOct24` returns normally, and its
bytes drive one iteration of the loop of `decodeOct24` to the same state. -/
theorem oct24_loop_lockstep (M : ℚ) (mn mx : Vector3) (cs : List PositionCapture) :
    ∀ (first : Bool) (st : Format.Drift),
    ∃ bytes trace, Format.encodeOct24.loop M mn mx first cs st = .ok (bytes, trace) ∧
      trace.length = cs.length ∧
      (bytes.length + (if first ∧ cs ≠ [] then 3 else 0) = 5 * cs.length) ∧
      ∀ tb ob cells : List Nat, tb.length = 2 → ob.length = 3 → cells.length = 8 →
        Format.decodeOct24.loop M mn mx cs.length first bytes tb ob cells
            st.totalledQuantizedDuration st.quantizedPosition
          = .ok (trace.map fun d => ⟨d.totalledQuantizedDuration, d.quantizedPosition⟩) := by
  induction cs with
  | nil =>
    intro first st
    exact ⟨[], [], rfl, rfl, by simp, fun _ _ _ _ _ _ => rfl⟩
  | cons c cs ih =>
    intro first st
    have htb : (floatBSTToBytes (c.time - st.totalledQuantizedDuration) 0 M [0, 0]).length = 2 :=
      floatBSTToBytes_length _ _ _ _
    cases first with
    | true =>
      obtain ⟨bytes, trace, he, hl, hn, hd⟩ := ih false
        ⟨st.totalledQuantizedDuration + bytesToFloatBST 0 M
          (floatBSTToBytes (c.time - st.totalledQuantizedDuration) 0 M [0, 0]),
          st.quantizedPosition⟩
      refine ⟨floatBSTToBytes (c.time - st.totalledQuantizedDuration) 0 M [0, 0] ++ bytes,
        ⟨st.totalledQuantizedDuration + bytesToFloatBST 0 M
          (floatBSTToBytes (c.time - st.totalledQuantizedDuration) 0 M [0, 0]),
          st.quantizedPosition⟩ :: trace, ?_, ?_, ?_, ?_⟩
      · simp only [Format.encodeOct24.loop, Format.encodeOct24.step, if_true, Res.bind, he]
      · simp [hl]
      · simp only [List.length_append, htb, List.length_cons]
        simp at hn ⊢
        omega
      · intro tb ob cells h1 h2 h3
        simp only [List.length_cons, Format.decodeOct24.loop, if_true]
        rw [readInto_append _ _ _ (by rw [h1, htb])]
        simp only
        rw [hd _ ob cells htb h2 h3]
        simp [Res.map]
    | false =>
      have hcl : (Vec3ToOctCells (c.position.Sub st.quantizedPosition) mn mx
          [0, 0, 0, 0, 0, 0, 0, 0]).length = 8 := by
        rw [Vec3ToOctCells_length]; rfl
      obtain ⟨ob', hob, hobl, hun⟩ := oct_pack_unpack _ [0, 0, 0] [0, 0, 0, 0, 0, 0, 0, 0] hcl
        (Vec3ToOctCells_lt_eight _ _ _ _) rfl rfl
      obtain ⟨bytes, trace, he, hl, hn, hd⟩ := ih false
        ⟨st.totalledQuantizedDuration + bytesToFloatBST 0 M
          (floatBSTToBytes (c.time - st.totalledQuantizedDuration) 0 M [0, 0]),
          st.quantizedPosition.Add (OctCellsToVec3 mn mx
            (Vec3ToOctCells (c.position.Sub st.quantizedPosition) mn mx
              [0, 0, 0, 0, 0, 0, 0, 0]))⟩
      refine ⟨(floatBSTToBytes (c.time - st.totalledQuantizedDuration) 0 M [0, 0] ++ ob') ++ bytes,
        ⟨st.totalledQuantizedDuration + bytesToFloatBST 0 M
          (floatBSTToBytes (c.time - st.totalledQuantizedDuration) 0 M [0, 0]),
          st.quantizedPosition.Add (OctCellsToVec3 mn mx
            (Vec3ToOctCells (c.position.Sub st.quantizedPosition) mn mx
              [0, 0, 0, 0, 0, 0, 0, 0]))⟩ :: trace, ?_, ?_, ?_, ?_⟩
      · simp only [Format.encodeOct24.loop, Format.encodeOct24.step, Bool.false_eq_true,
          if_false, hob, Res.bind, he]
      · simp [hl]
      · simp only [List.length_append, htb, hobl, List.length_cons]
        simp at hn ⊢
        omega
      · intro tb ob cells h1 h2 h3
        simp only [List.length_cons, Format.decodeOct24.loop, Bool.false_eq_true, if_false]
        rw [List.append_assoc, readInto_append _ _ _ (by rw [h1, htb])]
        simp only
        rw [readInto_append _ _ _ (by rw [h2, hobl])]
        simp only
        obtain ⟨ob2, hob2, _, hun2⟩ := oct_pack_unpack _ [0, 0, 0] cells hcl
          (Vec3ToOctCells_lt_eight _ _ _ _) rfl h3
        rw [hob] at hob2
        cases hob2
        rw [hun2]
        simp only
        rw [hd _ _ _ htb hobl hcl]
        simp [Res.map]

theorem boundsLoop_startingTime (cs : List PositionCapture) :
    ∀ (prev : Option PositionCapture) (b : Bounds),
    (Format.encodeOct24.boundsLoop prev b cs).startingTime
      = cs.foldl (fun a c => lowerTo a c.time) b.startingTime := by
  induction cs with
  | nil => intro prev b; rfl
  | cons c cs ih =>
    intro prev b
    cases prev <;> simp only [Format.encodeOct24.boundsLoop, ih, List.foldl_cons]

theorem boundsLoop_maxTimeDifference (cs : List PositionCapture) :
    ∀ (p : PositionCapture) (b : Bounds),
    (Format.encodeOct24.boundsLoop (some p) b cs).maxTimeDifference
      = (timeDeltas (p :: cs)).foldl raiseTo b.maxTimeDifference := by
  induction cs with
  | nil => intro p b; rfl
  | cons c cs ih =>
    intro p b
    simp only [Format.encodeOct24.boundsLoop, ih, timeDeltas, List.foldl_cons]

theorem foldl_lowerTo_some (cs : List PositionCapture) (a : ℚ) (h : ∀ c ∈ cs, a ≤ c.time) :
    cs.foldl (fun acc c => lowerTo acc c.time) (some a) = some a := by
  induction cs with
  | nil => rfl
  | cons c cs ih =>
    have hc : ¬ c.time < a := not_lt.mpr (h c (by simp))
    simp only [List.foldl_cons, lowerTo, hc, if_false]
    exact ih (fun c' hc' => h c' (by simp [hc']))

theorem foldl_raiseTo_some (ds : List ℚ) : ∀ (a : ℚ),
    ds.foldl raiseTo (some a) = some (ds.foldl max a) := by
  induction ds with
  | nil => intro a; rfl
  | cons d ds ih =>
    intro a
    simp only [List.foldl_cons, raiseTo]
    by_cases h : d > a
    · rw [if_pos h, ih, max_eq_right (le_of_lt h)]
    · rw [if_neg h, ih, max_eq_left (not_lt.mp h)]

theorem le_foldl_max (ds : List ℚ) : ∀ (a : ℚ), a ≤ ds.foldl max a ∧ ∀ d ∈ ds, d ≤ ds.foldl max a := by
  induction ds with
  | nil => intro a; simp
  | cons d ds ih =>
    intro a
    simp only [List.foldl_cons, List.mem_cons, forall_eq_or_imp]
    obtain ⟨h1, h2⟩ := ih (max a d)
    exact ⟨le_trans (le_max_left _ _) h1, le_trans (le_max_right _ _) h1, h2⟩

/-- The first loop of `encodeOct24` finds the largest consecutive time difference. -/
theorem bounds_maxTimeDifference (c0 c1 : PositionCapture) (rest : List PositionCapture) :
    (Format.encodeOct24.bounds (c0 :: c1 :: rest)).maxTimeDifference
      = some (maxTimeDelta (c0 :: c1 :: rest)) := by
  simp only [Format.encodeOct24.bounds, Format.encodeOct24.boundsLoop]
  rw [boundsLoop_maxTimeDifference]
  simp only [raiseTo, maxTimeDelta, timeDeltas]
  exact foldl_raiseTo_some _ _

theorem timeDelta_le_max (captures : List PositionCapture) :
    ∀ d ∈ timeDeltas captures, d ≤ maxTimeDelta captures := by
  intro d hd
  unfold maxTimeDelta
  cases h : timeDeltas captures with
  | nil => rw [h] at hd; simp at hd
  | cons d0 ds =>
    rw [h] at hd
    simp only
    rcases List.mem_cons.mp hd with rfl | hmem
    · exact (le_foldl_max ds d).1
    · exact (le_foldl_max ds d0).2 d hmem

/-- The first loop of `encodeOct24` starts the clock at the first capture when no
capture is earlier. -/
theorem bounds_startingTime (c0 : PositionCapture) (rest : List PositionCapture)
    (h : ∀ c ∈ rest, c0.time ≤ c.time) :
    (Format.encodeOct24.bounds (c0 :: rest)).startingTime = some c0.time := by
  simp only [Format.encodeOct24.bounds, Format.encodeOct24.boundsLoop]
  rw [boundsLoop_startingTime]
  simp only [lowerTo]
  exact foldl_lowerTo_some rest c0.time h

/-- `decodeOct24` on a count of two or more followed by the twelve `float32` fields
of the header: what is left is the capture loop. -/
theorem decodeOct24_header (F : Float32) (n : Nat) (count body : List Nat)
    (t0 M a1 a2 a3 b1 b2 b3 s1 s2 s3 : ℚ) (hcount : PutUvarint 8 n = some count)
    (h2 : 2 ≤ n) (h63 : n < 2 ^ 63) :
    Format.decodeOct24 F (count ++ (writeFloat32 F t0 ++ (writeFloat32 F M ++ (writeFloat32 F a1
      ++ (writeFloat32 F a2 ++ (writeFloat32 F a3 ++ (writeFloat32 F b1 ++ (writeFloat32 F b2
      ++ (writeFloat32 F b3 ++ (writeFloat32 F s1 ++ (writeFloat32 F s2 ++ (writeFloat32 F s3
      ++ body))))))))))))
      = Format.decodeOct24.loop (F.round M) ⟨F.round a1, F.round a2, F.round a3⟩
          ⟨F.round b1, F.round b2, F.round b3⟩ n true body [0, 0] [0, 0, 0]
          [0, 0, 0, 0, 0, 0, 0, 0] (F.round t0) ⟨F.round s1, F.round s2, F.round s3⟩ := by
  have hne0 : n ≠ 0 := by omega
  have hne1 : n ≠ 1 := by omega
  have hlt63 : ¬ (2 ^ 63 ≤ n) := by omega
  have h64 : n < 2 ^ 64 := lt_trans h63 (by norm_num)
  unfold Format.decodeOct24
  rw [ReadUvarint_PutUvarint 8 n count _ h64 hcount]
  simp only [hne0, if_false]
  rw [readFloat32_writeFloat32]
  simp only [hne1, if_false]
  rw [readFloat32_writeFloat32]
  simp only
  rw [readFloat32_writeFloat32]
  simp only
  rw [readFloat32_writeFloat32]
  simp only
  rw [readFloat32_writeFloat32]
  simp only
  rw [readFloat32_writeFloat32]
  simp only
  rw [readFloat32_writeFloat32]
  simp only
  rw [readFloat32_writeFloat32]
  simp only
  rw [readFloat32_writeFloat32]
  simp only
  rw [readFloat32_writeFloat32]
  simp only
  rw [readFloat32_writeFloat32]
  simp only [if_neg hlt63, float32OrZero]

/-- Encoding two captures or more and decoding the result: the decoder returns the
trace of the encoder. -/
theorem oct24_decode_encode (F : Float32) (c0 c1 : PositionCapture) (rest : List PositionCapture)
    (hlen : (c0 :: c1 :: rest).length < 2 ^ 56)
    (hfirst : ∀ c ∈ c1 :: rest, c0.time ≤ c.time)
    (hexact : ∀ x ∈ Format.encodeOct24.headerFields (c0 :: c1 :: rest), F.round x = x) :
    ∃ bytes, Format.encodeOct24 F (c0 :: c1 :: rest) = .ok bytes ∧
      Format.decodeOct24 F bytes
        = .ok ((Format.encodeOct24.trace F (c0 :: c1 :: rest)).map
            fun d => ⟨d.totalledQuantizedDuration, d.quantizedPosition⟩) ∧
      (Format.encodeOct24.trace F (c0 :: c1 :: rest)).length = (c0 :: c1 :: rest).length := by
  have hn64 : (c0 :: c1 :: rest).length % 2 ^ 64 = (c0 :: c1 :: rest).length :=
    Nat.mod_eq_of_lt (lt_trans hlen (by norm_num))
  obtain ⟨count, hcount⟩ := PutUvarint_isSome 7 (c0 :: c1 :: rest).length (by simpa using hlen)
  have hstart := bounds_startingTime c0 (c1 :: rest) hfirst
  obtain ⟨bytes, trace, he, hl, _, hd⟩ := oct24_loop_lockstep
    ((Format.encodeOct24.bounds (c0 :: c1 :: rest)).maxTimeDifference.getD 0)
    ⟨(Format.encodeOct24.bounds (c0 :: c1 :: rest)).minX.getD 0,
      (Format.encodeOct24.bounds (c0 :: c1 :: rest)).minY.getD 0,
      (Format.encodeOct24.bounds (c0 :: c1 :: rest)).minZ.getD 0⟩
    ⟨(Format.encodeOct24.bounds (c0 :: c1 :: rest)).maxX.getD 0,
      (Format.encodeOct24.bounds (c0 :: c1 :: rest)).maxY.getD 0,
      (Format.encodeOct24.bounds (c0 :: c1 :: rest)).maxZ.getD 0⟩
    (c0 :: c1 :: rest) true ⟨c0.time, c0.position⟩
  have hmany : Format.encodeOct24.many F c0 (c0 :: c1 :: rest) = .ok
      (writeFloat32 F ((Format.encodeOct24.bounds (c0 :: c1 :: rest)).maxTimeDifference.getD 0)
      ++ writeFloat32 F ((Format.encodeOct24.bounds (c0 :: c1 :: rest)).minX.getD 0)
      ++ writeFloat32 F ((Format.encodeOct24.bounds (c0 :: c1 :: rest)).minY.getD 0)
      ++ writeFloat32 F ((Format.encodeOct24.bounds (c0 :: c1 :: rest)).minZ.getD 0)
      ++ writeFloat32 F ((Format.encodeOct24.bounds (c0 :: c1 :: rest)).maxX.getD 0)
      ++ writeFloat32 F ((Format.encodeOct24.bounds (c0 :: c1 :: rest)).maxY.getD 0)
      ++ writeFloat32 F ((Format.encodeOct24.bounds (c0 :: c1 :: rest)).maxZ.getD 0)
      ++ writeFloat32 F c0.position.x ++ writeFloat32 F c0.position.y
      ++ writeFloat32 F c0.position.z ++ bytes, trace) := by
    simp only [Format.encodeOct24.many, hstart, Option.getD_some, he, Res.bind]
  have htrace : Format.encodeOct24.trace F (c0 :: c1 :: rest) = trace := by
    simp only [Format.encodeOct24.trace, hmany]
  have henc : Format.encodeOct24 F (c0 :: c1 :: rest) = .ok (count ++ writeFloat32 F c0.time ++
      (writeFloat32 F ((Format.encodeOct24.bounds (c0 :: c1 :: rest)).maxTimeDifference.getD 0)
      ++ writeFloat32 F ((Format.encodeOct24.bounds (c0 :: c1 :: rest)).minX.getD 0)
      ++ writeFloat32 F ((Format.encodeOct24.bounds (c0 :: c1 :: rest)).minY.getD 0)
      ++ writeFloat32 F ((Format.encodeOct24.bounds (c0 :: c1 :: rest)).minZ.getD 0)
      ++ writeFloat32 F ((Format.encodeOct24.bounds (c0 :: c1 :: rest)).maxX.getD 0)
      ++ writeFloat32 F ((Format.encodeOct24.bounds (c0 :: c1 :: rest)).maxY.getD 0)
      ++ writeFloat32 F ((Format.encodeOct24.bounds (c0 :: c1 :: rest)).maxZ.getD 0)
      ++ writeFloat32 F c0.position.x ++ writeFloat32 F c0.position.y
      ++ writeFloat32 F c0.position.z ++ bytes)) := by
    simp only [Format.encodeOct24, hn64, hcount, hmany, Res.bind]
  refine ⟨_, henc, ?_, ?_⟩
  · have hx : ∀ x ∈ Format.encodeOct24.headerFields (c0 :: c1 :: rest), F.round x = x := hexact
    simp only [Format.encodeOct24.headerFields, List.mem_cons, List.mem_singleton,
      forall_eq_or_imp, List.not_mem_nil, false_implies, forall_const, and_true] at hx
    obtain ⟨e1, e2, e3, e4, e5, e6, e7, e8, e9, e10, e11⟩ := hx
    rw [List.append_assoc]
    simp only [List.append_assoc]
    rw [decodeOct24_header F _ count _ _ _ _ _ _ _ _ _ _ _ _ hcount (by simp)
      (lt_trans hlen (by norm_num)), e1, e2, e3, e4, e5, e6, e7, e8, e9, e10, e11]
    rw [htrace]
    exact hd [0, 0] [0, 0, 0] [0, 0, 0, 0, 0, 0, 0, 0] rfl rfl rfl
  · rw [htrace, hl]

/-! ## IEEE-754 binary32 holds 0 and 1 exactly -/

theorem binary32_round_zero : binary32.round 0 = 0 := by
  simp [Float32.round, binary32, binary32Bits, binary32Value]

theorem binary32_round_one : binary32.round 1 = 1 := by
  have h1 : Nat.log2 1 = 0 := by simp [Nat.log2]
  have hexp : binary32Exponent 1 = 0 := by
    simp only [binary32Exponent, Rat.num_one, Rat.den_one, Int.natAbs_one, h1]
    norm_num
  have e1 : roundHalfEven (8388608 : ℚ) = 8388608 := by
    norm_num [roundHalfEven]
  have hb : binary32Bits 1 = 1065353216 := by
    have h2 : (1 : ℚ) / 2 ^ ((0 : ℤ) - 23) = 8388608 := by norm_num
    have h3 : Int.toNat 126 = 126 := rfl
    simp only [binary32Bits, abs_one, hexp]
    norm_num [e1, h3]
    decide
  simp only [Float32.round, binary32, hb]
  norm_num [binary32Value]

/-! ## Oct24: drift of the reconstructed times -/

/-- The decoded value of the scalar quantizer is the centre of a cell: it keeps a
margin of half a cell from both ends of the range. -/
theorem bst_decoded_margin (v start duration : ℚ) (out : List Nat) (hd : 0 ≤ duration) :
    start + duration / 2 ^ (8 * out.length + 1)
      ≤ bytesToFloatBST start duration (floatBSTToBytes v start duration out) ∧
    bytesToFloatBST start duration (floatBSTToBytes v start duration out)
      ≤ start + duration - duration / 2 ^ (8 * out.length + 1) := by
  rw [bytesToFloatBST_floatBSTToBytes]
  obtain ⟨h1, h2, h3, _, _⟩ := bstWalk_bounds v start (start + duration) (8 * out.length)
    (start + duration / 2) (duration / 4) (by linarith) (by linarith) (by linarith)
    (by
      have : start ≤ max start (min v (start + duration)) := le_max_left _ _
      linarith)
    (by
      have : max start (min v (start + duration)) ≤ start + duration :=
        max_le (by linarith) (min_le_right _ _)
      linarith)
  have hinc : 2 * (bstWalk v (8 * out.length) (start + duration / 2) (duration / 4)).2
      = duration / 2 ^ (8 * out.length + 1) := by
    rw [h1, pow_succ]; field_simp; ring
  constructor <;> linarith

theorem encodeOct24_loop_cons (M : ℚ) (mn mx : Vector3) (first : Bool) (c : PositionCapture)
    (cs : List PositionCapture) (st : Format.Drift) (bytes : List Nat)
    (trace : List Format.Drift)
    (h : Format.encodeOct24.loop M mn mx first (c :: cs) st = .ok (bytes, trace)) :
    ∃ d bytes1 trace1, trace = d :: trace1 ∧
      d.totalledQuantizedDuration = st.totalledQuantizedDuration
        + bytesToFloatBST 0 M (floatBSTToBytes (c.time - st.totalledQuantizedDuration) 0 M [0, 0]) ∧
      Format.encodeOct24.loop M mn mx false cs d = .ok (bytes1, trace1) := by
  simp only [Format.encodeOct24.loop] at h
  cases hs : Format.encodeOct24.step M mn mx first c st with
  | error e => rw [hs] at h; simp [Res.bind] at h
  | panic => rw [hs] at h; simp [Res.bind] at h
  | ok r1 =>
    rw [hs] at h
    simp only [Res.bind] at h
    cases hl : Format.encodeOct24.loop M mn mx false cs r1.2 with
    | error e => rw [hl] at h; simp at h
    | panic => rw [hl] at h; simp at h
    | ok r2 =>
      rw [hl] at h
      simp only [Res.ok.injEq, Prod.mk.injEq] at h
      refine ⟨r1.2, r2.1, r2.2, h.2.symm, ?_, hl⟩
      unfold Format.encodeOct24.step at hs
      cases first with
      | true =>
        simp only [if_true, Res.ok.injEq] at hs
        rw [← hs]
      | false =>
        simp only [Bool.false_eq_true, if_false] at hs
        split at hs
        · simp at hs
        · simp only [Res.ok.injEq] at hs
          rw [← hs]

/-- One step of the drift: the new error is at most the old one plus half a cell. -/
theorem drift_step (M T tp t : ℚ) (hM : 0 ≤ M) (h0 : 0 ≤ t - tp) (h1 : t - tp ≤ M) :
    |T + bytesToFloatBST 0 M (floatBSTToBytes (t - T) 0 M [0, 0]) - t|
      ≤ |T - tp| + M / 2 ^ 17 := by
  have hq := (bst_decoded_bounds (t - T) 0 M [0, 0] hM).2.2
  simp only [List.length_cons, List.length_nil, zero_add] at hq
  norm_num at hq
  have hq' := abs_le.mp hq
  have he := abs_le.mp (le_refl |T - tp|)
  rw [abs_le]
  have hcl : |max 0 (min (t - T) M) - (t - T)| ≤ |T - tp| := by
    rw [abs_le]
    rcases le_total (t - T) M with h | h
    · rw [min_eq_left h]
      rcases le_total 0 (t - T) with h' | h'
      · rw [max_eq_right h']; constructor <;> linarith [abs_nonneg (T - tp)]
      · rw [max_eq_left h']; constructor <;> linarith [abs_nonneg (T - tp)]
    · rw [min_eq_right h, max_eq_right hM]
      constructor <;> linarith [abs_nonneg (T - tp)]
  have hcl' := abs_le.mp hcl
  norm_num
  constructor <;> linarith

theorem loop_time_error (M : ℚ) (mn mx : Vector3) (hM : 0 ≤ M) (cs : List PositionCapture) :
    ∀ (first : Bool) (st : Format.Drift) (tp : ℚ) (m : ℕ) (bytes : List Nat)
      (tr : List Format.Drift),
    Format.encodeOct24.loop M mn mx first cs st = .ok (bytes, tr) →
    List.Chain (fun a b : ℚ => 0 ≤ b - a ∧ b - a ≤ M) tp (cs.map (·.time)) →
    |st.totalledQuantizedDuration - tp| ≤ m * (M / 2 ^ 17) →
    ∀ (i : ℕ) (d : Format.Drift) (c : PositionCapture), tr[i]? = some d → cs[i]? = some c →
      |d.totalledQuantizedDuration - c.time| ≤ (m + i + 1 : ℕ) * (M / 2 ^ 17) := by
  induction cs with
  | nil => intro _ _ _ _ _ _ _ _ _ i d c _ h2; simp at h2
  | cons c0 cs ih =>
    intro first st tp m bytes tr he hchain herr i d c h1 h2
    obtain ⟨d0, bytes1, trace1, rfl, hd, hl⟩ :=
      encodeOct24_loop_cons M mn mx first c0 cs st bytes tr he
    simp only [List.map_cons, List.chain_cons] at hchain
    have hstep := drift_step M st.totalledQuantizedDuration tp c0.time hM hchain.1.1 hchain.1.2
    rw [← hd] at hstep
    have hd' : |d0.totalledQuantizedDuration - c0.time| ≤ ((m + 1 : ℕ) : ℚ) * (M / 2 ^ 17) := by
      push_cast
      linarith
    cases i with
    | zero =>
      simp only [List.getElem?_cons_zero, Option.some.injEq] at h1 h2
      subst h1 h2
      simpa using hd'
    | succ i =>
      simp only [List.getElem?_cons_succ] at h1 h2
      have := ih false d0 c0.time (m + 1) bytes1 trace1 hl hchain.2 hd' i d c h1 h2
      rw [show m + (i + 1) + 1 = m + 1 + i + 1 by ring]
      exact this

theorem chain_of_sorted (M : ℚ) (cs : List PositionCapture) : ∀ (p : PositionCapture),
    List.Chain' (fun a b : PositionCapture => a.time ≤ b.time) (p :: cs) →
    (∀ d ∈ timeDeltas (p :: cs), d ≤ M) →
    List.Chain (fun a b : ℚ => 0 ≤ b - a ∧ b - a ≤ M) p.time (cs.map (·.time)) := by
  induction cs with
  | nil => intro p _ _; exact List.Chain.nil
  | cons c cs ih =>
    intro p hsorted hM
    simp only [List.chain'_cons] at hsorted
    simp only [timeDeltas, List.mem_cons, forall_eq_or_imp] at hM
    simp only [List.map_cons, List.chain_cons]
    exact ⟨⟨by linarith [hsorted.1], hM.1⟩, ih c hsorted.2 hM.2⟩

theorem sorted_first_le (cs : List PositionCapture) : ∀ (p : PositionCapture),
    List.Chain' (fun a b : PositionCapture => a.time ≤ b.time) (p :: cs) →
    ∀ c ∈ cs, p.time ≤ c.time := by
  induction cs with
  | nil => intro p _ c hc; simp at hc
  | cons c0 cs ih =>
    intro p h c hc
    simp only [List.chain'_cons] at h
    rcases List.mem_cons.mp hc with rfl | hmem
    · exact h.1
    · exact le_trans h.1 (ih c0 h.2 c hmem)

theorem maxTimeDelta_nonneg (c0 c1 : PositionCapture) (rest : List PositionCapture)
    (h : List.Chain' (fun a b : PositionCapture => a.time ≤ b.time) (c0 :: c1 :: rest)) :
    0 ≤ maxTimeDelta (c0 :: c1 :: rest) := by
  have h1 := timeDelta_le_max (c0 :: c1 :: rest) (c1.time - c0.time) (by simp [timeDeltas])
  simp only [List.chain'_cons] at h
  linarith [h.1]

/-- Time drift of Oct24 on the encoder's trace. -/
theorem oct24_trace_time_error (F : Float32) (c0 c1 : PositionCapture)
    (rest : List PositionCapture)
    (hsorted : List.Chain' (fun a b : PositionCapture => a.time ≤ b.time) (c0 :: c1 :: rest)) :
    ∀ (i : ℕ) (d : Format.Drift) (c : PositionCapture),
      (Format.encodeOct24.trace F (c0 :: c1 :: rest))[i]? = some d →
      (c0 :: c1 :: rest)[i]? = some c →
      |d.totalledQuantizedDuration - c.time|
        ≤ (i + 1 : ℕ) * (maxTimeDelta (c0 :: c1 :: rest) / 2 ^ 17) := by
  have hfirst := sorted_first_le (c1 :: rest) c0 hsorted
  have hstart := bounds_startingTime c0 (c1 :: rest) hfirst
  have hmax := bounds_maxTimeDifference c0 c1 rest
  have hM := maxTimeDelta_nonneg c0 c1 rest hsorted
  obtain ⟨bytes, tr, hl, _, _, _⟩ := oct24_loop_lockstep (maxTimeDelta (c0 :: c1 :: rest))
    ⟨(Format.encodeOct24.bounds (c0 :: c1 :: rest)).minX.getD 0,
      (Format.encodeOct24.bounds (c0 :: c1 :: rest)).minY.getD 0,
      (Format.encodeOct24.bounds (c0 :: c1 :: rest)).minZ.getD 0⟩
    ⟨(Format.encodeOct24.bounds (c0 :: c1 :: rest)).maxX.getD 0,
      (Format.encodeOct24.bounds (c0 :: c1 :: rest)).maxY.getD 0,
      (Format.encodeOct24.bounds (c0 :: c1 :: rest)).maxZ.getD 0⟩
    (c0 :: c1 :: rest) true ⟨c0.time, c0.position⟩
  have htrace : Format.encodeOct24.trace F (c0 :: c1 :: rest) = tr := by
    simp only [Format.encodeOct24.trace, Format.encodeOct24.many, hstart, hmax,
      Option.getD_some, hl, Res.bind]
  rw [htrace]
  intro i d c h1 h2
  have hchain : List.Chain (fun a b : ℚ => 0 ≤ b - a ∧ b - a ≤ maxTimeDelta (c0 :: c1 :: rest))
      c0.time ((c0 :: c1 :: rest).map (·.time)) := by
    rw [List.map_cons, List.chain_cons]
    refine ⟨⟨by linarith, by linarith⟩, ?_⟩
    exact chain_of_sorted (maxTimeDelta (c0 :: c1 :: rest)) (c1 :: rest) c0 hsorted
      (timeDelta_le_max _)
  have := loop_time_error _ _ _ hM (c0 :: c1 :: rest) true ⟨c0.time, c0.position⟩ c0.time 0
    bytes tr hl hchain (by simp) i d c h1 h2
  simpa using this

/-! ## Oct24: decoding what was encoded -/

theorem repeatedTimeCaptures_exact :
    ∀ x ∈ Format.encodeOct24.headerFields repeatedTimeCaptures, binary32.round x = x := by
  have h : Format.encodeOct24.headerFields repeatedTimeCaptures
      = [0, 1, 0, 0, 0, 0, 0, 0, 0, 0, 0] := by
    norm_num [Format.encodeOct24.headerFields, repeatedTimeCaptures, Format.encodeOct24.bounds,
      Format.encodeOct24.boundsLoop, lowerTo, raiseTo, Vector3.Sub]
  rw [h]
  intro x hx
  simp only [List.mem_cons, List.mem_singleton, List.not_mem_nil, or_false] at hx
  rcases hx with rfl | rfl | rfl | rfl | rfl | rfl | rfl | rfl | rfl | rfl | rfl <;>
    first | exact binary32_round_zero | exact binary32_round_one

theorem unitStepCaptures_exact :
    ∀ x ∈ Format.encodeOct24.headerFields unitStepCaptures, binary32.round x = x := by
  have h : Format.encodeOct24.headerFields unitStepCaptures
      = [0, 1, 1, 1, 1, 1, 1, 1, 0, 0, 0] := by
    norm_num [Format.encodeOct24.headerFields, unitStepCaptures, Format.encodeOct24.bounds,
      Format.encodeOct24.boundsLoop, lowerTo, raiseTo, Vector3.Sub]
  rw [h]
  intro x hx
  simp only [List.mem_cons, List.mem_singleton, List.not_mem_nil, or_false] at hx
  rcases hx with rfl | rfl | rfl | rfl | rfl | rfl | rfl | rfl | rfl | rfl | rfl <;>
    first | exact binary32_round_zero | exact binary32_round_one

theorem two_le_length_cases (captures : List PositionCapture) (hn : 2 ≤ captures.length) :
    ∃ c0 c1 rest, captures = c0 :: c1 :: rest := by
  match captures, hn with
  | c0 :: c1 :: rest, _ => exact ⟨c0, c1, rest, rfl⟩

/-- C5. Oct24 drift correction keeps encoder and decoder in lock-step: for a stream
of `n ≥ 2` captures (a Go slice, so fewer than `2^56`) whose first capture has the
earliest time, and with the `float32` header fields exact, `decodeOct24` applied to
the output of `encodeOct24` returns exactly `n` captures, and at every index the
decoded time is the encoder's `totalledQuantizedDuration` after that step and the
decoded position its `quantizedPosition` after that step. -/
theorem oct24_drift_lockstep (F : Float32) (captures : List PositionCapture)
    (hn : 2 ≤ captures.length) (hlen : captures.length < 2 ^ 56)
    (hfirst : ∀ c0 ∈ captures.head?, ∀ c ∈ captures, c0.time ≤ c.time)
    (hexact : ∀ x ∈ Format.encodeOct24.headerFields captures, F.round x = x) :
    ∃ bytes decoded, Format.encodeOct24 F captures = .ok bytes ∧
      Format.decodeOct24 F bytes = .ok decoded ∧
      decoded.length = captures.length ∧
      (Format.encodeOct24.trace F captures).length = captures.length ∧
      ∀ (i : ℕ) (d : PositionCapture) (s : Format.Drift), decoded[i]? = some d →
        (Format.encodeOct24.trace F captures)[i]? = some s →
        d.time = s.totalledQuantizedDuration ∧ d.position = s.quantizedPosition := by
  obtain ⟨c0, c1, rest, rfl⟩ := two_le_length_cases captures hn
  have hf : ∀ c ∈ c1 :: rest, c0.time ≤ c.time := fun c hc =>
    hfirst c0 (by simp) c (List.mem_cons_of_mem _ hc)
  obtain ⟨bytes, henc, hdec, hl⟩ := oct24_decode_encode F c0 c1 rest hlen hf hexact
  refine ⟨bytes, _, henc, hdec, by rw [List.length_map, hl], hl, ?_⟩
  intro i d s hd hs
  rw [List.getElem?_map, hs] at hd
  simp only [Option.map_some', Option.some.injEq] at hd
  subst hd
  exact ⟨rfl, rfl⟩

theorem oct24_drift_lockstep_witness :
    2 ≤ unitStepCaptures.length ∧ unitStepCaptures.length < 2 ^ 56 ∧
    (∀ c0 ∈ unitStepCaptures.head?, ∀ c ∈ unitStepCaptures, c0.time ≤ c.time) ∧
    (∀ x ∈ Format.encodeOct24.headerFields unitStepCaptures, binary32.round x = x) ∧
    ∃ bytes decoded, Format.encodeOct24 binary32 unitStepCaptures = .ok bytes ∧
      Format.decodeOct24 binary32 bytes = .ok decoded ∧
      decoded.length = unitStepCaptures.length ∧
      (Format.encodeOct24.trace binary32 unitStepCaptures).length = unitStepCaptures.length ∧
      ∀ (i : ℕ) (d : PositionCapture) (s : Format.Drift), decoded[i]? = some d →
        (Format.encodeOct24.trace binary32 unitStepCaptures)[i]? = some s →
        d.time = s.totalledQuantizedDuration ∧ d.position = s.quantizedPosition :=
  have h1 : 2 ≤ unitStepCaptures.length := by simp [unitStepCaptures]
  have h2 : unitStepCaptures.length < 2 ^ 56 := by simp [unitStepCaptures]
  have h3 : ∀ c0 ∈ unitStepCaptures.head?, ∀ c ∈ unitStepCaptures, c0.time ≤ c.time := by
    simp [unitStepCaptures]
  ⟨h1, h2, h3, unitStepCaptures_exact,
    oct24_drift_lockstep binary32 unitStepCaptures h1 h2 h3 unitStepCaptures_exact⟩

/-- C4, amended. Oct24 time accuracy: for a stream of at least two captures (a Go
slice, so fewer than `2^56`) with nondecreasing times, and with the `float32` header
fields exact, capture `i` returned by `decodeOct24` on the output of `encodeOct24`
has `|decoded time_i - original time_i| ≤ (i + 1) * maxTimeDelta / 2^17`, where
`maxTimeDelta` is the largest difference between consecutive times. -/
theorem oct24_time_drift_bound (F : Float32) (captures : List PositionCapture)
    (hn : 2 ≤ captures.length) (hlen : captures.length < 2 ^ 56)
    (hsorted : List.Chain' (fun a b : PositionCapture => a.time ≤ b.time) captures)
    (hexact : ∀ x ∈ Format.encodeOct24.headerFields captures, F.round x = x) :
    ∃ bytes decoded, Format.encodeOct24 F captures = .ok bytes ∧
      Format.decodeOct24 F bytes = .ok decoded ∧
      decoded.length = captures.length ∧
      ∀ (i : ℕ) (d c : PositionCapture), decoded[i]? = some d → captures[i]? = some c →
        |d.time - c.time| ≤ (i + 1 : ℕ) * (maxTimeDelta captures / 2 ^ 17) := by
  obtain ⟨c0, c1, rest, rfl⟩ := two_le_length_cases captures hn
  have hf := sorted_first_le (c1 :: rest) c0 hsorted
  obtain ⟨bytes, henc, hdec, hl⟩ := oct24_decode_encode F c0 c1 rest hlen hf hexact
  refine ⟨bytes, _, henc, hdec, by rw [List.length_map, hl], ?_⟩
  intro i d c hd hc
  rw [List.getElem?_map] at hd
  cases hs : (Format.encodeOct24.trace F (c0 :: c1 :: rest))[i]? with
  | none => rw [hs] at hd; simp at hd
  | some s =>
    rw [hs] at hd
    simp only [Option.map_some', Option.some.injEq] at hd
    subst hd
    exact oct24_trace_time_error F c0 c1 rest hsorted i s c hs hc

theorem oct24_time_drift_bound_witness :
    2 ≤ unitStepCaptures.length ∧ unitStepCaptures.length < 2 ^ 56 ∧
    List.Chain' (fun a b : PositionCapture => a.time ≤ b.time) unitStepCaptures ∧
    (∀ x ∈ Format.encodeOct24.headerFields unitStepCaptures, binary32.round x = x) ∧
    ∃ bytes decoded, Format.encodeOct24 binary32 unitStepCaptures = .ok bytes ∧
      Format.decodeOct24 binary32 bytes = .ok decoded ∧
      decoded.length = unitStepCaptures.length ∧
      ∀ (i : ℕ) (d c : PositionCapture), decoded[i]? = some d → unitStepCaptures[i]? = some c →
        |d.time - c.time| ≤ (i + 1 : ℕ) * (maxTimeDelta unitStepCaptures / 2 ^ 17) :=
  have h1 : 2 ≤ unitStepCaptures.length := by simp [unitStepCaptures]
  have h2 : unitStepCaptures.length < 2 ^ 56 := by simp [unitStepCaptures]
  have h3 : List.Chain' (fun a b : PositionCapture => a.time ≤ b.time) unitStepCaptures := by
    simp [unitStepCaptures]
  ⟨h1, h2, h3, unitStepCaptures_exact,
    oct24_time_drift_bound binary32 unitStepCaptures h1 h2 h3 unitStepCaptures_exact⟩

/-- C4 fails as stated: on the captures at times 0, 0, 1 (nondecreasing, header
fields exact in binary32) the second decoded time is off by more than
`maxTimeDelta / 2^17`. -/
theorem oct24_time_accuracy_counterexample :
    2 ≤ repeatedTimeCaptures.length ∧
    List.Chain' (fun a b : PositionCapture => a.time ≤ b.time) repeatedTimeCaptures ∧
    (∀ x ∈ Format.encodeOct24.headerFields repeatedTimeCaptures, binary32.round x = x) ∧
    ∃ bytes decoded d c, Format.encodeOct24 binary32 repeatedTimeCaptures = .ok bytes ∧
      Format.decodeOct24 binary32 bytes = .ok decoded ∧
      decoded[1]? = some d ∧ repeatedTimeCaptures[1]? = some c ∧
      ¬ (|d.time - c.time| ≤ maxTimeDelta repeatedTimeCaptures / 2 ^ 17) := by
  have hM : maxTimeDelta repeatedTimeCaptures = 1 := by
    norm_num [maxTimeDelta, repeatedTimeCaptures, timeDeltas]
  refine ⟨by simp [repeatedTimeCaptures], by simp [repeatedTimeCaptures],
    repeatedTimeCaptures_exact, ?_⟩
  have hex := repeatedTimeCaptures_exact
  unfold repeatedTimeCaptures at hex hM ⊢
  obtain ⟨bytes, henc, hdec, hl⟩ := oct24_decode_encode binary32 ⟨0, ⟨0, 0, 0⟩⟩ ⟨0, ⟨0, 0, 0⟩⟩
    [⟨1, ⟨0, 0, 0⟩⟩] (by simp) (by simp) hex
  -- the trace of the encoder
  have hmax := bounds_maxTimeDifference ⟨0, ⟨0, 0, 0⟩⟩ ⟨0, ⟨0, 0, 0⟩⟩ [⟨1, ⟨0, 0, 0⟩⟩]
  have hstart := bounds_startingTime ⟨0, ⟨0, 0, 0⟩⟩ [⟨0, ⟨0, 0, 0⟩⟩, ⟨1, ⟨0, 0, 0⟩⟩] (by simp)
  rw [hM] at hmax
  obtain ⟨lb, tr, hloop, _, _, _⟩ := oct24_loop_lockstep 1
    ⟨(Format.encodeOct24.bounds [⟨0, ⟨0, 0, 0⟩⟩, ⟨0, ⟨0, 0, 0⟩⟩, ⟨1, ⟨0, 0, 0⟩⟩]).minX.getD 0,
      (Format.encodeOct24.bounds [⟨0, ⟨0, 0, 0⟩⟩, ⟨0, ⟨0, 0, 0⟩⟩, ⟨1, ⟨0, 0, 0⟩⟩]).minY.getD 0,
      (Format.encodeOct24.bounds [⟨0, ⟨0, 0, 0⟩⟩, ⟨0, ⟨0, 0, 0⟩⟩, ⟨1, ⟨0, 0, 0⟩⟩]).minZ.getD 0⟩
    ⟨(Format.encodeOct24.bounds [⟨0, ⟨0, 0, 0⟩⟩, ⟨0, ⟨0, 0, 0⟩⟩, ⟨1, ⟨0, 0, 0⟩⟩]).maxX.getD 0,
      (Format.encodeOct24.bounds [⟨0, ⟨0, 0, 0⟩⟩, ⟨0, ⟨0, 0, 0⟩⟩, ⟨1, ⟨0, 0, 0⟩⟩]).maxY.getD 0,
      (Format.encodeOct24.bounds [⟨0, ⟨0, 0, 0⟩⟩, ⟨0, ⟨0, 0, 0⟩⟩, ⟨1, ⟨0, 0, 0⟩⟩]).maxZ.getD 0⟩
    [⟨0, ⟨0, 0, 0⟩⟩, ⟨0, ⟨0, 0, 0⟩⟩, ⟨1, ⟨0, 0, 0⟩⟩] true ⟨0, ⟨0, 0, 0⟩⟩
  have htrace : Format.encodeOct24.trace binary32
      [⟨0, ⟨0, 0, 0⟩⟩, ⟨0, ⟨0, 0, 0⟩⟩, ⟨1, ⟨0, 0, 0⟩⟩] = tr := by
    simp only [Format.encodeOct24.trace, Format.encodeOct24.many, hstart, hmax,
      Option.getD_some, hloop, Res.bind]
  obtain ⟨d0, b1, tr1, rfl, hd0, hloop1⟩ := encodeOct24_loop_cons _ _ _ _ _ _ _ _ _ hloop
  obtain ⟨d1, b2, tr2, rfl, hd1, _⟩ := encodeOct24_loop_cons _ _ _ _ _ _ _ _ _ hloop1
  have m0 := (bst_decoded_margin ((0 : ℚ) - 0) 0 1 [0, 0] (by norm_num)).1
  have m1 := (bst_decoded_margin ((0 : ℚ) - d0.totalledQuantizedDuration) 0 1 [0, 0]
    (by norm_num)).1
  have e : (0 : ℚ) + 1 / 2 ^ (8 * [0, 0].length + 1) = 1 / 131072 := by norm_num
  rw [e] at m0 m1
  refine ⟨bytes, _, ⟨d1.totalledQuantizedDuration, d1.quantizedPosition⟩, ⟨0, ⟨0, 0, 0⟩⟩,
    henc, hdec, ?_, rfl, ?_⟩
  · rw [htrace]; simp
  · rw [hM]
    simp only at hd0 hd1
    rw [not_le]
    have h0 : (1 : ℚ) / 131072 ≤ d0.totalledQuantizedDuration := by rw [hd0]; linarith
    have h1 : (2 : ℚ) / 131072 ≤ d1.totalledQuantizedDuration := by rw [hd1]; linarith
    have : |d1.totalledQuantizedDuration - 0| = d1.totalledQuantizedDuration := by
      rw [sub_zero, abs_of_nonneg]; linarith
    rw [this]
    norm_num
    linarith

/-! ## Strings and arrays of `internal/io/binary` -/

theorem ReadString_StringToBytes (s : GoString) (rest : List Nat) (hs : s.length < 2 ^ 64) :
    ReadString (StringToBytes s ++ rest) = (.ok s, rest) := by
  unfold ReadString StringToBytes
  rw [List.append_assoc, ReadUvarint_uvarintBytes _ _ hs]
  simp

theorem ReadStringArray_loop_flatten (a : List GoString) (rest : List Nat)
    (ha : ∀ s ∈ a, s.length < 2 ^ 64) :
    ReadStringArray.loop a.length ((a.map StringToBytes).flatten ++ rest) = (.ok a, rest) := by
  induction a with
  | nil => simp [ReadStringArray.loop]
  | cons s a ih =>
    simp only [List.length_cons, List.map_cons, List.flatten_cons, List.append_assoc,
      ReadStringArray.loop]
    rw [ReadString_StringToBytes _ _ (ha s (by simp))]
    simp only
    rw [ih (fun s' hs' => ha s' (by simp [hs']))]

theorem ReadStringArray_StringArrayToBytes (a : List GoString) (rest : List Nat)
    (hlen : a.length < 2 ^ 64) (ha : ∀ s ∈ a, s.length < 2 ^ 64) :
    ReadStringArray (StringArrayToBytes a ++ rest) = (.ok a, rest) := by
  unfold ReadStringArray StringArrayToBytes
  rw [List.append_assoc, ReadUvarint_uvarintBytes _ _ hlen]
  exact ReadStringArray_loop_flatten a rest ha

theorem ReadUintArray_loop_flatten (a : List Nat) (rest : List Nat)
    (ha : ∀ x ∈ a, x < 2 ^ 64) :
    ReadUintArray.loop a.length ((a.map uvarintBytes).flatten ++ rest) = (.ok a, rest) := by
  induction a with
  | nil => simp [ReadUintArray.loop]
  | cons x a ih =>
    simp only [List.length_cons, List.map_cons, List.flatten_cons, List.append_assoc,
      ReadUintArray.loop]
    rw [ReadUvarint_uvarintBytes _ _ (ha x (by simp))]
    simp only
    rw [ih (fun x' hx' => ha x' (by simp [hx']))]

theorem ReadUintArray_UintArrayToBytes (a : List Nat) (rest : List Nat)
    (hlen : a.length < 2 ^ 64) (ha : ∀ x ∈ a, x < 2 ^ 64) :
    ReadUintArray (UintArrayToBytes a ++ rest) = (.ok a, rest) := by
  unfold ReadUintArray UintArrayToBytes
  rw [List.append_assoc, ReadUvarint_uvarintBytes _ _ hlen]
  exact ReadUintArray_loop_flatten a rest ha

theorem readHeader_header (names keys : List GoString)
    (hn : names.length < 2 ^ 64) (hns : ∀ s ∈ names, s.length < 2 ^ 64)
    (hk : keys.length < 2 ^ 64) (hks : ∀ s ∈ keys, s.length < 2 ^ 64) :
    readHeader (StringArrayToBytes names ++ StringArrayToBytes keys) = (names, keys, none) := by
  unfold readHeader
  simp only [ReadStringArray_StringArrayToBytes names _ hn hns]
  have := ReadStringArray_StringArrayToBytes keys [] hk hks
  rw [List.append_nil] at this
  rw [this]
  rfl

/-! ## The dictionaries of the event encoder -/

theorem lookup_eq_none_iff_not_mem (d : Dict) (k : GoString) :
    d.lookup k = none ↔ k ∉ keysOf d := by
  induction d with
  | nil => simp [keysOf]
  | cons e d ih =>
    obtain ⟨k1, i1⟩ := e
    simp only [List.lookup_cons, keysOf, List.map_cons, List.mem_cons, not_or]
    by_cases h : k = k1
    · subst h; simp
    · have : (k == k1) = false := by simpa using h
      simp only [this, h, not_false_eq_true, true_and]
      exact ih

theorem lookup_range' (d : Dict) (k : GoString) : ∀ (s i : Nat),
    d.map Prod.snd = List.range' s d.length → d.lookup k = some i →
    ∃ j, i = s + j ∧ (keysOf d)[j]? = some k := by
  induction d with
  | nil => intro s i _ h; simp at h
  | cons e d ih =>
    obtain ⟨k1, i1⟩ := e
    intro s i hr h
    simp only [List.map_cons, List.length_cons, List.range'_succ, List.cons.injEq] at hr
    simp only [List.lookup_cons] at h
    by_cases hk : k = k1
    · subst hk
      simp only [beq_self_eq_true, Option.some.injEq] at h
      exact ⟨0, by omega, by simp [keysOf]⟩
    · have hb : (k == k1) = false := by simpa using hk
      simp only [hb] at h
      obtain ⟨j, hj, hget⟩ := ih (s + 1) i hr.2 h
      exact ⟨j + 1, by omega, by simpa [keysOf] using hget⟩

theorem lookup_append_new (d : Dict) (k : GoString) (n : Nat) (h : d.lookup k = none) :
    (d ++ [(k, n)]).lookup k = some n := by
  induction d with
  | nil => simp [List.lookup_cons]
  | cons e d ih =>
    obtain ⟨k1, i1⟩ := e
    simp only [List.lookup_cons] at h
    simp only [List.cons_append, List.lookup_cons]
    by_cases hk : k = k1
    · subst hk; simp at h
    · have hb : (k == k1) = false := by simpa using hk
      simp only [hb] at h ⊢
      exact ih h

theorem DictOk_nil : DictOk [] := by
  simp [DictOk, keysOf]

theorem setIfAbsent_cases (d : Dict) (k : GoString) :
    (k ∈ keysOf d ∧ setIfAbsent d k = d) ∨
    (k ∉ keysOf d ∧ setIfAbsent d k = d ++ [(k, d.length)]) := by
  unfold setIfAbsent
  cases h : d.lookup k with
  | none => right; exact ⟨(lookup_eq_none_iff_not_mem d k).mp h, rfl⟩
  | some i =>
    left
    refine ⟨?_, rfl⟩
    by_contra hc
    rw [(lookup_eq_none_iff_not_mem d k).mpr hc] at h
    simp at h

theorem DictOk_setIfAbsent (d : Dict) (k : GoString) (h : DictOk d) :
    DictOk (setIfAbsent d k) := by
  rcases setIfAbsent_cases d k with ⟨_, he⟩ | ⟨hn, he⟩
  · rw [he]; exact h
  · rw [he]
    constructor
    · simp only [List.map_append, h.1, List.map_cons, List.map_nil, List.length_append,
        List.length_singleton, List.range_succ]
    · simp only [keysOf, List.map_append, List.map_cons, List.map_nil]
      rw [List.nodup_append]
      refine ⟨h.2, List.nodup_singleton _, ?_⟩
      intro a ha hb
      simp only [List.mem_singleton] at hb
      subst hb
      exact hn ha

theorem keysOf_le_setIfAbsent (d : Dict) (k : GoString) :
    keysOf d <+: keysOf (setIfAbsent d k) := by
  rcases setIfAbsent_cases d k with ⟨_, he⟩ | ⟨_, he⟩
  · rw [he]
  · rw [he]; simp [keysOf]

theorem mem_keysOf_setIfAbsent (d : Dict) (k : GoString) : k ∈ keysOf (setIfAbsent d k) := by
  rcases setIfAbsent_cases d k with ⟨hm, he⟩ | ⟨_, he⟩
  · rw [he]; exact hm
  · rw [he]; simp [keysOf]

/-- The index recorded for a key that has just been looked up or inserted is its
position in the dictionary. -/
theorem index_setIfAbsent (d : Dict) (k : GoString) (h : DictOk d) :
    (keysOf (setIfAbsent d k))[(setIfAbsent d k).index k]? = some k ∧
    (setIfAbsent d k).index k < (setIfAbsent d k).length := by
  have hok := DictOk_setIfAbsent d k h
  have hmem := mem_keysOf_setIfAbsent d k
  cases hl : (setIfAbsent d k).lookup k with
  | none => exact absurd hmem ((lookup_eq_none_iff_not_mem _ _).mp hl)
  | some i =>
    have hr : (setIfAbsent d k).map Prod.snd = List.range' 0 (setIfAbsent d k).length := by
      rw [hok.1, List.range_eq_range']
    obtain ⟨j, hj, hget⟩ := lookup_range' _ k 0 i hr hl
    have hij : i = j := by omega
    subst hij
    simp only [Dict.index, hl, Option.getD_some]
    refine ⟨hget, ?_⟩
    have := (List.getElem?_eq_some_iff.mp hget).1
    simpa [keysOf] using this

/-- The index written for a key equals the size of the dictionary before when the
key is new. -/
theorem index_setIfAbsent_new (d : Dict) (k : GoString) (hn : k ∉ keysOf d) :
    (setIfAbsent d k).index k = d.length ∧ (setIfAbsent d k).length = d.length + 1 := by
  have hl := (lookup_eq_none_iff_not_mem d k).mpr hn
  have he : setIfAbsent d k = d ++ [(k, d.length)] := by
    unfold setIfAbsent; rw [hl]
  rw [he]
  simp [Dict.index, lookup_append_new d k d.length hl]

theorem take_succ_set (acc : List GoString) (s : Nat) (k : GoString) (h : s < acc.length) :
    (acc.set s k).take (s + 1) = acc.take s ++ [k] := by
  rw [List.take_succ, List.getElem?_set_self h]
  congr 1
  rw [List.set_eq_take_append_cons_drop, if_pos h]
  exact List.take_left' (by simp [List.length_take]; omega)

theorem foldl_set_range' (d2 : Dict) : ∀ (s : Nat) (acc : List GoString),
    d2.map Prod.snd = List.range' s d2.length → s + d2.length ≤ acc.length →
    d2.foldl (fun acc kv => acc.set kv.2 kv.1) acc
      = acc.take s ++ keysOf d2 ++ acc.drop (s + d2.length) := by
  induction d2 with
  | nil =>
    intro s acc _ _
    simp [keysOf]
  | cons e d2 ih =>
    obtain ⟨k1, i1⟩ := e
    intro s acc hr hlen
    simp only [List.map_cons, List.length_cons, List.range'_succ, List.cons.injEq] at hr
    simp only [List.length_cons] at hlen
    obtain ⟨hi, hr2⟩ := hr
    subst hi
    simp only [List.foldl_cons]
    rw [ih (i1 + 1) (acc.set i1 k1) hr2 (by rw [List.length_set]; omega)]
    rw [take_succ_set acc i1 k1 (by omega), List.drop_set_of_lt k1 acc (by omega)]
    simp only [keysOf, List.map_cons, List.length_cons, List.append_assoc, List.singleton_append]
    rw [show i1 + 1 + d2.length = i1 + (d2.length + 1) by omega]

theorem dictToArray_eq_keysOf (d : Dict) (h : DictOk d) : dictToArray d = keysOf d := by
  unfold dictToArray
  rw [foldl_set_range' d 0 _ (by rw [h.1, List.range_eq_range']) (by simp)]
  simp

/-! ## Event codec: metadata -/

theorem extend_getElem? {α : Type} (l1 l2 : List α) (h : l1 <+: l2) (i : Nat) (x : α)
    (hx : l1[i]? = some x) : l2[i]? = some x := by
  obtain ⟨t, rfl⟩ := h
  obtain ⟨hi, _⟩ := List.getElem?_eq_some_iff.mp hx
  rw [List.getElem?_append_left hi]
  exact hx

theorem encodeMetadata_spec (md : List (GoString × GoString)) : ∀ (keys : Dict), DictOk keys →
    DictOk (encodeMetadata keys md).1 ∧
    keysOf keys <+: keysOf (encodeMetadata keys md).1 ∧
    (encodeMetadata keys md).2.2 = md.map Prod.snd ∧
    (∀ k ∈ keysOf (encodeMetadata keys md).1, k ∈ keysOf keys ∨ k ∈ md.map Prod.fst) ∧
    (∀ k ∈ md.map Prod.fst, k ∈ keysOf (encodeMetadata keys md).1) ∧
    (∀ i ∈ (encodeMetadata keys md).2.1, i < (encodeMetadata keys md).1.length) ∧
    List.Forall₂ (fun i kv => (keysOf (encodeMetadata keys md).1)[i]? = some kv.1)
      (encodeMetadata keys md).2.1 md := by
  induction md with
  | nil =>
    intro keys h
    simp only [encodeMetadata, List.map_nil, List.not_mem_nil, false_implies, implies_true,
      List.Forall₂.nil, and_true, true_and]
    exact ⟨h, List.prefix_refl _, fun k hk => Or.inl hk⟩
  | cons kv md ih =>
    obtain ⟨k, v⟩ := kv
    intro keys h
    have h1 := DictOk_setIfAbsent keys k h
    obtain ⟨i1, i2, i3, i4, i5, i6, i7⟩ := ih (setIfAbsent keys k) h1
    have hp := keysOf_le_setIfAbsent keys k
    have hidx := index_setIfAbsent keys k h
    simp only [encodeMetadata, List.map_cons, List.mem_cons, forall_eq_or_imp]
    refine ⟨i1, hp.trans i2, by rw [i3], ?_, ⟨?_, i5⟩, ⟨?_, i6⟩, ?_⟩
    · intro k' hk'
      rcases i4 k' hk' with h' | h'
      · rcases setIfAbsent_cases keys k with ⟨_, he⟩ | ⟨_, he⟩
        · rw [he] at h'; exact Or.inl h'
        · rw [he] at h'
          simp only [keysOf, List.map_append, List.map_cons, List.map_nil, List.mem_append,
            List.mem_singleton] at h'
          rcases h' with h' | h'
          · exact Or.inl h'
          · exact Or.inr (Or.inl h')
      · exact Or.inr (Or.inr h')
    · exact i2.subset (mem_keysOf_setIfAbsent keys k)
    · have hlen : (setIfAbsent keys k).length ≤ (encodeMetadata (setIfAbsent keys k) md).1.length := by
        have := i2.length_le
        simpa [keysOf] using this
      omega
    · exact List.Forall₂.cons (extend_getElem? _ _ i2 _ _ hidx.1) i7

theorem encodeMetadata_length (md : List (GoString × GoString)) (keys : Dict) :
    (encodeMetadata keys md).2.1.length = md.length := by
  induction md generalizing keys with
  | nil => rfl
  | cons kv md ih =>
    obtain ⟨k, v⟩ := kv
    simp [encodeMetadata, ih]

theorem mapInsert_new (m : List (GoString × GoString)) (k v : GoString)
    (h : k ∉ m.map Prod.fst) : mapInsert m k v = m ++ [(k, v)] := by
  induction m with
  | nil => rfl
  | cons e m ih =>
    obtain ⟨k1, v1⟩ := e
    simp only [List.map_cons, List.mem_cons, not_or] at h
    have hne : ¬ k1 = k := fun hh => h.1 hh.symm
    simp only [mapInsert, hne, if_false, List.cons_append, ih h.2]

theorem rehydrate_spec (KEYS : List GoString) (md : List (GoString × GoString)) :
    ∀ (idxs : List Nat) (acc : List (GoString × GoString)),
    List.Forall₂ (fun i kv => KEYS[i]? = some kv.1) idxs md →
    (md.map Prod.fst).Nodup → (∀ k ∈ md.map Prod.fst, k ∉ acc.map Prod.fst) →
    rehydrate KEYS idxs (md.map Prod.snd) acc = some (acc ++ md) := by
  induction md with
  | nil =>
    intro idxs acc h _ _
    cases h
    simp [rehydrate]
  | cons kv md ih =>
    obtain ⟨k, v⟩ := kv
    intro idxs acc h hnd hdis
    cases h with
    | cons hi hrest =>
      rename_i i is
      simp only [List.map_cons, List.nodup_cons] at hnd
      simp only [List.map_cons, List.mem_cons, forall_eq_or_imp] at hdis
      simp only at hi
      simp only [rehydrate, List.map_cons, hi]
      rw [mapInsert_new acc k v hdis.1]
      rw [ih is (acc ++ [(k, v)]) hrest hnd.2 (by
        intro k' hk'
        simp only [List.map_append, List.map_cons, List.map_nil, List.mem_append,
          List.mem_singleton, not_or]
        refine ⟨hdis.2 k' hk', ?_⟩
        rintro rfl
        exact hnd.1 hk')]
      simp

/-! ## Event codec: captures -/

theorem PutUvarint_four_iff (x : Nat) : (∃ bs, PutUvarint 4 x = some bs) ↔ x < 2 ^ 28 := by
  constructor
  · rintro ⟨bs, h⟩
    by_contra hc
    rw [PutUvarint_none 4 x (by simpa using hc)] at h
    simp at h
  · intro h
    exact PutUvarint_isSome 3 x (by simpa using h)

theorem decodeTime_raw64 (cv : FloatConv) (t : Nat) (rest : List Nat) (ht : t < 2 ^ 64) :
    decodeTime cv 0 (leBytes 8 t ++ rest) = (t, rest) := by
  unfold decodeTime
  simp only [Raw64, if_true]
  rw [readFixed_leBytes]
  simp only
  rw [Nat.mod_eq_of_lt (by simpa using ht)]

/-- Inversion of `encodeCapture` on a normal return. -/
theorem encodeCapture_ok (cv : FloatConv) (technique : Nat) (st : Dict × Dict) (c : Capture)
    (r : (Dict × Dict) × List Nat) (h : encodeCapture cv technique st c = .ok r) :
    ∃ time name md nameIndex, c = .event time name md ∧
      PutUvarint 4 ((setIfAbsent st.1 name).index name % 2 ^ 64) = some nameIndex ∧
      r = ((setIfAbsent st.1 name, (encodeMetadata st.2 md).1),
        encodeTime cv technique time ++ nameIndex ++ UintArrayToBytes (encodeMetadata st.2 md).2.1
          ++ StringArrayToBytes (encodeMetadata st.2 md).2.2) := by
  cases c with
  | other t => simp [encodeCapture] at h
  | event time name md =>
    simp only [encodeCapture] at h
    split at h
    · simp at h
    · rename_i nameIndex hp
      simp only [Res.ok.injEq] at h
      exact ⟨time, name, md, nameIndex, rfl, hp, h.symm⟩

theorem forall₂_extend (l1 l2 : List GoString) (h : l1 <+: l2) (idxs : List Nat)
    (md : List (GoString × GoString))
    (hh : List.Forall₂ (fun i kv => l1[i]? = some kv.1) idxs md) :
    List.Forall₂ (fun i kv => l2[i]? = some kv.1) idxs md := by
  induction hh with
  | nil => exact List.Forall₂.nil
  | cons h1 _ ih => exact List.Forall₂.cons (extend_getElem? _ _ h _ _ h1) ih

/-- One capture written by `Encode` with technique `Raw64` is read back by one
iteration of the capture loop of `Decode`, under dictionaries that extend those the
encoder had after the capture. -/
theorem decodeCaptures_encodeCapture (cv : FloatConv) (st : Dict × Dict) (time : Nat)
    (name : GoString) (md : List (GoString × GoString)) (r : (Dict × Dict) × List Nat)
    (h : encodeCapture cv Raw64 st (.event time name md) = .ok r)
    (hok1 : DictOk st.1) (hok2 : DictOk st.2) (hwf : (Capture.event time name md).WellFormed)
    (NAMES KEYS : List GoString) (hN : keysOf r.1.1 <+: NAMES) (hK : keysOf r.1.2 <+: KEYS)
    (hNlen : NAMES.length ≤ 2 ^ 64) (hKlen : KEYS.length ≤ 2 ^ 64) (n : Nat) (rest : List Nat) :
    decodeCaptures cv NAMES KEYS 0 (n + 1) (r.2 ++ rest)
      = (decodeCaptures cv NAMES KEYS 0 n rest).map fun cs => ⟨time, name, md⟩ :: cs := by
  obtain ⟨time', name', md', nameIndex, hc, hp, rfl⟩ := encodeCapture_ok cv Raw64 st _ r h
  cases hc
  obtain ⟨ht, _, hmdlen, hnd, hkv⟩ := hwf
  have hidx := index_setIfAbsent st.1 name hok1
  have hNget := extend_getElem? _ _ hN _ _ hidx.1
  have hi64 : (setIfAbsent st.1 name).index name < 2 ^ 64 := by
    have := (List.getElem?_eq_some_iff.mp hNget).1
    omega
  rw [Nat.mod_eq_of_lt hi64] at hp
  have hi28 : (setIfAbsent st.1 name).index name < 2 ^ 28 := (PutUvarint_four_iff _).mp ⟨_, hp⟩
  obtain ⟨m1, m2, m3, _, _, m6, m7⟩ := encodeMetadata_spec md st.2 hok2
  have mlen := encodeMetadata_length md st.2
  have hKle : (encodeMetadata st.2 md).1.length ≤ KEYS.length := by
    have := hK.length_le
    simpa [keysOf] using this
  have hF : List.Forall₂ (fun i kv => KEYS[i]? = some kv.1) (encodeMetadata st.2 md).2.1 md :=
    forall₂_extend _ _ hK _ _ m7
  have hre := rehydrate_spec KEYS md (encodeMetadata st.2 md).2.1 [] hF hnd (by simp)
  rw [List.nil_append] at hre
  have hn63 : ¬ (2 ^ 63 ≤ (setIfAbsent st.1 name).index name) := by
    have : (2 : Nat) ^ 28 ≤ 2 ^ 63 := by norm_num
    omega
  have hvals : ∀ s ∈ md.map Prod.snd, s.length < 2 ^ 64 := by
    intro s hs
    obtain ⟨kv, hkvm, rfl⟩ := List.mem_map.mp hs
    exact lt_trans (hkv kv hkvm).2 (by norm_num)
  simp only [encodeTime, if_true, List.append_assoc, decodeCaptures]
  rw [decodeTime_raw64 cv time _ ht]
  simp only
  rw [ReadUvarint_PutUvarint 4 _ nameIndex _ hi64 hp]
  simp only
  rw [ReadUintArray_UintArrayToBytes _ _ (by rw [mlen]; exact lt_trans hmdlen (by norm_num))
    (fun x hx => lt_of_lt_of_le (m6 x hx) (le_trans hKle hKlen))]
  simp only
  rw [m3, ReadStringArray_StringArrayToBytes _ _
    (by rw [List.length_map]; exact lt_trans hmdlen (by norm_num)) hvals]
  simp only [hre, if_neg hn63, hNget]

theorem encodeCapture_isSome (cv : FloatConv) (technique : Nat) (st : Dict × Dict) (time : Nat)
    (name : GoString) (md : List (GoString × GoString))
    (hi : (setIfAbsent st.1 name).index name < 2 ^ 28) :
    ∃ r, encodeCapture cv technique st (.event time name md) = .ok r := by
  have h64 : (setIfAbsent st.1 name).index name % 2 ^ 64 = (setIfAbsent st.1 name).index name :=
    Nat.mod_eq_of_lt (lt_trans hi (by norm_num))
  obtain ⟨bs, hbs⟩ := (PutUvarint_four_iff _).mpr hi
  simp only [encodeCapture, h64, hbs]
  exact ⟨_, rfl⟩

theorem nodup_length_le_card (l : List GoString) (S : Finset GoString) (hnd : l.Nodup)
    (hsub : ∀ k ∈ l, k ∈ S) : l.length ≤ S.card := by
  rw [← List.toFinset_card_of_nodup hnd]
  apply Finset.card_le_card
  intro k hk
  exact hsub k (List.mem_toFinset.mp hk)

/-- The capture loop of `Encode` with technique `Raw64` returns normally on event
captures whose names fit the 4-byte index buffer, keeps the dictionaries well formed,
and writes bytes that the capture loop of `Decode` reads back. -/
theorem encodeCaptures_spec (cv : FloatConv) (S SK : Finset GoString) (hS : S.card ≤ 2 ^ 28)
    (cs : List Capture) : ∀ (st : Dict × Dict), DictOk st.1 → DictOk st.2 →
    (∀ k ∈ keysOf st.1, k ∈ S) → (∀ k ∈ keysOf st.2, k ∈ SK) →
    (∀ c ∈ cs, c.WellFormed ∧ c.isEvent = true ∧ (∀ nm ∈ c.name?, nm ∈ S) ∧
      ∀ k ∈ c.keys, k ∈ SK) →
    ∃ st1 bytes, encodeCaptures cv Raw64 st cs = .ok (st1, bytes) ∧
      DictOk st1.1 ∧ DictOk st1.2 ∧ (∀ k ∈ keysOf st1.1, k ∈ S) ∧ (∀ k ∈ keysOf st1.2, k ∈ SK) ∧
      keysOf st.1 <+: keysOf st1.1 ∧ keysOf st.2 <+: keysOf st1.2 ∧
      ∀ (NAMES KEYS : List GoString) (rest : List Nat), keysOf st1.1 <+: NAMES →
        keysOf st1.2 <+: KEYS → NAMES.length ≤ 2 ^ 64 → KEYS.length ≤ 2 ^ 64 →
        decodeCaptures cv NAMES KEYS 0 cs.length (bytes ++ rest)
          = .ok (cs.filterMap Capture.toEvent?) := by
  induction cs with
  | nil =>
    intro st h1 h2 h3 h4 _
    exact ⟨st, [], rfl, h1, h2, h3, h4, List.prefix_refl _, List.prefix_refl _,
      fun _ _ _ _ _ _ _ => rfl⟩
  | cons c cs ih =>
    intro st h1 h2 h3 h4 hcs
    obtain ⟨hwf, hev, hnm, hks⟩ := hcs c (by simp)
    cases c with
    | other t => simp [Capture.isEvent] at hev
    | event time name md =>
      have hnS : name ∈ S := hnm name (by simp [Capture.name?])
      have hd1 := DictOk_setIfAbsent st.1 name h1
      have hsub1 : ∀ k ∈ keysOf (setIfAbsent st.1 name), k ∈ S := by
        intro k hk
        rcases setIfAbsent_cases st.1 name with ⟨_, he⟩ | ⟨_, he⟩
        · rw [he] at hk; exact h3 k hk
        · rw [he] at hk
          simp only [keysOf, List.map_append, List.map_cons, List.map_nil, List.mem_append,
            List.mem_singleton] at hk
          rcases hk with hk | rfl
          · exact h3 k hk
          · exact hnS
      have hidx := index_setIfAbsent st.1 name h1
      have hlen : (setIfAbsent st.1 name).length ≤ S.card := by
        have := nodup_length_le_card _ S hd1.2 hsub1
        simpa [keysOf] using this
      obtain ⟨r, hr⟩ := encodeCapture_isSome cv Raw64 st time name md (by omega)
      obtain ⟨_, _, _, nameIndex, hc, hp, hreq⟩ := encodeCapture_ok cv Raw64 st _ r hr
      cases hc
      obtain ⟨m1, m2, m3, m4, m5, m6, m7⟩ := encodeMetadata_spec md st.2 h2
      have hr1 : r.1 = (setIfAbsent st.1 name, (encodeMetadata st.2 md).1) := by rw [hreq]
      have hsub2 : ∀ k ∈ keysOf r.1.2, k ∈ SK := by
        intro k hk
        rw [hr1] at hk
        rcases m4 k hk with hk' | hk'
        · exact h4 k hk'
        · exact hks k (by simpa [Capture.keys] using hk')
      obtain ⟨st1, bytes, he, e1, e2, e3, e4, e5, e6, e7⟩ := ih r.1
        (by rw [hr1]; exact hd1) (by rw [hr1]; exact m1) (by rw [hr1]; exact hsub1) hsub2
        (fun c' hc' => hcs c' (by simp [hc']))
      have p1 : keysOf st.1 <+: keysOf st1.1 := by
        have := keysOf_le_setIfAbsent st.1 name
        rw [hr1] at e5
        exact this.trans e5
      have p2 : keysOf st.2 <+: keysOf st1.2 := by
        rw [hr1] at e6
        exact m2.trans e6
      refine ⟨st1, r.2 ++ bytes, ?_, e1, e2, e3, e4, p1, p2, ?_⟩
      · simp only [encodeCaptures, hr, Res.bind, he]
      · intro NAMES KEYS rest hN hK hNl hKl
        simp only [List.length_cons, List.append_assoc, List.filterMap_cons, Capture.toEvent?]
        rw [decodeCaptures_encodeCapture cv st time name md r hr h1 h2 hwf NAMES KEYS
          (e5.trans hN) (e6.trans hK) hNl hKl, e7 NAMES KEYS rest hN hK hNl hKl]
        rfl

/-! ## Event codec: streams -/

/-- The conditions on one stream under which `Encode` is followed through. -/
theorem encodeStream_spec (cv : FloatConv) (S SK : Finset GoString) (hS : S.card ≤ 2 ^ 28)
    (s : CaptureStream) (st : Dict × Dict) (h1 : DictOk st.1) (h2 : DictOk st.2)
    (h3 : ∀ k ∈ keysOf st.1, k ∈ S) (h4 : ∀ k ∈ keysOf st.2, k ∈ SK)
    (hwf : s.WellFormed) (hcount : s.captures.length < 2 ^ 28)
    (hcs : ∀ c ∈ s.captures, c.isEvent = true ∧ (∀ nm ∈ c.name?, nm ∈ S) ∧
      ∀ k ∈ c.keys, k ∈ SK) :
    ∃ st1 body, encodeStream cv Raw64 st s = .ok (st1, body) ∧
      DictOk st1.1 ∧ DictOk st1.2 ∧ (∀ k ∈ keysOf st1.1, k ∈ S) ∧ (∀ k ∈ keysOf st1.2, k ∈ SK) ∧
      keysOf st.1 <+: keysOf st1.1 ∧ keysOf st.2 <+: keysOf st1.2 ∧
      ∀ (header : List Nat) (NAMES KEYS : List GoString) (p : Nat),
        readHeader header = (NAMES, KEYS, none) → keysOf st1.1 <+: NAMES →
        keysOf st1.2 <+: KEYS → NAMES.length ≤ 2 ^ 64 → KEYS.length ≤ 2 ^ 64 →
        Encoder.Decode cv p header body
          = .ok ⟨s.name, s.captures.filterMap Capture.toEvent?⟩ := by
  obtain ⟨hname, hlen63, hcwf⟩ := hwf
  obtain ⟨st1, bytes, he, e1, e2, e3, e4, e5, e6, e7⟩ := encodeCaptures_spec cv S SK hS
    s.captures st h1 h2 h3 h4 (fun c hc => ⟨hcwf c hc, hcs c hc⟩)
  have h64 : s.captures.length < 2 ^ 64 := lt_trans hcount (by norm_num)
  obtain ⟨count, hcountb⟩ := (PutUvarint_four_iff s.captures.length).mpr hcount
  refine ⟨st1, StringToBytes s.name ++ [Raw64 % 256] ++ count ++ bytes, ?_, e1, e2, e3, e4, e5,
    e6, ?_⟩
  · simp only [encodeStream, Nat.mod_eq_of_lt h64, hcountb, he, Res.bind]
  · intro header NAMES KEYS p hh hN hK hNl hKl
    have hn63 : ¬ (2 ^ 63 ≤ s.captures.length) := by
      have : (2 : Nat) ^ 28 ≤ 2 ^ 63 := by norm_num
      omega
    have hdec := e7 NAMES KEYS [] hN hK hNl hKl
    rw [List.append_nil] at hdec
    simp only [Encoder.Decode, hh, List.append_assoc, List.singleton_append]
    rw [ReadString_StringToBytes _ _ (lt_trans hname (by norm_num))]
    simp only [List.cons_append]
    rw [ReadUvarint_PutUvarint 4 _ count _ h64 hcountb]
    simp only [if_neg hn63, Raw64, Nat.zero_mod, hdec, Res.map]

/-- The stream loop of `Encode`, followed through. -/
theorem encodeStreams_spec (cv : FloatConv) (S SK : Finset GoString) (hS : S.card ≤ 2 ^ 28)
    (ss : List CaptureStream) : ∀ (st : Dict × Dict), DictOk st.1 → DictOk st.2 →
    (∀ k ∈ keysOf st.1, k ∈ S) → (∀ k ∈ keysOf st.2, k ∈ SK) →
    (∀ s ∈ ss, s.WellFormed ∧ s.captures.length < 2 ^ 28 ∧
      ∀ c ∈ s.captures, c.isEvent = true ∧ (∀ nm ∈ c.name?, nm ∈ S) ∧ ∀ k ∈ c.keys, k ∈ SK) →
    ∃ st1 bodies, encodeStreams cv Raw64 st ss = .ok (st1, bodies) ∧
      DictOk st1.1 ∧ DictOk st1.2 ∧ (∀ k ∈ keysOf st1.1, k ∈ S) ∧ (∀ k ∈ keysOf st1.2, k ∈ SK) ∧
      keysOf st.1 <+: keysOf st1.1 ∧ keysOf st.2 <+: keysOf st1.2 ∧
      ∀ (header : List Nat) (NAMES KEYS : List GoString) (p : Nat),
        readHeader header = (NAMES, KEYS, none) → keysOf st1.1 <+: NAMES →
        keysOf st1.2 <+: KEYS → NAMES.length ≤ 2 ^ 64 → KEYS.length ≤ 2 ^ 64 →
        List.Forall₂ (fun s body => Encoder.Decode cv p header body
          = .ok ⟨s.name, s.captures.filterMap Capture.toEvent?⟩) ss bodies := by
  induction ss with
  | nil =>
    intro st h1 h2 h3 h4 _
    exact ⟨st, [], rfl, h1, h2, h3, h4, List.prefix_refl _, List.prefix_refl _,
      fun _ _ _ _ _ _ _ _ _ => List.Forall₂.nil⟩
  | cons s ss ih =>
    intro st h1 h2 h3 h4 hss
    obtain ⟨hwf, hcount, hcs⟩ := hss s (by simp)
    obtain ⟨st1, body, he, e1, e2, e3, e4, e5, e6, e7⟩ :=
      encodeStream_spec cv S SK hS s st h1 h2 h3 h4 hwf hcount hcs
    obtain ⟨st2, bodies, he2, f1, f2, f3, f4, f5, f6, f7⟩ := ih st1 e1 e2 e3 e4
      (fun s' hs' => hss s' (by simp [hs']))
    refine ⟨st2, body :: bodies, ?_, f1, f2, f3, f4, e5.trans f5, e6.trans f6, ?_⟩
    · simp only [encodeStreams, he, Res.bind, he2]
    · intro header NAMES KEYS p hh hN hK hNl hKl
      exact List.Forall₂.cons (e7 header NAMES KEYS p hh (f5.trans hN) (f6.trans hK) hNl hKl)
        (f7 header NAMES KEYS p hh hN hK hNl hKl)

theorem mem_allEventNames (streams : List CaptureStream) (s : CaptureStream) (c : Capture)
    (nm : GoString) (hs : s ∈ streams) (hc : c ∈ s.captures) (hn : nm ∈ c.name?) :
    nm ∈ allEventNames streams := by
  simp only [allEventNames, List.mem_flatMap, List.mem_filterMap]
  exact ⟨s, hs, c, hc, hn⟩

theorem mem_allMetadataKeys (streams : List CaptureStream) (s : CaptureStream) (c : Capture)
    (k : GoString) (hs : s ∈ streams) (hc : c ∈ s.captures) (hk : k ∈ c.keys) :
    k ∈ allMetadataKeys streams := by
  simp only [allMetadataKeys, List.mem_flatMap]
  exact ⟨s, hs, c, hc, hk⟩

theorem allEventNames_short (streams : List CaptureStream) (hwf : ∀ s ∈ streams, s.WellFormed) :
    ∀ nm ∈ allEventNames streams, nm.length < 2 ^ 64 := by
  intro nm hnm
  simp only [allEventNames, List.mem_flatMap, List.mem_filterMap] at hnm
  obtain ⟨s, hs, c, hc, hn⟩ := hnm
  have hcw := (hwf s hs).2.2 c hc
  cases c with
  | other t => simp [Capture.name?] at hn
  | event time name md =>
    simp only [Capture.name?, Option.some.injEq] at hn
    subst hn
    exact lt_trans hcw.2.1 (by norm_num)

theorem allMetadataKeys_short (streams : List CaptureStream)
    (hwf : ∀ s ∈ streams, s.WellFormed) :
    ∀ k ∈ allMetadataKeys streams, k.length < 2 ^ 64 := by
  intro k hk
  simp only [allMetadataKeys, List.mem_flatMap] at hk
  obtain ⟨s, hs, c, hc, hkc⟩ := hk
  have hcw := (hwf s hs).2.2 c hc
  cases c with
  | other t => simp [Capture.keys] at hkc
  | event time name md =>
    simp only [Capture.keys, List.mem_map] at hkc
    obtain ⟨kv, hkv, rfl⟩ := hkc
    exact lt_trans (hcw.2.2.2.2 kv hkv).1 (by norm_num)

/-- `Encode` with technique `Raw64` followed by `Decode`, on streams of event captures. -/
theorem Decode_Encode (cv : FloatConv) (p : Nat) (streams : List CaptureStream)
    (hwf : ∀ s ∈ streams, s.WellFormed)
    (hkeys : (allMetadataKeys streams).toFinset.card < 2 ^ 63)
    (hevent : ∀ s ∈ streams, ∀ c ∈ s.captures, c.isEvent = true)
    (hcount : ∀ s ∈ streams, s.captures.length < 2 ^ 28)
    (hnames : (allEventNames streams).toFinset.card ≤ 2 ^ 28) :
    ∃ header bodies, Encoder.Encode cv Raw64 streams = .ok (header, bodies) ∧
      List.Forall₂ (fun s body => Encoder.Decode cv p header body
          = .ok ⟨s.name, s.captures.filterMap Capture.toEvent?⟩) streams bodies := by
  obtain ⟨st1, bodies, he, e1, e2, e3, e4, _, _, e7⟩ := encodeStreams_spec cv
    (allEventNames streams).toFinset (allMetadataKeys streams).toFinset hnames streams ([], [])
    DictOk_nil DictOk_nil (by simp [keysOf]) (by simp [keysOf])
    (fun s hs => ⟨hwf s hs, hcount s hs, fun c hc => ⟨hevent s hs c hc,
      fun nm hn => List.mem_toFinset.mpr (mem_allEventNames streams s c nm hs hc hn),
      fun k hk => List.mem_toFinset.mpr (mem_allMetadataKeys streams s c k hs hc hk)⟩⟩)
  have hNl : (keysOf st1.1).length ≤ 2 ^ 28 :=
    le_trans (nodup_length_le_card _ _ e1.2 e3) hnames
  have hKl : (keysOf st1.2).length < 2 ^ 63 :=
    lt_of_le_of_lt (nodup_length_le_card _ _ e2.2 e4) hkeys
  have hNs : ∀ k ∈ keysOf st1.1, k.length < 2 ^ 64 := fun k hk =>
    allEventNames_short streams hwf k (List.mem_toFinset.mp (e3 k hk))
  have hKs : ∀ k ∈ keysOf st1.2, k.length < 2 ^ 64 := fun k hk =>
    allMetadataKeys_short streams hwf k (List.mem_toFinset.mp (e4 k hk))
  have hh := readHeader_header (keysOf st1.1) (keysOf st1.2)
    (lt_of_le_of_lt hNl (by norm_num)) hNs (lt_trans hKl (by norm_num)) hKs
  refine ⟨StringArrayToBytes (dictToArray st1.1) ++ StringArrayToBytes (dictToArray st1.2),
    bodies, ?_, ?_⟩
  · simp only [Encoder.Encode, he, Res.bind]
  · rw [dictToArray_eq_keysOf _ e1, dictToArray_eq_keysOf _ e2]
    exact e7 _ _ _ p hh (List.prefix_refl _) (List.prefix_refl _)
      (le_trans hNl (by norm_num)) (le_of_lt (lt_trans hKl (by norm_num)))

/-! ## Event codec: the round trip -/

theorem forall₂_getElem? {α β : Type} (R : α → β → Prop) (l1 : List α) (l2 : List β)
    (h : List.Forall₂ R l1 l2) : ∀ (i : Nat) (a : α) (b : β), l1[i]? = some a →
    l2[i]? = some b → R a b := by
  induction h with
  | nil => intro i a b h1; simp at h1
  | cons hab _ ih =>
    intro i a b h1 h2
    cases i with
    | zero =>
      simp only [List.getElem?_cons_zero, Option.some.injEq] at h1 h2
      subst h1 h2
      exact hab
    | succ i =>
      simp only [List.getElem?_cons_succ] at h1 h2
      exact ih i a b h1 h2

theorem filterMap_toEvent (cs : List Capture) (h : ∀ c ∈ cs, c.isEvent = true) :
    (cs.filterMap Capture.toEvent?).length = cs.length ∧
    ∀ (j : Nat) (time : Nat) (name : GoString) (md : List (GoString × GoString)),
      cs[j]? = some (.event time name md) →
      (cs.filterMap Capture.toEvent?)[j]? = some ⟨time, name, md⟩ := by
  induction cs with
  | nil => exact ⟨rfl, fun j _ _ _ hj => by simp at hj⟩
  | cons c cs ih =>
    obtain ⟨ih1, ih2⟩ := ih (fun c' hc' => h c' (by simp [hc']))
    have hc := h c (by simp)
    cases c with
    | other t => simp [Capture.isEvent] at hc
    | event t n m =>
      simp only [List.filterMap_cons, Capture.toEvent?, List.length_cons, ih1, true_and]
      intro j time name md hj
      cases j with
      | zero =>
        simp only [List.getElem?_cons_zero, Option.some.injEq, Capture.event.injEq] at hj
        obtain ⟨rfl, rfl, rfl⟩ := hj
        simp
      | succ j =>
        simp only [List.getElem?_cons_succ] at hj ⊢
        exact ih2 j time name md hj

/-- C1, amended. Event round trip: for every list of event streams (Go values; every
capture an event capture, each stream with fewer than `2^28` captures, and at most
`2^28` different event names over all the streams) and every order in which a
capture's metadata map is enumerated (the order of the list `metadata`), `Encode`
with technique `Raw64` succeeds with one body per stream and, for each index `i`,
`Decode(header, bodies[i])` returns a stream with the name of `streams[i]` and the
same number of captures, capture `j` having the same time, the same event name and
the same key to value metadata map as input capture `j`. -/
theorem event_roundtrip (cv : FloatConv) (p : Nat) (streams : List CaptureStream)
    (hwf : ∀ s ∈ streams, s.WellFormed)
    (hkeys : (allMetadataKeys streams).toFinset.card < 2 ^ 63)
    (hevent : ∀ s ∈ streams, ∀ c ∈ s.captures, c.isEvent = true)
    (hcount : ∀ s ∈ streams, s.captures.length < 2 ^ 28)
    (hnames : (allEventNames streams).toFinset.card ≤ 2 ^ 28) :
    ∃ header bodies, Encoder.Encode cv Raw64 streams = .ok (header, bodies) ∧
      bodies.length = streams.length ∧
      ∀ (i : Nat) (s : CaptureStream) (body : List Nat), streams[i]? = some s →
        bodies[i]? = some body →
        ∃ out, Encoder.Decode cv p header body = .ok out ∧ out.name = s.name ∧
          out.captures.length = s.captures.length ∧
          ∀ (j : Nat) (time : Nat) (name : GoString) (md : List (GoString × GoString)),
            s.captures[j]? = some (.event time name md) →
            ∃ e, out.captures[j]? = some e ∧ e.time = time ∧ e.name = name ∧
              ∀ k, e.metadata.lookup k = md.lookup k := by
  obtain ⟨header, bodies, he, hf⟩ := Decode_Encode cv p streams hwf hkeys hevent hcount hnames
  refine ⟨header, bodies, he, hf.length_eq.symm, ?_⟩
  intro i s body hs hb
  have hdec := forall₂_getElem? _ _ _ hf i s body hs hb
  have hmem : s ∈ streams := by
    obtain ⟨hi, rfl⟩ := List.getElem?_eq_some_iff.mp hs
    exact List.getElem_mem hi
  obtain ⟨hl, hidx⟩ := filterMap_toEvent s.captures (hevent s hmem)
  refine ⟨_, hdec, rfl, hl, ?_⟩
  intro j time name md hj
  exact ⟨⟨time, name, md⟩, hidx j time name md hj, rfl, rfl, fun _ => rfl⟩

theorem sampleStreams_wf : ∀ s ∈ sampleStreams, s.WellFormed := by
  intro s hs
  simp only [sampleStreams, List.mem_cons, List.mem_singleton, List.not_mem_nil, or_false] at hs
  rcases hs with rfl | rfl <;>
    simp [CaptureStream.WellFormed, Capture.WellFormed] <;>
    intro a b h <;> rcases h with ⟨rfl, rfl⟩ | ⟨rfl, rfl⟩ <;> simp

theorem event_roundtrip_witness :
    (∀ s ∈ sampleStreams, s.WellFormed) ∧
    (allMetadataKeys sampleStreams).toFinset.card < 2 ^ 63 ∧
    (∀ s ∈ sampleStreams, ∀ c ∈ s.captures, c.isEvent = true) ∧
    (∀ s ∈ sampleStreams, s.captures.length < 2 ^ 28) ∧
    (allEventNames sampleStreams).toFinset.card ≤ 2 ^ 28 ∧
    ∃ header bodies, Encoder.Encode ⟨id, id⟩ Raw64 sampleStreams = .ok (header, bodies) ∧
      bodies.length = sampleStreams.length ∧
      ∀ (i : Nat) (s : CaptureStream) (body : List Nat), sampleStreams[i]? = some s →
        bodies[i]? = some body →
        ∃ out, Encoder.Decode ⟨id, id⟩ Raw32 header body = .ok out ∧ out.name = s.name ∧
          out.captures.length = s.captures.length ∧
          ∀ (j : Nat) (time : Nat) (name : GoString) (md : List (GoString × GoString)),
            s.captures[j]? = some (.event time name md) →
            ∃ e, out.captures[j]? = some e ∧ e.time = time ∧ e.name = name ∧
              ∀ k, e.metadata.lookup k = md.lookup k :=
  have h2 : (allMetadataKeys sampleStreams).toFinset.card < 2 ^ 63 :=
    lt_of_le_of_lt (List.toFinset_card_le _) (by decide)
  have h3 : ∀ s ∈ sampleStreams, ∀ c ∈ s.captures, c.isEvent = true := by decide
  have h4 : ∀ s ∈ sampleStreams, s.captures.length < 2 ^ 28 := by decide
  have h5 : (allEventNames sampleStreams).toFinset.card ≤ 2 ^ 28 :=
    le_trans (List.toFinset_card_le _) (by decide)
  ⟨sampleStreams_wf, h2, h3, h4, h5,
    event_roundtrip ⟨id, id⟩ Raw32 sampleStreams sampleStreams_wf h2 h3 h4 h5⟩

/-! ## Event codec: the 4-byte buffer of the name index -/

theorem encodeCapture_not_error (cv : FloatConv) (technique : Nat) (st : Dict × Dict)
    (c : Capture) (hc : c.isEvent = true) (e : GoError) :
    encodeCapture cv technique st c ≠ .error e := by
  cases c with
  | other t => simp [Capture.isEvent] at hc
  | event time name md =>
    simp only [encodeCapture]
    split <;> simp

theorem encodeCaptures_not_error (cv : FloatConv) (technique : Nat) (cs : List Capture) :
    ∀ (st : Dict × Dict), (∀ c ∈ cs, c.isEvent = true) → ∀ e,
    encodeCaptures cv technique st cs ≠ .error e := by
  induction cs with
  | nil => intro st _ e; simp [encodeCaptures]
  | cons c cs ih =>
    intro st h e
    simp only [encodeCaptures]
    cases h1 : encodeCapture cv technique st c with
    | error e1 => exact absurd h1 (encodeCapture_not_error cv technique st c (h c (by simp)) e1)
    | panic => simp [Res.bind]
    | ok r1 =>
      simp only [Res.bind]
      cases h2 : encodeCaptures cv technique r1.1 cs with
      | error e2 => exact absurd h2 (ih r1.1 (fun c' hc' => h c' (by simp [hc'])) e2)
      | panic => simp
      | ok r2 => simp

theorem encodeStreams_not_error (cv : FloatConv) (technique : Nat) (ss : List CaptureStream) :
    ∀ (st : Dict × Dict), (∀ s ∈ ss, ∀ c ∈ s.captures, c.isEvent = true) → ∀ e,
    encodeStreams cv technique st ss ≠ .error e := by
  induction ss with
  | nil => intro st _ e; simp [encodeStreams]
  | cons s ss ih =>
    intro st h e
    simp only [encodeStreams]
    cases h1 : encodeStream cv technique st s with
    | error e1 =>
      exfalso
      simp only [encodeStream] at h1
      split at h1
      · simp at h1
      · cases h2 : encodeCaptures cv technique st s.captures with
        | error e2 => exact encodeCaptures_not_error cv technique s.captures st (h s (by simp)) e2 h2
        | panic => rw [h2] at h1; simp [Res.bind] at h1
        | ok r => rw [h2] at h1; simp [Res.bind] at h1
    | panic => simp [Res.bind]
    | ok r1 =>
      simp only [Res.bind]
      cases h2 : encodeStreams cv technique r1.1 ss with
      | error e2 => exact absurd h2 (ih r1.1 (fun s' hs' => h s' (by simp [hs'])) e2)
      | panic => simp
      | ok r2 => simp

/-- A capture that `Encode` gets through leaves a name dictionary of at most `2^28`
entries that holds the capture's name. -/
theorem encodeCapture_names (cv : FloatConv) (technique : Nat) (st : Dict × Dict) (c : Capture)
    (r : (Dict × Dict) × List Nat) (h : encodeCapture cv technique st c = .ok r)
    (hok : DictOk st.1) (hlen : st.1.length ≤ 2 ^ 28) :
    DictOk r.1.1 ∧ r.1.1.length ≤ 2 ^ 28 ∧ (∀ k ∈ keysOf st.1, k ∈ keysOf r.1.1) ∧
      ∀ nm ∈ c.name?, nm ∈ keysOf r.1.1 := by
  obtain ⟨time, name, md, nameIndex, rfl, hp, rfl⟩ := encodeCapture_ok cv technique st c r h
  have hlt := (PutUvarint_four_iff _).mp ⟨_, hp⟩
  refine ⟨DictOk_setIfAbsent _ _ hok, ?_, (keysOf_le_setIfAbsent st.1 name).subset, ?_⟩
  · rcases setIfAbsent_cases st.1 name with ⟨_, he⟩ | ⟨hn, _⟩
    · simp only [he]; exact hlen
    · obtain ⟨hi, hl⟩ := index_setIfAbsent_new st.1 name hn
      simp only [hl]
      rw [hi, Nat.mod_eq_of_lt (lt_of_le_of_lt hlen (by norm_num))] at hlt
      omega
  · intro nm hnm
    simp only [Capture.name?, Option.mem_def, Option.some.injEq] at hnm
    subst hnm
    exact mem_keysOf_setIfAbsent st.1 name

theorem encodeCaptures_names (cv : FloatConv) (technique : Nat) (cs : List Capture) :
    ∀ (st : Dict × Dict) (r : (Dict × Dict) × List Nat),
    encodeCaptures cv technique st cs = .ok r → DictOk st.1 → st.1.length ≤ 2 ^ 28 →
    DictOk r.1.1 ∧ r.1.1.length ≤ 2 ^ 28 ∧ (∀ k ∈ keysOf st.1, k ∈ keysOf r.1.1) ∧
      ∀ c ∈ cs, ∀ nm ∈ c.name?, nm ∈ keysOf r.1.1 := by
  induction cs with
  | nil =>
    intro st r h hok hlen
    simp only [encodeCaptures, Res.ok.injEq] at h
    subst h
    exact ⟨hok, hlen, fun k hk => hk, fun c hc => by simp at hc⟩
  | cons c cs ih =>
    intro st r h hok hlen
    simp only [encodeCaptures] at h
    cases h1 : encodeCapture cv technique st c with
    | error e1 => rw [h1] at h; simp [Res.bind] at h
    | panic => rw [h1] at h; simp [Res.bind] at h
    | ok r1 =>
      rw [h1] at h
      simp only [Res.bind] at h
      cases h2 : encodeCaptures cv technique r1.1 cs with
      | error e2 => rw [h2] at h; simp at h
      | panic => rw [h2] at h; simp at h
      | ok r2 =>
        rw [h2] at h
        simp only [Res.ok.injEq] at h
        subst h
        obtain ⟨a1, a2, a3, a4⟩ := encodeCapture_names cv technique st c r1 h1 hok hlen
        obtain ⟨b1, b2, b3, b4⟩ := ih r1.1 r2 h2 a1 a2
        refine ⟨b1, b2, fun k hk => b3 k (a3 k hk), ?_⟩
        intro c' hc' nm hnm
        rcases List.mem_cons.mp hc' with rfl | hmem
        · exact b3 nm (a4 nm hnm)
        · exact b4 c' hmem nm hnm

theorem encodeStreams_names (cv : FloatConv) (technique : Nat) (ss : List CaptureStream) :
    ∀ (st : Dict × Dict) (r : (Dict × Dict) × List (List Nat)),
    encodeStreams cv technique st ss = .ok r → DictOk st.1 → st.1.length ≤ 2 ^ 28 →
    DictOk r.1.1 ∧ r.1.1.length ≤ 2 ^ 28 ∧ (∀ k ∈ keysOf st.1, k ∈ keysOf r.1.1) ∧
      ∀ s ∈ ss, ∀ c ∈ s.captures, ∀ nm ∈ c.name?, nm ∈ keysOf r.1.1 := by
  induction ss with
  | nil =>
    intro st r h hok hlen
    simp only [encodeStreams, Res.ok.injEq] at h
    subst h
    exact ⟨hok, hlen, fun k hk => hk, fun s hs => by simp at hs⟩
  | cons s ss ih =>
    intro st r h hok hlen
    simp only [encodeStreams] at h
    cases h1 : encodeStream cv technique st s with
    | error e1 => rw [h1] at h; simp [Res.bind] at h
    | panic => rw [h1] at h; simp [Res.bind] at h
    | ok r1 =>
      rw [h1] at h
      simp only [Res.bind] at h
      cases h2 : encodeStreams cv technique r1.1 ss with
      | error e2 => rw [h2] at h; simp at h
      | panic => rw [h2] at h; simp at h
      | ok r2 =>
        rw [h2] at h
        simp only [Res.ok.injEq] at h
        subst h
        have hcap : ∃ rc, encodeCaptures cv technique st s.captures = .ok rc ∧ rc.1 = r1.1 := by
          simp only [encodeStream] at h1
          split at h1
          · simp at h1
          · cases h3 : encodeCaptures cv technique st s.captures with
            | error e3 => rw [h3] at h1; simp [Res.bind] at h1
            | panic => rw [h3] at h1; simp [Res.bind] at h1
            | ok rc =>
              rw [h3] at h1
              simp only [Res.bind, Res.ok.injEq] at h1
              exact ⟨rc, rfl, by rw [← h1]⟩
        obtain ⟨rc, hrc, hrc1⟩ := hcap
        obtain ⟨a1, a2, a3, a4⟩ := encodeCaptures_names cv technique s.captures st rc hrc hok hlen
        rw [hrc1] at a1 a2 a3 a4
        obtain ⟨b1, b2, b3, b4⟩ := ih r1.1 r2 h2 a1 a2
        refine ⟨b1, b2, fun k hk => b3 k (a3 k hk), ?_⟩
        intro s' hs' c hc nm hnm
        rcases List.mem_cons.mp hs' with rfl | hmem
        · exact b3 nm (a4 c hc nm hnm)
        · exact b4 s' hmem c hc nm hnm

/-- `Encode` cannot return normally on more than `2^28` different event names. -/
theorem Encode_names_le (cv : FloatConv) (technique : Nat) (streams : List CaptureStream)
    (r : List Nat × List (List Nat)) (h : Encoder.Encode cv technique streams = .ok r) :
    (allEventNames streams).toFinset.card ≤ 2 ^ 28 := by
  simp only [Encoder.Encode] at h
  cases h1 : encodeStreams cv technique ([], []) streams with
  | error e => rw [h1] at h; simp [Res.bind] at h
  | panic => rw [h1] at h; simp [Res.bind] at h
  | ok r1 =>
    obtain ⟨a1, a2, _, a4⟩ := encodeStreams_names cv technique streams ([], []) r1 h1 DictOk_nil
      (by simp)
    have hsub : (allEventNames streams).toFinset ⊆ (keysOf r1.1.1).toFinset := by
      intro nm hnm
      rw [List.mem_toFinset] at hnm ⊢
      simp only [allEventNames, List.mem_flatMap, List.mem_filterMap] at hnm
      obtain ⟨s, hs, c, hc, hn⟩ := hnm
      exact a4 s hs c hc nm hn
    calc (allEventNames streams).toFinset.card ≤ (keysOf r1.1.1).toFinset.card :=
          Finset.card_le_card hsub
      _ ≤ (keysOf r1.1.1).length := List.toFinset_card_le _
      _ = r1.1.1.length := by simp [keysOf]
      _ ≤ 2 ^ 28 := a2

theorem numberedStream_names (lo n : Nat) :
    (numberedStream lo n).captures.filterMap Capture.name?
      = (List.range' lo n).map fun i => List.replicate i 0 := by
  simp only [numberedStream, List.filterMap_map]
  induction n generalizing lo with
  | zero => rfl
  | succ n ih =>
    simp only [List.range'_succ, List.filterMap_cons, Function.comp_apply, numberedCapture,
      Capture.name?, List.map_cons, ih]

theorem numberedStreams_card (a b : Nat) :
    (allEventNames [numberedStream 0 a, numberedStream a b]).toFinset.card = a + b := by
  have h : allEventNames [numberedStream 0 a, numberedStream a b]
      = (List.range' 0 (a + b)).map fun i => List.replicate i 0 := by
    simp only [allEventNames, List.flatMap_cons, List.flatMap_nil, List.append_nil,
      numberedStream_names]
    rw [← List.map_append]
    congr 1
    have := List.range'_append 0 a b 1
    rw [Nat.add_comm a b]
    simpa using this
  rw [h, List.toFinset_card_of_nodup, List.length_map, List.length_range']
  apply List.Nodup.map
  · intro i j hij
    have := congrArg List.length hij
    simpa using this
  · exact List.nodup_range' 0 (a + b)

theorem numberedStream_wf (lo n : Nat) (h : lo + n < 2 ^ 63) : (numberedStream lo n).WellFormed := by
  refine ⟨by simp [numberedStream], by simp [numberedStream]; omega, ?_⟩
  intro c hc
  simp only [numberedStream, List.mem_map, List.mem_range'_1] at hc
  obtain ⟨i, hi, rfl⟩ := hc
  simp only [numberedCapture, Capture.WellFormed, List.length_replicate, List.length_nil,
    List.map_nil, List.nodup_nil, List.not_mem_nil, false_implies, implies_true, and_true]
  refine ⟨by norm_num, by omega, by norm_num⟩

theorem numberedStream_isEvent (lo n : Nat) : ∀ c ∈ (numberedStream lo n).captures,
    c.isEvent = true := by
  intro c hc
  simp only [numberedStream, List.mem_map] at hc
  obtain ⟨i, _, rfl⟩ := hc
  rfl

theorem numberedStream_keys (lo n : Nat) :
    (numberedStream lo n).captures.flatMap Capture.keys = [] := by
  rw [List.flatMap_eq_nil_iff]
  intro c hc
  simp only [numberedStream, List.mem_map] at hc
  obtain ⟨i, _, rfl⟩ := hc
  rfl

theorem numberedStream_length (lo n : Nat) : (numberedStream lo n).captures.length = n := by
  simp [numberedStream]

/-- C1 fails as stated: two streams of event captures, each of fewer than `2^28`
captures, that together hold `2^28 + 1` different event names make `Encode` panic,
the index of the last name not fitting the 4-byte buffer of `PutUvarint`. -/
theorem event_roundtrip_counterexample :
    (∀ s ∈ manyNamesStreams, s.WellFormed) ∧
    (allMetadataKeys manyNamesStreams).toFinset.card < 2 ^ 63 ∧
    (∀ s ∈ manyNamesStreams, ∀ c ∈ s.captures, c.isEvent = true) ∧
    (∀ s ∈ manyNamesStreams, s.captures.length < 2 ^ 28) ∧
    Encoder.Encode ⟨id, id⟩ Raw64 manyNamesStreams = .panic := by
  have hmem : ∀ s ∈ manyNamesStreams,
      s = numberedStream 0 (2 ^ 27 + 1) ∨ s = numberedStream (2 ^ 27 + 1) (2 ^ 27) := by
    intro s hs
    simpa only [manyNamesStreams, List.mem_cons, List.mem_singleton, List.not_mem_nil,
      or_false] using hs
  have hev : ∀ s ∈ manyNamesStreams, ∀ c ∈ s.captures, c.isEvent = true := by
    intro s hs
    rcases hmem s hs with rfl | rfl <;> exact numberedStream_isEvent _ _
  refine ⟨?_, ?_, hev, ?_, ?_⟩
  · intro s hs
    rcases hmem s hs with rfl | rfl <;> exact numberedStream_wf _ _ (by norm_num)
  · have hk : allMetadataKeys manyNamesStreams = [] := by
      simp only [allMetadataKeys, manyNamesStreams, List.flatMap_cons, List.flatMap_nil,
        numberedStream_keys, List.append_nil]
    rw [hk]
    simp
  · intro s hs
    rcases hmem s hs with rfl | rfl <;> rw [numberedStream_length] <;> norm_num
  · cases h : Encoder.Encode ⟨id, id⟩ Raw64 manyNamesStreams with
    | panic => rfl
    | error e =>
      exfalso
      simp only [Encoder.Encode] at h
      cases h1 : encodeStreams ⟨id, id⟩ Raw64 ([], []) manyNamesStreams with
      | error e1 => exact encodeStreams_not_error _ _ _ _ hev e1 h1
      | panic => rw [h1] at h; simp [Res.bind] at h
      | ok r1 => rw [h1] at h; simp [Res.bind] at h
    | ok r =>
      exfalso
      have hle := Encode_names_le _ _ _ r h
      unfold manyNamesStreams at hle
      rw [numberedStreams_card] at hle
      norm_num at hle

/-! ## Oct24: a single capture -/

/-- C11. Single-capture Oct24 stream: for every stream of exactly one capture,
`encodeOct24` returns 17 bytes, namely `0x01` followed by the little-endian `float32`
of the time and of x, y, z, with no `maxTimeDelta` and no bounds; `decodeOct24` of
those bytes returns exactly one capture carrying those four `float32` values. -/
theorem oct24_single_capture (F : Float32) (c : PositionCapture) :
    Format.encodeOct24 F [c]
      = .ok ([0x01] ++ leBytes 4 (F.bits c.time) ++ leBytes 4 (F.bits c.position.x)
          ++ leBytes 4 (F.bits c.position.y) ++ leBytes 4 (F.bits c.position.z)) ∧
    ([0x01] ++ leBytes 4 (F.bits c.time) ++ leBytes 4 (F.bits c.position.x)
          ++ leBytes 4 (F.bits c.position.y) ++ leBytes 4 (F.bits c.position.z)).length = 17 ∧
    Format.decodeOct24 F ([0x01] ++ leBytes 4 (F.bits c.time) ++ leBytes 4 (F.bits c.position.x)
          ++ leBytes 4 (F.bits c.position.y) ++ leBytes 4 (F.bits c.position.z))
      = .ok [⟨F.value (F.bits c.time % 2 ^ 32),
          ⟨F.value (F.bits c.position.x % 2 ^ 32), F.value (F.bits c.position.y % 2 ^ 32),
            F.value (F.bits c.position.z % 2 ^ 32)⟩⟩] := by
  refine ⟨rfl, by simp [leBytes_length], ?_⟩
  have h1 : ReadUvarint ([0x01] ++ (writeFloat32 F c.time ++ (writeFloat32 F c.position.x
      ++ (writeFloat32 F c.position.y ++ (writeFloat32 F c.position.z ++ [])))))
      = (.ok 1, writeFloat32 F c.time ++ (writeFloat32 F c.position.x
      ++ (writeFloat32 F c.position.y ++ (writeFloat32 F c.position.z ++ [])))) :=
    ReadUvarint_PutUvarint 8 1 [1] _ (by norm_num) rfl
  have e : [0x01] ++ leBytes 4 (F.bits c.time) ++ leBytes 4 (F.bits c.position.x)
          ++ leBytes 4 (F.bits c.position.y) ++ leBytes 4 (F.bits c.position.z)
      = [0x01] ++ (writeFloat32 F c.time ++ (writeFloat32 F c.position.x
      ++ (writeFloat32 F c.position.y ++ (writeFloat32 F c.position.z ++ [])))) := by
    simp [writeFloat32]
  rw [e]
  unfold Format.decodeOct24
  rw [h1]
  simp only [OfNat.ofNat_ne_zero, one_ne_zero, if_false, if_true, readFloat32_writeFloat32,
    float32OrZero, Float32.round]

/-! ## Event codec: acceptance -/

/-- C17. Event encoder acceptance: for every capture stream `s` and either storage
technique, `Encoder.Accepts(s)` is true if and only if `s.Signature()` equals
`Encoder.Signature()`, which is `"recolude.event"`. -/
theorem event_accepts_iff_signature (p : Nat) (s : CaptureStream) :
    (Encoder.Accepts p s = true ↔ s.signature = Encoder.Signature p) ∧
    Encoder.Signature p = "recolude.event".data.map Char.toNat := by
  refine ⟨?_, rfl⟩
  simp [Encoder.Accepts, Encoder.Signature]

/-! ## Event codec: malformed input to `Decode` -/

/-- C19, at the failing inputs: `Decode` panics, instead of returning an error, on a
name index that is not less than the number of names, on a key index that is not
less than the number of keys, and on a values array shorter than the key-index
array. -/
theorem event_decode_panics_on_bad_index :
    Encoder.Decode ⟨id, id⟩ Raw64 [0, 0] oneCaptureBody = .panic ∧
    Encoder.Decode ⟨id, id⟩ Raw64 oneNameHeader oneKeyNoValueBody = .panic ∧
    Encoder.Decode ⟨id, id⟩ Raw64 oneNameOneKeyHeader oneKeyNoValueBody = .panic := by
  decide

/-- C20, at the failing input: the header whose event-name array starts with an
overlong uvarint is read without error, the error of the first read being
overwritten by the second, and `Decode` returns a stream. -/
theorem event_readHeader_drops_first_error :
    (ReadStringArray overlongCountHeader).1 = .error .overflow ∧
    readHeader overlongCountHeader = ([], [], none) ∧
    Encoder.Decode ⟨id, id⟩ Raw64 overlongCountHeader emptyStreamBody = .ok ⟨[], []⟩ := by
  decide

/-! ## Oct24: layout and size of the output -/

theorem PutUvarint_mono (cap : Nat) : ∀ (x : Nat) (bs : List Nat) (k : Nat),
    PutUvarint cap x = some bs → PutUvarint (cap + k) x = some bs := by
  induction cap with
  | zero => intro x bs k h; simp [PutUvarint] at h
  | succ cap ih =>
    intro x bs k h
    rw [show cap + 1 + k = (cap + k) + 1 by omega]
    rw [PutUvarint] at h ⊢
    split at h
    · rename_i hx
      rw [if_pos hx]
      cases hr : PutUvarint cap (x >>> 7) with
      | none => rw [hr] at h; simp at h
      | some r => rw [hr] at h; rw [ih _ _ k hr]; exact h
    · rename_i hx
      rw [if_neg hx]; exact h

/-- The count written by `encodeOct24` into its 8-byte buffer is the uvarint of the
number of captures. -/
theorem uvarintBytes_of_PutUvarint (n : Nat) (count : List Nat) (h64 : n < 2 ^ 64)
    (h : PutUvarint 8 n = some count) : uvarintBytes n = count := by
  have := PutUvarint_mono 8 n count 2 h
  simp only [uvarintBytes, Nat.mod_eq_of_lt h64]
  rw [show (10 : Nat) = 8 + 2 from rfl, this]
  rfl

/-- The output of `encodeOct24` for two captures or more: the count, the eleven
`float32` header fields, and five bytes for every capture less three. -/
theorem encodeOct24_layout (F : Float32) (c0 c1 : PositionCapture) (rest : List PositionCapture)
    (hlen : (c0 :: c1 :: rest).length < 2 ^ 56) :
    ∃ count body, PutUvarint 8 (c0 :: c1 :: rest).length = some count ∧
      Format.encodeOct24 F (c0 :: c1 :: rest) = .ok (count ++ (writeFloat32 F c0.time ++
      (writeFloat32 F ((Format.encodeOct24.bounds (c0 :: c1 :: rest)).maxTimeDifference.getD 0)
      ++ (writeFloat32 F ((Format.encodeOct24.bounds (c0 :: c1 :: rest)).minX.getD 0)
      ++ (writeFloat32 F ((Format.encodeOct24.bounds (c0 :: c1 :: rest)).minY.getD 0)
      ++ (writeFloat32 F ((Format.encodeOct24.bounds (c0 :: c1 :: rest)).minZ.getD 0)
      ++ (writeFloat32 F ((Format.encodeOct24.bounds (c0 :: c1 :: rest)).maxX.getD 0)
      ++ (writeFloat32 F ((Format.encodeOct24.bounds (c0 :: c1 :: rest)).maxY.getD 0)
      ++ (writeFloat32 F ((Format.encodeOct24.bounds (c0 :: c1 :: rest)).maxZ.getD 0)
      ++ (writeFloat32 F c0.position.x ++ (writeFloat32 F c0.position.y
      ++ (writeFloat32 F c0.position.z ++ body))))))))))))
      ∧ body.length + 3 = 5 * (c0 :: c1 :: rest).length := by
  have hn64 : (c0 :: c1 :: rest).length % 2 ^ 64 = (c0 :: c1 :: rest).length :=
    Nat.mod_eq_of_lt (lt_trans hlen (by norm_num))
  obtain ⟨count, hcount⟩ := PutUvarint_isSome 7 (c0 :: c1 :: rest).length (by simpa using hlen)
  obtain ⟨bytes, trace, he, _, hb, _⟩ := oct24_loop_lockstep
    ((Format.encodeOct24.bounds (c0 :: c1 :: rest)).maxTimeDifference.getD 0)
    ⟨(Format.encodeOct24.bounds (c0 :: c1 :: rest)).minX.getD 0,
      (Format.encodeOct24.bounds (c0 :: c1 :: rest)).minY.getD 0,
      (Format.encodeOct24.bounds (c0 :: c1 :: rest)).minZ.getD 0⟩
    ⟨(Format.encodeOct24.bounds (c0 :: c1 :: rest)).maxX.getD 0,
      (Format.encodeOct24.bounds (c0 :: c1 :: rest)).maxY.getD 0,
      (Format.encodeOct24.bounds (c0 :: c1 :: rest)).maxZ.getD 0⟩
    (c0 :: c1 :: rest) true
    ⟨(Format.encodeOct24.bounds (c0 :: c1 :: rest)).startingTime.getD 0, c0.position⟩
  refine ⟨count, bytes, hcount, ?_, ?_⟩
  · simp only [Format.encodeOct24, hn64, hcount, Format.encodeOct24.many, he, Res.bind,
      List.append_assoc]
  · simpa using hb

/-- C12. Oct24 stream size: for every stream with `n ≥ 2` captures (a Go slice, so
fewer than `2^56`), the output of `encodeOct24` is the uvarint of `n`, then the eleven
`float32` fields (first time, `maxTimeDelta`, six bounds, three starting coordinates),
then a body of `2n + 3(n-1)` bytes (2 time bytes for every capture and 3 position
bytes for every capture after the first): `L(n) + 44 + 2n + 3(n-1)` bytes in all,
`L(n)` being the uvarint length of `n`. -/
theorem oct24_stream_size (F : Float32) (captures : List PositionCapture)
    (hn : 2 ≤ captures.length) (hlen : captures.length < 2 ^ 56) :
    ∃ body, Format.encodeOct24 F captures
        = .ok (uvarintBytes captures.length
            ++ (Format.encodeOct24.headerFields captures).flatMap (writeFloat32 F) ++ body) ∧
      body.length = 2 * captures.length + 3 * (captures.length - 1) ∧
      ∀ bytes, Format.encodeOct24 F captures = .ok bytes →
        bytes.length = (uvarintBytes captures.length).length + 44 + 2 * captures.length
          + 3 * (captures.length - 1) := by
  obtain ⟨c0, c1, rest, rfl⟩ := two_le_length_cases captures hn
  obtain ⟨count, body, hcount, henc, hb⟩ := encodeOct24_layout F c0 c1 rest hlen
  have hu := uvarintBytes_of_PutUvarint _ count (lt_trans hlen (by norm_num)) hcount
  have hbl : body.length = 2 * (c0 :: c1 :: rest).length + 3 * ((c0 :: c1 :: rest).length - 1) := by
    omega
  have henc2 : Format.encodeOct24 F (c0 :: c1 :: rest)
      = .ok (uvarintBytes (c0 :: c1 :: rest).length
          ++ (Format.encodeOct24.headerFields (c0 :: c1 :: rest)).flatMap (writeFloat32 F)
          ++ body) := by
    rw [henc, hu]
    simp [Format.encodeOct24.headerFields, List.flatMap]
  refine ⟨body, henc2, hbl, ?_⟩
  intro bytes h
  rw [henc2] at h
  cases h
  simp only [List.length_append, hbl]
  have : ((Format.encodeOct24.headerFields (c0 :: c1 :: rest)).flatMap (writeFloat32 F)).length
      = 44 := by
    simp [Format.encodeOct24.headerFields, List.flatMap, writeFloat32, leBytes_length]
  rw [this]
  omega

/-- C12 at a concrete stream: two captures give `1 + 44 + 4 + 3 = 52` bytes. -/
theorem oct24_stream_size_witness :
    2 ≤ unitStepCaptures.length ∧ unitStepCaptures.length < 2 ^ 56 ∧
    ∃ body, Format.encodeOct24 binary32 unitStepCaptures
        = .ok (uvarintBytes unitStepCaptures.length
            ++ (Format.encodeOct24.headerFields unitStepCaptures).flatMap (writeFloat32 binary32)
            ++ body) ∧
      body.length = 2 * unitStepCaptures.length + 3 * (unitStepCaptures.length - 1) ∧
      ∀ bytes, Format.encodeOct24 binary32 unitStepCaptures = .ok bytes →
        bytes.length = (uvarintBytes unitStepCaptures.length).length + 44
          + 2 * unitStepCaptures.length + 3 * (unitStepCaptures.length - 1) :=
  ⟨by decide, by simp [unitStepCaptures],
    oct24_stream_size binary32 unitStepCaptures (by decide) (by simp [unitStepCaptures])⟩

/-! ## Oct24: input cut short -/

theorem readInto_length (b r : List Nat) : (readInto b r).1.length = b.length := by
  simp only [readInto, List.length_append, List.length_take, List.length_drop]
  omega

theorem bytesToOctCells24_isSome (cells bytes : List Nat) (hc : cells.length = 8)
    (hb : bytes.length = 3) :
    ∃ out, bytesToOctCells24 cells bytes = some out ∧ out.length = 8 := by
  obtain ⟨y0, y1, y2, y3, y4, y5, y6, y7, rfl⟩ := list_length_eight cells hc
  obtain ⟨b0, b1, b2, rfl⟩ := list_length_three bytes hb
  exact ⟨_, rfl, rfl⟩

/-- The loop of `decodeOct24` returns a capture for every iteration, whatever is
left in the reader: the results of `streamData.Read` are not looked at. -/
theorem decodeOct24_loop_total (M : ℚ) (mn mx : Vector3) :
    ∀ (n : Nat) (first : Bool) (data tb ob cells : List Nat) (t : ℚ) (p : Vector3),
    tb.length = 2 → ob.length = 3 → cells.length = 8 →
    ∃ caps, Format.decodeOct24.loop M mn mx n first data tb ob cells t p = .ok caps ∧
      caps.length = n := by
  intro n
  induction n with
  | zero => intro first data tb ob cells t p _ _ _; exact ⟨[], rfl, rfl⟩
  | succ n ih =>
    intro first data tb ob cells t p htb hob hcells
    have h1 : (readInto tb data).1.length = 2 := by rw [readInto_length, htb]
    cases first with
    | true =>
      obtain ⟨caps, hc, hl⟩ := ih false (readInto tb data).2 (readInto tb data).1 ob cells
        (t + bytesToFloatBST 0 M (readInto tb data).1) p h1 hob hcells
      refine ⟨⟨t + bytesToFloatBST 0 M (readInto tb data).1, p⟩ :: caps, ?_, by simp [hl]⟩
      simp only [Format.decodeOct24.loop, if_true, hc, Res.map]
    | false =>
      have h2 : (readInto ob (readInto tb data).2).1.length = 3 := by rw [readInto_length, hob]
      obtain ⟨out, ho, hol⟩ := bytesToOctCells24_isSome cells
        (readInto ob (readInto tb data).2).1 hcells h2
      obtain ⟨caps, hc, hl⟩ := ih false (readInto ob (readInto tb data).2).2
        (readInto tb data).1 (readInto ob (readInto tb data).2).1 out
        (t + bytesToFloatBST 0 M (readInto tb data).1)
        (p.Add (OctCellsToVec3 mn mx out)) h1 h2 hol
      refine ⟨⟨t + bytesToFloatBST 0 M (readInto tb data).1,
        p.Add (OctCellsToVec3 mn mx out)⟩ :: caps, ?_, by simp [hl]⟩
      simp only [Format.decodeOct24.loop, Bool.false_eq_true, if_false, ho, hc, Res.map]

/-- `decodeOct24` on a count of two or more followed by the first time and
`maxTimeDelta`: whatever follows, it returns that many captures and no error. -/
theorem decodeOct24_short_body (F : Float32) (n : Nat) (count rest : List Nat) (t0 M : ℚ)
    (hcount : PutUvarint 8 n = some count) (h2 : 2 ≤ n) (h63 : n < 2 ^ 63) :
    ∃ caps, Format.decodeOct24 F (count ++ (writeFloat32 F t0 ++ (writeFloat32 F M ++ rest)))
      = .ok caps ∧ caps.length = n := by
  have hne0 : n ≠ 0 := by omega
  have hne1 : n ≠ 1 := by omega
  have hlt63 : ¬ (2 ^ 63 ≤ n) := by omega
  have h64 : n < 2 ^ 64 := lt_trans h63 (by norm_num)
  unfold Format.decodeOct24
  rw [ReadUvarint_PutUvarint 8 n count _ h64 hcount]
  simp only [hne0, if_false]
  rw [readFloat32_writeFloat32]
  simp only [hne1, if_false]
  rw [readFloat32_writeFloat32]
  simp only [if_neg hlt63]
  exact decodeOct24_loop_total _ _ _ n true _ _ _ _ _ _ rfl rfl rfl

theorem take_append_of_le (l1 l2 : List Nat) (k : Nat) (h : l1.length ≤ k) :
    (l1 ++ l2).take k = l1 ++ l2.take (k - l1.length) := by
  rw [List.take_append_eq_append_take, List.take_of_length_le h]

/-- Every prefix of an output of `encodeOct24` for two captures or more that holds
the count, the first time and `maxTimeDelta` is decoded without an error. -/
theorem oct24_cut_body_decodes (F : Float32) (c0 c1 : PositionCapture)
    (rest : List PositionCapture) (hlen : (c0 :: c1 :: rest).length < 2 ^ 56) (k : Nat)
    (hk : (uvarintBytes (c0 :: c1 :: rest).length).length + 8 ≤ k) :
    ∃ bytes, Format.encodeOct24 F (c0 :: c1 :: rest) = .ok bytes ∧
      ∃ caps, Format.decodeOct24 F (bytes.take k) = .ok caps ∧
        caps.length = (c0 :: c1 :: rest).length := by
  obtain ⟨count, body, hcount, henc, _⟩ := encodeOct24_layout F c0 c1 rest hlen
  have hu := uvarintBytes_of_PutUvarint _ count (lt_trans hlen (by norm_num)) hcount
  rw [hu] at hk
  have key : ∀ (t0 M : ℚ) (tail : List Nat), ∃ caps,
      Format.decodeOct24 F ((count ++ (writeFloat32 F t0 ++ (writeFloat32 F M ++ tail))).take k)
        = .ok caps ∧ caps.length = (c0 :: c1 :: rest).length := by
    intro t0 M tail
    rw [take_append_of_le _ _ _ (by omega),
      take_append_of_le _ _ _ (by simp [writeFloat32, leBytes_length]; omega),
      take_append_of_le _ _ _ (by simp [writeFloat32, leBytes_length]; omega)]
    exact decodeOct24_short_body F _ count _ _ _ hcount (by simp)
      (lt_trans hlen (by norm_num))
  exact ⟨_, henc, key _ _ _⟩

theorem binary32Bits_one : binary32Bits 1 = 1065353216 := by
  have h1 : Nat.log2 1 = 0 := by simp [Nat.log2]
  have hexp : binary32Exponent 1 = 0 := by
    simp only [binary32Exponent, Rat.num_one, Rat.den_one, Int.natAbs_one, h1]
    norm_num
  have e1 : roundHalfEven (8388608 : ℚ) = 8388608 := by
    norm_num [roundHalfEven]
  have h2 : (1 : ℚ) / 2 ^ ((0 : ℤ) - 23) = 8388608 := by norm_num
  have h3 : Int.toNat 126 = 126 := rfl
  simp only [binary32Bits, abs_one, hexp]
  norm_num [e1, h3]
  decide

/-- C18, at the failing input: the 52 bytes that `encodeOct24` returns for the two
captures `(0, (0,0,0))` and `(1, (1,1,1))`, cut to their first 51 bytes and cut to
their first 9 bytes `02 00000000 0000803f` (count, first time, `maxTimeDelta`), are
decoded by `decodeOct24` to two captures with no error. -/
theorem oct24_truncated_input_decodes :
    ∃ bytes, Format.encodeOct24 binary32 unitStepCaptures = .ok bytes ∧ bytes.length = 52 ∧
      (∃ caps, Format.decodeOct24 binary32 (bytes.take 51) = .ok caps ∧ caps.length = 2) ∧
      bytes.take 9 = [2, 0, 0, 0, 0, 0, 0, 128, 63] ∧
      ∃ caps, Format.decodeOct24 binary32 [2, 0, 0, 0, 0, 0, 0, 128, 63] = .ok caps ∧
        caps.length = 2 := by
  obtain ⟨count, body, hcount, henc, hb⟩ := encodeOct24_layout binary32 ⟨0, ⟨0, 0, 0⟩⟩
    ⟨1, ⟨1, 1, 1⟩⟩ [] (by simp)
  have hc : count = [2] := by
    have : PutUvarint 8 2 = some [2] := by decide
    simp only [List.length_cons, List.length_nil] at hcount
    rw [show 0 + 1 + 1 = 2 from rfl, this] at hcount
    exact (Option.some.inj hcount).symm
  subst hc
  have hM : (Format.encodeOct24.bounds [⟨0, ⟨0, 0, 0⟩⟩, ⟨1, ⟨1, 1, 1⟩⟩]).maxTimeDifference.getD 0
      = 1 := by
    norm_num [Format.encodeOct24.bounds, Format.encodeOct24.boundsLoop, raiseTo]
  have hw0 : writeFloat32 binary32 0 = [0, 0, 0, 0] := by
    have : binary32Bits 0 = 0 := by simp [binary32Bits]
    simp only [writeFloat32, binary32, this]
    decide
  have hw1 : writeFloat32 binary32 1 = [0, 0, 128, 63] := by
    simp only [writeFloat32, binary32, binary32Bits_one]
    decide
  obtain ⟨bytes51, he51, caps51, hd51, hl51⟩ := oct24_cut_body_decodes binary32 ⟨0, ⟨0, 0, 0⟩⟩
    ⟨1, ⟨1, 1, 1⟩⟩ [] (by simp) 51 (by decide)
  have hshort := decodeOct24_short_body binary32 2 [2] [] 0 1 (by decide) (by norm_num)
    (by norm_num)
  rw [hw0, hw1] at hshort
  rw [hM, hw0, hw1] at henc
  have hlen : body.length = 7 := by simpa using hb
  change ∃ bytes, Format.encodeOct24 binary32 [⟨0, ⟨0, 0, 0⟩⟩, ⟨1, ⟨1, 1, 1⟩⟩] = .ok bytes ∧ _
  refine ⟨_, henc, ?_, ?_, ?_, hshort⟩
  · simp [writeFloat32, leBytes_length, hlen]
  · rw [henc] at he51
    cases he51
    exact ⟨caps51, hd51, by simpa using hl51⟩
  · simp

/-! ## Oct24: the bounds of the first loop -/

theorem foldl_lowerTo_eq_min (ds : List ℚ) : ∀ (a : ℚ),
    ds.foldl lowerTo (some a) = some (ds.foldl min a) := by
  induction ds with
  | nil => intro a; rfl
  | cons d ds ih =>
    intro a
    simp only [List.foldl_cons, lowerTo]
    by_cases h : d < a
    · rw [if_pos h, ih, min_eq_right (le_of_lt h)]
    · rw [if_neg h, ih, min_eq_left (not_lt.mp h)]

theorem foldl_min_le (ds : List ℚ) : ∀ (a : ℚ),
    ds.foldl min a ≤ a ∧ ∀ d ∈ ds, ds.foldl min a ≤ d := by
  induction ds with
  | nil => intro a; simp
  | cons d ds ih =>
    intro a
    simp only [List.foldl_cons, List.mem_cons, forall_eq_or_imp]
    obtain ⟨h1, h2⟩ := ih (min a d)
    exact ⟨le_trans h1 (min_le_left _ _), le_trans h1 (min_le_right _ _), h2⟩

theorem foldl_max_mem (ds : List ℚ) : ∀ (a : ℚ), ds.foldl max a ∈ a :: ds := by
  induction ds with
  | nil => intro a; simp
  | cons d ds ih =>
    intro a
    simp only [List.foldl_cons]
    rcases List.mem_cons.mp (ih (max a d)) with h | h
    · rw [h]
      rcases max_choice a d with e | e <;> simp [e]
    · simp [h]

theorem foldl_min_mem (ds : List ℚ) : ∀ (a : ℚ), ds.foldl min a ∈ a :: ds := by
  induction ds with
  | nil => intro a; simp
  | cons d ds ih =>
    intro a
    simp only [List.foldl_cons]
    rcases List.mem_cons.mp (ih (min a d)) with h | h
    · rw [h]
      rcases min_choice a d with e | e <;> simp [e]
    · simp [h]

/-- An accumulator raised over a non-empty list ends at the greatest element. -/
theorem foldl_raiseTo_isGreatest (l : List ℚ) (hl : l ≠ []) :
    ∃ m, l.foldl raiseTo none = some m ∧ IsGreatest {x | x ∈ l} m := by
  cases l with
  | nil => exact absurd rfl hl
  | cons d ds =>
    refine ⟨ds.foldl max d, ?_, foldl_max_mem ds d, ?_⟩
    · simp only [List.foldl_cons, raiseTo]
      exact foldl_raiseTo_some ds d
    · intro x hx
      rcases List.mem_cons.mp hx with rfl | h
      · exact (le_foldl_max ds x).1
      · exact (le_foldl_max ds d).2 x h

/-- An accumulator lowered over a non-empty list ends at the least element. -/
theorem foldl_lowerTo_isLeast (l : List ℚ) (hl : l ≠ []) :
    ∃ m, l.foldl lowerTo none = some m ∧ IsLeast {x | x ∈ l} m := by
  cases l with
  | nil => exact absurd rfl hl
  | cons d ds =>
    refine ⟨ds.foldl min d, ?_, foldl_min_mem ds d, ?_⟩
    · simp only [List.foldl_cons, lowerTo]
      exact foldl_lowerTo_eq_min ds d
    · intro x hx
      rcases List.mem_cons.mp hx with rfl | h
      · exact (foldl_min_le ds x).1
      · exact (foldl_min_le ds d).2 x h

/-- The position accumulators of the first loop of `encodeOct24` fold the
differences of consecutive positions. -/
theorem boundsLoop_position (cs : List PositionCapture) :
    ∀ (p : PositionCapture) (b : Bounds),
    (Format.encodeOct24.boundsLoop (some p) b cs).minX
        = ((positionDeltas (p :: cs)).map Vector3.x).foldl lowerTo b.minX ∧
    (Format.encodeOct24.boundsLoop (some p) b cs).minY
        = ((positionDeltas (p :: cs)).map Vector3.y).foldl lowerTo b.minY ∧
    (Format.encodeOct24.boundsLoop (some p) b cs).minZ
        = ((positionDeltas (p :: cs)).map Vector3.z).foldl lowerTo b.minZ ∧
    (Format.encodeOct24.boundsLoop (some p) b cs).maxX
        = ((positionDeltas (p :: cs)).map Vector3.x).foldl raiseTo b.maxX ∧
    (Format.encodeOct24.boundsLoop (some p) b cs).maxY
        = ((positionDeltas (p :: cs)).map Vector3.y).foldl raiseTo b.maxY ∧
    (Format.encodeOct24.boundsLoop (some p) b cs).maxZ
        = ((positionDeltas (p :: cs)).map Vector3.z).foldl raiseTo b.maxZ := by
  induction cs with
  | nil => intro p b; exact ⟨rfl, rfl, rfl, rfl, rfl, rfl⟩
  | cons c cs ih =>
    intro p b
    simp only [Format.encodeOct24.boundsLoop, positionDeltas, List.map_cons, List.foldl_cons]
    exact ih c _

theorem positionDeltas_ne_nil (c0 c1 : PositionCapture) (rest : List PositionCapture) :
    positionDeltas (c0 :: c1 :: rest) ≠ [] := by
  simp [positionDeltas]

theorem timeDeltas_ne_nil (c0 c1 : PositionCapture) (rest : List PositionCapture) :
    timeDeltas (c0 :: c1 :: rest) ≠ [] := by
  simp [timeDeltas]

/-- The bounds found by the first loop of `encodeOct24` on two captures or more. -/
theorem bounds_isExtreme (c0 c1 : PositionCapture) (rest : List PositionCapture) :
    ∃ (M : ℚ) (mn mx : Vector3),
      (Format.encodeOct24.bounds (c0 :: c1 :: rest)).maxTimeDifference = some M ∧
      (Format.encodeOct24.bounds (c0 :: c1 :: rest)).minX = some mn.x ∧
      (Format.encodeOct24.bounds (c0 :: c1 :: rest)).minY = some mn.y ∧
      (Format.encodeOct24.bounds (c0 :: c1 :: rest)).minZ = some mn.z ∧
      (Format.encodeOct24.bounds (c0 :: c1 :: rest)).maxX = some mx.x ∧
      (Format.encodeOct24.bounds (c0 :: c1 :: rest)).maxY = some mx.y ∧
      (Format.encodeOct24.bounds (c0 :: c1 :: rest)).maxZ = some mx.z ∧
      IsGreatest {d | d ∈ timeDeltas (c0 :: c1 :: rest)} M ∧
      IsLeast {d | d ∈ (positionDeltas (c0 :: c1 :: rest)).map Vector3.x} mn.x ∧
      IsLeast {d | d ∈ (positionDeltas (c0 :: c1 :: rest)).map Vector3.y} mn.y ∧
      IsLeast {d | d ∈ (positionDeltas (c0 :: c1 :: rest)).map Vector3.z} mn.z ∧
      IsGreatest {d | d ∈ (positionDeltas (c0 :: c1 :: rest)).map Vector3.x} mx.x ∧
      IsGreatest {d | d ∈ (positionDeltas (c0 :: c1 :: rest)).map Vector3.y} mx.y ∧
      IsGreatest {d | d ∈ (positionDeltas (c0 :: c1 :: rest)).map Vector3.z} mx.z := by
  have hp := positionDeltas_ne_nil c0 c1 rest
  obtain ⟨M, eM, hM⟩ := foldl_raiseTo_isGreatest (timeDeltas (c0 :: c1 :: rest))
    (timeDeltas_ne_nil c0 c1 rest)
  obtain ⟨ax, eax, hax⟩ := foldl_lowerTo_isLeast ((positionDeltas (c0 :: c1 :: rest)).map Vector3.x)
    (by simpa using hp)
  obtain ⟨ay, eay, hay⟩ := foldl_lowerTo_isLeast ((positionDeltas (c0 :: c1 :: rest)).map Vector3.y)
    (by simpa using hp)
  obtain ⟨az, eaz, haz⟩ := foldl_lowerTo_isLeast ((positionDeltas (c0 :: c1 :: rest)).map Vector3.z)
    (by simpa using hp)
  obtain ⟨bx, ebx, hbx⟩ := foldl_raiseTo_isGreatest
    ((positionDeltas (c0 :: c1 :: rest)).map Vector3.x) (by simpa using hp)
  obtain ⟨byy, eby, hby⟩ := foldl_raiseTo_isGreatest
    ((positionDeltas (c0 :: c1 :: rest)).map Vector3.y) (by simpa using hp)
  obtain ⟨bz, ebz, hbz⟩ := foldl_raiseTo_isGreatest
    ((positionDeltas (c0 :: c1 :: rest)).map Vector3.z) (by simpa using hp)
  obtain ⟨p1, p2, p3, p4, p5, p6⟩ := boundsLoop_position (c1 :: rest) c0
    ⟨lowerTo none c0.time, raiseTo none c0.time, none, none, none, none, none, none, none⟩
  have pM := boundsLoop_maxTimeDifference (c1 :: rest) c0
    ⟨lowerTo none c0.time, raiseTo none c0.time, none, none, none, none, none, none, none⟩
  refine ⟨M, ⟨ax, ay, az⟩, ⟨bx, byy, bz⟩, ?_, ?_, ?_, ?_, ?_, ?_, ?_, hM, hax, hay, haz, hbx, hby,
    hbz⟩
  · exact pM.trans eM
  · exact p1.trans eax
  · exact p2.trans eay
  · exact p3.trans eaz
  · exact p4.trans ebx
  · exact p5.trans eby
  · exact p6.trans ebz

/-- C13. Oct24 quantization bounds: for every stream with `n ≥ 2` captures (a Go
slice, so fewer than `2^56`), `encodeOct24` returns the count, the first time, the
`float32` of `maxTimeDelta`, of the bounds `minD` and `maxD` and of the starting
position, and the bytes of its second loop run with that `maxTimeDelta`, `minD` and
`maxD`; `maxTimeDelta` is the greatest of the differences `t[i] - t[i-1]`, `minD` and
`maxD` are on every axis the least and the greatest of the differences
`p[i] - p[i-1]`, and `minD ≤ maxD` on every axis. -/
theorem oct24_quantization_bounds (F : Float32) (captures : List PositionCapture)
    (hn : 2 ≤ captures.length) (hlen : captures.length < 2 ^ 56) :
    ∃ (M : ℚ) (mn mx : Vector3),
      IsGreatest {d | d ∈ timeDeltas captures} M ∧
      IsLeast {d | d ∈ (positionDeltas captures).map Vector3.x} mn.x ∧
      IsLeast {d | d ∈ (positionDeltas captures).map Vector3.y} mn.y ∧
      IsLeast {d | d ∈ (positionDeltas captures).map Vector3.z} mn.z ∧
      IsGreatest {d | d ∈ (positionDeltas captures).map Vector3.x} mx.x ∧
      IsGreatest {d | d ∈ (positionDeltas captures).map Vector3.y} mx.y ∧
      IsGreatest {d | d ∈ (positionDeltas captures).map Vector3.z} mx.z ∧
      mn.x ≤ mx.x ∧ mn.y ≤ mx.y ∧ mn.z ≤ mx.z ∧
      ∀ c0 ∈ captures.head?, ∃ body states,
        Format.encodeOct24.loop M mn mx true captures
          ⟨(Format.encodeOct24.bounds captures).startingTime.getD 0, c0.position⟩
            = .ok (body, states) ∧
        Format.encodeOct24 F captures
          = .ok (uvarintBytes captures.length ++ writeFloat32 F c0.time ++ writeFloat32 F M
              ++ writeFloat32 F mn.x ++ writeFloat32 F mn.y ++ writeFloat32 F mn.z
              ++ writeFloat32 F mx.x ++ writeFloat32 F mx.y ++ writeFloat32 F mx.z
              ++ writeFloat32 F c0.position.x ++ writeFloat32 F c0.position.y
              ++ writeFloat32 F c0.position.z ++ body) := by
  obtain ⟨c0, c1, rest, rfl⟩ := two_le_length_cases captures hn
  obtain ⟨M, mn, mx, eM, e1, e2, e3, e4, e5, e6, hM, h1, h2, h3, h4, h5, h6⟩ :=
    bounds_isExtreme c0 c1 rest
  refine ⟨M, mn, mx, hM, h1, h2, h3, h4, h5, h6, h4.2 h1.1, h5.2 h2.1, h6.2 h3.1, ?_⟩
  intro c hc
  simp only [List.head?_cons, Option.mem_def, Option.some.injEq] at hc
  subst hc
  have hn64 : (c0 :: c1 :: rest).length % 2 ^ 64 = (c0 :: c1 :: rest).length :=
    Nat.mod_eq_of_lt (lt_trans hlen (by norm_num))
  obtain ⟨count, hcount⟩ := PutUvarint_isSome 7 (c0 :: c1 :: rest).length (by simpa using hlen)
  have hu := uvarintBytes_of_PutUvarint _ count (lt_trans hlen (by norm_num)) hcount
  obtain ⟨body, states, he, _, _, _⟩ := oct24_loop_lockstep M mn mx (c0 :: c1 :: rest) true
    ⟨(Format.encodeOct24.bounds (c0 :: c1 :: rest)).startingTime.getD 0, c0.position⟩
  refine ⟨body, states, he, ?_⟩
  have he2 : Format.encodeOct24.loop M ⟨mn.x, mn.y, mn.z⟩ ⟨mx.x, mx.y, mx.z⟩ true
      (c0 :: c1 :: rest)
      ⟨(Format.encodeOct24.bounds (c0 :: c1 :: rest)).startingTime.getD 0, c0.position⟩
        = .ok (body, states) := he
  simp only [Format.encodeOct24, hn64, hcount, Format.encodeOct24.many, eM, e1, e2, e3, e4, e5,
    e6, Option.getD_some, he2, Res.bind, hu, List.append_assoc]

/-- C13 at a concrete stream: the two captures `(0, (0,0,0))` and `(1, (1,1,1))`. -/
theorem oct24_quantization_bounds_witness :
    2 ≤ unitStepCaptures.length ∧ unitStepCaptures.length < 2 ^ 56 ∧
    ∃ (M : ℚ) (mn mx : Vector3),
      IsGreatest {d | d ∈ timeDeltas unitStepCaptures} M ∧
      IsLeast {d | d ∈ (positionDeltas unitStepCaptures).map Vector3.x} mn.x ∧
      IsLeast {d | d ∈ (positionDeltas unitStepCaptures).map Vector3.y} mn.y ∧
      IsLeast {d | d ∈ (positionDeltas unitStepCaptures).map Vector3.z} mn.z ∧
      IsGreatest {d | d ∈ (positionDeltas unitStepCaptures).map Vector3.x} mx.x ∧
      IsGreatest {d | d ∈ (positionDeltas unitStepCaptures).map Vector3.y} mx.y ∧
      IsGreatest {d | d ∈ (positionDeltas unitStepCaptures).map Vector3.z} mx.z ∧
      mn.x ≤ mx.x ∧ mn.y ≤ mx.y ∧ mn.z ≤ mx.z ∧
      ∀ c0 ∈ unitStepCaptures.head?, ∃ body states,
        Format.encodeOct24.loop M mn mx true unitStepCaptures
          ⟨(Format.encodeOct24.bounds unitStepCaptures).startingTime.getD 0, c0.position⟩
            = .ok (body, states) ∧
        Format.encodeOct24 binary32 unitStepCaptures
          = .ok (uvarintBytes unitStepCaptures.length ++ writeFloat32 binary32 c0.time
              ++ writeFloat32 binary32 M
              ++ writeFloat32 binary32 mn.x ++ writeFloat32 binary32 mn.y
              ++ writeFloat32 binary32 mn.z
              ++ writeFloat32 binary32 mx.x ++ writeFloat32 binary32 mx.y
              ++ writeFloat32 binary32 mx.z
              ++ writeFloat32 binary32 c0.position.x ++ writeFloat32 binary32 c0.position.y
              ++ writeFloat32 binary32 c0.position.z ++ body) :=
  ⟨by decide, by simp [unitStepCaptures],
    oct24_quantization_bounds binary32 unitStepCaptures (by decide)
      (by simp [unitStepCaptures])⟩

/-! ## Lists of first occurrences -/

theorem unseen_spec (l : List GoString) : ∀ (seen : List GoString),
    (unseen seen l).Nodup ∧ ∀ k, k ∈ unseen seen l ↔ k ∈ l ∧ k ∉ seen := by
  induction l with
  | nil => intro seen; simp [unseen]
  | cons x l ih =>
    intro seen
    by_cases hx : x ∈ seen
    · obtain ⟨h1, h2⟩ := ih seen
      simp only [unseen, if_pos hx]
      refine ⟨h1, fun k => ?_⟩
      rw [h2 k, List.mem_cons]
      constructor
      · rintro ⟨a, b⟩; exact ⟨Or.inr a, b⟩
      · rintro ⟨a | a, b⟩
        · exact absurd (a ▸ hx) b
        · exact ⟨a, b⟩
    · obtain ⟨h1, h2⟩ := ih (seen ++ [x])
      simp only [unseen, if_neg hx]
      refine ⟨List.nodup_cons.mpr ⟨fun hmem => ?_, h1⟩, fun k => ?_⟩
      · have := ((h2 x).mp hmem).2
        simp at this
      · rw [List.mem_cons, h2 k, List.mem_cons, List.mem_append, List.mem_singleton]
        constructor
        · rintro (rfl | ⟨a, b⟩)
          · exact ⟨Or.inl rfl, hx⟩
          · exact ⟨Or.inr a, fun c => b (Or.inl c)⟩
        · rintro ⟨a | a, b⟩
          · exact Or.inl a
          · by_cases e : k = x
            · exact Or.inl e
            · exact Or.inr ⟨a, fun c => c.elim b e⟩

theorem unseen_append (l1 l2 : List GoString) : ∀ (seen : List GoString),
    unseen seen (l1 ++ l2) = unseen seen l1 ++ unseen (seen ++ unseen seen l1) l2 := by
  induction l1 with
  | nil => intro seen; simp [unseen]
  | cons x l1 ih =>
    intro seen
    by_cases hx : x ∈ seen
    · rw [List.cons_append]
      simp only [unseen, if_pos hx]
      exact ih seen
    · rw [List.cons_append]
      simp only [unseen, if_neg hx]
      rw [ih (seen ++ [x])]
      simp only [List.cons_append, List.append_assoc, List.singleton_append, List.nil_append]

theorem positionOf_getElem (l : List GoString) (hl : l.Nodup) : ∀ (i : Nat) (k : GoString),
    l[i]? = some k → positionOf k l = i := by
  induction l with
  | nil => intro i k h; simp at h
  | cons x l ih =>
    intro i k h
    obtain ⟨hx, hl'⟩ := List.nodup_cons.mp hl
    cases i with
    | zero =>
      simp only [List.getElem?_cons_zero, Option.some.injEq] at h
      simp [positionOf, h]
    | succ i =>
      simp only [List.getElem?_cons_succ] at h
      have hk : k ∈ l := by
        obtain ⟨hi, e⟩ := List.getElem?_eq_some_iff.mp h
        exact e ▸ List.getElem_mem hi
      have hne : x ≠ k := fun e => hx (e ▸ hk)
      simp only [positionOf, if_neg hne, ih hl' i k h]

/-- In the list of first occurrences the strings stand in the order in which they
first occur in the list it is taken from. -/
theorem positionOf_unseen (l : List GoString) : ∀ (seen : List GoString) (a b : GoString),
    a ∈ unseen seen l → b ∈ unseen seen l →
    (positionOf a (unseen seen l) < positionOf b (unseen seen l)
      ↔ positionOf a l < positionOf b l) := by
  induction l with
  | nil => intro seen a b ha; simp [unseen] at ha
  | cons x l ih =>
    intro seen a b ha hb
    by_cases hx : x ∈ seen
    · simp only [unseen, if_pos hx] at ha hb ⊢
      have hxa : x ≠ a := fun e => ((unseen_spec l seen).2 a).mp ha |>.2 (e ▸ hx)
      have hxb : x ≠ b := fun e => ((unseen_spec l seen).2 b).mp hb |>.2 (e ▸ hx)
      simp only [positionOf, if_neg hxa, if_neg hxb, Nat.add_lt_add_iff_right]
      exact ih seen a b ha hb
    · simp only [unseen, if_neg hx] at ha hb ⊢
      by_cases hxa : x = a
      · by_cases hxb : x = b
        · simp only [positionOf, if_pos hxa, if_pos hxb]
        · simp only [positionOf, if_pos hxa, if_neg hxb]
          omega
      · by_cases hxb : x = b
        · simp [positionOf, hxa, hxb]
        · have ha' : a ∈ unseen (seen ++ [x]) l := by
            rcases List.mem_cons.mp ha with e | e
            · exact absurd e.symm hxa
            · exact e
          have hb' : b ∈ unseen (seen ++ [x]) l := by
            rcases List.mem_cons.mp hb with e | e
            · exact absurd e.symm hxb
            · exact e
          simp only [positionOf, if_neg hxa, if_neg hxb, Nat.add_lt_add_iff_right]
          exact ih (seen ++ [x]) a b ha' hb'

theorem firstOccurrences_spec (l : List GoString) :
    (firstOccurrences l).Nodup ∧ (∀ k, k ∈ firstOccurrences l ↔ k ∈ l) ∧
    ∀ a b, a ∈ l → b ∈ l →
      (positionOf a (firstOccurrences l) < positionOf b (firstOccurrences l)
        ↔ positionOf a l < positionOf b l) := by
  have h := unseen_spec l []
  have hm : ∀ k, k ∈ firstOccurrences l ↔ k ∈ l := by
    intro k
    rw [firstOccurrences, h.2 k]
    simp
  exact ⟨h.1, hm, fun a b ha hb =>
    positionOf_unseen l [] a b ((hm a).mpr ha) ((hm b).mpr hb)⟩

/-! ## Event codec: the dictionaries are lists of first occurrences -/

theorem keysOf_setIfAbsent (d : Dict) (k : GoString) :
    keysOf (setIfAbsent d k) = keysOf d ++ unseen (keysOf d) [k] := by
  rcases setIfAbsent_cases d k with ⟨h, e⟩ | ⟨h, e⟩
  · simp [e, unseen, h]
  · have h' : k ∉ List.map Prod.fst d := h
    simp [e, unseen, h', keysOf]

theorem keysOf_setIfAbsent_cons (d : Dict) (k : GoString) (l : List GoString) :
    keysOf (setIfAbsent d k) ++ unseen (keysOf (setIfAbsent d k)) l
      = keysOf d ++ unseen (keysOf d) (k :: l) := by
  rw [show k :: l = [k] ++ l from rfl, unseen_append, ← List.append_assoc, ← keysOf_setIfAbsent]

theorem encodeMetadata_keys (md : List (GoString × GoString)) : ∀ (keys : Dict),
    keysOf (encodeMetadata keys md).1 = keysOf keys ++ unseen (keysOf keys) (md.map Prod.fst) := by
  induction md with
  | nil => intro keys; simp [encodeMetadata, unseen]
  | cons kv md ih =>
    intro keys
    obtain ⟨k, v⟩ := kv
    simp only [encodeMetadata, List.map_cons]
    rw [ih, keysOf_setIfAbsent_cons]

/-- The count or index that `Encode` writes into a 4-byte buffer is the uvarint of
the value. -/
theorem uvarintBytes_of_four (x : Nat) (bs : List Nat) (h : PutUvarint 4 (x % 2 ^ 64) = some bs) :
    uvarintBytes x = bs := by
  have := PutUvarint_mono 4 (x % 2 ^ 64) bs 6 h
  simp only [uvarintBytes]
  rw [show (10 : Nat) = 4 + 6 from rfl, this]
  rfl

theorem forall₂_positionOf (KEYS : List GoString) (hK : KEYS.Nodup) (idxs : List Nat)
    (md : List (GoString × GoString))
    (h : List.Forall₂ (fun i kv => KEYS[i]? = some kv.1) idxs md) :
    idxs = md.map fun kv => positionOf kv.1 KEYS := by
  induction h with
  | nil => rfl
  | cons hab _ ih => simp only [List.map_cons, ih, positionOf_getElem KEYS hK _ _ hab]

/-! ## Event codec: layout of the output of `Encode` -/

theorem Res.bind_eq_ok {α β : Type} (x : Res α) (f : α → Res β) (b : β) :
    x.bind f = .ok b ↔ ∃ a, x = .ok a ∧ f a = .ok b := by
  cases x with
  | ok a => simp [Res.bind]
  | error e => simp [Res.bind]
  | panic => simp [Res.bind]

theorem encodeCaptures_cons_ok (cv : FloatConv) (technique : Nat) (st : Dict × Dict)
    (c : Capture) (cs : List Capture) (r : (Dict × Dict) × List Nat)
    (h : encodeCaptures cv technique st (c :: cs) = .ok r) :
    ∃ r1 r2, encodeCapture cv technique st c = .ok r1 ∧
      encodeCaptures cv technique r1.1 cs = .ok r2 ∧ r = (r2.1, r1.2 ++ r2.2) := by
  simp only [encodeCaptures] at h
  obtain ⟨r1, h1, h⟩ := (Res.bind_eq_ok _ _ _).mp h
  obtain ⟨r2, h2, h⟩ := (Res.bind_eq_ok _ _ _).mp h
  simp only [Res.ok.injEq] at h
  exact ⟨r1, r2, h1, h2, h.symm⟩

theorem encodeStream_ok (cv : FloatConv) (technique : Nat) (st : Dict × Dict)
    (s : CaptureStream) (r : (Dict × Dict) × List Nat)
    (h : encodeStream cv technique st s = .ok r) :
    ∃ count rc, PutUvarint 4 (s.captures.length % 2 ^ 64) = some count ∧
      encodeCaptures cv technique st s.captures = .ok rc ∧
      r = (rc.1, StringToBytes s.name ++ [technique % 256] ++ count ++ rc.2) := by
  simp only [encodeStream] at h
  cases hc : PutUvarint 4 (s.captures.length % 2 ^ 64) with
  | none => rw [hc] at h; simp at h
  | some count =>
    rw [hc] at h
    simp only at h
    obtain ⟨rc, h1, h⟩ := (Res.bind_eq_ok _ _ _).mp h
    simp only [Res.ok.injEq] at h
    exact ⟨count, rc, rfl, h1, h.symm⟩

theorem encodeStreams_cons_ok (cv : FloatConv) (technique : Nat) (st : Dict × Dict)
    (s : CaptureStream) (ss : List CaptureStream) (r : (Dict × Dict) × List (List Nat))
    (h : encodeStreams cv technique st (s :: ss) = .ok r) :
    ∃ r1 r2, encodeStream cv technique st s = .ok r1 ∧
      encodeStreams cv technique r1.1 ss = .ok r2 ∧ r = (r2.1, r1.2 :: r2.2) := by
  simp only [encodeStreams] at h
  obtain ⟨r1, h1, h⟩ := (Res.bind_eq_ok _ _ _).mp h
  obtain ⟨r2, h2, h⟩ := (Res.bind_eq_ok _ _ _).mp h
  simp only [Res.ok.injEq] at h
  exact ⟨r1, r2, h1, h2, h.symm⟩

theorem prefix_append_unseen (a seen l : List GoString) : a <+: a ++ unseen seen l :=
  List.prefix_append _ _

/-- The capture loop of `Encode`, when it returns: the dictionaries grow by the
first occurrences of the names and keys of the captures, and the bytes written are
those of the captures against any dictionaries that extend them. -/
theorem encodeCaptures_layout (cv : FloatConv) (technique : Nat) (cs : List Capture) :
    ∀ (st : Dict × Dict) (r : (Dict × Dict) × List Nat),
    encodeCaptures cv technique st cs = .ok r → DictOk st.1 → DictOk st.2 →
    DictOk r.1.1 ∧ DictOk r.1.2 ∧
      keysOf r.1.1 = keysOf st.1 ++ unseen (keysOf st.1) (cs.filterMap Capture.name?) ∧
      keysOf r.1.2 = keysOf st.2 ++ unseen (keysOf st.2) (cs.flatMap Capture.keys) ∧
      ∀ (NAMES KEYS : List GoString), NAMES.Nodup → KEYS.Nodup → keysOf r.1.1 <+: NAMES →
        keysOf r.1.2 <+: KEYS →
        r.2 = cs.flatMap (eventCaptureBytes cv technique NAMES KEYS) := by
  induction cs with
  | nil =>
    intro st r h h1 h2
    simp only [encodeCaptures, Res.ok.injEq] at h
    subst h
    exact ⟨h1, h2, by simp [unseen], by simp [unseen], fun _ _ _ _ _ _ => rfl⟩
  | cons c cs ih =>
    intro st r h h1 h2
    obtain ⟨r1, r2, hc, hcs, rfl⟩ := encodeCaptures_cons_ok cv technique st c cs r h
    obtain ⟨time, name, md, nameIndex, rfl, hp, hr1⟩ := encodeCapture_ok cv technique st c r1 hc
    obtain ⟨m1, m2, m3, _, _, _, m7⟩ := encodeMetadata_spec md st.2 h2
    have hd1 := DictOk_setIfAbsent st.1 name h1
    have e1 : r1.1.1 = setIfAbsent st.1 name := by rw [hr1]
    have e2 : r1.1.2 = (encodeMetadata st.2 md).1 := by rw [hr1]
    obtain ⟨a1, a2, a3, a4, a5⟩ := ih r1.1 r2 hcs (by rw [e1]; exact hd1) (by rw [e2]; exact m1)
    have k1 : keysOf r2.1.1 = keysOf st.1
        ++ unseen (keysOf st.1) ((Capture.event time name md :: cs).filterMap Capture.name?) := by
      rw [a3, e1]
      simp only [List.filterMap_cons, Capture.name?]
      exact keysOf_setIfAbsent_cons st.1 name _
    have k2 : keysOf r2.1.2 = keysOf st.2
        ++ unseen (keysOf st.2) ((Capture.event time name md :: cs).flatMap Capture.keys) := by
      rw [a4, e2, encodeMetadata_keys]
      simp only [List.flatMap_cons, Capture.keys]
      rw [unseen_append, List.append_assoc]
    refine ⟨a1, a2, k1, k2, ?_⟩
    intro NAMES KEYS hN hK pN pK
    have q1 : keysOf (setIfAbsent st.1 name) <+: NAMES := by
      have : keysOf r1.1.1 <+: keysOf r2.1.1 := by rw [a3]; exact List.prefix_append _ _
      rw [e1] at this
      exact this.trans pN
    have q2 : keysOf (encodeMetadata st.2 md).1 <+: KEYS := by
      have : keysOf r1.1.2 <+: keysOf r2.1.2 := by rw [a4]; exact List.prefix_append _ _
      rw [e2] at this
      exact this.trans pK
    have hidx := (index_setIfAbsent st.1 name h1).1
    have hpos : positionOf name NAMES = (setIfAbsent st.1 name).index name :=
      positionOf_getElem NAMES hN _ _ (extend_getElem? _ _ q1 _ _ hidx)
    have hkeys := forall₂_positionOf KEYS hK _ _ (forall₂_extend _ _ q2 _ _ m7)
    have hu := uvarintBytes_of_four _ _ hp
    have hr2 : r1.2 = eventCaptureBytes cv technique NAMES KEYS (.event time name md) := by
      rw [hr1]
      simp only [eventCaptureBytes, hpos, hu, ← hkeys, m3]
    simp only [List.flatMap_cons]
    rw [← a5 NAMES KEYS hN hK pN pK, hr2]

/-- The stream loop of `Encode`, when it returns. -/
theorem encodeStreams_layout (cv : FloatConv) (technique : Nat) (ss : List CaptureStream) :
    ∀ (st : Dict × Dict) (r : (Dict × Dict) × List (List Nat)),
    encodeStreams cv technique st ss = .ok r → DictOk st.1 → DictOk st.2 →
    DictOk r.1.1 ∧ DictOk r.1.2 ∧
      keysOf r.1.1 = keysOf st.1 ++ unseen (keysOf st.1) (allEventNames ss) ∧
      keysOf r.1.2 = keysOf st.2 ++ unseen (keysOf st.2) (allMetadataKeys ss) ∧
      ∀ (NAMES KEYS : List GoString), NAMES.Nodup → KEYS.Nodup → keysOf r.1.1 <+: NAMES →
        keysOf r.1.2 <+: KEYS →
        r.2 = ss.map (eventBodyBytes cv technique NAMES KEYS) := by
  induction ss with
  | nil =>
    intro st r h h1 h2
    simp only [encodeStreams, Res.ok.injEq] at h
    subst h
    exact ⟨h1, h2, by simp [unseen, allEventNames], by simp [unseen, allMetadataKeys],
      fun _ _ _ _ _ _ => rfl⟩
  | cons s ss ih =>
    intro st r h h1 h2
    obtain ⟨r1, r2, hs, hss, rfl⟩ := encodeStreams_cons_ok cv technique st s ss r h
    obtain ⟨count, rc, hcount, hrc, hr1⟩ := encodeStream_ok cv technique st s r1 hs
    obtain ⟨c1, c2, c3, c4, c5⟩ := encodeCaptures_layout cv technique s.captures st rc hrc h1 h2
    have e1 : r1.1 = rc.1 := by rw [hr1]
    obtain ⟨a1, a2, a3, a4, a5⟩ := ih r1.1 r2 hss (by rw [e1]; exact c1) (by rw [e1]; exact c2)
    have k1 : keysOf r2.1.1 = keysOf st.1 ++ unseen (keysOf st.1) (allEventNames (s :: ss)) := by
      rw [a3, e1, c3]
      simp only [allEventNames, List.flatMap_cons]
      rw [unseen_append, List.append_assoc]
    have k2 : keysOf r2.1.2 = keysOf st.2
        ++ unseen (keysOf st.2) (allMetadataKeys (s :: ss)) := by
      rw [a4, e1, c4]
      simp only [allMetadataKeys, List.flatMap_cons]
      rw [unseen_append, List.append_assoc]
    refine ⟨a1, a2, k1, k2, ?_⟩
    intro NAMES KEYS hN hK pN pK
    have q1 : keysOf rc.1.1 <+: NAMES := by
      have : keysOf r1.1.1 <+: keysOf r2.1.1 := by rw [a3]; exact List.prefix_append _ _
      rw [e1] at this
      exact this.trans pN
    have q2 : keysOf rc.1.2 <+: KEYS := by
      have : keysOf r1.1.2 <+: keysOf r2.1.2 := by rw [a4]; exact List.prefix_append _ _
      rw [e1] at this
      exact this.trans pK
    have hu := uvarintBytes_of_four _ _ hcount
    simp only [List.map_cons]
    rw [← a5 NAMES KEYS hN hK pN pK, hr1]
    simp only [eventBodyBytes, hu, ← c5 NAMES KEYS hN hK q1 q2]

/-- What `Encode` returns, when it returns: the header holds the first occurrences
of the event names and of the metadata keys, and every body is written against
these two lists. -/
theorem Encode_layout (cv : FloatConv) (technique : Nat) (streams : List CaptureStream)
    (header : List Nat) (bodies : List (List Nat))
    (h : Encoder.Encode cv technique streams = .ok (header, bodies)) :
    header = StringArrayToBytes (firstOccurrences (allEventNames streams))
      ++ StringArrayToBytes (firstOccurrences (allMetadataKeys streams)) ∧
    bodies = streams.map (eventBodyBytes cv technique (firstOccurrences (allEventNames streams))
      (firstOccurrences (allMetadataKeys streams))) := by
  simp only [Encoder.Encode] at h
  obtain ⟨r, hr, h⟩ := (Res.bind_eq_ok _ _ _).mp h
  simp only [Res.ok.injEq, Prod.mk.injEq] at h
  obtain ⟨hh, hb⟩ := h
  obtain ⟨a1, a2, a3, a4, a5⟩ := encodeStreams_layout cv technique streams ([], []) r hr
    DictOk_nil DictOk_nil
  have n1 : keysOf r.1.1 = firstOccurrences (allEventNames streams) := by
    rw [a3]; simp [keysOf, firstOccurrences]
  have n2 : keysOf r.1.2 = firstOccurrences (allMetadataKeys streams) := by
    rw [a4]; simp [keysOf, firstOccurrences]
  rw [dictToArray_eq_keysOf _ a1, dictToArray_eq_keysOf _ a2, n1, n2] at hh
  refine ⟨hh.symm, ?_⟩
  rw [← hb]
  exact a5 _ _ (firstOccurrences_spec _).1 (firstOccurrences_spec _).1
    (by rw [n1]) (by rw [n2])

theorem getElem?_positionOf (l : List GoString) (k : GoString) (h : k ∈ l) :
    l[positionOf k l]? = some k := by
  induction l with
  | nil => simp at h
  | cons x l ih =>
    by_cases hx : x = k
    · simp [positionOf, hx]
    · have hk : k ∈ l := by
        rcases List.mem_cons.mp h with e | e
        · exact absurd e.symm hx
        · exact e
      simp only [positionOf, if_neg hx, List.getElem?_cons_succ]
      exact ih hk

/-- C14. Event dictionary header: whenever `Encode` returns a header and bodies for
a list of streams, the header is the string-array encoding of the event-name
dictionary followed by the string-array encoding of the metadata-key dictionary; the
name dictionary holds every event name that occurs in a capture of a stream exactly
once and nothing else, in the order of first occurrence (streams in order, captures
in order); and every body is the stream's name, technique and count followed by its
captures, the name index written for a capture being the position of its name in the
name dictionary. -/
theorem event_dictionary_header (cv : FloatConv) (technique : Nat)
    (streams : List CaptureStream) (header : List Nat) (bodies : List (List Nat))
    (h : Encoder.Encode cv technique streams = .ok (header, bodies)) :
    ∃ names keys : List GoString,
      header = StringArrayToBytes names ++ StringArrayToBytes keys ∧
      names = firstOccurrences (allEventNames streams) ∧
      keys = firstOccurrences (allMetadataKeys streams) ∧
      names.Nodup ∧ (∀ nm, nm ∈ names ↔ nm ∈ allEventNames streams) ∧
      (∀ a b, a ∈ allEventNames streams → b ∈ allEventNames streams →
        (positionOf a names < positionOf b names
          ↔ positionOf a (allEventNames streams) < positionOf b (allEventNames streams))) ∧
      (∀ nm ∈ names, names[positionOf nm names]? = some nm) ∧
      bodies = streams.map (eventBodyBytes cv technique names keys) := by
  obtain ⟨hh, hb⟩ := Encode_layout cv technique streams header bodies h
  obtain ⟨s1, s2, s3⟩ := firstOccurrences_spec (allEventNames streams)
  exact ⟨_, _, hh, rfl, rfl, s1, s2, s3, fun nm hnm => getElem?_positionOf _ nm hnm, hb⟩

set_option maxRecDepth 100000 in
/-- C14 at a concrete input: `Encode` returns for `sampleStreams` the header of the
names `a`, `b` and the keys `k`, `l`, `m`. -/
theorem event_dictionary_header_witness :
    Encoder.Encode ⟨id, id⟩ Raw64 sampleStreams = .ok (sampleHeader, sampleBodies) ∧
    ∃ names keys : List GoString,
      sampleHeader = StringArrayToBytes names ++ StringArrayToBytes keys ∧
      names = firstOccurrences (allEventNames sampleStreams) ∧
      keys = firstOccurrences (allMetadataKeys sampleStreams) ∧
      names.Nodup ∧ (∀ nm, nm ∈ names ↔ nm ∈ allEventNames sampleStreams) ∧
      (∀ a b, a ∈ allEventNames sampleStreams → b ∈ allEventNames sampleStreams →
        (positionOf a names < positionOf b names
          ↔ positionOf a (allEventNames sampleStreams)
            < positionOf b (allEventNames sampleStreams))) ∧
      (∀ nm ∈ names, names[positionOf nm names]? = some nm) ∧
      sampleBodies = sampleStreams.map (eventBodyBytes ⟨id, id⟩ Raw64 names keys) :=
  ⟨by decide, event_dictionary_header ⟨id, id⟩ Raw64 sampleStreams sampleHeader sampleBodies
    (by decide)⟩

/-! ## Event codec: captures of another type -/

/-- The capture loop of `Encode` on a dictionary of names within a set of at most
`2^28` names: it returns normally when every capture is an event capture and returns
the error of line 64 otherwise. -/
theorem encodeCaptures_outcome (cv : FloatConv) (technique : Nat) (S : Finset GoString)
    (hS : S.card ≤ 2 ^ 28) (cs : List Capture) : ∀ (st : Dict × Dict), DictOk st.1 →
    (∀ k ∈ keysOf st.1, k ∈ S) → (∀ c ∈ cs, ∀ nm ∈ c.name?, nm ∈ S) →
    ((∀ c ∈ cs, c.isEvent = true) → ∃ r, encodeCaptures cv technique st cs = .ok r ∧
      DictOk r.1.1 ∧ ∀ k ∈ keysOf r.1.1, k ∈ S) ∧
    ((∃ c ∈ cs, c.isEvent = false) → encodeCaptures cv technique st cs = .error .notEvent) := by
  induction cs with
  | nil =>
    intro st h1 h3 _
    exact ⟨fun _ => ⟨(st, []), rfl, h1, h3⟩, fun ⟨c, hc, _⟩ => by simp at hc⟩
  | cons c cs ih =>
    intro st h1 h3 hnm
    cases c with
    | other t =>
      refine ⟨fun h => ?_, fun _ => ?_⟩
      · have := h (.other t) (by simp)
        simp [Capture.isEvent] at this
      · simp only [encodeCaptures, encodeCapture, Res.bind]
    | event time name md =>
      have hnS : name ∈ S := hnm (.event time name md) (by simp) name (by simp [Capture.name?])
      have hd1 := DictOk_setIfAbsent st.1 name h1
      have hsub1 : ∀ k ∈ keysOf (setIfAbsent st.1 name), k ∈ S := by
        intro k hk
        rcases setIfAbsent_cases st.1 name with ⟨_, he⟩ | ⟨_, he⟩
        · rw [he] at hk; exact h3 k hk
        · rw [he] at hk
          simp only [keysOf, List.map_append, List.map_cons, List.map_nil, List.mem_append,
            List.mem_singleton] at hk
          rcases hk with hk | rfl
          · exact h3 k hk
          · exact hnS
      have hidx := index_setIfAbsent st.1 name h1
      have hlen : (setIfAbsent st.1 name).length ≤ S.card := by
        have := nodup_length_le_card _ S hd1.2 hsub1
        simpa [keysOf] using this
      obtain ⟨r, hr⟩ := encodeCapture_isSome cv technique st time name md (by omega)
      obtain ⟨_, _, _, nameIndex, hc, _, hreq⟩ := encodeCapture_ok cv technique st _ r hr
      cases hc
      have hr1 : r.1.1 = setIfAbsent st.1 name := by rw [hreq]
      obtain ⟨i1, i2⟩ := ih r.1 (by rw [hr1]; exact hd1) (by rw [hr1]; exact hsub1)
        (fun c' hc' => hnm c' (by simp [hc']))
      refine ⟨fun h => ?_, fun ⟨c', hc', hne⟩ => ?_⟩
      · obtain ⟨r2, h2, d2, s2⟩ := i1 (fun c' hc' => h c' (by simp [hc']))
        exact ⟨(r2.1, r.2 ++ r2.2), by simp only [encodeCaptures, hr, Res.bind, h2], d2, s2⟩
      · have hmem : c' ∈ cs := by
          rcases List.mem_cons.mp hc' with rfl | hm
          · simp [Capture.isEvent] at hne
          · exact hm
        have h2 := i2 ⟨c', hmem, hne⟩
        simp only [encodeCaptures, hr, Res.bind, h2]

/-- The stream loop of `Encode` on streams of fewer than `2^28` captures and a
dictionary of names within a set of at most `2^28` names. -/
theorem encodeStreams_outcome (cv : FloatConv) (technique : Nat) (S : Finset GoString)
    (hS : S.card ≤ 2 ^ 28) (ss : List CaptureStream) : ∀ (st : Dict × Dict), DictOk st.1 →
    (∀ k ∈ keysOf st.1, k ∈ S) → (∀ s ∈ ss, s.captures.length < 2 ^ 28) →
    (∀ s ∈ ss, ∀ c ∈ s.captures, ∀ nm ∈ c.name?, nm ∈ S) →
    ((∀ s ∈ ss, ∀ c ∈ s.captures, c.isEvent = true) →
      ∃ r, encodeStreams cv technique st ss = .ok r) ∧
    ((∃ s ∈ ss, ∃ c ∈ s.captures, c.isEvent = false) →
      encodeStreams cv technique st ss = .error .notEvent) := by
  induction ss with
  | nil =>
    intro st _ _ _ _
    exact ⟨fun _ => ⟨(st, []), rfl⟩, fun ⟨s, hs, _⟩ => by simp at hs⟩
  | cons s ss ih =>
    intro st h1 h3 hcount hnm
    have hc := hcount s (by simp)
    obtain ⟨count, hcountb⟩ := (PutUvarint_four_iff s.captures.length).mpr hc
    have h64 : s.captures.length % 2 ^ 64 = s.captures.length :=
      Nat.mod_eq_of_lt (lt_trans hc (by norm_num))
    obtain ⟨o1, o2⟩ := encodeCaptures_outcome cv technique S hS s.captures st h1 h3
      (hnm s (by simp))
    by_cases hall : ∀ c ∈ s.captures, c.isEvent = true
    · obtain ⟨rc, hrc, d1, s1⟩ := o1 hall
      have hs : encodeStream cv technique st s
          = .ok (rc.1, StringToBytes s.name ++ [technique % 256] ++ count ++ rc.2) := by
        simp only [encodeStream, h64, hcountb, hrc, Res.bind]
      obtain ⟨i1, i2⟩ := ih rc.1 d1 s1 (fun s' hs' => hcount s' (by simp [hs']))
        (fun s' hs' => hnm s' (by simp [hs']))
      refine ⟨fun h => ?_, fun ⟨s', hs', c, hc', hne⟩ => ?_⟩
      · obtain ⟨r2, h2⟩ := i1 (fun s' hs' => h s' (by simp [hs']))
        exact ⟨(r2.1, (StringToBytes s.name ++ [technique % 256] ++ count ++ rc.2) :: r2.2),
          by simp only [encodeStreams, hs, Res.bind, h2]⟩
      · have hmem : s' ∈ ss := by
          rcases List.mem_cons.mp hs' with rfl | hm
          · rw [hall c hc'] at hne; simp at hne
          · exact hm
        have h2 := i2 ⟨s', hmem, c, hc', hne⟩
        simp only [encodeStreams, hs, Res.bind, h2]
    · have hex : ∃ c ∈ s.captures, c.isEvent = false := by
        by_contra hcon
        apply hall
        intro c hc'
        cases he : c.isEvent with
        | true => rfl
        | false => exact absurd ⟨c, hc', he⟩ hcon
      have hrc := o2 hex
      have hs : encodeStream cv technique st s = .error .notEvent := by
        simp only [encodeStream, h64, hcountb, hrc, Res.bind]
      refine ⟨fun h => absurd (h s (by simp)) hall, fun _ => ?_⟩
      simp only [encodeStreams, hs, Res.bind]

/-- C16, amended. For every list of streams of fewer than `2^28` captures each that
hold at most `2^28` different event names: if some capture is not an event capture,
`Encode` returns the error `capture is not of type event` (with no header and no
bodies, the outcome `error` standing for `return nil, nil, err`); if every capture is
an event capture, `Encode` returns a header and bodies and no error. -/
theorem event_encode_foreign_capture (cv : FloatConv) (technique : Nat)
    (streams : List CaptureStream) (hcount : ∀ s ∈ streams, s.captures.length < 2 ^ 28)
    (hnames : (allEventNames streams).toFinset.card ≤ 2 ^ 28) :
    ((∃ s ∈ streams, ∃ c ∈ s.captures, c.isEvent = false) →
      Encoder.Encode cv technique streams = .error .notEvent) ∧
    ((∀ s ∈ streams, ∀ c ∈ s.captures, c.isEvent = true) →
      ∃ header bodies, Encoder.Encode cv technique streams = .ok (header, bodies)) ∧
    GoError.notEvent.text = "capture is not of type event" := by
  obtain ⟨o1, o2⟩ := encodeStreams_outcome cv technique (allEventNames streams).toFinset hnames
    streams ([], []) DictOk_nil (by simp [keysOf]) hcount
    (fun s hs c hc nm hn => List.mem_toFinset.mpr (mem_allEventNames streams s c nm hs hc hn))
  refine ⟨fun h => ?_, fun h => ?_, rfl⟩
  · simp only [Encoder.Encode, o2 h, Res.bind]
  · obtain ⟨r, hr⟩ := o1 h
    exact ⟨StringArrayToBytes (dictToArray r.1.1) ++ StringArrayToBytes (dictToArray r.1.2), r.2,
      by simp only [Encoder.Encode, hr, Res.bind]⟩

/-- C16 at concrete inputs: `sampleStreams`, all of event captures, and the same
streams followed by a stream holding a capture of another type. -/
theorem event_encode_foreign_capture_witness :
    ((∀ s ∈ sampleStreams, ∀ c ∈ s.captures, c.isEvent = true) ∧
      ∃ header bodies, Encoder.Encode ⟨id, id⟩ Raw64 sampleStreams = .ok (header, bodies)) ∧
    ((∃ s ∈ sampleStreams ++ [⟨[], eventSignature, [.event 0 [99] [], .other 0]⟩],
        ∃ c ∈ s.captures, c.isEvent = false) ∧
      Encoder.Encode ⟨id, id⟩ Raw64
        (sampleStreams ++ [⟨[], eventSignature, [.event 0 [99] [], .other 0]⟩])
        = .error .notEvent) :=
  ⟨⟨by decide, (event_encode_foreign_capture ⟨id, id⟩ Raw64 sampleStreams (by decide)
      (by decide)).2.1 (by decide)⟩,
    ⟨by decide, (event_encode_foreign_capture ⟨id, id⟩ Raw64
      (sampleStreams ++ [⟨[], eventSignature, [.event 0 [99] [], .other 0]⟩]) (by decide)
      (by decide)).1 (by decide)⟩⟩

theorem Encode_manyNamesStreams : Encoder.Encode ⟨id, id⟩ Raw64 manyNamesStreams = .panic := by
  have hev : ∀ s ∈ manyNamesStreams, ∀ c ∈ s.captures, c.isEvent = true := by
    intro s hs
    have : s = numberedStream 0 (2 ^ 27 + 1) ∨ s = numberedStream (2 ^ 27 + 1) (2 ^ 27) := by
      simpa only [manyNamesStreams, List.mem_cons, List.mem_singleton, List.not_mem_nil,
        or_false] using hs
    rcases this with rfl | rfl <;> exact numberedStream_isEvent _ _
  cases h : Encoder.Encode ⟨id, id⟩ Raw64 manyNamesStreams with
  | panic => rfl
  | error e =>
    exfalso
    simp only [Encoder.Encode] at h
    cases h1 : encodeStreams ⟨id, id⟩ Raw64 ([], []) manyNamesStreams with
    | error e1 => exact encodeStreams_not_error _ _ _ _ hev e1 h1
    | panic => rw [h1] at h; simp [Res.bind] at h
    | ok r1 => rw [h1] at h; simp [Res.bind] at h
  | ok r =>
    exfalso
    have hle := Encode_names_le _ _ _ r h
    unfold manyNamesStreams at hle
    rw [numberedStreams_card] at hle
    norm_num at hle

/-- A stream whose count does not fit the 4-byte buffer makes `Encode` panic,
whatever its captures are. -/
theorem Encode_long_stream (cv : FloatConv) (technique : Nat) (s : CaptureStream)
    (hlo : 2 ^ 28 ≤ s.captures.length) (hhi : s.captures.length < 2 ^ 64) :
    Encoder.Encode cv technique [s] = .panic := by
  have hp : PutUvarint 4 (s.captures.length % 2 ^ 64) = none := by
    rw [Nat.mod_eq_of_lt hhi]
    exact PutUvarint_none 4 _ (by simpa using hlo)
  simp only [Encoder.Encode, encodeStreams, encodeStream, hp, Res.bind]

theorem foreignStreams_length (s : CaptureStream) (hs : s ∈ foreignStreams) :
    s.captures.length = 2 ^ 28 ∧ ∀ c ∈ s.captures, c = .other 0 := by
  rw [foreignStreams, List.mem_singleton] at hs
  subst hs
  exact ⟨List.length_replicate _ _, fun c hc => (List.mem_replicate.mp hc).2⟩

/-- C16 fails as stated: on one stream of `2^28` captures that are not event
captures `Encode` panics, the count not fitting the 4-byte buffer of `PutUvarint`,
instead of returning the error; and on `manyNamesStreams`, all of event captures and
each stream of fewer than `2^28` captures, it panics as well instead of returning. -/
theorem event_encode_foreign_counterexample :
    ((∀ s ∈ foreignStreams, s.captures ≠ [] ∧ ∀ c ∈ s.captures, c.isEvent = false) ∧
      Encoder.Encode ⟨id, id⟩ Raw64 foreignStreams = .panic) ∧
    ((∀ s ∈ manyNamesStreams, ∀ c ∈ s.captures, c.isEvent = true) ∧
      (∀ s ∈ manyNamesStreams, s.captures.length < 2 ^ 28) ∧
      Encoder.Encode ⟨id, id⟩ Raw64 manyNamesStreams = .panic) := by
  have hmem : ∀ s ∈ manyNamesStreams,
      s = numberedStream 0 (2 ^ 27 + 1) ∨ s = numberedStream (2 ^ 27 + 1) (2 ^ 27) := by
    intro s hs
    simpa only [manyNamesStreams, List.mem_cons, List.mem_singleton, List.not_mem_nil,
      or_false] using hs
  refine ⟨⟨?_, ?_⟩, ?_, ?_, Encode_manyNamesStreams⟩
  · intro s hs
    obtain ⟨hl, hc⟩ := foreignStreams_length s hs
    refine ⟨fun e => ?_, fun c hcm => ?_⟩
    · rw [e] at hl
      simp at hl
    · rw [hc c hcm]
      rfl
  · have hl := (foreignStreams_length _ (List.mem_singleton.mpr rfl)).1
    exact Encode_long_stream _ _ _ (by rw [hl]) (by rw [hl]; norm_num)
  · intro s hs
    rcases hmem s hs with rfl | rfl <;> exact numberedStream_isEvent _ _
  · intro s hs
    rcases hmem s hs with rfl | rfl <;> rw [numberedStream_length] <;> norm_num

/-! ## Event codec: the order in which metadata is enumerated -/

theorem forall₂_mem_left {α β : Type} (R : α → β → Prop) (l1 : List α) (l2 : List β)
    (h : List.Forall₂ R l1 l2) : ∀ a ∈ l1, ∃ b ∈ l2, R a b := by
  induction h with
  | nil => intro a ha; simp at ha
  | cons hab _ ih =>
    intro a ha
    rcases List.mem_cons.mp ha with rfl | hm
    · exact ⟨_, by simp, hab⟩
    · obtain ⟨b, hb, hr⟩ := ih a hm
      exact ⟨b, by simp [hb], hr⟩

theorem forall₂_mem_right {α β : Type} (R : α → β → Prop) (l1 : List α) (l2 : List β)
    (h : List.Forall₂ R l1 l2) : ∀ b ∈ l2, ∃ a ∈ l1, R a b := by
  induction h with
  | nil => intro b hb; simp at hb
  | cons hab _ ih =>
    intro b hb
    rcases List.mem_cons.mp hb with rfl | hm
    · exact ⟨_, by simp, hab⟩
    · obtain ⟨a, ha, hr⟩ := ih b hm
      exact ⟨a, by simp [ha], hr⟩

/-- A Go map enumerated in two orders answers every key alike. -/
theorem lookup_perm (md md1 : List (GoString × GoString)) (h : md.Perm md1)
    (hnd : (md.map Prod.fst).Nodup) (k : GoString) : md.lookup k = md1.lookup k := by
  induction h with
  | nil => rfl
  | cons x _ ih =>
    obtain ⟨a, b⟩ := x
    simp only [List.map_cons, List.nodup_cons] at hnd
    simp only [List.lookup_cons, ih hnd.2]
  | swap x y l =>
    obtain ⟨a, b⟩ := x
    obtain ⟨c, d⟩ := y
    simp only [List.map_cons, List.nodup_cons, List.mem_cons, not_or] at hnd
    have hne : c ≠ a := hnd.1.1
    simp only [List.lookup_cons]
    cases hka : (k == a) <;> cases hkc : (k == c) <;>
      first
        | rfl
        | exact absurd ((eq_of_beq hkc).symm.trans (eq_of_beq hka)) hne
  | trans h1 _ ih1 ih2 =>
    rw [ih1 hnd, ih2 ((h1.map Prod.fst).nodup_iff.mp hnd)]

theorem sameUpToOrder_facts (c c1 : Capture) (h : c.SameUpToOrder c1) :
    c1.name? = c.name? ∧ c1.isEvent = c.isEvent ∧ c.keys.Perm c1.keys ∧
    (c.WellFormed → c1.WellFormed) ∧
    ∀ e ∈ c.toEvent?, ∃ e1 ∈ c1.toEvent?, (c.WellFormed → e.SameMap e1) := by
  cases c with
  | other t =>
    cases c1 with
    | other t1 =>
      simp only [Capture.SameUpToOrder] at h
      subst h
      exact ⟨rfl, rfl, List.Perm.refl _, id, fun e he => by simp [Capture.toEvent?] at he⟩
    | event t1 n1 md1 => simp [Capture.SameUpToOrder] at h
  | event t n md =>
    cases c1 with
    | other t1 => simp [Capture.SameUpToOrder] at h
    | event t1 n1 md1 =>
      simp only [Capture.SameUpToOrder] at h
      obtain ⟨rfl, rfl, hp⟩ := h
      refine ⟨rfl, rfl, hp.map Prod.fst, ?_, ?_⟩
      · rintro ⟨w1, w2, w3, w4, w5⟩
        exact ⟨w1, w2, by rw [← hp.length_eq]; exact w3, (hp.map Prod.fst).nodup_iff.mp w4,
          fun kv hkv => w5 kv (hp.mem_iff.mpr hkv)⟩
      · intro e he
        simp only [Capture.toEvent?, Option.mem_def, Option.some.injEq] at he
        subst he
        refine ⟨⟨t, n, md1⟩, rfl, fun hw => ⟨rfl, rfl, fun k => ?_⟩⟩
        exact lookup_perm md md1 hp hw.2.2.2.1 k

theorem sameUpToOrder_captures (cs cs1 : List Capture)
    (h : List.Forall₂ Capture.SameUpToOrder cs cs1) :
    cs1.filterMap Capture.name? = cs.filterMap Capture.name? ∧
    ((∀ c ∈ cs, c.WellFormed) →
      List.Forall₂ EventCapture.SameMap (cs.filterMap Capture.toEvent?)
        (cs1.filterMap Capture.toEvent?)) := by
  induction h with
  | nil => exact ⟨rfl, fun _ => List.Forall₂.nil⟩
  | @cons c c1 l l1 hab _ ih =>
    obtain ⟨f1, _, _, _, f5⟩ := sameUpToOrder_facts c c1 hab
    refine ⟨?_, fun hw => ?_⟩
    · simp only [List.filterMap_cons, f1, ih.1]
    · have ihw := ih.2 (fun c' hc' => hw c' (by simp [hc']))
      cases he : c.toEvent? with
      | none =>
        have he1 : c1.toEvent? = none := by
          cases c with
          | other t =>
            cases c1 with
            | other t1 => rfl
            | event t1 n1 md1 => simp [Capture.SameUpToOrder] at hab
          | event t n md => simp [Capture.toEvent?] at he
        simp only [List.filterMap_cons, he, he1]
        exact ihw
      | some e =>
        obtain ⟨e1, he1, hm⟩ := f5 e he
        simp only [Option.mem_def] at he1
        simp only [List.filterMap_cons, he, he1]
        exact List.Forall₂.cons (hm (hw c (by simp))) ihw

theorem sameUpToOrder_stream (s s1 : CaptureStream) (h : s.SameUpToOrder s1) :
    s1.name = s.name ∧ s1.captures.length = s.captures.length ∧
    s1.captures.filterMap Capture.name? = s.captures.filterMap Capture.name? ∧
    (s.WellFormed → s1.WellFormed) ∧
    ((∀ c ∈ s.captures, c.isEvent = true) → ∀ c ∈ s1.captures, c.isEvent = true) ∧
    (∀ k, k ∈ s1.captures.flatMap Capture.keys ↔ k ∈ s.captures.flatMap Capture.keys) := by
  obtain ⟨h1, _, h3⟩ := h
  refine ⟨h1.symm, h3.length_eq.symm, (sameUpToOrder_captures _ _ h3).1, ?_, ?_, ?_⟩
  · rintro ⟨w1, w2, w3⟩
    refine ⟨by rw [← h1]; exact w1, by rw [← h3.length_eq]; exact w2, fun c1 hc1 => ?_⟩
    obtain ⟨c, hc, hr⟩ := forall₂_mem_right _ _ _ h3 c1 hc1
    exact (sameUpToOrder_facts c c1 hr).2.2.2.1 (w3 c hc)
  · intro hev c1 hc1
    obtain ⟨c, hc, hr⟩ := forall₂_mem_right _ _ _ h3 c1 hc1
    rw [(sameUpToOrder_facts c c1 hr).2.1]
    exact hev c hc
  · intro k
    simp only [List.mem_flatMap]
    constructor
    · rintro ⟨c1, hc1, hk⟩
      obtain ⟨c, hc, hr⟩ := forall₂_mem_right _ _ _ h3 c1 hc1
      exact ⟨c, hc, ((sameUpToOrder_facts c c1 hr).2.2.1.mem_iff).mpr hk⟩
    · rintro ⟨c, hc, hk⟩
      obtain ⟨c1, hc1, hr⟩ := forall₂_mem_left _ _ _ h3 c hc
      exact ⟨c1, hc1, ((sameUpToOrder_facts c c1 hr).2.2.1.mem_iff).mp hk⟩

theorem sameUpToOrder_streams (A B : List CaptureStream)
    (h : List.Forall₂ CaptureStream.SameUpToOrder A B) :
    allEventNames B = allEventNames A ∧
    (∀ k, k ∈ allMetadataKeys B ↔ k ∈ allMetadataKeys A) := by
  induction h with
  | nil => exact ⟨rfl, fun _ => Iff.rfl⟩
  | @cons s s1 l l1 hab _ ih =>
    obtain ⟨_, _, f3, _, _, f6⟩ := sameUpToOrder_stream s s1 hab
    refine ⟨?_, fun k => ?_⟩
    · simp only [allEventNames, List.flatMap_cons, f3]
      rw [show List.flatMap l1 (fun s => s.captures.filterMap Capture.name?) = allEventNames l1
        from rfl, ih.1]
      rfl
    · have := ih.2 k
      simp only [allMetadataKeys, List.flatMap_cons, List.mem_append] at this ⊢
      rw [f6 k, this]

theorem orderedStreams_same :
    List.Forall₂ CaptureStream.SameUpToOrder orderedStreams swappedStreams :=
  List.Forall₂.cons
    ⟨rfl, rfl, List.Forall₂.cons ⟨rfl, rfl, List.Perm.swap _ _ _⟩ List.Forall₂.nil⟩
    List.Forall₂.nil

theorem orderedStreams_wf : ∀ s ∈ orderedStreams, s.WellFormed := by
  intro s hs
  simp only [orderedStreams, List.mem_singleton] at hs
  subst hs
  simp [CaptureStream.WellFormed, Capture.WellFormed]
  intro a b h
  rcases h with ⟨rfl, rfl⟩ | ⟨rfl, rfl⟩ <;> simp

set_option maxRecDepth 100000 in
/-- C15 fails as stated: one capture with the metadata `k = 1`, `l = 2`, enumerated
`k`, `l` in one run and `l`, `k` in the other, gives two different headers (the key
arrays `k`, `l` and `l`, `k`) and two different bodies (the values `1`, `2` and
`2`, `1`). -/
theorem event_encode_order_counterexample :
    List.Forall₂ CaptureStream.SameUpToOrder orderedStreams swappedStreams ∧
    Encoder.Encode ⟨id, id⟩ Raw64 orderedStreams
      = .ok ([1, 1, 97, 2, 1, 107, 1, 108],
          [[0, 0, 1, 0, 0, 0, 0, 0, 0, 0, 0, 0, 2, 0, 1, 2, 1, 1, 1, 2]]) ∧
    Encoder.Encode ⟨id, id⟩ Raw64 swappedStreams
      = .ok ([1, 1, 97, 2, 1, 108, 1, 107],
          [[0, 0, 1, 0, 0, 0, 0, 0, 0, 0, 0, 0, 2, 0, 1, 2, 1, 2, 1, 1]]) ∧
    ([1, 1, 97, 2, 1, 107, 1, 108] : List Nat) ≠ [1, 1, 97, 2, 1, 108, 1, 107] ∧
    ([[0, 0, 1, 0, 0, 0, 0, 0, 0, 0, 0, 0, 2, 0, 1, 2, 1, 1, 1, 2]] : List (List Nat))
      ≠ [[0, 0, 1, 0, 0, 0, 0, 0, 0, 0, 0, 0, 2, 0, 1, 2, 1, 2, 1, 1]] :=
  ⟨orderedStreams_same, by decide, by decide, by decide, by decide⟩

/-! ## Cell packing: from bytes to cells and back -/

/-- C28. Oct24 byte unpacking is the inverse on the byte side too: for every 3-byte
buffer `b`, `bytesToOctCells24` yields 8 cells each in `0..7` and `octCellsToBytes24`
of those cells returns `b`; with the round trip from the cells (8 cells each in
`0..7` are read back from the bytes they are packed into) the packing is a bijection
between 8-tuples of octants and 24-bit words. -/
theorem octCellsToBytes24_bytesToOctCells24 (b0 b1 b2 x0 x1 x2 : Nat)
    (y0 y1 y2 y3 y4 y5 y6 y7 : Nat) (h0 : b0 < 256) (h1 : b1 < 256) (h2 : b2 < 256) :
    (∃ c0 c1 c2 c3 c4 c5 c6 c7,
      bytesToOctCells24 [y0, y1, y2, y3, y4, y5, y6, y7] [b0, b1, b2]
        = some [c0, c1, c2, c3, c4, c5, c6, c7] ∧
      c0 < 8 ∧ c1 < 8 ∧ c2 < 8 ∧ c3 < 8 ∧ c4 < 8 ∧ c5 < 8 ∧ c6 < 8 ∧ c7 < 8 ∧
      octCellsToBytes24 [c0, c1, c2, c3, c4, c5, c6, c7] [x0, x1, x2] = some [b0, b1, b2]) ∧
    ∀ cells : List Nat, cells.length = 8 → (∀ c ∈ cells, c < 8) →
      ∃ bs, octCellsToBytes24 cells [x0, x1, x2] = some bs ∧ bs.length = 3 ∧
        (∀ b ∈ bs, b < 256) ∧
        bytesToOctCells24 [y0, y1, y2, y3, y4, y5, y6, y7] bs = some cells := by
  constructor
  · refine ⟨b0 % 8, b0 / 8 % 8, b0 / 64 + 4 * (b1 % 2), b1 / 2 % 8, b1 / 16 % 8,
      b1 / 128 + 2 * (b2 % 4), b2 / 4 % 8, b2 / 32,
      bytesToOctCells24_arith b0 b1 b2 h0 h1 h2 _ _ _ _ _ _ _ _,
      by omega, by omega, by omega, by omega, by omega, by omega, by omega, by omega, ?_⟩
    rw [octCellsToBytes24_arith _ _ _ _ _ _ _ _ x0 x1 x2 (by omega) (by omega) (by omega)
      (by omega) (by omega) (by omega) (by omega) (by omega)]
    simp only [Option.some.injEq, List.cons.injEq, and_true]
    refine ⟨?_, ?_, ?_⟩ <;> omega
  · intro cells hl hlt
    obtain ⟨c0, c1, c2, c3, c4, c5, c6, c7, rfl⟩ := list_length_eight cells hl
    have g0 := hlt c0 (by simp)
    have g1 := hlt c1 (by simp)
    have g2 := hlt c2 (by simp)
    have g3 := hlt c3 (by simp)
    have g4 := hlt c4 (by simp)
    have g5 := hlt c5 (by simp)
    have g6 := hlt c6 (by simp)
    have g7 := hlt c7 (by simp)
    refine ⟨_, octCellsToBytes24_arith c0 c1 c2 c3 c4 c5 c6 c7 x0 x1 x2 g0 g1 g2 g3 g4 g5 g6 g7,
      rfl, ?_, ?_⟩
    · intro b hb
      simp only [List.mem_cons, List.mem_singleton, List.not_mem_nil, or_false] at hb
      rcases hb with rfl | rfl | rfl <;> omega
    · rw [bytesToOctCells24_arith _ _ _ (by omega) (by omega) (by omega)]
      simp only [Option.some.injEq, List.cons.injEq, and_true]
      refine ⟨?_, ?_, ?_, ?_, ?_, ?_, ?_, ?_⟩ <;> omega

/-- C28 at a concrete buffer. -/
theorem octCellsToBytes24_bytesToOctCells24_witness :
    (200 : Nat) < 256 ∧
    (∃ c0 c1 c2 c3 c4 c5 c6 c7,
      bytesToOctCells24 [0, 0, 0, 0, 0, 0, 0, 0] [200, 17, 255]
        = some [c0, c1, c2, c3, c4, c5, c6, c7] ∧
      c0 < 8 ∧ c1 < 8 ∧ c2 < 8 ∧ c3 < 8 ∧ c4 < 8 ∧ c5 < 8 ∧ c6 < 8 ∧ c7 < 8 ∧
      octCellsToBytes24 [c0, c1, c2, c3, c4, c5, c6, c7] [9, 9, 9] = some [200, 17, 255]) :=
  ⟨by decide, (octCellsToBytes24_bytesToOctCells24 200 17 255 9 9 9 0 0 0 0 0 0 0 0
    (by decide) (by decide) (by decide)).1⟩

/-! ## Scalar quantizer: order -/

/-- The binary search stays within two steps of where it starts. -/
theorem bstWalk_range (v : ℚ) (k : Nat) : ∀ (cur inc : ℚ), 0 ≤ inc →
    cur - 2 * inc ≤ (bstWalk v k cur inc).1 ∧ (bstWalk v k cur inc).1 ≤ cur + 2 * inc := by
  induction k with
  | zero =>
    intro cur inc h
    simp only [bstWalk]
    constructor <;> linarith
  | succ k ih =>
    intro cur inc h
    simp only [bstWalk]
    split
    · obtain ⟨a, b⟩ := ih (cur - inc) (inc / 2) (by linarith)
      constructor <;> linarith
    · obtain ⟨a, b⟩ := ih (cur + inc) (inc / 2) (by linarith)
      constructor <;> linarith

/-- The binary search is monotone in the value searched for. -/
theorem bstWalk_mono (v1 v2 : ℚ) (h : v1 ≤ v2) (k : Nat) : ∀ (cur inc : ℚ), 0 ≤ inc →
    (bstWalk v1 k cur inc).1 ≤ (bstWalk v2 k cur inc).1 := by
  induction k with
  | zero => intro cur inc _; exact le_refl _
  | succ k ih =>
    intro cur inc hi
    simp only [bstWalk]
    by_cases h1 : v1 < cur
    · by_cases h2 : v2 < cur
      · rw [if_pos h1, if_pos h2]
        exact ih _ _ (by linarith)
      · rw [if_pos h1, if_neg h2]
        have a := (bstWalk_range v1 k (cur - inc) (inc / 2) (by linarith)).2
        have b := (bstWalk_range v2 k (cur + inc) (inc / 2) (by linarith)).1
        linarith
    · have h2 : ¬ v2 < cur := fun c => h1 (lt_of_le_of_lt h c)
      rw [if_neg h1, if_neg h2]
      exact ih _ _ (by linarith)

/-- C30. BST quantization is order-preserving: for every `start`, every
`duration ≥ 0`, every buffer length and every `v1 ≤ v2`, the value decoded from the
encoding of `v1` is less than or equal to the value decoded from the encoding of
`v2` (exact arithmetic). -/
theorem bst_order_preserving (start duration v1 v2 : ℚ) (out : List Nat) (hd : 0 ≤ duration)
    (h : v1 ≤ v2) :
    bytesToFloatBST start duration (floatBSTToBytes v1 start duration out)
      ≤ bytesToFloatBST start duration (floatBSTToBytes v2 start duration out) := by
  rw [bytesToFloatBST_floatBSTToBytes, bytesToFloatBST_floatBSTToBytes]
  exact bstWalk_mono v1 v2 h _ _ _ (by linarith)

/-- C30 at concrete values: `1/4 ≤ 3/4` in `[0, 1]` on two bytes. -/
theorem bst_order_preserving_witness :
    (0 : ℚ) ≤ 1 ∧ (1 / 4 : ℚ) ≤ 3 / 4 ∧
    bytesToFloatBST 0 1 (floatBSTToBytes (1 / 4) 0 1 [0, 0])
      ≤ bytesToFloatBST 0 1 (floatBSTToBytes (3 / 4) 0 1 [0, 0]) :=
  ⟨by norm_num, by norm_num,
    bst_order_preserving 0 1 (1 / 4) (3 / 4) [0, 0] (by norm_num) (by norm_num)⟩

/-! ## Scalar quantizer: closed form -/

theorem bit_le_one (b i : Nat) : (b >>> i) &&& 1 = 0 ∨ (b >>> i) &&& 1 = 1 := by
  rw [Nat.and_one_is_mod]
  omega

/-- The bit loop of `bytesToFloatBST` from the centre of cell `N`: it ends at the
centre of the cell whose number continues the digits of `N` with the bits read. -/
theorem decode_bitLoop_closed (b : Nat) (k : Nat) : ∀ (i : Nat) (cur inc lo : ℚ) (N : Nat),
    i + k ≤ 8 → cur = lo + (2 * N + 1) * (2 * inc) →
    (bytesToFloatBST.bitLoop b k i cur inc).2 = inc / 2 ^ k ∧
    (bytesToFloatBST.bitLoop b k i cur inc).1
      = lo + (2 * ((((List.range' i k).map fun j => (b >>> j) &&& 1).foldl
          (fun n bit => 2 * n + bit) N : Nat) : ℚ) + 1) * (2 * (inc / 2 ^ k)) := by
  induction k with
  | zero =>
    intro i cur inc lo N _ h
    simp [bytesToFloatBST.bitLoop, h]
  | succ k ih =>
    intro i cur inc lo N hik h
    have hi : i % 256 = i := Nat.mod_eq_of_lt (by omega)
    have hpow : inc / 2 / 2 ^ k = inc / 2 ^ (k + 1) := by
      rw [div_div, pow_succ, mul_comm]
    simp only [bytesToFloatBST.bitLoop, hi, List.range'_succ, List.map_cons, List.foldl_cons]
    rcases bit_le_one b i with h0 | h1
    · have hne : ¬ ((b >>> i) &&& 1 = 1) := by omega
      rw [if_neg hne, h0]
      obtain ⟨e1, e2⟩ := ih (i + 1) (cur - inc) (inc / 2) lo (2 * N + 0) (by omega)
        (by rw [h]; push_cast; ring)
      rw [e1, e2, hpow]
      exact ⟨rfl, rfl⟩
    · rw [if_pos h1, h1]
      obtain ⟨e1, e2⟩ := ih (i + 1) (cur + inc) (inc / 2) lo (2 * N + 1) (by omega)
        (by rw [h]; push_cast; ring)
      rw [e1, e2, hpow]
      exact ⟨rfl, rfl⟩

theorem emittedBits_eq_range' (b : Nat) :
    emittedBits b = (List.range' 0 8).map fun j => (b >>> j) &&& 1 := by
  rw [emittedBits, List.range_eq_range']

/-- The byte loop of `bytesToFloatBST` from the centre of cell `N`. -/
theorem decode_byteLoop_closed (bytes : List Nat) : ∀ (cur inc lo : ℚ) (N : Nat),
    cur = lo + (2 * N + 1) * (2 * inc) →
    bytesToFloatBST.byteLoop bytes cur inc
      = lo + (2 * (((bytes.flatMap emittedBits).foldl (fun n bit => 2 * n + bit) N : Nat) : ℚ)
          + 1) * (2 * (inc / 2 ^ (8 * bytes.length))) := by
  induction bytes with
  | nil =>
    intro cur inc lo N h
    simp [bytesToFloatBST.byteLoop, h]
  | cons b bytes ih =>
    intro cur inc lo N h
    obtain ⟨e1, e2⟩ := decode_bitLoop_closed b 8 0 cur inc lo N (by omega) h
    simp only [bytesToFloatBST.byteLoop]
    rw [ih _ _ lo (List.foldl (fun n bit => 2 * n + bit) N
        (List.map (fun j => (b >>> j) &&& 1) (List.range' 0 8)))
      (by rw [e2, e1]; push_cast; ring), e1, List.flatMap_cons, List.foldl_append,
      emittedBits_eq_range', div_div, ← pow_add]
    rw [show 8 + 8 * bytes.length = 8 * (b :: bytes).length by simp; ring]

/-- The value decoded from any bytes is the centre of the cell numbered by their
bits: `start + (2N + 1) * duration / 2^(8n+1)`. -/
theorem bytesToFloatBST_closed (start duration : ℚ) (bytes : List Nat) :
    bytesToFloatBST start duration bytes
      = start + (2 * (emittedNumber bytes : ℚ) + 1) * (duration / 2 ^ (8 * bytes.length + 1)) := by
  rw [bytesToFloatBST, decode_byteLoop_closed bytes _ _ start 0 (by push_cast; ring),
    emittedNumber]
  congr 2
  rw [pow_succ]
  field_simp
  ring

/-- The binary search from the centre of cell `N`: it ends at the centre of a cell
`M` that holds the value when cell `N` did, and that is the first or the last cell
within cell `N` when the value is below or above cell `N`. -/
theorem bstWalk_closed (v : ℚ) (k : Nat) : ∀ (cur inc lo : ℚ) (N : Nat), 0 ≤ inc →
    cur = lo + (2 * N + 1) * (2 * inc) →
    ∃ M : Nat, (bstWalk v k cur inc).1 = lo + (2 * (M : ℚ) + 1) * (2 * (inc / 2 ^ k)) ∧
      (lo + N * (4 * inc) ≤ v → v < lo + (N + 1) * (4 * inc) →
        lo + M * (4 * (inc / 2 ^ k)) ≤ v ∧ v < lo + (M + 1) * (4 * (inc / 2 ^ k))) ∧
      (v < lo + N * (4 * inc) → M = N * 2 ^ k) ∧
      (lo + (N + 1) * (4 * inc) ≤ v → M + 1 = (N + 1) * 2 ^ k) := by
  induction k with
  | zero =>
    intro cur inc lo N _ h
    exact ⟨N, by simp [bstWalk, h], fun a b => by simp only [pow_zero, div_one]; exact ⟨a, b⟩,
      fun _ => by simp, fun _ => by simp⟩
  | succ k ih =>
    intro cur inc lo N hinc h
    have hpow : inc / 2 / 2 ^ k = inc / 2 ^ (k + 1) := by
      rw [div_div, pow_succ, mul_comm]
    simp only [bstWalk]
    by_cases hv : v < cur
    · rw [if_pos hv]
      obtain ⟨M, m1, m2, m3, m4⟩ := ih (cur - inc) (inc / 2) lo (2 * N) (by linarith)
        (by rw [h]; push_cast; ring)
      rw [hpow] at m1 m2
      refine ⟨M, m1, ?_, ?_, ?_⟩
      · intro a b
        exact m2 (by push_cast; linarith) (by rw [h] at hv; push_cast; linarith)
      · intro a
        rw [m3 (by push_cast; linarith), pow_succ]
        ring
      · intro a
        exfalso
        rw [h] at hv
        nlinarith
    · rw [if_neg hv]
      obtain ⟨M, m1, m2, m3, m4⟩ := ih (cur + inc) (inc / 2) lo (2 * N + 1) (by linarith)
        (by rw [h]; push_cast; ring)
      rw [hpow] at m1 m2
      refine ⟨M, m1, ?_, ?_, ?_⟩
      · intro a b
        exact m2 (by rw [h] at hv; push_cast; linarith) (by push_cast; linarith)
      · intro a
        exfalso
        rw [h] at hv
        nlinarith
      · intro a
        rw [m4 (by push_cast; linarith), pow_succ]
        ring

/-- The number written by `floatBSTToBytes` is the number of the cell of width
`duration / 2^(8n)` that holds the value, the first cell for a value below the range
and the last for a value above. -/
theorem emittedNumber_floatBSTToBytes (v start duration : ℚ) (out : List Nat)
    (hd : 0 < duration) :
    (start ≤ v → v < start + duration →
      start + emittedNumber (floatBSTToBytes v start duration out)
          * (duration / 2 ^ (8 * out.length)) ≤ v ∧
      v < start + (emittedNumber (floatBSTToBytes v start duration out) + 1)
          * (duration / 2 ^ (8 * out.length))) ∧
    (v < start → emittedNumber (floatBSTToBytes v start duration out) = 0) ∧
    (start + duration ≤ v →
      emittedNumber (floatBSTToBytes v start duration out) + 1 = 2 ^ (8 * out.length)) := by
  obtain ⟨M, m1, m2, m3, m4⟩ := bstWalk_closed v (8 * out.length) (start + duration / 2)
    (duration / 4) start 0 (by linarith) (by push_cast; ring)
  have hdec := bytesToFloatBST_floatBSTToBytes v start duration out
  rw [bytesToFloatBST_closed, floatBSTToBytes_length, m1] at hdec
  have hpos : (0 : ℚ) < duration / 2 ^ (8 * out.length + 1) := by positivity
  have hw : 2 * (duration / 4 / 2 ^ (8 * out.length)) = duration / 2 ^ (8 * out.length + 1) := by
    rw [pow_succ]
    field_simp
    ring
  have hc : 4 * (duration / 4 / 2 ^ (8 * out.length)) = duration / 2 ^ (8 * out.length) := by
    field_simp
    ring
  rw [hw] at hdec
  have hEM : emittedNumber (floatBSTToBytes v start duration out) = M := by
    have h1 : (2 * (emittedNumber (floatBSTToBytes v start duration out) : ℚ) + 1)
        = 2 * (M : ℚ) + 1 := by
      have := add_left_cancel hdec
      exact mul_right_cancel₀ (ne_of_gt hpos) this
    have h2 : (emittedNumber (floatBSTToBytes v start duration out) : ℚ) = M := by linarith
    exact_mod_cast h2
  rw [hEM]
  rw [hc] at m2
  refine ⟨fun a b => ?_, fun a => ?_, fun a => ?_⟩
  · have := m2 (by push_cast; linarith) (by push_cast; linarith)
    exact this
  · simpa using m3 (by push_cast; linarith)
  · simpa using m4 (by push_cast; linarith)

/-- C26. BST encoder closed form: for every `start`, every `duration > 0` and every
buffer of `n` bytes, the `8n` bits written by `floatBSTToBytes`, taken in emission
order (byte 0 bit 0 first) as the binary digits of an integer `N` most significant
first, satisfy `N = floor((v - start) / duration * 2^(8n))` when
`start ≤ v < start + duration`, `N = 0` when `v < start` and `N = 2^(8n) - 1` when
`v ≥ start + duration` (exact arithmetic). -/
theorem bst_encoder_closed_form (v start duration : ℚ) (out : List Nat) (hd : 0 < duration) :
    (start ≤ v → v < start + duration →
      emittedNumber (floatBSTToBytes v start duration out)
        = ⌊(v - start) / duration * 2 ^ (8 * out.length)⌋₊) ∧
    (v < start → emittedNumber (floatBSTToBytes v start duration out) = 0) ∧
    (start + duration ≤ v →
      emittedNumber (floatBSTToBytes v start duration out) = 2 ^ (8 * out.length) - 1) := by
  obtain ⟨h1, h2, h3⟩ := emittedNumber_floatBSTToBytes v start duration out hd
  refine ⟨fun a b => ?_, h2, fun a => ?_⟩
  · obtain ⟨lo, hi⟩ := h1 a b
    have hp : (0 : ℚ) < 2 ^ (8 * out.length) := by positivity
    have hx : (0 : ℚ) ≤ (v - start) / duration * 2 ^ (8 * out.length) := by
      apply mul_nonneg (div_nonneg (by linarith) (le_of_lt hd)) (le_of_lt hp)
    have hw : (0 : ℚ) < duration / 2 ^ (8 * out.length) := by positivity
    have key : (v - start) / duration * 2 ^ (8 * out.length)
        = (v - start) / (duration / 2 ^ (8 * out.length)) := by
      field_simp
    symm
    rw [Nat.floor_eq_iff hx, key, le_div_iff₀ hw, div_lt_iff₀ hw]
    constructor <;> linarith
  · have := h3 a
    omega

/-- C26 at concrete values: `v = 1/2` in `[0, 1)` on two bytes, a value below the
range and a value above. -/
theorem bst_encoder_closed_form_witness :
    (0 : ℚ) < 1 ∧
    ((0 : ℚ) ≤ 1 / 2 → (1 / 2 : ℚ) < 0 + 1 →
      emittedNumber (floatBSTToBytes (1 / 2) 0 1 [0, 0])
        = ⌊((1 / 2 : ℚ) - 0) / 1 * 2 ^ (8 * [0, 0].length)⌋₊) ∧
    ((1 / 2 : ℚ) < 0 → emittedNumber (floatBSTToBytes (1 / 2) 0 1 [0, 0]) = 0) ∧
    ((0 : ℚ) + 1 ≤ 1 / 2 →
      emittedNumber (floatBSTToBytes (1 / 2) 0 1 [0, 0]) = 2 ^ (8 * [0, 0].length) - 1) :=
  ⟨by norm_num, bst_encoder_closed_form (1 / 2) 0 1 [0, 0] (by norm_num)⟩

/-! ## Scalar quantizer: encoding a decoded value -/

theorem emittedBits_explicit (b : Nat) :
    emittedBits b = [b % 2, b / 2 % 2, b / 4 % 2, b / 8 % 2, b / 16 % 2, b / 32 % 2,
      b / 64 % 2, b / 128 % 2] := by
  have : emittedBits b = [(b >>> 0) &&& 1, (b >>> 1) &&& 1, (b >>> 2) &&& 1, (b >>> 3) &&& 1,
      (b >>> 4) &&& 1, (b >>> 5) &&& 1, (b >>> 6) &&& 1, (b >>> 7) &&& 1] := rfl
  rw [this]
  simp only [Nat.and_one_is_mod, Nat.shiftRight_eq_div_pow]
  norm_num

/-- The eight bits of a byte continue the digits of `N`. -/
theorem foldl_emittedBits (b N : Nat) :
    (emittedBits b).foldl (fun n bit => 2 * n + bit) N
      = 256 * N + (emittedBits b).foldl (fun n bit => 2 * n + bit) 0 ∧
    (emittedBits b).foldl (fun n bit => 2 * n + bit) 0 < 256 := by
  rw [emittedBits_explicit]
  simp only [List.foldl]
  constructor <;> omega

set_option maxRecDepth 100000 in
/-- Reversing the bits of a byte twice gives the byte. -/
theorem emittedBits_involutive : ∀ b : Fin 256,
    (emittedBits ((emittedBits b.val).foldl (fun n bit => 2 * n + bit) 0)).foldl
      (fun n bit => 2 * n + bit) 0 = b.val := by
  decide

theorem emittedBits_injective (b1 b2 : Nat) (h1 : b1 < 256) (h2 : b2 < 256)
    (h : (emittedBits b1).foldl (fun n bit => 2 * n + bit) 0
      = (emittedBits b2).foldl (fun n bit => 2 * n + bit) 0) : b1 = b2 := by
  have e1 := emittedBits_involutive ⟨b1, h1⟩
  have e2 := emittedBits_involutive ⟨b2, h2⟩
  simp only at e1 e2
  rw [← e1, ← e2, h]

/-- Byte buffers of one length whose bits, continuing the digits of two numbers, give
the same number are equal, and so are the two numbers. -/
theorem emittedNumber_injective (l1 : List Nat) : ∀ (l2 : List Nat) (A B : Nat),
    l1.length = l2.length → (∀ x ∈ l1, x < 256) → (∀ x ∈ l2, x < 256) →
    (l1.flatMap emittedBits).foldl (fun n bit => 2 * n + bit) A
      = (l2.flatMap emittedBits).foldl (fun n bit => 2 * n + bit) B →
    A = B ∧ l1 = l2 := by
  induction l1 with
  | nil =>
    intro l2 A B hl _ _ h
    have : l2 = [] := List.length_eq_zero.mp hl.symm
    subst this
    exact ⟨by simpa using h, rfl⟩
  | cons b1 l1 ih =>
    intro l2 A B hl h1 h2 h
    cases l2 with
    | nil => simp at hl
    | cons b2 l2 =>
      simp only [List.flatMap_cons, List.foldl_append] at h
      obtain ⟨e, rfl⟩ := ih l2 _ _ (by simpa using hl) (fun x hx => h1 x (by simp [hx]))
        (fun x hx => h2 x (by simp [hx])) h
      obtain ⟨a1, a2⟩ := foldl_emittedBits b1 A
      obtain ⟨c1, c2⟩ := foldl_emittedBits b2 B
      rw [a1, c1] at e
      have hAB : A = B := by omega
      have hb : b1 = b2 := emittedBits_injective b1 b2 (h1 b1 (by simp)) (h2 b2 (by simp))
        (by omega)
      exact ⟨hAB, by rw [hb]⟩

theorem foldl_bits_lt (bits : List Nat) (hb : ∀ x ∈ bits, x ≤ 1) : ∀ (N : Nat),
    bits.foldl (fun n bit => 2 * n + bit) N + 1 ≤ (N + 1) * 2 ^ bits.length := by
  induction bits with
  | nil => intro N; simp
  | cons x bits ih =>
    intro N
    have hx := hb x (by simp)
    have := ih (fun y hy => hb y (by simp [hy])) (2 * N + x)
    simp only [List.foldl_cons, List.length_cons, pow_succ]
    calc _ ≤ (2 * N + x + 1) * 2 ^ bits.length := this
      _ ≤ (2 * N + 2) * 2 ^ bits.length := Nat.mul_le_mul_right _ (by omega)
      _ = (N + 1) * (2 ^ bits.length * 2) := by ring

theorem emittedNumber_lt (bytes : List Nat) : emittedNumber bytes < 2 ^ (8 * bytes.length) := by
  have hb : ∀ x ∈ bytes.flatMap emittedBits, x ≤ 1 := by
    intro x hx
    simp only [List.mem_flatMap] at hx
    obtain ⟨b, _, hxb⟩ := hx
    rw [emittedBits_explicit] at hxb
    simp only [List.mem_cons, List.mem_singleton, List.not_mem_nil, or_false] at hxb
    omega
  have hl : (bytes.flatMap emittedBits).length = 8 * bytes.length := by
    induction bytes with
    | nil => rfl
    | cons b bytes ih =>
      simp only [List.flatMap_cons, List.length_append, List.length_cons,
        ih (fun x hx => hb x (by simp [List.flatMap_cons, hx])), emittedBits_explicit]
      simp
      ring
  have := foldl_bits_lt _ hb 0
  rw [hl] at this
  unfold emittedNumber
  omega

theorem byteLoop_lt (v : ℚ) (out : List Nat) : ∀ (cur inc : ℚ),
    ∀ x ∈ floatBSTToBytes.byteLoop v out cur inc, x < 256 := by
  induction out with
  | nil => intro cur inc x hx; simp [floatBSTToBytes.byteLoop] at hx
  | cons o out ih =>
    intro cur inc x hx
    simp only [floatBSTToBytes.byteLoop, List.mem_cons] at hx
    rcases hx with rfl | hx
    · exact (bitLoop_spec v 8 0 0 cur inc (by omega) (by norm_num)).2.1
    · exact ih _ _ x hx

/-- With a zero increment and a value not below `curValue` every bit is set. -/
theorem bitLoop_zero_increment (v cur : ℚ) (h : ¬ v < cur) :
    floatBSTToBytes.bitLoop v 8 0 0 cur 0 = (255, cur, 0) := by
  simp [floatBSTToBytes.bitLoop, h]

theorem byteLoop_zero_increment (v cur : ℚ) (h : ¬ v < cur) (out : List Nat) :
    floatBSTToBytes.byteLoop v out cur 0 = List.replicate out.length 255 := by
  induction out with
  | nil => rfl
  | cons o out ih =>
    simp only [floatBSTToBytes.byteLoop, bitLoop_zero_increment v cur h, ih,
      List.length_cons, List.replicate_succ]

/-- C29. BST re-encoding is stable: for every `start`, every `duration > 0` and every
byte buffer `b`, `floatBSTToBytes` applied to the value
`bytesToFloatBST(start, duration, b)` with the same `start` and `duration` writes
exactly `b` into a buffer of the length of `b` (exact arithmetic); with
`duration = 0` it writes all-ones bytes instead. -/
theorem bst_reencoding_stable (start duration : ℚ) (b out : List Nat)
    (hb : ∀ x ∈ b, x < 256) (hlen : out.length = b.length) (hd : 0 < duration) :
    floatBSTToBytes (bytesToFloatBST start duration b) start duration out = b ∧
    floatBSTToBytes (bytesToFloatBST start 0 b) start 0 out = List.replicate b.length 255 := by
  constructor
  · have hN := emittedNumber_lt b
    have hv := bytesToFloatBST_closed start duration b
    have hw : (0 : ℚ) < duration / 2 ^ (8 * b.length + 1) := by positivity
    have hW : duration / 2 ^ (8 * b.length) = 2 * (duration / 2 ^ (8 * b.length + 1)) := by
      rw [pow_succ]
      field_simp
      ring
    have hNq : (emittedNumber b : ℚ) + 1 ≤ 2 ^ (8 * b.length) := by exact_mod_cast hN
    have hlo : start ≤ bytesToFloatBST start duration b := by
      rw [hv]
      have : (0 : ℚ) ≤ (2 * (emittedNumber b : ℚ) + 1) * (duration / 2 ^ (8 * b.length + 1)) :=
        mul_nonneg (by positivity) (le_of_lt hw)
      linarith
    have hhi : bytesToFloatBST start duration b < start + duration := by
      rw [hv]
      have e : duration = 2 ^ (8 * b.length + 1) * (duration / 2 ^ (8 * b.length + 1)) := by
        field_simp
      have h2 : (2 * (emittedNumber b : ℚ) + 1) < 2 ^ (8 * b.length + 1) := by
        rw [pow_succ]
        linarith
      have := mul_lt_mul_of_pos_right h2 hw
      linarith
    have key : ∀ E : ℕ,
        start + (E : ℚ) * (duration / 2 ^ (8 * out.length)) ≤ bytesToFloatBST start duration b →
        bytesToFloatBST start duration b
          < start + ((E : ℚ) + 1) * (duration / 2 ^ (8 * out.length)) →
        E = emittedNumber b := by
      intro E a1 a2
      rw [hlen, hW, hv] at a1 a2
      have c1 : 2 * (E : ℚ) ≤ 2 * (emittedNumber b : ℚ) + 1 := by
        have : (2 * (E : ℚ)) * (duration / 2 ^ (8 * b.length + 1))
            ≤ (2 * (emittedNumber b : ℚ) + 1) * (duration / 2 ^ (8 * b.length + 1)) := by
          linarith
        exact le_of_mul_le_mul_right this hw
      have c2 : 2 * (emittedNumber b : ℚ) + 1 < 2 * (E : ℚ) + 2 := by
        have : (2 * (emittedNumber b : ℚ) + 1) * (duration / 2 ^ (8 * b.length + 1))
            < (2 * (E : ℚ) + 2) * (duration / 2 ^ (8 * b.length + 1)) := by
          linarith
        exact lt_of_mul_lt_mul_right this (le_of_lt hw)
      have c1n : 2 * E ≤ 2 * emittedNumber b + 1 := by exact_mod_cast c1
      have c2n : 2 * emittedNumber b + 1 < 2 * E + 2 := by exact_mod_cast c2
      omega
    obtain ⟨h1, _, _⟩ := emittedNumber_floatBSTToBytes (bytesToFloatBST start duration b) start
      duration out hd
    obtain ⟨a1, a2⟩ := h1 hlo hhi
    have hE := key _ a1 a2
    exact (emittedNumber_injective _ b 0 0
      ((floatBSTToBytes_length _ _ _ _).trans hlen) (byteLoop_lt _ out _ _) hb hE).2
  · have hv : bytesToFloatBST start 0 b = start := by
      rw [bytesToFloatBST_closed]
      simp
    rw [hv, floatBSTToBytes]
    simp only [zero_div, add_zero]
    rw [byteLoop_zero_increment start start (lt_irrefl _) out, hlen]

/-- C29 at a concrete buffer of two bytes. -/
theorem bst_reencoding_stable_witness :
    (∀ x ∈ [200, 17], x < 256) ∧ [0, 0].length = [200, 17].length ∧ (0 : ℚ) < 3 ∧
    floatBSTToBytes (bytesToFloatBST 1 3 [200, 17]) 1 3 [0, 0] = [200, 17] ∧
    floatBSTToBytes (bytesToFloatBST 1 0 [200, 17]) 1 0 [0, 0]
      = List.replicate [200, 17].length 255 :=
  ⟨by decide, rfl, by norm_num,
    bst_reencoding_stable 1 3 [200, 17] [0, 0] (by decide) rfl (by norm_num)⟩

/-! ## Event codec: pairing of keys and values -/

theorem mem_firstOccurrences_keys (streams : List CaptureStream) (s : CaptureStream)
    (time : Nat) (name : GoString) (md : List (GoString × GoString)) (hs : s ∈ streams)
    (hc : Capture.event time name md ∈ s.captures) :
    ∀ kv ∈ md, kv.1 ∈ firstOccurrences (allMetadataKeys streams) := by
  intro kv hkv
  rw [(firstOccurrences_spec _).2.1]
  exact mem_allMetadataKeys streams s _ kv.1 hs hc
    (by simp only [Capture.keys, List.mem_map]; exact ⟨kv, hkv, rfl⟩)

theorem positionOf_injOn (l : List GoString) (a b : GoString) (ha : a ∈ l) (hb : b ∈ l)
    (h : positionOf a l = positionOf b l) : a = b := by
  have e1 := getElem?_positionOf l a ha
  have e2 := getElem?_positionOf l b hb
  rw [h, e2] at e1
  exact (Option.some.inj e1).symm

/-- C27. Event per-capture key/value pairing: whenever `Encode` returns, for every
event capture with `K` metadata entries the bytes written for the capture end with a
uint array of `K` key indexes followed by a string array of `K` values such that, for
each `j`, the header's `metadataKeys[keyIndexes[j]]` is the key of the `j`-th entry of
the capture and `values[j]` is its value; the keys named by the indexes are the keys
of the capture, each once (no index is repeated when the metadata is a Go map); and
the key dictionary of the header has no duplicate entries. -/
theorem event_key_value_pairing (cv : FloatConv) (technique : Nat)
    (streams : List CaptureStream) (header : List Nat) (bodies : List (List Nat))
    (h : Encoder.Encode cv technique streams = .ok (header, bodies)) :
    ∃ names keys : List GoString,
      header = StringArrayToBytes names ++ StringArrayToBytes keys ∧ keys.Nodup ∧
      bodies = streams.map (eventBodyBytes cv technique names keys) ∧
      ∀ s ∈ streams, ∀ (time : Nat) (name : GoString) (md : List (GoString × GoString)),
        Capture.event time name md ∈ s.captures →
        ∃ (keyIndexes : List Nat) (values : List GoString),
          eventCaptureBytes cv technique names keys (.event time name md)
            = encodeTime cv technique time ++ uvarintBytes (positionOf name names)
              ++ UintArrayToBytes keyIndexes ++ StringArrayToBytes values ∧
          keyIndexes.length = md.length ∧ values.length = md.length ∧
          (∀ (j : Nat) (kv : GoString × GoString), md[j]? = some kv →
            ∃ i, keyIndexes[j]? = some i ∧ keys[i]? = some kv.1 ∧ values[j]? = some kv.2) ∧
          keyIndexes.map (fun i => keys[i]?) = md.map (fun kv => some kv.1) ∧
          ((md.map Prod.fst).Nodup → keyIndexes.Nodup) := by
  obtain ⟨hh, hb⟩ := Encode_layout cv technique streams header bodies h
  refine ⟨_, _, hh, (firstOccurrences_spec _).1, hb, ?_⟩
  intro s hs time name md hc
  have hmem := mem_firstOccurrences_keys streams s time name md hs hc
  refine ⟨md.map fun kv => positionOf kv.1 (firstOccurrences (allMetadataKeys streams)),
    md.map Prod.snd, by simp only [eventCaptureBytes], by simp, by simp, ?_, ?_, ?_⟩
  · intro j kv hj
    refine ⟨positionOf kv.1 (firstOccurrences (allMetadataKeys streams)), ?_, ?_, ?_⟩
    · rw [List.getElem?_map, hj]
      rfl
    · have hkv : kv ∈ md := by
        obtain ⟨hi, e⟩ := List.getElem?_eq_some_iff.mp hj
        exact e ▸ List.getElem_mem hi
      exact getElem?_positionOf _ _ (hmem kv hkv)
    · rw [List.getElem?_map, hj]
      rfl
  · rw [List.map_map]
    apply List.map_congr_left
    intro kv hkv
    exact getElem?_positionOf _ _ (hmem kv hkv)
  · intro hnd
    have e : (md.map fun kv => positionOf kv.1 (firstOccurrences (allMetadataKeys streams)))
        = (md.map Prod.fst).map
          fun k => positionOf k (firstOccurrences (allMetadataKeys streams)) := by
      rw [List.map_map]
      rfl
    rw [e]
    apply List.Nodup.map_on _ hnd
    intro a ha b hb hab
    have ha' : a ∈ firstOccurrences (allMetadataKeys streams) := by
      obtain ⟨kv, hkv, rfl⟩ := List.mem_map.mp ha
      exact hmem kv hkv
    have hb' : b ∈ firstOccurrences (allMetadataKeys streams) := by
      obtain ⟨kv, hkv, rfl⟩ := List.mem_map.mp hb
      exact hmem kv hkv
    exact positionOf_injOn _ a b ha' hb' hab

set_option maxRecDepth 100000 in
/-- C27 at a concrete input: the header and bodies that `Encode` returns for
`sampleStreams`. -/
theorem event_key_value_pairing_witness :
    Encoder.Encode ⟨id, id⟩ Raw64 sampleStreams = .ok (sampleHeader, sampleBodies) ∧
    ∃ names keys : List GoString,
      sampleHeader = StringArrayToBytes names ++ StringArrayToBytes keys ∧ keys.Nodup ∧
      sampleBodies = sampleStreams.map (eventBodyBytes ⟨id, id⟩ Raw64 names keys) ∧
      ∀ s ∈ sampleStreams, ∀ (time : Nat) (name : GoString) (md : List (GoString × GoString)),
        Capture.event time name md ∈ s.captures →
        ∃ (keyIndexes : List Nat) (values : List GoString),
          eventCaptureBytes ⟨id, id⟩ Raw64 names keys (.event time name md)
            = encodeTime ⟨id, id⟩ Raw64 time ++ uvarintBytes (positionOf name names)
              ++ UintArrayToBytes keyIndexes ++ StringArrayToBytes values ∧
          keyIndexes.length = md.length ∧ values.length = md.length ∧
          (∀ (j : Nat) (kv : GoString × GoString), md[j]? = some kv →
            ∃ i, keyIndexes[j]? = some i ∧ keys[i]? = some kv.1 ∧ values[j]? = some kv.2) ∧
          keyIndexes.map (fun i => keys[i]?) = md.map (fun kv => some kv.1) ∧
          ((md.map Prod.fst).Nodup → keyIndexes.Nodup) :=
  ⟨by decide, event_key_value_pairing ⟨id, id⟩ Raw64 sampleStreams sampleHeader sampleBodies
    (by decide)⟩

/-! ## Properties -/

/-- C25. String property encoding: for every string `s` (a Go value, so shorter than
`2^64` bytes), `NewStringProperty(s)` has type code 0, `String()` returns `s`, and
`Data()` is the uvarint of the byte length of `s` followed by the bytes of `s`; the
empty string gives `[0]` and `"abcd"` gives `[4, 'a', 'b', 'c', 'd']`. -/
theorem NewStringProperty_code_string_data (s : GoString) (hs : s.length < 2 ^ 64) :
    (NewStringProperty s).code = 0 ∧ (NewStringProperty s).String = s ∧
    (NewStringProperty s).data = uvarintBytes s.length ++ s ∧
    (NewStringProperty []).data = [0] ∧
    (NewStringProperty [97, 98, 99, 100]).data = [4, 97, 98, 99, 100] := by
  refine ⟨rfl, ?_, rfl, by decide, by decide⟩
  have h := ReadString_StringToBytes s [] hs
  rw [List.append_nil] at h
  simp only [Property.String, NewStringProperty, h, valueOrNil]

/-- C25 at the string `"a"`. -/
theorem NewStringProperty_code_string_data_witness :
    (NewStringProperty [97]).code = 0 ∧ (NewStringProperty [97]).String = [97] ∧
    (NewStringProperty [97]).data = uvarintBytes [97].length ++ [97] ∧
    (NewStringProperty []).data = [0] ∧
    (NewStringProperty [97, 98, 99, 100]).data = [4, 97, 98, 99, 100] :=
  NewStringProperty_code_string_data [97] (by decide)

/-! ## Container: what the writer rejects -/

/-- C24. Nil root is rejected loudly: for every writer (whatever encoders are
registered), `Write(nil)` panics with the error `can not write nil recording`; it
neither returns normally, with whatever bytes and count, nor returns an error. -/
theorem Write_nil_panics (encoders : List encoding.Encoder) (version : Nat) :
    Write encoders version none = .panic "can not write nil recording" ∧
    (∀ out, Write encoders version none ≠ .ok out) ∧
    ∀ e, Write encoders version none ≠ .error e :=
  ⟨rfl, fun _ h => IoRes.noConfusion h, fun _ h => IoRes.noConfusion h⟩

theorem dispatch_eq_none (encoders : List encoding.Encoder) (c : CaptureStream) :
    dispatch encoders c = none ↔ ∀ e ∈ encoders, e.accepts c = false := by
  induction encoders with
  | nil => simp [dispatch]
  | cons e es ih =>
    simp only [dispatch, List.mem_cons, forall_eq_or_imp]
    cases h : e.accepts c
    · simp [ih]
    · simp

theorem find?_unhandled (encoders : List encoding.Encoder) (collections : List CaptureStream) :
    (∀ c, (collections.find? fun c => (dispatch encoders c).isNone) = some c →
      c ∈ collections ∧ dispatch encoders c = none) ∧
    ((collections.find? fun c => (dispatch encoders c).isNone) = none →
      ∀ c ∈ collections, dispatch encoders c ≠ none) := by
  constructor
  · intro c h
    have h1 := List.find?_some h
    exact ⟨List.mem_of_find?_eq_some h, by simpa using h1⟩
  · intro h c hc
    have := List.find?_eq_none.mp h c hc
    simpa using this

theorem Recording.mem_nodes_self (r : Recording) : r ∈ r.nodes := by
  cases r
  rw [Recording.nodes]
  exact List.mem_cons_self _ _

mutual
theorem firstUnhandled_sound (encoders : List encoding.Encoder) :
    ∀ (r : Recording) (s : GoString), firstUnhandled encoders r = some s →
      ∃ node ∈ r.nodes, ∃ c ∈ node.collections, dispatch encoders c = none ∧ c.signature = s
  | .mk id name metadata collections children binaries => by
    intro s h
    rw [firstUnhandled] at h
    cases hf : collections.find? fun c => (dispatch encoders c).isNone with
    | some c =>
      rw [hf] at h
      obtain ⟨hc, hd⟩ := (find?_unhandled encoders collections).1 c hf
      exact ⟨.mk id name metadata collections children binaries,
        Recording.mem_nodes_self _, c, hc, hd, Option.some.inj h⟩
    | none =>
      rw [hf] at h
      obtain ⟨node, hn, c, hc, hd, he⟩ := firstUnhandledOf_sound encoders children s h
      exact ⟨node, by rw [Recording.nodes]; exact List.mem_cons_of_mem _ hn, c, hc, hd, he⟩
theorem firstUnhandledOf_sound (encoders : List encoding.Encoder) :
    ∀ (rs : List Recording) (s : GoString), firstUnhandledOf encoders rs = some s →
      ∃ node ∈ Recording.nodesOf rs, ∃ c ∈ node.collections,
        dispatch encoders c = none ∧ c.signature = s
  | [] => by
    intro s h
    simp [firstUnhandledOf] at h
  | r :: rs => by
    intro s h
    rw [firstUnhandledOf] at h
    cases hr : firstUnhandled encoders r with
    | some t =>
      rw [hr] at h
      obtain ⟨node, hn, c, hc, hd, he⟩ := firstUnhandled_sound encoders r t hr
      refine ⟨node, ?_, c, hc, hd, he.trans (Option.some.inj h)⟩
      rw [Recording.nodesOf]
      exact List.mem_append_left _ hn
    | none =>
      rw [hr] at h
      obtain ⟨node, hn, c, hc, hd, he⟩ := firstUnhandledOf_sound encoders rs s h
      refine ⟨node, ?_, c, hc, hd, he⟩
      rw [Recording.nodesOf]
      exact List.mem_append_right _ hn
end

mutual
theorem firstUnhandled_complete (encoders : List encoding.Encoder) :
    ∀ r : Recording,
      (∃ node ∈ r.nodes, ∃ c ∈ node.collections, dispatch encoders c = none) →
      firstUnhandled encoders r ≠ none
  | .mk id name metadata collections children binaries => by
    intro h
    rw [firstUnhandled]
    cases hf : collections.find? fun c => (dispatch encoders c).isNone with
    | some c => simp
    | none =>
      have hall := (find?_unhandled encoders collections).2 hf
      obtain ⟨node, hn, c, hc, hd⟩ := h
      rw [Recording.nodes, List.mem_cons] at hn
      rcases hn with rfl | hn
      · exact absurd hd (hall c hc)
      · exact firstUnhandledOf_complete encoders children ⟨node, hn, c, hc, hd⟩
theorem firstUnhandledOf_complete (encoders : List encoding.Encoder) :
    ∀ rs : List Recording,
      (∃ node ∈ Recording.nodesOf rs, ∃ c ∈ node.collections, dispatch encoders c = none) →
      firstUnhandledOf encoders rs ≠ none
  | [] => by
    intro h
    obtain ⟨node, hn, _⟩ := h
    simp [Recording.nodesOf] at hn
  | r :: rs => by
    intro h
    rw [firstUnhandledOf]
    obtain ⟨node, hn, c, hc, hd⟩ := h
    rw [Recording.nodesOf, List.mem_append] at hn
    cases hr : firstUnhandled encoders r with
    | some t => simp
    | none =>
      rcases hn with hn | hn
      · exact absurd hr (firstUnhandled_complete encoders r ⟨node, hn, c, hc, hd⟩)
      · exact firstUnhandledOf_complete encoders rs ⟨node, hn, c, hc, hd⟩
end

/-- C23. Dispatch totality: for every recording that contains, at any depth, a capture
collection that no registered encoder accepts, `Write` fails with the error `no
encoder registered to handle stream: <signature>`, where `<signature>` is the
signature of such a collection of the recording (the first one, depth first); and no
byte count is returned. -/
theorem Write_fails_without_encoder (encoders : List encoding.Encoder) (version : Nat)
    (r : Recording)
    (h : ∃ node ∈ r.nodes, ∃ c ∈ node.collections, ∀ e ∈ encoders, e.accepts c = false) :
    ∃ node ∈ r.nodes, ∃ c ∈ node.collections, (∀ e ∈ encoders, e.accepts c = false) ∧
      Write encoders version (some r) = .error (.noEncoder c.signature) ∧
      (ContainerError.noEncoder c.signature).text
        = some (bytesOf "no encoder registered to handle stream: " ++ c.signature) := by
  have h' : ∃ node ∈ r.nodes, ∃ c ∈ node.collections, dispatch encoders c = none := by
    obtain ⟨node, hn, c, hc, hd⟩ := h
    exact ⟨node, hn, c, hc, (dispatch_eq_none encoders c).mpr hd⟩
  have hne := firstUnhandled_complete encoders r h'
  cases hs : firstUnhandled encoders r with
  | none => exact absurd hs hne
  | some s =>
    obtain ⟨node, hn, c, hc, hd, rfl⟩ := firstUnhandled_sound encoders r s hs
    refine ⟨node, hn, c, hc, (dispatch_eq_none encoders c).mp hd, ?_, rfl⟩
    simp only [Write, hs]

/-- C23 at the input of `Test_ErrorsWithNoValidEncoders`: a writer with no encoders
given a recording with one stream of signature `test.data`. -/
theorem Write_fails_without_encoder_witness :
    (∃ node ∈ (Recording.mk [] [] ⟨[]⟩ [⟨[], bytesOf "test.data", []⟩] [] []).nodes,
      ∃ c ∈ node.collections, ∀ e ∈ ([] : List encoding.Encoder), e.accepts c = false) ∧
    ∃ node ∈ (Recording.mk [] [] ⟨[]⟩ [⟨[], bytesOf "test.data", []⟩] [] []).nodes,
      ∃ c ∈ node.collections, (∀ e ∈ ([] : List encoding.Encoder), e.accepts c = false) ∧
      Write [] 2 (some (.mk [] [] ⟨[]⟩ [⟨[], bytesOf "test.data", []⟩] [] []))
        = .error (.noEncoder c.signature) ∧
      (ContainerError.noEncoder c.signature).text
        = some (bytesOf "no encoder registered to handle stream: " ++ c.signature) :=
  have h : ∃ node ∈ (Recording.mk [] [] ⟨[]⟩ [⟨[], bytesOf "test.data", []⟩] [] []).nodes,
      ∃ c ∈ node.collections, ∀ e ∈ ([] : List encoding.Encoder), e.accepts c = false :=
    ⟨.mk [] [] ⟨[]⟩ [⟨[], bytesOf "test.data", []⟩] [] [], Recording.mem_nodes_self _,
      ⟨[], bytesOf "test.data", []⟩, List.mem_singleton.mpr rfl, by simp⟩
  ⟨h, Write_fails_without_encoder [] 2 _ h⟩

/-! ## Container: reading back what was written -/

theorem uvarintBytes_length_pos (x : Nat) : 0 < (uvarintBytes x).length := by
  obtain ⟨bs, hbs⟩ := PutUvarint_isSome 9 (x % 2 ^ 64)
    (lt_of_lt_of_le (Nat.mod_lt _ (by norm_num)) (Nat.pow_le_pow_right (by norm_num) (by norm_num)))
  unfold uvarintBytes
  rw [hbs]
  exact (PutUvarint_length 10 _ bs hbs).1

theorem liftRead_ReadUvarint (x : Nat) (rest : List Nat) (hx : x < 2 ^ 64) :
    liftRead (ReadUvarint (uvarintBytes x ++ rest)) = .ok (x, rest) := by
  rw [ReadUvarint_uvarintBytes x rest hx]
  rfl

theorem liftRead_ReadString (s : GoString) (rest : List Nat) (hs : s.length < 2 ^ 64) :
    liftRead (ReadString (StringToBytes s ++ rest)) = .ok (s, rest) := by
  rw [ReadString_StringToBytes s rest hs]
  rfl

theorem readMany_flatMap {α β : Type} (read : List Nat → IoRes (α × List Nat))
    (w : β → List Nat) (Q : β → α → Prop) :
    ∀ (xs : List β) (rest : List Nat),
      (∀ x ∈ xs, ∀ rest, ∃ y, read (w x ++ rest) = .ok (y, rest) ∧ Q x y) →
      ∃ ys, readMany read xs.length (xs.flatMap w ++ rest) = .ok (ys, rest) ∧
        List.Forall₂ Q xs ys := by
  intro xs
  induction xs with
  | nil =>
    intro rest _
    exact ⟨[], rfl, List.Forall₂.nil⟩
  | cons x xs ih =>
    intro rest h
    obtain ⟨y, hy, hq⟩ := h x (List.mem_cons_self _ _) (xs.flatMap w ++ rest)
    obtain ⟨ys, hys, hqs⟩ := ih rest fun x' hx' => h x' (List.mem_cons_of_mem _ hx')
    refine ⟨y :: ys, ?_, List.Forall₂.cons hq hqs⟩
    rw [List.length_cons, readMany, List.flatMap_cons, List.append_assoc, hy]
    simp only [IoRes.bind, hys]

theorem readMany_flatMap_eq {α : Type} (read : List Nat → IoRes (α × List Nat))
    (w : α → List Nat) (xs : List α) (rest : List Nat)
    (h : ∀ x ∈ xs, ∀ rest, read (w x ++ rest) = .ok (x, rest)) :
    readMany read xs.length (xs.flatMap w ++ rest) = .ok (xs, rest) := by
  obtain ⟨ys, hys, hq⟩ := readMany_flatMap read w (fun x y => y = x) xs rest
    fun x hx rest => ⟨x, h x hx rest, rfl⟩
  have e : ys = xs := by
    clear hys h
    induction hq with
    | nil => rfl
    | cons h1 _ ih => rw [h1, ih]
  rw [hys, e]

theorem readCounted_flatMap_eq {α : Type} (read : List Nat → IoRes (α × List Nat))
    (w : α → List Nat) (xs : List α) (rest : List Nat) (hl : xs.length < 2 ^ 64)
    (h : ∀ x ∈ xs, ∀ rest, read (w x ++ rest) = .ok (x, rest)) :
    readCounted read (uvarintBytes xs.length ++ (xs.flatMap w ++ rest)) = .ok (xs, rest) := by
  rw [readCounted, liftRead_ReadUvarint _ _ hl]
  exact readMany_flatMap_eq read w xs rest h

theorem readEntry_writeEntry (payload : Nat → List Nat → IoRes (List Nat × List Nat))
    (kv : GoString × Property) (rest : List Nat) (hk : kv.1.length < 2 ^ 63)
    (hc : kv.2.code < 256)
    (hp : ∀ rest, payload kv.2.code (kv.2.data ++ rest) = .ok (kv.2.data, rest)) :
    readEntry payload (writeEntry kv ++ rest) = .ok (kv, rest) := by
  rw [readEntry, writeEntry, List.append_assoc, List.append_assoc,
    liftRead_ReadString _ _ (lt_trans hk (by norm_num))]
  simp only [IoRes.bind, List.singleton_append, Nat.mod_eq_of_lt hc, hp]

theorem readBlock_writeBlock (payload : Nat → List Nat → IoRes (List Nat × List Nat))
    (m : Block) (rest : List Nat) (hm : m.WellFormed payload) :
    readBlock payload (writeBlock m ++ rest) = .ok (m, rest) := by
  rw [readBlock, writeBlock, List.append_assoc,
    readCounted_flatMap_eq (readEntry payload) writeEntry m.mapping rest
      (lt_trans hm.1 (by norm_num))
      fun kv hkv rest => readEntry_writeEntry payload kv rest (hm.2 kv hkv).1
        (hm.2 kv hkv).2.1 (hm.2 kv hkv).2.2]
  rfl

theorem readBinary_writeBinary (payload : Nat → List Nat → IoRes (List Nat × List Nat))
    (b : BinaryReference) (rest : List Nat) (hn : b.name.length < 2 ^ 63)
    (hu : b.uri.length < 2 ^ 63) (hs : b.size < 2 ^ 64) (hm : b.metadata.WellFormed payload) :
    readBinary payload (writeBinary b ++ rest) = .ok (b, rest) := by
  rw [readBinary, writeBinary, List.append_assoc, List.append_assoc, List.append_assoc,
    liftRead_ReadString _ _ (lt_trans hn (by norm_num))]
  simp only [IoRes.bind]
  rw [liftRead_ReadString _ _ (lt_trans hu (by norm_num))]
  simp only [IoRes.bind]
  rw [liftRead_ReadUvarint _ _ hs]
  simp only [IoRes.bind]
  rw [readBlock_writeBlock payload _ _ hm]

theorem readStream_body (e : encoding.Encoder) (header body : List Nat) (c : CaptureStream)
    (rest : List Nat) (hb : body.length < 2 ^ 63) (hd : e.decode header body = .ok c) :
    readStream e header (StringToBytes body ++ rest) = .ok (c, rest) := by
  rw [readStream, liftRead_ReadString _ _ (lt_trans hb (by norm_num))]
  simp only [IoRes.bind, hd, liftRes]

theorem forall₂_append {α β : Type} (R : α → β → Prop) (l1 : List α) (l2 : List β)
    (m1 : List α) (m2 : List β) (h : List.Forall₂ R l1 l2) (h' : List.Forall₂ R m1 m2) :
    List.Forall₂ R (l1 ++ m1) (l2 ++ m2) := by
  induction h with
  | nil => exact h'
  | cons h1 _ ih => exact List.Forall₂.cons h1 ih

theorem readStreams_bodies (e : encoding.Encoder) (header : List Nat)
    (P : CaptureStream → CaptureStream → Prop) :
    ∀ (cs : List CaptureStream) (bodies : List (List Nat)) (rest : List Nat),
      List.Forall₂ (fun c body => body.length < 2 ^ 63 ∧
        ∃ c', e.decode header body = .ok c' ∧ P c c') cs bodies →
      ∃ cs', readMany (readStream e header) bodies.length
          (bodies.flatMap StringToBytes ++ rest) = .ok (cs', rest) ∧ List.Forall₂ P cs cs' := by
  intro cs bodies rest h
  induction h with
  | nil => exact ⟨[], rfl, List.Forall₂.nil⟩
  | cons h1 _ ih =>
    obtain ⟨hb, c', hd, hp⟩ := h1
    obtain ⟨cs', hr, hq⟩ := ih
    refine ⟨c' :: cs', ?_, List.Forall₂.cons hp hq⟩
    rw [List.length_cons, readMany, List.flatMap_cons, List.append_assoc,
      readStream_body e header _ c' _ hb hd]
    simp only [IoRes.bind, hr]

theorem readGroup_writeGroup (encoders : List encoding.Encoder)
    (P : CaptureStream → CaptureStream → Prop) (g : EncoderGroup)
    (hg : g.Decodable encoders P) :
    ∃ bytes, writeGroup g = .ok bytes ∧
      ∀ rest, ∃ cs', readGroup encoders (bytes ++ rest) = .ok (cs', rest) ∧
        List.Forall₂ P g.collections cs' := by
  obtain ⟨hfind, hsig, hver, header, bodies, henc, hh, hbl63, hf⟩ := hg
  refine ⟨_, by rw [writeGroup, henc]; rfl, ?_⟩
  intro rest
  obtain ⟨cs', hr, hq⟩ := readStreams_bodies g.encoder header P g.collections bodies rest hf
  have hbl : bodies.length < 2 ^ 64 := lt_trans hbl63 (by norm_num)
  refine ⟨cs', ?_, hq⟩
  simp only [List.append_assoc]
  rw [readGroup, liftRead_ReadString _ _ (lt_trans hsig (by norm_num))]
  simp only [IoRes.bind]
  rw [liftRead_ReadUvarint _ _ hver]
  simp only [IoRes.bind, hfind]
  rw [liftRead_ReadString _ _ (lt_trans hh (by norm_num))]
  simp only [IoRes.bind]
  rw [readCounted, liftRead_ReadUvarint _ _ hbl]
  simp only [IoRes.bind, hr]

theorem readGroups_writeGroups (encoders : List encoding.Encoder)
    (P : CaptureStream → CaptureStream → Prop) :
    ∀ groups : List EncoderGroup, (∀ g ∈ groups, g.Decodable encoders P) →
      ∃ bytes, writeGroups groups = .ok bytes ∧
        ∀ rest, ∃ css, readMany (readGroup encoders) groups.length (bytes ++ rest)
            = .ok (css, rest) ∧
          List.Forall₂ P (groups.flatMap fun g => g.collections) css.flatten := by
  intro groups
  induction groups with
  | nil =>
    intro _
    exact ⟨[], rfl, fun rest => ⟨[], rfl, List.Forall₂.nil⟩⟩
  | cons g gs ih =>
    intro h
    obtain ⟨a, ha, hra⟩ := readGroup_writeGroup encoders P g (h g (List.mem_cons_self _ _))
    obtain ⟨b, hb, hrb⟩ := ih fun g' hg' => h g' (List.mem_cons_of_mem _ hg')
    refine ⟨a ++ b, by rw [writeGroups, ha]; simp only [IoRes.bind, hb], ?_⟩
    intro rest
    obtain ⟨cs', hcs', hp⟩ := hra (b ++ rest)
    obtain ⟨css, hcss, hps⟩ := hrb rest
    refine ⟨cs' :: css, ?_, ?_⟩
    · rw [List.length_cons, readMany, List.append_assoc, hcs']
      simp only [IoRes.bind, hcss]
    · rw [List.flatMap_cons, List.flatten_cons]
      exact forall₂_append P _ _ _ _ hp hps

mutual
theorem readNode_writeNode (encoders : List encoding.Encoder)
    (payload : Nat → List Nat → IoRes (List Nat × List Nat))
    (P : CaptureStream → CaptureStream → Prop) :
    ∀ r : Recording,
      (∀ node ∈ r.nodes, node.NodeWellFormed payload ∧ node.NodeDecodable encoders P) →
      ∃ bytes, writeNode encoders r = .ok bytes ∧ 0 < bytes.length ∧
        ∀ fuel rest, bytes.length ≤ fuel →
          ∃ r', readNode encoders payload fuel (bytes ++ rest) = .ok (r', rest) ∧
            r.Matches encoders P r'
  | .mk id name metadata collections children binaries => by
    intro h
    obtain ⟨hwf, groups, hgr, hgl, hdec⟩ := h _ (Recording.mem_nodes_self _)
    obtain ⟨hid, hname, hmd, _, hchl, hbl, hbins⟩ := hwf
    simp only [Recording.id, Recording.name, Recording.metadata, Recording.collections,
      Recording.children, Recording.binaries] at hid hname hmd hchl hbl hbins hgr
    obtain ⟨gbytes, hgw, hgread⟩ := readGroups_writeGroups encoders P groups hdec
    obtain ⟨cbytes, hcw, hcread⟩ := readNodes_writeNodes encoders payload P children
      fun node hn => h node (by rw [Recording.nodes]; exact List.mem_cons_of_mem _ hn)
    refine ⟨StringToBytes id ++ StringToBytes name ++ writeBlock metadata
        ++ uvarintBytes groups.length ++ gbytes
        ++ uvarintBytes binaries.length ++ binaries.flatMap writeBinary
        ++ uvarintBytes children.length ++ cbytes, ?_, ?_, ?_⟩
    · rw [writeNode, hgr]
      simp only [hgw, hcw, IoRes.bind]
    · have := uvarintBytes_length_pos children.length
      simp only [List.length_append]
      omega
    · intro fuel rest hfuel
      cases fuel with
      | zero =>
        have := uvarintBytes_length_pos children.length
        simp only [List.length_append] at hfuel
        omega
      | succ fuel =>
        have hcf : cbytes.length ≤ fuel := by
          have := uvarintBytes_length_pos children.length
          simp only [List.length_append] at hfuel
          omega
        obtain ⟨rs', hrs, hM⟩ := hcread fuel rest hcf
        obtain ⟨css, hcss, hP⟩ := hgread (uvarintBytes binaries.length
          ++ (binaries.flatMap writeBinary ++ (uvarintBytes children.length ++ (cbytes ++ rest))))
        refine ⟨.mk id name metadata css.flatten rs' binaries, ?_, ?_⟩
        · simp only [List.append_assoc]
          rw [readNode, liftRead_ReadString _ _ (lt_trans hid (by norm_num))]
          simp only [IoRes.bind]
          rw [liftRead_ReadString _ _ (lt_trans hname (by norm_num))]
          simp only [IoRes.bind]
          rw [readBlock_writeBlock payload _ _ hmd]
          simp only [IoRes.bind]
          rw [readCounted, liftRead_ReadUvarint _ _ (lt_trans hgl (by norm_num))]
          simp only [IoRes.bind, hcss]
          rw [readCounted_flatMap_eq (readBinary payload) writeBinary binaries _
            (lt_trans hbl (by norm_num))
            fun b hb rest => readBinary_writeBinary payload b rest (hbins b hb).1
              (hbins b hb).2.1 (hbins b hb).2.2.1 (hbins b hb).2.2.2]
          simp only [IoRes.bind]
          rw [readCounted, liftRead_ReadUvarint _ _ (lt_trans hchl (by norm_num))]
          simp only [IoRes.bind, hrs]
        · rw [Recording.Matches]
          refine ⟨rfl, rfl, rfl, rfl, ?_, hM⟩
          rw [regroup, hgr]
          exact hP
theorem readNodes_writeNodes (encoders : List encoding.Encoder)
    (payload : Nat → List Nat → IoRes (List Nat × List Nat))
    (P : CaptureStream → CaptureStream → Prop) :
    ∀ rs : List Recording,
      (∀ node ∈ Recording.nodesOf rs,
        node.NodeWellFormed payload ∧ node.NodeDecodable encoders P) →
      ∃ bytes, writeNodes encoders rs = .ok bytes ∧
        ∀ fuel rest, bytes.length ≤ fuel →
          ∃ rs', readMany (readNode encoders payload fuel) rs.length (bytes ++ rest)
              = .ok (rs', rest) ∧
            Recording.MatchesAll encoders P rs rs'
  | [] => by
    intro _
    exact ⟨[], rfl, fun fuel rest _ => ⟨[], rfl, by rw [Recording.MatchesAll]⟩⟩
  | r :: rs => by
    intro h
    obtain ⟨a, ha, _, hra⟩ := readNode_writeNode encoders payload P r
      fun node hn => h node (by rw [Recording.nodesOf]; exact List.mem_append_left _ hn)
    obtain ⟨b, hb, hrb⟩ := readNodes_writeNodes encoders payload P rs
      fun node hn => h node (by rw [Recording.nodesOf]; exact List.mem_append_right _ hn)
    refine ⟨a ++ b, by rw [writeNodes, ha]; simp only [IoRes.bind, hb], ?_⟩
    intro fuel rest hfuel
    rw [List.length_append] at hfuel
    obtain ⟨r', hr', hm⟩ := hra fuel (b ++ rest) (by omega)
    obtain ⟨rs', hrs', hms⟩ := hrb fuel rest (by omega)
    refine ⟨r' :: rs', ?_, ?_⟩
    · rw [List.length_cons, readMany, List.append_assoc, hr']
      simp only [IoRes.bind, hrs']
    · rw [Recording.MatchesAll]
      exact ⟨r', rs', rfl, hm, hms⟩
end

/-! ## Container: round trip -/

theorem groupCollections_dispatched (encoders : List encoding.Encoder) :
    ∀ (cs : List CaptureStream) (gs0 gs : List EncoderGroup),
      groupCollections encoders cs gs0 = .ok gs → ∀ c ∈ cs, dispatch encoders c ≠ none := by
  intro cs
  induction cs with
  | nil =>
    intro _ _ _ c hc
    simp at hc
  | cons c cs ih =>
    intro gs0 gs h c' hc'
    rw [groupCollections] at h
    cases hd : dispatch encoders c with
    | none =>
      rw [hd] at h
      exact Except.noConfusion h
    | some p =>
      rw [hd] at h
      rcases List.mem_cons.mp hc' with rfl | hm
      · rw [hd]
        exact Option.noConfusion
      · exact ih _ gs h c' hm

theorem firstUnhandled_none (encoders : List encoding.Encoder)
    (P : CaptureStream → CaptureStream → Prop) (r : Recording)
    (h : ∀ node ∈ r.nodes, node.NodeDecodable encoders P) : firstUnhandled encoders r = none := by
  cases hs : firstUnhandled encoders r with
  | none => rfl
  | some s =>
    obtain ⟨node, hn, c, hc, hd, _⟩ := firstUnhandled_sound encoders r s hs
    obtain ⟨groups, hg, _⟩ := h node hn
    exact absurd hd (groupCollections_dispatched encoders _ _ _ hg c hc)

theorem addToGroup_perm (i : Nat) (e : encoding.Encoder) (c : CaptureStream) :
    ∀ gs : List EncoderGroup,
      ((addToGroup i e c gs).flatMap fun g => g.collections).Perm
        ((gs.flatMap fun g => g.collections) ++ [c]) := by
  intro gs
  induction gs with
  | nil => simp [addToGroup]
  | cons g gs ih =>
    rw [addToGroup]
    by_cases hi : g.index = i
    · rw [if_pos hi, List.flatMap_cons, List.flatMap_cons, List.append_assoc, List.append_assoc]
      exact List.Perm.append_left _ List.perm_append_comm
    · rw [if_neg hi, List.flatMap_cons, List.flatMap_cons, List.append_assoc]
      exact List.Perm.append_left _ ih

theorem groupCollections_perm (encoders : List encoding.Encoder) :
    ∀ (cs : List CaptureStream) (gs0 gs : List EncoderGroup),
      groupCollections encoders cs gs0 = .ok gs →
      (gs.flatMap fun g => g.collections).Perm ((gs0.flatMap fun g => g.collections) ++ cs) := by
  intro cs
  induction cs with
  | nil =>
    intro gs0 gs h
    rw [groupCollections] at h
    rw [Except.ok.inj h, List.append_nil]
  | cons c cs ih =>
    intro gs0 gs h
    rw [groupCollections] at h
    cases hd : dispatch encoders c with
    | none =>
      rw [hd] at h
      exact Except.noConfusion h
    | some p =>
      rw [hd] at h
      refine (ih _ gs h).trans ?_
      have e : (gs0.flatMap fun g => g.collections) ++ c :: cs
          = ((gs0.flatMap fun g => g.collections) ++ [c]) ++ cs := by simp
      rw [e]
      exact List.Perm.append_right _ (addToGroup_perm p.1 p.2 c gs0)

theorem regroup_perm (encoders : List encoding.Encoder)
    (P : CaptureStream → CaptureStream → Prop) (r : Recording)
    (h : r.NodeDecodable encoders P) : (regroup encoders r.collections).Perm r.collections := by
  obtain ⟨groups, hg, _⟩ := h
  rw [regroup, hg]
  have := groupCollections_perm encoders _ _ _ hg
  simpa using this

theorem Read_Write (encoders : List encoding.Encoder)
    (payload : Nat → List Nat → IoRes (List Nat × List Nat))
    (P : CaptureStream → CaptureStream → Prop) (version : Nat) (r : Recording)
    (hv : version < 2 ^ 64) (hwf : ∀ node ∈ r.nodes, node.NodeWellFormed payload)
    (hdec : ∀ node ∈ r.nodes, node.NodeDecodable encoders P) :
    ∃ bytes r', Write encoders version (some r) = .ok (bytes, bytes.length) ∧
      Read encoders payload version bytes = .ok (r', bytes.length) ∧
      r.Matches encoders P r' := by
  obtain ⟨node, hw, _, hread⟩ := readNode_writeNode encoders payload P r
    fun n hn => ⟨hwf n hn, hdec n hn⟩
  have hnone := firstUnhandled_none encoders P r hdec
  obtain ⟨r', hr', hm⟩ := hread (magic ++ uvarintBytes version ++ node).length []
    (by simp only [List.length_append]; omega)
  rw [List.append_nil] at hr'
  refine ⟨magic ++ uvarintBytes version ++ node, r', ?_, ?_, hm⟩
  · simp only [Write, hnone, hw, IoRes.bind]
  · have e1 : (magic ++ uvarintBytes version ++ node).take 4 = magic := by simp [magic]
    have e2 : (magic ++ uvarintBytes version ++ node).drop 4 = uvarintBytes version ++ node := by
      simp [magic]
    rw [Read, if_pos e1, e2, liftRead_ReadUvarint _ _ hv]
    simp only [IoRes.bind, if_true, hr', List.length_nil, Nat.sub_zero]

/-! ## Container: the order of the collections read back -/

theorem addToGroup_fresh (i : Nat) (e : encoding.Encoder) (c : CaptureStream) :
    ∀ gs : List EncoderGroup, i ∉ gs.map (fun g => g.index) →
      addToGroup i e c gs = gs ++ [⟨i, e, [c]⟩] := by
  intro gs
  induction gs with
  | nil => intro _; rfl
  | cons g gs ih =>
    intro h
    rw [List.map_cons, List.mem_cons, not_or] at h
    rw [addToGroup, if_neg (fun hi => h.1 hi.symm), ih h.2, List.cons_append]

theorem addToGroup_last (i : Nat) (e e' : encoding.Encoder) (c : CaptureStream)
    (l : List CaptureStream) :
    ∀ gs : List EncoderGroup, i ∉ gs.map (fun g => g.index) →
      addToGroup i e c (gs ++ [⟨i, e', l⟩]) = gs ++ [⟨i, e', l ++ [c]⟩] := by
  intro gs
  induction gs with
  | nil =>
    intro _
    rw [List.nil_append, addToGroup, if_pos rfl, List.nil_append]
  | cons g gs ih =>
    intro h
    rw [List.map_cons, List.mem_cons, not_or] at h
    rw [List.cons_append, addToGroup, if_neg (fun hi => h.1 hi.symm), ih h.2, List.cons_append]

theorem groupCollections_run_last (encoders : List encoding.Encoder) (i : Nat)
    (e e' : encoding.Encoder) (rest : List CaptureStream) (gs : List EncoderGroup)
    (hi : i ∉ gs.map (fun g => g.index)) :
    ∀ (b l : List CaptureStream), (∀ c ∈ b, dispatch encoders c = some (i, e)) →
      groupCollections encoders (b ++ rest) (gs ++ [⟨i, e', l⟩])
        = groupCollections encoders rest (gs ++ [⟨i, e', l ++ b⟩]) := by
  intro b
  induction b with
  | nil =>
    intro l _
    rw [List.nil_append, List.append_nil]
  | cons c b ih =>
    intro l h
    rw [List.cons_append, groupCollections, h c (List.mem_cons_self _ _)]
    simp only
    rw [addToGroup_last i e e' c l gs hi, ih (l ++ [c]) fun x hx => h x (List.mem_cons_of_mem _ hx),
      List.append_assoc, List.singleton_append]

theorem groupCollections_run (encoders : List encoding.Encoder) (i : Nat)
    (e : encoding.Encoder) (c : CaptureStream) (b rest : List CaptureStream)
    (gs : List EncoderGroup) (hi : i ∉ gs.map (fun g => g.index))
    (h : ∀ x ∈ c :: b, dispatch encoders x = some (i, e)) :
    groupCollections encoders (c :: b ++ rest) gs
      = groupCollections encoders rest (gs ++ [⟨i, e, c :: b⟩]) := by
  rw [List.cons_append, groupCollections, h c (List.mem_cons_self _ _)]
  simp only
  rw [addToGroup_fresh i e c gs hi,
    groupCollections_run_last encoders i e e rest gs hi b [c]
      fun x hx => h x (List.mem_cons_of_mem _ hx),
    List.singleton_append]

theorem groupCollections_runs (encoders : List encoding.Encoder) :
    ∀ (runs gs0 : List EncoderGroup),
      (∀ g ∈ runs, g.collections ≠ [] ∧
        ∀ c ∈ g.collections, dispatch encoders c = some (g.index, g.encoder)) →
      (runs.map fun g => g.index).Nodup →
      (∀ g ∈ runs, g.index ∉ gs0.map fun g => g.index) →
      groupCollections encoders (runs.flatMap fun g => g.collections) gs0
        = .ok (gs0 ++ runs) := by
  intro runs
  induction runs with
  | nil =>
    intro gs0 _ _ _
    rw [List.flatMap_nil, groupCollections, List.append_nil]
  | cons g runs ih =>
    intro gs0 h hnd hfresh
    obtain ⟨i, e, l⟩ := g
    obtain ⟨hne, hd⟩ := h _ (List.mem_cons_self _ _)
    rw [List.map_cons, List.nodup_cons] at hnd
    cases l with
    | nil => exact absurd rfl hne
    | cons c b =>
      rw [List.flatMap_cons,
        groupCollections_run encoders i e c b _ gs0 (hfresh _ (List.mem_cons_self _ _)) hd,
        ih (gs0 ++ [EncoderGroup.mk i e (c :: b)])
          (fun g hg => h g (List.mem_cons_of_mem _ hg)) hnd.2,
        List.append_assoc, List.singleton_append]
      intro g hg hmem
      rw [List.map_append, List.mem_append] at hmem
      rcases hmem with hmem | hmem
      · exact hfresh g (List.mem_cons_of_mem _ hg) hmem
      · rw [List.map_singleton, List.mem_singleton] at hmem
        exact hnd.1 (hmem ▸ List.mem_map_of_mem (fun g => g.index) hg)

theorem regroup_of_adjacent (encoders : List encoding.Encoder)
    (collections : List CaptureStream) (h : AdjacentByEncoder encoders collections) :
    regroup encoders collections = collections := by
  obtain ⟨runs, rfl, hr, hnd⟩ := h
  rw [regroup, groupCollections_runs encoders runs [] hr hnd (fun _ _ => by simp)]
  rfl

/-! ## Container: round trip and byte count -/

/-- C22. Byte-count symmetry: for every recording tree (a Go value, whose groups the
registered encoders can decode again, into whatever collections) that `Write` accepts,
returning the bytes and the count `n`, `Read` of those bytes returns, and the count it
returns is `n`, the number of the bytes written. -/
theorem container_byte_count (encoders : List encoding.Encoder)
    (payload : Nat → List Nat → IoRes (List Nat × List Nat)) (version : Nat) (r : Recording)
    (bytes : List Nat) (n : Nat) (hv : version < 2 ^ 64)
    (hwf : ∀ node ∈ r.nodes, node.NodeWellFormed payload)
    (hdec : ∀ node ∈ r.nodes, node.NodeDecodable encoders fun _ _ => True)
    (hw : Write encoders version (some r) = .ok (bytes, n)) :
    ∃ r', Read encoders payload version bytes = .ok (r', n) ∧ n = bytes.length := by
  obtain ⟨bytes', r', hw', hr, _⟩ :=
    Read_Write encoders payload (fun _ _ => True) version r hv hwf hdec
  rw [hw] at hw'
  have e := IoRes.ok.inj hw'
  have e1 : bytes = bytes' := congrArg Prod.fst e
  have e2 : n = bytes'.length := congrArg Prod.snd e
  subst e1
  exact ⟨r', by rw [e2]; exact hr, e2⟩

theorem stringPayload_NewStringProperty (s : GoString) (rest : List Nat)
    (hs : s.length < 2 ^ 64) :
    stringPayload (NewStringProperty s).code ((NewStringProperty s).data ++ rest)
      = .ok ((NewStringProperty s).data, rest) := by
  simp only [stringPayload, NewStringProperty, if_true, liftRead_ReadString s rest hs,
    IoRes.bind]

theorem sampleRecording_nodes : sampleRecording.nodes =
    [sampleRecording,
      .mk [49] [] ⟨[]⟩ [] [] [],
      .mk [] [50] ⟨[]⟩ [⟨[120], eventSignature, [.event 9 [97] []]⟩]
        [.mk [51] [51] ⟨[]⟩ [] [] []] [],
      .mk [51] [51] ⟨[]⟩ [] [] []] := by
  simp [sampleRecording, Recording.nodes, Recording.nodesOf]

theorem emptyBlock_wf (payload : Nat → List Nat → IoRes (List Nat × List Nat)) :
    Block.WellFormed payload ⟨[]⟩ := by
  simp [Block.WellFormed]

theorem stringBlock_wf (k s : GoString) (hk : k.length < 2 ^ 63) (hs : s.length < 2 ^ 64) :
    Block.WellFormed stringPayload ⟨[(k, NewStringProperty s)]⟩ := by
  refine ⟨by simp, ?_⟩
  intro kv hkv
  rw [List.mem_singleton.mp hkv]
  exact ⟨hk, by simp [NewStringProperty], fun rest => stringPayload_NewStringProperty s rest hs⟩

theorem sampleRecording_wf : ∀ node ∈ sampleRecording.nodes, node.NodeWellFormed stringPayload := by
  intro node hn
  rw [sampleRecording_nodes] at hn
  simp only [List.mem_cons, List.mem_singleton, List.not_mem_nil, or_false] at hn
  rcases hn with rfl | rfl | rfl | rfl
  · refine ⟨by simp [sampleRecording, Recording.id], by simp [sampleRecording, Recording.name],
      stringBlock_wf _ _ (by simp) (by simp), by simp [sampleRecording, Recording.collections,
        sampleStreams], by simp [sampleRecording, Recording.children],
      by simp [sampleRecording, Recording.binaries], ?_⟩
    intro b hb
    simp only [sampleRecording, Recording.binaries, List.mem_singleton] at hb
    rw [hb]
    exact ⟨by simp, by simp, by norm_num, stringBlock_wf _ _ (by simp) (by simp)⟩
  · exact ⟨by simp [Recording.id], by simp [Recording.name], emptyBlock_wf _,
      by simp [Recording.collections], by simp [Recording.children],
      by simp [Recording.binaries], by simp [Recording.binaries]⟩
  · exact ⟨by simp [Recording.id], by simp [Recording.name], emptyBlock_wf _,
      by simp [Recording.collections], by simp [Recording.children],
      by simp [Recording.binaries], by simp [Recording.binaries]⟩
  · exact ⟨by simp [Recording.id], by simp [Recording.name], emptyBlock_wf _,
      by simp [Recording.collections], by simp [Recording.children],
      by simp [Recording.binaries], by simp [Recording.binaries]⟩

set_option maxRecDepth 100000 in
theorem sampleRecording_decodable (P : CaptureStream → CaptureStream → Prop)
    (hP : ∀ c, P c c) :
    ∀ node ∈ sampleRecording.nodes, node.NodeDecodable [eventEncoder ⟨id, id⟩ Raw64] P := by
  intro node hn
  rw [sampleRecording_nodes] at hn
  simp only [List.mem_cons, List.mem_singleton, List.not_mem_nil, or_false] at hn
  rcases hn with rfl | rfl | rfl | rfl
  · refine ⟨[⟨0, eventEncoder ⟨id, id⟩ Raw64, sampleStreams⟩], rfl, by simp, ?_⟩
    intro g hg
    rw [List.mem_singleton.mp hg]
    refine ⟨rfl, by decide, by decide, sampleHeader, sampleBodies, by decide, by decide,
      by decide, ?_⟩
    exact List.Forall₂.cons ⟨by decide, _, by decide, hP _⟩
      (List.Forall₂.cons ⟨by decide, _, by decide, hP _⟩ List.Forall₂.nil)
  · exact ⟨[], rfl, by simp, by simp⟩
  · refine ⟨[⟨0, eventEncoder ⟨id, id⟩ Raw64, [⟨[120], eventSignature, [.event 9 [97] []]⟩]⟩],
      rfl, by simp, ?_⟩
    intro g hg
    rw [List.mem_singleton.mp hg]
    refine ⟨rfl, by decide, by decide, [1, 1, 97, 0],
      [[1, 120, 0, 1, 9, 0, 0, 0, 0, 0, 0, 0, 0, 0, 0]], by decide, by decide, by decide, ?_⟩
    exact List.Forall₂.cons ⟨by decide, _, by decide, hP _⟩ List.Forall₂.nil
  · exact ⟨[], rfl, by simp, by simp⟩

set_option maxRecDepth 100000 in
/-- C22 at `sampleRecording`: `Write` returns the 198 bytes of `sampleFile` and the
count 198, and `Read` of `sampleFile` returns the count 198. -/
theorem container_byte_count_witness :
    2 < 2 ^ 64 ∧ (∀ node ∈ sampleRecording.nodes, node.NodeWellFormed stringPayload) ∧
    (∀ node ∈ sampleRecording.nodes,
      node.NodeDecodable [eventEncoder ⟨id, id⟩ Raw64] fun _ _ => True) ∧
    Write [eventEncoder ⟨id, id⟩ Raw64] 2 (some sampleRecording) = .ok (sampleFile, 198) ∧
    ∃ r', Read [eventEncoder ⟨id, id⟩ Raw64] stringPayload 2 sampleFile = .ok (r', 198) ∧
      198 = sampleFile.length :=
  ⟨by decide, sampleRecording_wf, sampleRecording_decodable _ fun _ => trivial, by decide,
    container_byte_count _ stringPayload 2 sampleRecording sampleFile 198 (by decide)
      sampleRecording_wf (sampleRecording_decodable _ fun _ => trivial) (by decide)⟩

/-! ## Event codec: the technique of the decoding encoder -/

/-- C34. Event `Decode` does not depend on the decoding encoder's configured
technique: for every header and body, and every two techniques `p` and `q` of the
receiver, `Decode` returns the same result, in particular `NewEncoder(Raw64).Decode`
and `NewEncoder(Raw32).Decode`; the technique that selects the width of each time
field is the byte stored in the body after the stream name (`typeByte`), whatever
the receiver. -/
theorem event_decode_ignores_receiver (cv : FloatConv) (p q : Nat) (header body : List Nat) :
    Encoder.Decode cv p header body = Encoder.Decode cv q header body ∧
    Encoder.Decode cv Raw64 header body = Encoder.Decode cv Raw32 header body ∧
    ∀ (names keys : List GoString) (name : GoString) (typeByte numCaptures : Nat)
      (rest : List Nat),
      readHeader header = (names, keys, none) → name.length < 2 ^ 64 → numCaptures < 2 ^ 63 →
      body = StringToBytes name ++ typeByte :: (uvarintBytes numCaptures ++ rest) →
      Encoder.Decode cv p header body
        = (decodeCaptures cv names keys (typeByte % 256) numCaptures rest).map
            fun cs => ⟨name, cs⟩ := by
  refine ⟨rfl, rfl, ?_⟩
  intro names keys name typeByte numCaptures rest hh hn hc hb
  subst hb
  simp only [Encoder.Decode, hh, ReadString_StringToBytes name _ hn,
    ReadUvarint_uvarintBytes numCaptures rest (lt_trans hc (by norm_num)),
    if_neg (not_le.mpr hc)]

/-! ## Octree codec: three scalar codecs -/

theorem axisByte_lt (mask : Nat) : ∀ cells : List Nat, axisByte mask cells < 2 ^ cells.length := by
  intro cells
  induction cells with
  | nil => simp [axisByte]
  | cons c cs ih =>
    rw [axisByte, List.length_cons, pow_succ]
    split <;> omega

theorem axisByte_bit (mask : Nat) : ∀ (cells : List Nat) (i cell : Nat),
    cells[i]? = some cell → ((axisByte mask cells >>> i) &&& 1 = 1 ↔ cell &&& mask = 0) := by
  intro cells
  induction cells with
  | nil =>
    intro i cell h
    simp at h
  | cons c cs ih =>
    intro i cell h
    cases i with
    | zero =>
      simp only [List.getElem?_cons_zero, Option.some.injEq] at h
      subst h
      rw [axisByte, Nat.shiftRight_zero, Nat.and_one_is_mod]
      split <;> omega
    | succ i =>
      simp only [List.getElem?_cons_succ] at h
      rw [← ih i cell h, axisByte, Nat.shiftRight_succ_inside]
      have e : ((if c &&& mask = 0 then 1 else 0) + 2 * axisByte mask cs) / 2
          = axisByte mask cs := by
        split <;> omega
      rw [e]

theorem octLoop_bitLoop (bx bY bz : Nat) : ∀ (cells : List Nat) (i : Nat) (c : Vector3)
    (ix iy iz : ℚ), i + cells.length ≤ 256 →
    (∀ j cell, cells[j]? = some cell →
      (((bx >>> (i + j)) &&& 1 = 1 ↔ cell &&& 0b010 = 0) ∧
       ((bY >>> (i + j)) &&& 1 = 1 ↔ cell &&& 0b100 = 0) ∧
       ((bz >>> (i + j)) &&& 1 = 1 ↔ cell &&& 0b001 = 0))) →
    OctCellsToVec3.loop cells c ix iy iz
      = ⟨(bytesToFloatBST.bitLoop bx cells.length i c.x ix).1,
         (bytesToFloatBST.bitLoop bY cells.length i c.y iy).1,
         (bytesToFloatBST.bitLoop bz cells.length i c.z iz).1⟩ := by
  intro cells
  induction cells with
  | nil =>
    intro i c ix iy iz _ _
    rfl
  | cons cell cells ih =>
    intro i c ix iy iz hi h
    rw [List.length_cons] at hi
    obtain ⟨hx, hy, hz⟩ := h 0 cell (List.getElem?_cons_zero)
    rw [Nat.add_zero] at hx hy hz
    have hmod : i % 256 = i := Nat.mod_eq_of_lt (by omega)
    rw [OctCellsToVec3.loop, List.length_cons, bytesToFloatBST.bitLoop,
      bytesToFloatBST.bitLoop, bytesToFloatBST.bitLoop, hmod,
      ih (i + 1) _ _ _ _ (by omega) (fun j cell' hj => by
        have := h (j + 1) cell' (by simpa using hj)
        rw [show i + (j + 1) = i + 1 + j by omega] at this
        exact this)]
    by_cases h2 : cell &&& 0b010 = 0 <;> by_cases h4 : cell &&& 0b100 = 0 <;>
      by_cases h1 : cell &&& 0b001 = 0 <;>
      simp only [h2, h4, h1, hx.mpr, hx, hy, hz, if_true, if_false, not_false_eq_true]

/-- C31. The octree codec is three independent scalar (BST) codecs with inverted bit
polarity: for every `min`, `max` and every 8 cells, the X component of
`OctCellsToVec3(min, max, cells)` equals `bytesToFloatBST(min.X, max.X - min.X, [b])`
for the byte `b` whose bit `i` is 1 iff `cells[i] & 0b010 == 0`, and likewise for Y
with the mask `0b100` and for Z with the mask `0b001` (exact arithmetic); `axisByte`
is that byte. -/
theorem OctCellsToVec3_three_scalar_codecs (min max : Vector3) (cells : List Nat)
    (hlen : cells.length = 8) :
    (OctCellsToVec3 min max cells).x
      = bytesToFloatBST min.x (max.x - min.x) [axisByte 0b010 cells] ∧
    (OctCellsToVec3 min max cells).y
      = bytesToFloatBST min.y (max.y - min.y) [axisByte 0b100 cells] ∧
    (OctCellsToVec3 min max cells).z
      = bytesToFloatBST min.z (max.z - min.z) [axisByte 0b001 cells] ∧
    ∀ mask : Nat, axisByte mask cells < 256 ∧
      ∀ i cell : Nat, cells[i]? = some cell →
        ((axisByte mask cells >>> i) &&& 1 = 1 ↔ cell &&& mask = 0) := by
  have key := octLoop_bitLoop (axisByte 0b010 cells) (axisByte 0b100 cells)
    (axisByte 0b001 cells) cells 0 ((min.Add max).DivByConstant 2) ((max.Sub min).x / 4)
    ((max.Sub min).y / 4) ((max.Sub min).z / 4) (by omega)
    (fun j cell hj => by
      rw [Nat.zero_add]
      exact ⟨axisByte_bit _ cells j cell hj, axisByte_bit _ cells j cell hj,
        axisByte_bit _ cells j cell hj⟩)
  have cx : ((min.Add max).DivByConstant 2).x = min.x + (max.x - min.x) / 2 := by
    simp only [Vector3.Add, Vector3.DivByConstant]; ring
  have cy : ((min.Add max).DivByConstant 2).y = min.y + (max.y - min.y) / 2 := by
    simp only [Vector3.Add, Vector3.DivByConstant]; ring
  have cz : ((min.Add max).DivByConstant 2).z = min.z + (max.z - min.z) / 2 := by
    simp only [Vector3.Add, Vector3.DivByConstant]; ring
  rw [hlen, cx, cy, cz] at key
  refine ⟨?_, ?_, ?_, fun mask => ⟨?_, axisByte_bit mask cells⟩⟩
  · rw [OctCellsToVec3, key]
    rfl
  · rw [OctCellsToVec3, key]
    rfl
  · rw [OctCellsToVec3, key]
    rfl
  · have := axisByte_lt mask cells
    rw [hlen] at this
    exact this

/-- C31 at the cells 0 to 7. -/
theorem OctCellsToVec3_three_scalar_codecs_witness :
    [0, 1, 2, 3, 4, 5, 6, 7].length = 8 ∧
    (OctCellsToVec3 ⟨0, 0, 0⟩ ⟨1, 2, 4⟩ [0, 1, 2, 3, 4, 5, 6, 7]).x
      = bytesToFloatBST 0 (1 - 0) [axisByte 0b010 [0, 1, 2, 3, 4, 5, 6, 7]] ∧
    (OctCellsToVec3 ⟨0, 0, 0⟩ ⟨1, 2, 4⟩ [0, 1, 2, 3, 4, 5, 6, 7]).y
      = bytesToFloatBST 0 (2 - 0) [axisByte 0b100 [0, 1, 2, 3, 4, 5, 6, 7]] ∧
    (OctCellsToVec3 ⟨0, 0, 0⟩ ⟨1, 2, 4⟩ [0, 1, 2, 3, 4, 5, 6, 7]).z
      = bytesToFloatBST 0 (4 - 0) [axisByte 0b001 [0, 1, 2, 3, 4, 5, 6, 7]] ∧
    ∀ mask : Nat, axisByte mask [0, 1, 2, 3, 4, 5, 6, 7] < 256 ∧
      ∀ i cell : Nat, [0, 1, 2, 3, 4, 5, 6, 7][i]? = some cell →
        ((axisByte mask [0, 1, 2, 3, 4, 5, 6, 7] >>> i) &&& 1 = 1 ↔ cell &&& mask = 0) :=
  ⟨rfl, OctCellsToVec3_three_scalar_codecs ⟨0, 0, 0⟩ ⟨1, 2, 4⟩ [0, 1, 2, 3, 4, 5, 6, 7] rfl⟩

/-! ## Event codec: the 4-byte buffers of `Encode` -/

theorem PutUvarint_length_ge : ∀ (k cap x : Nat) (bs : List Nat), 2 ^ (7 * k) ≤ x →
    PutUvarint cap x = some bs → k < bs.length := by
  intro k
  induction k with
  | zero =>
    intro cap x bs _ h
    exact (PutUvarint_length cap x bs h).1
  | succ k ih =>
    intro cap x bs hx h
    cases cap with
    | zero => simp [PutUvarint] at h
    | succ cap =>
      have h128 : 0x80 ≤ x := by
        calc 0x80 = 2 ^ 7 := by norm_num
          _ ≤ 2 ^ (7 * (k + 1)) := Nat.pow_le_pow_right (by norm_num) (by omega)
          _ ≤ x := hx
      have hx7 : 2 ^ (7 * k) ≤ x >>> 7 := by
        rw [Nat.shiftRight_eq_div_pow, Nat.le_div_iff_mul_le (by norm_num), ← pow_add]
        rwa [show 7 * k + 7 = 7 * (k + 1) by ring]
      rw [PutUvarint, if_pos h128] at h
      cases hr : PutUvarint cap (x >>> 7) with
      | none => rw [hr] at h; simp at h
      | some r =>
        rw [hr] at h
        simp only [Option.map_some', Option.some.injEq] at h
        rw [← h, List.length_cons]
        exact Nat.succ_lt_succ (ih cap _ r hx7 hr)

theorem uvarintBytes_length_le_four (x : Nat) (hx : x < 2 ^ 64) :
    (uvarintBytes x).length ≤ 4 ↔ x < 2 ^ 28 := by
  obtain ⟨bs, hbs⟩ := PutUvarint_isSome 9 x
    (lt_of_lt_of_le hx (Nat.pow_le_pow_right (by norm_num) (by norm_num)))
  have e : uvarintBytes x = bs := by
    unfold uvarintBytes
    rw [Nat.mod_eq_of_lt hx, hbs]
    rfl
  rw [e]
  constructor
  · intro hl
    by_contra hge
    have := PutUvarint_length_ge 4 10 x bs (by simpa using not_lt.mp hge) hbs
    omega
  · intro hlt
    obtain ⟨bs4, h4⟩ := (PutUvarint_four_iff x).mpr hlt
    have h10 := PutUvarint_mono 4 x bs4 6 h4
    rw [show 4 + 6 = 9 + 1 from rfl, hbs] at h10
    rw [Option.some.inj h10]
    exact (PutUvarint_length 4 x bs4 h4).2

/-- C33 fails as stated: the two streams of `manyNamesStreams` have fewer than `2^28`
captures each, so the writes of their capture counts stay inside the 4-byte buffer,
yet they hold `2^28 + 1` different event names, and `Encode` panics on the write of a
name index. -/
theorem event_scratch_buffers_counterexample :
    (∀ s ∈ manyNamesStreams, s.captures.length < 2 ^ 28) ∧
    (∀ s ∈ manyNamesStreams, ∃ bs, PutUvarint 4 (s.captures.length % 2 ^ 64) = some bs) ∧
    Encoder.Encode ⟨id, id⟩ Raw64 manyNamesStreams = .panic := by
  have hlen : ∀ s ∈ manyNamesStreams, s.captures.length < 2 ^ 28 := by
    intro s hs
    have : s = numberedStream 0 (2 ^ 27 + 1) ∨ s = numberedStream (2 ^ 27 + 1) (2 ^ 27) := by
      simpa only [manyNamesStreams, List.mem_cons, List.mem_singleton, List.not_mem_nil,
        or_false] using hs
    rcases this with rfl | rfl <;> rw [numberedStream_length] <;> norm_num
  refine ⟨hlen, fun s hs => ?_, Encode_manyNamesStreams⟩
  have h := hlen s hs
  rw [Nat.mod_eq_of_lt (lt_trans h (by norm_num))]
  exact (PutUvarint_four_iff _).mpr h

/-- C33, amended. The 4-byte uvarint buffers of event `Encode`: the uvarint encoding of
`x` occupies at most 4 bytes iff `x < 2^28`, and `PutUvarint` on a 4-byte buffer
returns iff `x < 2^28`; for every input in which each stream has fewer than `2^28`
captures and at most `2^28` different event names occur over all the streams, the
writes of the capture counts and of the name indexes stay inside their buffers
(`Encode` does not panic); and for a stream with `2^28` or more captures the count
does not fit (`Encode` of that stream panics). -/
theorem event_scratch_buffers (cv : FloatConv) (technique : Nat) (streams : List CaptureStream)
    (hcount : ∀ s ∈ streams, s.captures.length < 2 ^ 28)
    (hnames : (allEventNames streams).toFinset.card ≤ 2 ^ 28) :
    (∀ x, x < 2 ^ 64 → ((uvarintBytes x).length ≤ 4 ↔ x < 2 ^ 28)) ∧
    (∀ x, (∃ bs, PutUvarint 4 x = some bs) ↔ x < 2 ^ 28) ∧
    Encoder.Encode cv technique streams ≠ .panic ∧
    ∀ s : CaptureStream, 2 ^ 28 ≤ s.captures.length → s.captures.length < 2 ^ 64 →
      PutUvarint 4 (s.captures.length % 2 ^ 64) = none ∧
      Encoder.Encode cv technique [s] = .panic := by
  refine ⟨uvarintBytes_length_le_four, PutUvarint_four_iff, ?_, ?_⟩
  · obtain ⟨o1, o2⟩ := encodeStreams_outcome cv technique (allEventNames streams).toFinset
      hnames streams ([], []) DictOk_nil (by simp [keysOf]) hcount
      (fun s hs c hc nm hn => List.mem_toFinset.mpr (mem_allEventNames streams s c nm hs hc hn))
    by_cases hall : ∀ s ∈ streams, ∀ c ∈ s.captures, c.isEvent = true
    · obtain ⟨r, hr⟩ := o1 hall
      simp only [Encoder.Encode, hr, Res.bind]
      exact fun h => Res.noConfusion h
    · have hex : ∃ s ∈ streams, ∃ c ∈ s.captures, c.isEvent = false := by
        by_contra hcon
        apply hall
        intro s hs c hc
        cases he : c.isEvent with
        | true => rfl
        | false => exact absurd ⟨s, hs, c, hc, he⟩ hcon
      simp only [Encoder.Encode, o2 hex, Res.bind]
      exact fun h => Res.noConfusion h
  · intro s hlo hhi
    refine ⟨?_, Encode_long_stream cv technique s hlo hhi⟩
    rw [Nat.mod_eq_of_lt hhi]
    exact PutUvarint_none 4 _ (by simpa using hlo)

/-- C33 at `sampleStreams`. -/
theorem event_scratch_buffers_witness :
    (∀ s ∈ sampleStreams, s.captures.length < 2 ^ 28) ∧
    (allEventNames sampleStreams).toFinset.card ≤ 2 ^ 28 ∧
    (∀ x, x < 2 ^ 64 → ((uvarintBytes x).length ≤ 4 ↔ x < 2 ^ 28)) ∧
    (∀ x, (∃ bs, PutUvarint 4 x = some bs) ↔ x < 2 ^ 28) ∧
    Encoder.Encode ⟨id, id⟩ Raw64 sampleStreams ≠ .panic ∧
    ∀ s : CaptureStream, 2 ^ 28 ≤ s.captures.length → s.captures.length < 2 ^ 64 →
      PutUvarint 4 (s.captures.length % 2 ^ 64) = none ∧
      Encoder.Encode ⟨id, id⟩ Raw64 [s] = .panic :=
  have h1 : ∀ s ∈ sampleStreams, s.captures.length < 2 ^ 28 := by
    intro s hs
    simp only [sampleStreams, List.mem_cons, List.mem_singleton, List.not_mem_nil,
      or_false] at hs
    rcases hs with rfl | rfl <;> simp
  have h2 : (allEventNames sampleStreams).toFinset.card ≤ 2 ^ 28 :=
    le_trans (List.toFinset_card_le _) (by
      simp [allEventNames, sampleStreams, Capture.name?])
  ⟨h1, h2, event_scratch_buffers ⟨id, id⟩ Raw64 sampleStreams h1 h2⟩

/-! ## Oct24: constant-step positions -/

theorem OctCellsToVec3_loop_zero : ∀ (cells : List Nat) (c : Vector3),
    OctCellsToVec3.loop cells c 0 0 0 = c := by
  intro cells
  induction cells with
  | nil => intro c; rfl
  | cons cell cells ih =>
    intro c
    rw [OctCellsToVec3.loop]
    simp only [add_zero, sub_zero, ite_self, zero_div]
    exact ih c

/-- A box reduced to the point `m` decodes every cell path to `m`. -/
theorem OctCellsToVec3_degenerate (m : Vector3) (cells : List Nat) :
    OctCellsToVec3 m m cells = m := by
  have h : (m.Add m).DivByConstant 2 = m := by
    obtain ⟨x, y, z⟩ := m
    simp only [Vector3.Add, Vector3.DivByConstant, Vector3.mk.injEq]
    refine ⟨?_, ?_, ?_⟩ <;> ring
  rw [OctCellsToVec3, h]
  simp only [Vector3.Sub, sub_self, zero_div]
  exact OctCellsToVec3_loop_zero cells m

theorem Vector3.add_sub_cancel (a b : Vector3) : a.Add (b.Sub a) = b := by
  obtain ⟨x, y, z⟩ := a
  obtain ⟨u, v, w⟩ := b
  simp only [Vector3.Add, Vector3.Sub, Vector3.mk.injEq]
  refine ⟨?_, ?_, ?_⟩ <;> ring

/-- With the bounds reduced to the point `δ`, the loop of `decodeOct24` adds `δ` at
every capture after the first, whatever the bytes. -/
theorem decodeOct24_loop_constant_step (M : ℚ) (δ : Vector3) :
    ∀ (cs : List PositionCapture) (q : PositionCapture) (data tb ob cells : List Nat) (t : ℚ),
    tb.length = 2 → ob.length = 3 → cells.length = 8 →
    (∀ d ∈ positionDeltas (q :: cs), d = δ) →
    ∃ caps, Format.decodeOct24.loop M δ δ cs.length false data tb ob cells t q.position
        = .ok caps ∧
      caps.map (fun c => c.position) = cs.map fun c => c.position := by
  intro cs
  induction cs with
  | nil =>
    intro q data tb ob cells t _ _ _ _
    exact ⟨[], rfl, rfl⟩
  | cons c cs ih =>
    intro q data tb ob cells t htb hob hcells hδ
    have h1 : (readInto tb data).1.length = 2 := by rw [readInto_length, htb]
    have h2 : (readInto ob (readInto tb data).2).1.length = 3 := by rw [readInto_length, hob]
    obtain ⟨cells', hc, hcl⟩ := bytesToOctCells24_isSome cells _ hcells h2
    have hq : q.position.Add δ = c.position := by
      rw [← hδ (c.position.Sub q.position) (by simp [positionDeltas])]
      exact Vector3.add_sub_cancel _ _
    obtain ⟨caps, hcaps, hpos⟩ := ih c (readInto ob (readInto tb data).2).2 (readInto tb data).1
      (readInto ob (readInto tb data).2).1 cells' (t + bytesToFloatBST 0 M (readInto tb data).1)
      h1 h2 hcl (fun d hd => hδ d (by
        rw [positionDeltas]
        exact List.mem_cons_of_mem _ hd))
    refine ⟨⟨t + bytesToFloatBST 0 M (readInto tb data).1, c.position⟩ :: caps, ?_, ?_⟩
    · simp only [List.length_cons, Format.decodeOct24.loop, Bool.false_eq_true, if_false, hc,
        OctCellsToVec3_degenerate, hq, hcaps, Res.map]
    · simp only [List.map_cons, hpos]

theorem mem_map_of_all_eq (l : List Vector3) (δ : Vector3) (f : Vector3 → ℚ)
    (h : ∀ d ∈ l, d = δ) (a : ℚ) (ha : a ∈ l.map f) : a = f δ := by
  obtain ⟨d, hd, rfl⟩ := List.mem_map.mp ha
  rw [h d hd]

/-- C35. Constant-step positions survive Oct24 exactly: `OctCellsToVec3(m, m, cells)`
is `m` for every point `m` and every `cells`; so for every stream with `n ≥ 2`
captures (a Go slice, so fewer than `2^56`) whose consecutive position differences
are all equal, with the `float32` header fields exact, `decodeOct24` applied to the
output of `encodeOct24` returns as many captures, and the position of each is the
original position at that index. -/
theorem oct24_constant_step_exact (F : Float32) (captures : List PositionCapture)
    (hn : 2 ≤ captures.length) (hlen : captures.length < 2 ^ 56)
    (hstep : ∀ d ∈ positionDeltas captures, ∀ e ∈ positionDeltas captures, d = e)
    (hexact : ∀ x ∈ Format.encodeOct24.headerFields captures, F.round x = x) :
    (∀ (m : Vector3) (cells : List Nat), OctCellsToVec3 m m cells = m) ∧
    ∃ bytes decoded, Format.encodeOct24 F captures = .ok bytes ∧
      Format.decodeOct24 F bytes = .ok decoded ∧
      decoded.map (fun c => c.position) = captures.map fun c => c.position := by
  refine ⟨OctCellsToVec3_degenerate, ?_⟩
  obtain ⟨c0, c1, rest, rfl⟩ := two_le_length_cases captures hn
  obtain ⟨count, body, hcount, henc, _⟩ := encodeOct24_layout F c0 c1 rest hlen
  obtain ⟨M, mn, mx, eM, e1, e2, e3, e4, e5, e6, _, h1, h2, h3, h4, h5, h6⟩ :=
    bounds_isExtreme c0 c1 rest
  have hδ : ∀ d ∈ positionDeltas (c0 :: c1 :: rest), d = c1.position.Sub c0.position :=
    fun d hd => hstep d hd _ (by simp [positionDeltas])
  have a1 := mem_map_of_all_eq _ _ Vector3.x hδ _ h1.1
  have a2 := mem_map_of_all_eq _ _ Vector3.y hδ _ h2.1
  have a3 := mem_map_of_all_eq _ _ Vector3.z hδ _ h3.1
  have a4 := mem_map_of_all_eq _ _ Vector3.x hδ _ h4.1
  have a5 := mem_map_of_all_eq _ _ Vector3.y hδ _ h5.1
  have a6 := mem_map_of_all_eq _ _ Vector3.z hδ _ h6.1
  have g1 : (Format.encodeOct24.bounds (c0 :: c1 :: rest)).minX.getD 0
      = (c1.position.Sub c0.position).x := by rw [e1, Option.getD_some, a1]
  have g2 : (Format.encodeOct24.bounds (c0 :: c1 :: rest)).minY.getD 0
      = (c1.position.Sub c0.position).y := by rw [e2, Option.getD_some, a2]
  have g3 : (Format.encodeOct24.bounds (c0 :: c1 :: rest)).minZ.getD 0
      = (c1.position.Sub c0.position).z := by rw [e3, Option.getD_some, a3]
  have g4 : (Format.encodeOct24.bounds (c0 :: c1 :: rest)).maxX.getD 0
      = (c1.position.Sub c0.position).x := by rw [e4, Option.getD_some, a4]
  have g5 : (Format.encodeOct24.bounds (c0 :: c1 :: rest)).maxY.getD 0
      = (c1.position.Sub c0.position).y := by rw [e5, Option.getD_some, a5]
  have g6 : (Format.encodeOct24.bounds (c0 :: c1 :: rest)).maxZ.getD 0
      = (c1.position.Sub c0.position).z := by rw [e6, Option.getD_some, a6]
  have hx : ∀ x ∈ Format.encodeOct24.headerFields (c0 :: c1 :: rest), F.round x = x := hexact
  simp only [Format.encodeOct24.headerFields, List.mem_cons, List.mem_singleton,
    forall_eq_or_imp, List.not_mem_nil, false_implies, forall_const, and_true] at hx
  rw [g1, g2, g3, g4, g5, g6] at hx henc
  obtain ⟨r1, r2, r3, r4, r5, r6, r7, r8, r9, r10, r11⟩ := hx
  have hdec := decodeOct24_header F (c0 :: c1 :: rest).length count body c0.time
    ((Format.encodeOct24.bounds (c0 :: c1 :: rest)).maxTimeDifference.getD 0)
    (c1.position.Sub c0.position).x (c1.position.Sub c0.position).y
    (c1.position.Sub c0.position).z (c1.position.Sub c0.position).x
    (c1.position.Sub c0.position).y (c1.position.Sub c0.position).z
    c0.position.x c0.position.y c0.position.z hcount (by simp) (lt_trans hlen (by norm_num))
  rw [r1, r2, r3, r4, r5, r9, r10, r11] at hdec
  obtain ⟨caps, hcaps, hpos⟩ := decodeOct24_loop_constant_step
    ((Format.encodeOct24.bounds (c0 :: c1 :: rest)).maxTimeDifference.getD 0)
    (c1.position.Sub c0.position) (c1 :: rest) c0
    (readInto [0, 0] body).2 (readInto [0, 0] body).1 [0, 0, 0] [0, 0, 0, 0, 0, 0, 0, 0]
    (c0.time + bytesToFloatBST 0
      ((Format.encodeOct24.bounds (c0 :: c1 :: rest)).maxTimeDifference.getD 0)
      (readInto [0, 0] body).1)
    (by rw [readInto_length]; rfl) rfl rfl hδ
  refine ⟨_, ⟨c0.time + bytesToFloatBST 0
      ((Format.encodeOct24.bounds (c0 :: c1 :: rest)).maxTimeDifference.getD 0)
      (readInto [0, 0] body).1, c0.position⟩ :: caps, henc, hdec.trans ?_, ?_⟩
  · rw [show (c0 :: c1 :: rest).length = (c1 :: rest).length + 1 from rfl,
      Format.decodeOct24.loop]
    simp only [if_true]
    have hcaps2 : Format.decodeOct24.loop
        ((Format.encodeOct24.bounds (c0 :: c1 :: rest)).maxTimeDifference.getD 0)
        ⟨(c1.position.Sub c0.position).x, (c1.position.Sub c0.position).y,
          (c1.position.Sub c0.position).z⟩
        ⟨(c1.position.Sub c0.position).x, (c1.position.Sub c0.position).y,
          (c1.position.Sub c0.position).z⟩ (c1 :: rest).length false
        (readInto [0, 0] body).2 (readInto [0, 0] body).1 [0, 0, 0] [0, 0, 0, 0, 0, 0, 0, 0]
        (c0.time + bytesToFloatBST 0
          ((Format.encodeOct24.bounds (c0 :: c1 :: rest)).maxTimeDifference.getD 0)
          (readInto [0, 0] body).1) ⟨c0.position.x, c0.position.y, c0.position.z⟩
          = .ok caps := hcaps
    rw [hcaps2]
    rfl
  · simp only [List.map_cons, hpos]

/-- C35 at the two captures `(0, (0,0,0))` and `(1, (1,1,1))`. -/
theorem oct24_constant_step_exact_witness :
    2 ≤ unitStepCaptures.length ∧ unitStepCaptures.length < 2 ^ 56 ∧
    (∀ d ∈ positionDeltas unitStepCaptures, ∀ e ∈ positionDeltas unitStepCaptures, d = e) ∧
    (∀ x ∈ Format.encodeOct24.headerFields unitStepCaptures, binary32.round x = x) ∧
    (∀ (m : Vector3) (cells : List Nat), OctCellsToVec3 m m cells = m) ∧
    ∃ bytes decoded, Format.encodeOct24 binary32 unitStepCaptures = .ok bytes ∧
      Format.decodeOct24 binary32 bytes = .ok decoded ∧
      decoded.map (fun c => c.position) = unitStepCaptures.map fun c => c.position :=
  have h1 : 2 ≤ unitStepCaptures.length := by simp [unitStepCaptures]
  have h2 : unitStepCaptures.length < 2 ^ 56 := by simp [unitStepCaptures]
  have h3 : ∀ d ∈ positionDeltas unitStepCaptures, ∀ e ∈ positionDeltas unitStepCaptures,
      d = e := by
    simp [unitStepCaptures, positionDeltas]
  ⟨h1, h2, h3, unitStepCaptures_exact,
    oct24_constant_step_exact binary32 unitStepCaptures h1 h2 h3 unitStepCaptures_exact⟩

/-! ## Event codec: the indexes that `Decode` reads from the output of `Encode` -/

theorem encodeCaptures_ok_isEvent (cv : FloatConv) (technique : Nat) (cs : List Capture) :
    ∀ (st : Dict × Dict) (r : (Dict × Dict) × List Nat),
    encodeCaptures cv technique st cs = .ok r → ∀ c ∈ cs, c.isEvent = true := by
  induction cs with
  | nil =>
    intro st r _ c hc
    simp at hc
  | cons c0 cs ih =>
    intro st r h c hc
    obtain ⟨r1, r2, h1, h2, _⟩ := encodeCaptures_cons_ok cv technique st c0 cs r h
    rcases List.mem_cons.mp hc with e | hmem
    · obtain ⟨time, name, md, _, e0, _, _⟩ := encodeCapture_ok cv technique st c0 r1 h1
      rw [e, e0]
      rfl
    · exact ih r1.1 r2 h2 c hmem

theorem encodeStreams_ok_events (cv : FloatConv) (technique : Nat) (ss : List CaptureStream) :
    ∀ (st : Dict × Dict) (r : (Dict × Dict) × List (List Nat)),
    encodeStreams cv technique st ss = .ok r →
    ∀ s ∈ ss, (∃ count, PutUvarint 4 (s.captures.length % 2 ^ 64) = some count) ∧
      ∀ c ∈ s.captures, c.isEvent = true := by
  induction ss with
  | nil =>
    intro st r _ s hs
    simp at hs
  | cons s0 ss ih =>
    intro st r h s hs
    obtain ⟨r1, r2, h1, h2, _⟩ := encodeStreams_cons_ok cv technique st s0 ss r h
    rcases List.mem_cons.mp hs with e | hmem
    · obtain ⟨count, rc, hcount, hrc, _⟩ := encodeStream_ok cv technique st s0 r1 h1
      rw [e]
      exact ⟨⟨count, hcount⟩, encodeCaptures_ok_isEvent cv technique s0.captures st rc hrc⟩
    · exact ih r1.1 r2 h2 s hmem

/-- When `Encode` returns, every capture is an event capture and every stream has
fewer than `2^28` captures (modulo `2^64`). -/
theorem Encode_ok_events (cv : FloatConv) (technique : Nat) (streams : List CaptureStream)
    (r : List Nat × List (List Nat)) (h : Encoder.Encode cv technique streams = .ok r) :
    ∀ s ∈ streams, s.captures.length % 2 ^ 64 < 2 ^ 28 ∧ ∀ c ∈ s.captures, c.isEvent = true := by
  simp only [Encoder.Encode] at h
  obtain ⟨r1, hr, _⟩ := (Res.bind_eq_ok _ _ _).mp h
  intro s hs
  obtain ⟨hc, hev⟩ := encodeStreams_ok_events cv technique streams ([], []) r1 hr s hs
  exact ⟨(PutUvarint_four_iff _).mp hc, hev⟩

/-- The time written for a technique that fits the technique byte is read back in
full by the technique byte. -/
theorem decodeTime_encodeTime (cv : FloatConv) (technique time : Nat) (rest : List Nat)
    (htech : technique < 256) :
    ∃ t, decodeTime cv (technique % 256) (encodeTime cv technique time ++ rest) = (t, rest) := by
  rw [Nat.mod_eq_of_lt htech]
  unfold decodeTime encodeTime
  by_cases h0 : technique = Raw64
  · rw [if_pos h0, if_pos h0, readFixed_leBytes]
    exact ⟨_, rfl⟩
  · by_cases h1 : technique = Raw32
    · rw [if_neg h0, if_pos h1, if_neg h0, if_pos h1, readFixed_leBytes]
      exact ⟨_, rfl⟩
    · rw [if_neg h0, if_neg h1, if_neg h0, if_neg h1]
      exact ⟨_, rfl⟩

theorem positionOf_lt (l : List GoString) (k : GoString) (h : k ∈ l) :
    positionOf k l < l.length :=
  (List.getElem?_eq_some_iff.mp (getElem?_positionOf l k h)).1

/-- The metadata loop of `Decode` stays in range when every index is below the
number of keys and there are as many values as indexes. -/
theorem rehydrate_isSome (KEYS : List GoString) : ∀ (idxs : List Nat) (values : List GoString)
    (acc : List (GoString × GoString)), (∀ i ∈ idxs, i < KEYS.length) →
    values.length = idxs.length → ∃ m, rehydrate KEYS idxs values acc = some m := by
  intro idxs
  induction idxs with
  | nil =>
    intro values acc _ _
    exact ⟨acc, by rw [rehydrate]⟩
  | cons i is ih =>
    intro values acc hi hl
    cases values with
    | nil => simp at hl
    | cons v vs =>
      have hlt : i < KEYS.length := hi i (List.mem_cons_self _ _)
      have hget : KEYS[i]? = some KEYS[i] := List.getElem?_eq_getElem hlt
      obtain ⟨m, hm⟩ := ih vs (mapInsert acc KEYS[i] v)
        (fun j hj => hi j (List.mem_cons_of_mem _ hj)) (by simpa using hl)
      exact ⟨m, by simp only [rehydrate, hget, hm]⟩

/-- What one iteration of the capture loop of `Decode` reads from the bytes of one
event capture: the time, the position of the name, the positions of the keys, the
values. -/
theorem eventCaptureBytes_reads (cv : FloatConv) (technique : Nat) (names keys : List GoString)
    (time : Nat) (name : GoString) (md : List (GoString × GoString)) (rest : List Nat)
    (htech : technique < 256) (hwf : (Capture.event time name md).WellFormed)
    (hname : name ∈ names) (hmd : ∀ kv ∈ md, kv.1 ∈ keys)
    (hN : names.length < 2 ^ 64) (hK : keys.length < 2 ^ 64) :
    ∃ t, decodeTime cv (technique % 256)
        (eventCaptureBytes cv technique names keys (.event time name md) ++ rest)
        = (t, uvarintBytes (positionOf name names)
            ++ (UintArrayToBytes (md.map fun kv => positionOf kv.1 keys)
            ++ (StringArrayToBytes (md.map Prod.snd) ++ rest))) ∧
      ReadUvarint (uvarintBytes (positionOf name names)
            ++ (UintArrayToBytes (md.map fun kv => positionOf kv.1 keys)
            ++ (StringArrayToBytes (md.map Prod.snd) ++ rest)))
        = (.ok (positionOf name names), UintArrayToBytes (md.map fun kv => positionOf kv.1 keys)
            ++ (StringArrayToBytes (md.map Prod.snd) ++ rest)) ∧
      ReadUintArray (UintArrayToBytes (md.map fun kv => positionOf kv.1 keys)
            ++ (StringArrayToBytes (md.map Prod.snd) ++ rest))
        = (.ok (md.map fun kv => positionOf kv.1 keys),
            StringArrayToBytes (md.map Prod.snd) ++ rest) ∧
      ReadStringArray (StringArrayToBytes (md.map Prod.snd) ++ rest)
        = (.ok (md.map Prod.snd), rest) := by
  obtain ⟨_, _, hmdlen, _, hkv⟩ := hwf
  obtain ⟨t, ht⟩ := decodeTime_encodeTime cv technique time
    (uvarintBytes (positionOf name names)
      ++ (UintArrayToBytes (md.map fun kv => positionOf kv.1 keys)
      ++ (StringArrayToBytes (md.map Prod.snd) ++ rest))) htech
  refine ⟨t, ?_, ?_, ?_, ?_⟩
  · simp only [eventCaptureBytes, List.append_assoc]
    exact ht
  · exact ReadUvarint_uvarintBytes _ _ (lt_trans (positionOf_lt _ _ hname) hN)
  · refine ReadUintArray_UintArrayToBytes _ _ ?_ ?_
    · rw [List.length_map]
      exact lt_trans hmdlen (by norm_num)
    · intro x hx
      obtain ⟨kv, hkvm, rfl⟩ := List.mem_map.mp hx
      exact lt_trans (positionOf_lt _ _ (hmd kv hkvm)) hK
  · refine ReadStringArray_StringArrayToBytes _ _ ?_ ?_
    · rw [List.length_map]
      exact lt_trans hmdlen (by norm_num)
    · intro s hs
      obtain ⟨kv, hkvm, rfl⟩ := List.mem_map.mp hs
      exact lt_trans (hkv kv hkvm).2 (by norm_num)

/-- The capture loop of `Decode` on the bytes of event captures written against the
dictionaries `names` and `keys` returns a capture for each. -/
theorem decodeCaptures_eventCaptureBytes (cv : FloatConv) (technique : Nat)
    (names keys : List GoString) (htech : technique < 256) (hN : names.length < 2 ^ 63)
    (hK : keys.length < 2 ^ 64) :
    ∀ (cs : List Capture) (rest : List Nat),
      (∀ c ∈ cs, c.WellFormed ∧ c.isEvent = true ∧ (∀ nm ∈ c.name?, nm ∈ names) ∧
        ∀ k ∈ c.keys, k ∈ keys) →
      ∃ out, decodeCaptures cv names keys (technique % 256) cs.length
          (cs.flatMap (eventCaptureBytes cv technique names keys) ++ rest) = .ok out ∧
        out.length = cs.length := by
  intro cs
  induction cs with
  | nil =>
    intro rest _
    exact ⟨[], rfl, rfl⟩
  | cons c cs ih =>
    intro rest hcs
    obtain ⟨hwf, hev, hnm, hks⟩ := hcs c (List.mem_cons_self _ _)
    obtain ⟨out, hout, hlen⟩ := ih rest fun c' hc' => hcs c' (List.mem_cons_of_mem _ hc')
    cases c with
    | other t => simp [Capture.isEvent] at hev
    | event time name md =>
      have hname : name ∈ names := hnm name (by simp [Capture.name?])
      have hmd : ∀ kv ∈ md, kv.1 ∈ keys := fun kv hkv =>
        hks kv.1 (by simp only [Capture.keys, List.mem_map]; exact ⟨kv, hkv, rfl⟩)
      obtain ⟨t, e1, e2, e3, e4⟩ := eventCaptureBytes_reads cv technique names keys time name md
        (cs.flatMap (eventCaptureBytes cv technique names keys) ++ rest) htech hwf hname hmd
        (lt_trans hN (by norm_num)) hK
      obtain ⟨m, hm⟩ := rehydrate_isSome keys (md.map fun kv => positionOf kv.1 keys)
        (md.map Prod.snd) []
        (fun i hi => by
          obtain ⟨kv, hkvm, rfl⟩ := List.mem_map.mp hi
          exact positionOf_lt _ _ (hmd kv hkvm))
        (by simp)
      have hn63 : ¬ (2 ^ 63 ≤ positionOf name names) :=
        not_le.mpr (lt_trans (positionOf_lt _ _ hname) hN)
      refine ⟨⟨t, name, m⟩ :: out, ?_, by simp [hlen]⟩
      rw [List.flatMap_cons, List.append_assoc, List.length_cons, decodeCaptures]
      simp only [e1, e2, e3, e4, hm, if_neg hn63, getElem?_positionOf names name hname, hout,
        Res.map]

/-- C32. Event `Decode` never indexes out of range on the encoder's own output: for
every list of streams (Go values) and every technique that fits the technique byte
(`Raw64` and `Raw32` do), whenever `Encode` returns a header and bodies, the header
reads back as its name and key dictionaries, `Decode` returns a stream for every
body (it neither panics nor fails), and for every capture the iteration of `Decode`
on the bytes of the capture reads a name index below the number of names in the
header, a key-index array whose entries are all below the number of keys in the
header, and a values array as long as the key-index array. -/
theorem event_decode_in_range (cv : FloatConv) (technique p : Nat)
    (streams : List CaptureStream) (header : List Nat) (bodies : List (List Nat))
    (htech : technique < 256) (hwf : ∀ s ∈ streams, s.WellFormed)
    (hkeys : (allMetadataKeys streams).toFinset.card < 2 ^ 63)
    (h : Encoder.Encode cv technique streams = .ok (header, bodies)) :
    ∃ names keys : List GoString,
      readHeader header = (names, keys, none) ∧
      bodies = streams.map (eventBodyBytes cv technique names keys) ∧
      (∀ body ∈ bodies, ∃ out, Encoder.Decode cv p header body = .ok out) ∧
      ∀ s ∈ streams, ∀ c ∈ s.captures,
        ∃ (nameIndex : Nat) (keyIndexes : List Nat) (values : List GoString),
          nameIndex < names.length ∧ (∀ i ∈ keyIndexes, i < keys.length) ∧
          values.length = keyIndexes.length ∧
          ∀ rest : List Nat, ∃ (t : Nat) (r1 r2 r3 : List Nat),
            decodeTime cv (technique % 256)
              (eventCaptureBytes cv technique names keys c ++ rest) = (t, r1) ∧
            ReadUvarint r1 = (.ok nameIndex, r2) ∧
            ReadUintArray r2 = (.ok keyIndexes, r3) ∧
            ReadStringArray r3 = (.ok values, rest) := by
  obtain ⟨hh, hb⟩ := Encode_layout cv technique streams header bodies h
  have hev := Encode_ok_events cv technique streams _ h
  have hnd1 := (firstOccurrences_spec (allEventNames streams)).1
  have hnd2 := (firstOccurrences_spec (allMetadataKeys streams)).1
  have hm1 := (firstOccurrences_spec (allEventNames streams)).2.1
  have hm2 := (firstOccurrences_spec (allMetadataKeys streams)).2.1
  have hNl : (firstOccurrences (allEventNames streams)).length ≤ 2 ^ 28 :=
    le_trans (nodup_length_le_card _ _ hnd1 fun k hk => List.mem_toFinset.mpr ((hm1 k).mp hk))
      (Encode_names_le cv technique streams _ h)
  have hKl : (firstOccurrences (allMetadataKeys streams)).length < 2 ^ 63 :=
    lt_of_le_of_lt (nodup_length_le_card _ _ hnd2
      fun k hk => List.mem_toFinset.mpr ((hm2 k).mp hk)) hkeys
  have hN63 : (firstOccurrences (allEventNames streams)).length < 2 ^ 63 :=
    lt_of_le_of_lt hNl (by norm_num)
  have hK64 : (firstOccurrences (allMetadataKeys streams)).length < 2 ^ 64 :=
    lt_trans hKl (by norm_num)
  have hread := readHeader_header (firstOccurrences (allEventNames streams))
    (firstOccurrences (allMetadataKeys streams)) (lt_trans hN63 (by norm_num))
    (fun k hk => allEventNames_short streams hwf k ((hm1 k).mp hk)) hK64
    (fun k hk => allMetadataKeys_short streams hwf k ((hm2 k).mp hk))
  rw [← hh] at hread
  have hcap : ∀ s ∈ streams, ∀ c ∈ s.captures, c.WellFormed ∧ c.isEvent = true ∧
      (∀ nm ∈ c.name?, nm ∈ firstOccurrences (allEventNames streams)) ∧
      ∀ k ∈ c.keys, k ∈ firstOccurrences (allMetadataKeys streams) :=
    fun s hs c hc => ⟨(hwf s hs).2.2 c hc, (hev s hs).2 c hc,
      fun nm hn => (hm1 nm).mpr (mem_allEventNames streams s c nm hs hc hn),
      fun k hk => (hm2 k).mpr (mem_allMetadataKeys streams s c k hs hc hk)⟩
  refine ⟨_, _, hread, hb, ?_, ?_⟩
  · intro body hbody
    rw [hb] at hbody
    obtain ⟨s, hs, rfl⟩ := List.mem_map.mp hbody
    have hl63 : s.captures.length < 2 ^ 63 := (hwf s hs).2.1
    obtain ⟨out, hout, _⟩ := decodeCaptures_eventCaptureBytes cv technique _ _ htech hN63 hK64
      s.captures [] (hcap s hs)
    rw [List.append_nil] at hout
    refine ⟨⟨s.name, out⟩, ?_⟩
    simp only [Encoder.Decode, hread, eventBodyBytes, List.append_assoc, List.singleton_append,
      List.cons_append, List.nil_append,
      ReadString_StringToBytes s.name _ (lt_trans (hwf s hs).1 (by norm_num)),
      ReadUvarint_uvarintBytes s.captures.length _ (lt_trans hl63 (by norm_num)),
      if_neg (not_le.mpr hl63), Nat.mod_mod, hout, Res.map]
  · intro s hs c hc
    obtain ⟨hcw, hce, hnm, hks⟩ := hcap s hs c hc
    cases c with
    | other t => simp [Capture.isEvent] at hce
    | event time name md =>
      have hname : name ∈ firstOccurrences (allEventNames streams) :=
        hnm name (by simp [Capture.name?])
      have hmd : ∀ kv ∈ md, kv.1 ∈ firstOccurrences (allMetadataKeys streams) := fun kv hkv =>
        hks kv.1 (by simp only [Capture.keys, List.mem_map]; exact ⟨kv, hkv, rfl⟩)
      refine ⟨positionOf name (firstOccurrences (allEventNames streams)),
        md.map fun kv => positionOf kv.1 (firstOccurrences (allMetadataKeys streams)),
        md.map Prod.snd, positionOf_lt _ _ hname, ?_, by simp, ?_⟩
      · intro i hi
        obtain ⟨kv, hkvm, rfl⟩ := List.mem_map.mp hi
        exact positionOf_lt _ _ (hmd kv hkvm)
      · intro rest
        obtain ⟨t, e1, e2, e3, e4⟩ := eventCaptureBytes_reads cv technique _ _ time name md rest
          htech hcw hname hmd (lt_trans hN63 (by norm_num)) hK64
        exact ⟨t, _, _, _, e1, e2, e3, e4⟩

set_option maxRecDepth 100000 in
/-- C32 at the header and bodies that `Encode` returns for `sampleStreams`. -/
theorem event_decode_in_range_witness :
    Raw64 < 256 ∧ (∀ s ∈ sampleStreams, s.WellFormed) ∧
    (allMetadataKeys sampleStreams).toFinset.card < 2 ^ 63 ∧
    Encoder.Encode ⟨id, id⟩ Raw64 sampleStreams = .ok (sampleHeader, sampleBodies) ∧
    ∃ names keys : List GoString,
      readHeader sampleHeader = (names, keys, none) ∧
      sampleBodies = sampleStreams.map (eventBodyBytes ⟨id, id⟩ Raw64 names keys) ∧
      (∀ body ∈ sampleBodies, ∃ out, Encoder.Decode ⟨id, id⟩ Raw32 sampleHeader body = .ok out) ∧
      ∀ s ∈ sampleStreams, ∀ c ∈ s.captures,
        ∃ (nameIndex : Nat) (keyIndexes : List Nat) (values : List GoString),
          nameIndex < names.length ∧ (∀ i ∈ keyIndexes, i < keys.length) ∧
          values.length = keyIndexes.length ∧
          ∀ rest : List Nat, ∃ (t : Nat) (r1 r2 r3 : List Nat),
            decodeTime ⟨id, id⟩ (Raw64 % 256)
              (eventCaptureBytes ⟨id, id⟩ Raw64 names keys c ++ rest) = (t, r1) ∧
            ReadUvarint r1 = (.ok nameIndex, r2) ∧
            ReadUintArray r2 = (.ok keyIndexes, r3) ∧
            ReadStringArray r3 = (.ok values, rest) :=
  have h1 : Raw64 < 256 := by decide
  have h2 : (allMetadataKeys sampleStreams).toFinset.card < 2 ^ 63 :=
    lt_of_le_of_lt (List.toFinset_card_le _) (by decide)
  have h3 : Encoder.Encode ⟨id, id⟩ Raw64 sampleStreams = .ok (sampleHeader, sampleBodies) := by
    decide
  ⟨h1, sampleStreams_wf, h2, h3,
    event_decode_in_range ⟨id, id⟩ Raw64 Raw32 sampleStreams sampleHeader sampleBodies h1
      sampleStreams_wf h2 h3⟩

/-! ## Oct24, absolute variant: the round trip -/

theorem pkg_boundsLoop_fields (cs : List PositionCapture) : ∀ b : Pkg.Extent,
    (Pkg.encodeOct24.boundsLoop b cs).startingTime
        = (cs.map fun c => c.time).foldl lowerTo b.startingTime ∧
    (Pkg.encodeOct24.boundsLoop b cs).endingTime
        = (cs.map fun c => c.time).foldl raiseTo b.endingTime ∧
    (Pkg.encodeOct24.boundsLoop b cs).minX
        = (cs.map fun c => c.position.x).foldl lowerTo b.minX ∧
    (Pkg.encodeOct24.boundsLoop b cs).minY
        = (cs.map fun c => c.position.y).foldl lowerTo b.minY ∧
    (Pkg.encodeOct24.boundsLoop b cs).minZ
        = (cs.map fun c => c.position.z).foldl lowerTo b.minZ ∧
    (Pkg.encodeOct24.boundsLoop b cs).maxX
        = (cs.map fun c => c.position.x).foldl raiseTo b.maxX ∧
    (Pkg.encodeOct24.boundsLoop b cs).maxY
        = (cs.map fun c => c.position.y).foldl raiseTo b.maxY ∧
    (Pkg.encodeOct24.boundsLoop b cs).maxZ
        = (cs.map fun c => c.position.z).foldl raiseTo b.maxZ := by
  induction cs with
  | nil => intro b; exact ⟨rfl, rfl, rfl, rfl, rfl, rfl, rfl, rfl⟩
  | cons c cs ih =>
    intro b
    simp only [Pkg.encodeOct24.boundsLoop, List.map_cons, List.foldl_cons]
    exact ih _

/-- The time range and the bounding box found by the first loop of the absolute
`encodeOct24` on a non-empty list. -/
theorem pkg_bounds_isExtreme (c0 : PositionCapture) (rest : List PositionCapture) :
    ∃ (lo hi : ℚ) (mn mx : Vector3),
      (Pkg.encodeOct24.bounds (c0 :: rest)).startingTime = some lo ∧
      (Pkg.encodeOct24.bounds (c0 :: rest)).endingTime = some hi ∧
      (Pkg.encodeOct24.bounds (c0 :: rest)).minX = some mn.x ∧
      (Pkg.encodeOct24.bounds (c0 :: rest)).minY = some mn.y ∧
      (Pkg.encodeOct24.bounds (c0 :: rest)).minZ = some mn.z ∧
      (Pkg.encodeOct24.bounds (c0 :: rest)).maxX = some mx.x ∧
      (Pkg.encodeOct24.bounds (c0 :: rest)).maxY = some mx.y ∧
      (Pkg.encodeOct24.bounds (c0 :: rest)).maxZ = some mx.z ∧
      IsLeast {t | t ∈ (c0 :: rest).map fun c => c.time} lo ∧
      IsGreatest {t | t ∈ (c0 :: rest).map fun c => c.time} hi ∧
      IsLeast {a | a ∈ (c0 :: rest).map fun c => c.position.x} mn.x ∧
      IsLeast {a | a ∈ (c0 :: rest).map fun c => c.position.y} mn.y ∧
      IsLeast {a | a ∈ (c0 :: rest).map fun c => c.position.z} mn.z ∧
      IsGreatest {a | a ∈ (c0 :: rest).map fun c => c.position.x} mx.x ∧
      IsGreatest {a | a ∈ (c0 :: rest).map fun c => c.position.y} mx.y ∧
      IsGreatest {a | a ∈ (c0 :: rest).map fun c => c.position.z} mx.z := by
  obtain ⟨p1, p2, p3, p4, p5, p6, p7, p8⟩ := pkg_boundsLoop_fields (c0 :: rest)
    ⟨none, none, none, none, none, none, none, none⟩
  obtain ⟨lo, elo, hlo⟩ := foldl_lowerTo_isLeast ((c0 :: rest).map fun c => c.time) (by simp)
  obtain ⟨hi, ehi, hhi⟩ := foldl_raiseTo_isGreatest ((c0 :: rest).map fun c => c.time) (by simp)
  obtain ⟨ax, eax, hax⟩ := foldl_lowerTo_isLeast ((c0 :: rest).map fun c => c.position.x)
    (by simp)
  obtain ⟨ay, eay, hay⟩ := foldl_lowerTo_isLeast ((c0 :: rest).map fun c => c.position.y)
    (by simp)
  obtain ⟨az, eaz, haz⟩ := foldl_lowerTo_isLeast ((c0 :: rest).map fun c => c.position.z)
    (by simp)
  obtain ⟨bx, ebx, hbx⟩ := foldl_raiseTo_isGreatest ((c0 :: rest).map fun c => c.position.x)
    (by simp)
  obtain ⟨byy, eby, hby⟩ := foldl_raiseTo_isGreatest ((c0 :: rest).map fun c => c.position.y)
    (by simp)
  obtain ⟨bz, ebz, hbz⟩ := foldl_raiseTo_isGreatest ((c0 :: rest).map fun c => c.position.z)
    (by simp)
  exact ⟨lo, hi, ⟨ax, ay, az⟩, ⟨bx, byy, bz⟩, p1.trans elo, p2.trans ehi, p3.trans eax,
    p4.trans eay, p5.trans eaz, p6.trans ebx, p7.trans eby, p8.trans ebz, hlo, hhi, hax, hay,
    haz, hbx, hby, hbz⟩

/-- The second loop of the absolute `encodeOct24` returns normally, and its bytes
drive the loop of `decodeOct24` to the quantized time and position of each capture. -/
theorem pkg_loop_lockstep (t0 D : ℚ) (mn mx : Vector3) (cs : List PositionCapture) :
    ∃ body, Pkg.encodeOct24.loop t0 D mn mx cs = .ok body ∧
      ∀ tb ob cells : List Nat, tb.length = 2 → ob.length = 3 → cells.length = 8 →
        Pkg.decodeOct24.loop t0 D mn mx cs.length body tb ob cells
          = .ok (cs.map fun c => ⟨bytesToFloatBST t0 D (floatBSTToBytes c.time t0 D [0, 0]),
              OctCellsToVec3 mn mx
                (Vec3ToOctCells c.position mn mx [0, 0, 0, 0, 0, 0, 0, 0])⟩) := by
  induction cs with
  | nil => exact ⟨[], rfl, fun _ _ _ _ _ _ => rfl⟩
  | cons c cs ih =>
    have htb : (floatBSTToBytes c.time t0 D [0, 0]).length = 2 := floatBSTToBytes_length _ _ _ _
    have hcl : (Vec3ToOctCells c.position mn mx [0, 0, 0, 0, 0, 0, 0, 0]).length = 8 := by
      rw [Vec3ToOctCells_length]; rfl
    obtain ⟨ob', hob, hobl, _⟩ := oct_pack_unpack _ [0, 0, 0] [0, 0, 0, 0, 0, 0, 0, 0] hcl
      (Vec3ToOctCells_lt_eight _ _ _ _) rfl rfl
    obtain ⟨body, he, hd⟩ := ih
    refine ⟨(floatBSTToBytes c.time t0 D [0, 0] ++ ob') ++ body, ?_, ?_⟩
    · simp only [Pkg.encodeOct24.loop, Pkg.encodeOct24.step, hob, Res.bind, he]
    · intro tb ob cells h1 h2 h3
      simp only [List.length_cons, Pkg.decodeOct24.loop]
      rw [List.append_assoc, readInto_append _ _ _ (by rw [h1, htb])]
      simp only
      rw [readInto_append _ _ _ (by rw [h2, hobl])]
      simp only
      obtain ⟨ob2, hob2, _, hun2⟩ := oct_pack_unpack _ [0, 0, 0] cells hcl
        (Vec3ToOctCells_lt_eight _ _ _ _) rfl h3
      rw [hob] at hob2
      cases hob2
      rw [hun2]
      simp only
      rw [hd _ _ _ htb hobl hcl]
      simp [Res.map]

/-- The absolute `decodeOct24` on the eight `float32` fields of the header followed
by a count: what is left is the capture loop. -/
theorem pkg_decodeOct24_header (F : Float32) (n : Nat) (count body : List Nat)
    (t0 D a1 a2 a3 b1 b2 b3 : ℚ) (hcount : PutUvarint 8 n = some count) (h63 : n < 2 ^ 63) :
    Pkg.decodeOct24 F (writeFloat32 F t0 ++ (writeFloat32 F D ++ (writeFloat32 F a1
      ++ (writeFloat32 F a2 ++ (writeFloat32 F a3 ++ (writeFloat32 F b1 ++ (writeFloat32 F b2
      ++ (writeFloat32 F b3 ++ (count ++ body)))))))))
      = Pkg.decodeOct24.loop (F.round t0) (F.round D) ⟨F.round a1, F.round a2, F.round a3⟩
          ⟨F.round b1, F.round b2, F.round b3⟩ n body [0, 0] [0, 0, 0]
          [0, 0, 0, 0, 0, 0, 0, 0] := by
  have hlt63 : ¬ (2 ^ 63 ≤ n) := by omega
  have h64 : n < 2 ^ 64 := lt_trans h63 (by norm_num)
  unfold Pkg.decodeOct24
  rw [readFloat32_writeFloat32]
  simp only
  rw [readFloat32_writeFloat32]
  simp only
  rw [readFloat32_writeFloat32]
  simp only
  rw [readFloat32_writeFloat32]
  simp only
  rw [readFloat32_writeFloat32]
  simp only
  rw [readFloat32_writeFloat32]
  simp only
  rw [readFloat32_writeFloat32]
  simp only
  rw [readFloat32_writeFloat32]
  simp only
  rw [ReadUvarint_PutUvarint 8 n count _ h64 hcount]
  simp only [if_neg hlt63, float32OrZero]

/-- The error of the octree quantizer on a point of the box, with a fresh buffer of
8 cells. -/
theorem octree_error (v min max : Vector3)
    (hx : min.x ≤ v.x ∧ v.x ≤ max.x) (hy : min.y ≤ v.y ∧ v.y ≤ max.y)
    (hz : min.z ≤ v.z ∧ v.z ≤ max.z) :
    |(OctCellsToVec3 min max (Vec3ToOctCells v min max [0, 0, 0, 0, 0, 0, 0, 0])).x - v.x|
        ≤ (max.x - min.x) / 2 ^ 9 ∧
    |(OctCellsToVec3 min max (Vec3ToOctCells v min max [0, 0, 0, 0, 0, 0, 0, 0])).y - v.y|
        ≤ (max.y - min.y) / 2 ^ 9 ∧
    |(OctCellsToVec3 min max (Vec3ToOctCells v min max [0, 0, 0, 0, 0, 0, 0, 0])).z - v.z|
        ≤ (max.z - min.z) / 2 ^ 9 := by
  rw [OctCellsToVec3_Vec3ToOctCells]
  have key : ∀ a lo hi : ℚ, lo ≤ a → a ≤ hi →
      |(bstWalk a 8 (lo + (hi - lo) / 2) ((hi - lo) / 4)).1 - a| ≤ (hi - lo) / 2 ^ 9 := by
    intro a lo hi h1 h2
    have h := (bstWalk_error a lo (hi - lo) 8 (by linarith)).2.2
    rw [show lo + (hi - lo) = hi by ring, min_eq_left h2, max_eq_right h1] at h
    exact h
  exact ⟨key _ _ _ hx.1 hx.2, key _ _ _ hy.1 hy.2, key _ _ _ hz.1 hz.2⟩

/-- The error of the two-byte scalar quantizer on a value of its range. -/
theorem bst_two_bytes_error (lo hi v : ℚ) (h1 : lo ≤ v) (h2 : v ≤ hi) :
    |bytesToFloatBST lo (hi - lo) (floatBSTToBytes v lo (hi - lo) [0, 0]) - v|
      ≤ (hi - lo) / 2 ^ 17 := by
  have h := (bst_decoded_bounds v lo (hi - lo) [0, 0] (by linarith)).2.2
  rw [show lo + (hi - lo) = hi by ring, min_eq_left h2, max_eq_right h1] at h
  exact h

/-- C36. Absolute (pkg) Oct24 variant round trip: on the empty list `encodeOct24`
panics (it reads `captures[0]`); for every non-empty capture list (a Go slice, so
fewer than `2^56` captures) whose first capture has the earliest time, with the
`float32` header fields exact, `decodeOct24` applied to the output of `encodeOct24`
returns as many captures, and capture `i` has its time within
`(latest - earliest) / 2^17` of the original time and each component of its position
within `(max - min) / 2^9` of the original on that axis, `earliest` and `latest`
being the least and the greatest of the times and `min` and `max` the component-wise
least and greatest of the positions. -/
theorem pkg_oct24_round_trip (F : Float32) (captures : List PositionCapture)
    (hne : captures ≠ []) (hlen : captures.length < 2 ^ 56)
    (hfirst : ∀ c0 ∈ captures.head?, ∀ c ∈ captures, c0.time ≤ c.time)
    (hexact : ∀ x ∈ Pkg.encodeOct24.headerFields captures, F.round x = x) :
    Pkg.encodeOct24 F [] = .panic ∧
    ∃ (earliest latest : ℚ) (mn mx : Vector3),
      IsLeast {t | t ∈ captures.map fun c => c.time} earliest ∧
      IsGreatest {t | t ∈ captures.map fun c => c.time} latest ∧
      IsLeast {a | a ∈ captures.map fun c => c.position.x} mn.x ∧
      IsLeast {a | a ∈ captures.map fun c => c.position.y} mn.y ∧
      IsLeast {a | a ∈ captures.map fun c => c.position.z} mn.z ∧
      IsGreatest {a | a ∈ captures.map fun c => c.position.x} mx.x ∧
      IsGreatest {a | a ∈ captures.map fun c => c.position.y} mx.y ∧
      IsGreatest {a | a ∈ captures.map fun c => c.position.z} mx.z ∧
      ∃ bytes decoded, Pkg.encodeOct24 F captures = .ok bytes ∧
        Pkg.decodeOct24 F bytes = .ok decoded ∧
        decoded.length = captures.length ∧
        ∀ (i : Nat) (c d : PositionCapture), captures[i]? = some c → decoded[i]? = some d →
          |d.time - c.time| ≤ (latest - earliest) / 2 ^ 17 ∧
          |d.position.x - c.position.x| ≤ (mx.x - mn.x) / 2 ^ 9 ∧
          |d.position.y - c.position.y| ≤ (mx.y - mn.y) / 2 ^ 9 ∧
          |d.position.z - c.position.z| ≤ (mx.z - mn.z) / 2 ^ 9 := by
  refine ⟨rfl, ?_⟩
  cases captures with
  | nil => exact absurd rfl hne
  | cons c0 rest =>
    obtain ⟨lo, hi, mn, mx, e1, e2, e3, e4, e5, e6, e7, e8, hlo, hhi, h3, h4, h5, h6, h7, h8⟩ :=
      pkg_bounds_isExtreme c0 rest
    have hc0 : c0.time = lo := by
      apply le_antisymm
      · obtain ⟨c, hc, hct⟩ := List.mem_map.mp hlo.1
        rw [← hct]
        exact hfirst c0 (by simp) c hc
      · exact hlo.2 (List.mem_map.mpr ⟨c0, List.mem_cons_self _ _, rfl⟩)
    have hn64 : (c0 :: rest).length % 2 ^ 64 = (c0 :: rest).length :=
      Nat.mod_eq_of_lt (lt_trans hlen (by norm_num))
    obtain ⟨count, hcount⟩ := PutUvarint_isSome 7 (c0 :: rest).length (by simpa using hlen)
    obtain ⟨body, he, hd⟩ := pkg_loop_lockstep lo (hi - lo) ⟨mn.x, mn.y, mn.z⟩
      ⟨mx.x, mx.y, mx.z⟩ (c0 :: rest)
    have hx : ∀ x ∈ Pkg.encodeOct24.headerFields (c0 :: rest), F.round x = x := hexact
    simp only [Pkg.encodeOct24.headerFields, e1, e2, e3, e4, e5, e6, e7, e8, Option.getD_some,
      List.mem_cons, List.mem_singleton, forall_eq_or_imp, List.not_mem_nil, false_implies,
      forall_const, and_true] at hx
    obtain ⟨r1, r2, r3, r4, r5, r6, r7, r8⟩ := hx
    have henc : Pkg.encodeOct24 F (c0 :: rest) = .ok (writeFloat32 F c0.time
        ++ (writeFloat32 F (hi - lo) ++ (writeFloat32 F mn.x ++ (writeFloat32 F mn.y
        ++ (writeFloat32 F mn.z ++ (writeFloat32 F mx.x ++ (writeFloat32 F mx.y
        ++ (writeFloat32 F mx.z ++ (count ++ body))))))))) := by
      simp only [Pkg.encodeOct24, hn64, hcount, e1, e2, e3, e4, e5, e6, e7, e8,
        Option.getD_some, he, Res.bind, List.append_assoc]
    have hdec := pkg_decodeOct24_header F (c0 :: rest).length count body c0.time (hi - lo)
      mn.x mn.y mn.z mx.x mx.y mx.z hcount (lt_trans hlen (by norm_num))
    rw [r1, r2, r3, r4, r5, r6, r7, r8, hc0, hd [0, 0] [0, 0, 0] [0, 0, 0, 0, 0, 0, 0, 0]
      rfl rfl rfl] at hdec
    rw [hc0] at henc
    refine ⟨lo, hi, mn, mx, hlo, hhi, h3, h4, h5, h6, h7, h8, _, _, ?_, hdec, ?_, ?_⟩
    · rw [← hc0]
      rw [← hc0] at henc
      exact henc
    · rw [List.length_map]
    · intro i c d hc hdd
      rw [List.getElem?_map, hc] at hdd
      simp only [Option.map_some', Option.some.injEq] at hdd
      subst hdd
      have hmem : c ∈ c0 :: rest := by
        obtain ⟨hi', e⟩ := List.getElem?_eq_some_iff.mp hc
        exact e ▸ List.getElem_mem hi'
      have ht1 : lo ≤ c.time := hlo.2 (List.mem_map.mpr ⟨c, hmem, rfl⟩)
      have ht2 : c.time ≤ hi := hhi.2 (List.mem_map.mpr ⟨c, hmem, rfl⟩)
      have hpx : mn.x ≤ c.position.x ∧ c.position.x ≤ mx.x :=
        ⟨h3.2 (List.mem_map.mpr ⟨c, hmem, rfl⟩), h6.2 (List.mem_map.mpr ⟨c, hmem, rfl⟩)⟩
      have hpy : mn.y ≤ c.position.y ∧ c.position.y ≤ mx.y :=
        ⟨h4.2 (List.mem_map.mpr ⟨c, hmem, rfl⟩), h7.2 (List.mem_map.mpr ⟨c, hmem, rfl⟩)⟩
      have hpz : mn.z ≤ c.position.z ∧ c.position.z ≤ mx.z :=
        ⟨h5.2 (List.mem_map.mpr ⟨c, hmem, rfl⟩), h8.2 (List.mem_map.mpr ⟨c, hmem, rfl⟩)⟩
      exact ⟨bst_two_bytes_error lo hi c.time ht1 ht2,
        octree_error c.position ⟨mn.x, mn.y, mn.z⟩ ⟨mx.x, mx.y, mx.z⟩ hpx hpy hpz⟩

theorem pkg_unitStepCaptures_exact :
    ∀ x ∈ Pkg.encodeOct24.headerFields unitStepCaptures, binary32.round x = x := by
  have h : Pkg.encodeOct24.headerFields unitStepCaptures = [0, 1, 0, 0, 0, 1, 1, 1] := by
    norm_num [Pkg.encodeOct24.headerFields, unitStepCaptures, Pkg.encodeOct24.bounds,
      Pkg.encodeOct24.boundsLoop, lowerTo, raiseTo]
  rw [h]
  intro x hx
  simp only [List.mem_cons, List.mem_singleton, List.not_mem_nil, or_false] at hx
  rcases hx with rfl | rfl | rfl | rfl | rfl | rfl | rfl | rfl <;>
    first | exact binary32_round_zero | exact binary32_round_one

/-- C36 at the two captures `(0, (0,0,0))` and `(1, (1,1,1))`. -/
theorem pkg_oct24_round_trip_witness :
    unitStepCaptures ≠ [] ∧ unitStepCaptures.length < 2 ^ 56 ∧
    (∀ c0 ∈ unitStepCaptures.head?, ∀ c ∈ unitStepCaptures, c0.time ≤ c.time) ∧
    (∀ x ∈ Pkg.encodeOct24.headerFields unitStepCaptures, binary32.round x = x) ∧
    Pkg.encodeOct24 binary32 [] = .panic ∧
    ∃ (earliest latest : ℚ) (mn mx : Vector3),
      IsLeast {t | t ∈ unitStepCaptures.map fun c => c.time} earliest ∧
      IsGreatest {t | t ∈ unitStepCaptures.map fun c => c.time} latest ∧
      IsLeast {a | a ∈ unitStepCaptures.map fun c => c.position.x} mn.x ∧
      IsLeast {a | a ∈ unitStepCaptures.map fun c => c.position.y} mn.y ∧
      IsLeast {a | a ∈ unitStepCaptures.map fun c => c.position.z} mn.z ∧
      IsGreatest {a | a ∈ unitStepCaptures.map fun c => c.position.x} mx.x ∧
      IsGreatest {a | a ∈ unitStepCaptures.map fun c => c.position.y} mx.y ∧
      IsGreatest {a | a ∈ unitStepCaptures.map fun c => c.position.z} mx.z ∧
      ∃ bytes decoded, Pkg.encodeOct24 binary32 unitStepCaptures = .ok bytes ∧
        Pkg.decodeOct24 binary32 bytes = .ok decoded ∧
        decoded.length = unitStepCaptures.length ∧
        ∀ (i : Nat) (c d : PositionCapture), unitStepCaptures[i]? = some c →
          decoded[i]? = some d →
          |d.time - c.time| ≤ (latest - earliest) / 2 ^ 17 ∧
          |d.position.x - c.position.x| ≤ (mx.x - mn.x) / 2 ^ 9 ∧
          |d.position.y - c.position.y| ≤ (mx.y - mn.y) / 2 ^ 9 ∧
          |d.position.z - c.position.z| ≤ (mx.z - mn.z) / 2 ^ 9 :=
  have h1 : unitStepCaptures ≠ [] := by simp [unitStepCaptures]
  have h2 : unitStepCaptures.length < 2 ^ 56 := by simp [unitStepCaptures]
  have h3 : ∀ c0 ∈ unitStepCaptures.head?, ∀ c ∈ unitStepCaptures, c0.time ≤ c.time := by
    simp [unitStepCaptures]
  ⟨h1, h2, h3, pkg_unitStepCaptures_exact,
    pkg_oct24_round_trip binary32 unitStepCaptures h1 h2 h3 pkg_unitStepCaptures_exact⟩

/-! ## The scalar quantizer in `float64` arithmetic: rounding at `2^53` -/

/-- The exponent of a positive rational is the `e` with `2^e ≤ a < 2^(e+1)`. -/
theorem binary32Exponent_eq (a : ℚ) (e : ℤ) (h1 : 2 ^ e ≤ a) (h2 : a < 2 ^ (e + 1)) :
    binary32Exponent a = e := by
  have hpos : 0 < a := lt_of_lt_of_le (zpow_pos (by norm_num) e) h1
  have hnum : 0 < a.num := Rat.num_pos.mpr hpos
  have hn0 : a.num.natAbs ≠ 0 := by
    intro h
    rw [Int.natAbs_eq_zero] at h
    omega
  have hd0 : a.den ≠ 0 := a.den_nz
  have hdpos : (0 : ℚ) < a.den := by exact_mod_cast Nat.pos_of_ne_zero hd0
  have hmul : a * (a.den : ℚ) = (a.num.natAbs : ℚ) := by
    have hc : ((a.num.natAbs : ℕ) : ℚ) = (a.num : ℚ) := by
      have h : ((a.num.natAbs : ℕ) : ℤ) = a.num := Int.natAbs_of_nonneg (le_of_lt hnum)
      rw [← Int.cast_natCast, h]
    rw [hc]
    exact Rat.mul_den_eq_num a
  have n1 : (2 : ℚ) ^ (Nat.log2 a.num.natAbs : ℤ) ≤ a.num.natAbs := by
    rw [zpow_natCast]
    exact_mod_cast Nat.log2_self_le hn0
  have n2 : (a.num.natAbs : ℚ) < 2 ^ ((Nat.log2 a.num.natAbs : ℤ) + 1) := by
    rw [show ((Nat.log2 a.num.natAbs : ℤ) + 1) = ((Nat.log2 a.num.natAbs + 1 : ℕ) : ℤ) by
      push_cast; rfl, zpow_natCast]
    exact_mod_cast (Nat.lt_log2_self : a.num.natAbs < 2 ^ (Nat.log2 a.num.natAbs + 1))
  have d1 : (2 : ℚ) ^ (Nat.log2 a.den : ℤ) ≤ a.den := by
    rw [zpow_natCast]
    exact_mod_cast Nat.log2_self_le hd0
  have d2 : (a.den : ℚ) < 2 ^ ((Nat.log2 a.den : ℤ) + 1) := by
    rw [show ((Nat.log2 a.den : ℤ) + 1) = ((Nat.log2 a.den + 1 : ℕ) : ℤ) by
      push_cast; rfl, zpow_natCast]
    exact_mod_cast (Nat.lt_log2_self : a.den < 2 ^ (Nat.log2 a.den + 1))
  have two : (1 : ℚ) < 2 := by norm_num
  have p1 : (0 : ℚ) < 2 ^ (Nat.log2 a.den : ℤ) := zpow_pos (by norm_num) _
  have p2 : (0 : ℚ) < 2 ^ ((Nat.log2 a.den : ℤ) + 1) := zpow_pos (by norm_num) _
  -- a < 2 ^ (e0 + 1)
  have up : a < 2 ^ ((Nat.log2 a.num.natAbs : ℤ) - (Nat.log2 a.den : ℤ) + 1) := by
    rw [show ((Nat.log2 a.num.natAbs : ℤ) - (Nat.log2 a.den : ℤ) + 1)
      = ((Nat.log2 a.num.natAbs : ℤ) + 1) - (Nat.log2 a.den : ℤ) by ring,
      zpow_sub₀ (by norm_num : (2 : ℚ) ≠ 0)]
    rw [lt_div_iff₀ p1]
    calc a * 2 ^ (Nat.log2 a.den : ℤ)
        ≤ a * a.den := mul_le_mul_of_nonneg_left d1 (le_of_lt hpos)
      _ = a.num.natAbs := hmul
      _ < 2 ^ ((Nat.log2 a.num.natAbs : ℤ) + 1) := n2
  -- 2 ^ (e0 - 1) < a
  have lo : (2 : ℚ) ^ ((Nat.log2 a.num.natAbs : ℤ) - (Nat.log2 a.den : ℤ) - 1) < a := by
    rw [show ((Nat.log2 a.num.natAbs : ℤ) - (Nat.log2 a.den : ℤ) - 1)
      = (Nat.log2 a.num.natAbs : ℤ) - ((Nat.log2 a.den : ℤ) + 1) by ring,
      zpow_sub₀ (by norm_num : (2 : ℚ) ≠ 0)]
    rw [div_lt_iff₀ p2]
    calc (2 : ℚ) ^ (Nat.log2 a.num.natAbs : ℤ)
        ≤ a.num.natAbs := n1
      _ = a * a.den := hmul.symm
      _ < a * 2 ^ ((Nat.log2 a.den : ℤ) + 1) := mul_lt_mul_of_pos_left d2 hpos
  have c1 : e < (Nat.log2 a.num.natAbs : ℤ) - (Nat.log2 a.den : ℤ) + 1 :=
    (zpow_lt_zpow_iff_right₀ two).mp (lt_of_le_of_lt h1 up)
  have c2 : (Nat.log2 a.num.natAbs : ℤ) - (Nat.log2 a.den : ℤ) - 1 < e + 1 :=
    (zpow_lt_zpow_iff_right₀ two).mp (lt_trans lo h2)
  unfold binary32Exponent
  simp only
  split
  · rename_i hlt
    have c3 : e < (Nat.log2 a.num.natAbs : ℤ) - (Nat.log2 a.den : ℤ) :=
      (zpow_lt_zpow_iff_right₀ two).mp (lt_of_le_of_lt h1 hlt)
    omega
  · rename_i hge
    have c3 : (Nat.log2 a.num.natAbs : ℤ) - (Nat.log2 a.den : ℤ) < e + 1 :=
      (zpow_lt_zpow_iff_right₀ two).mp (lt_of_le_of_lt (not_lt.mp hge) h2)
    omega

/-- Rounding to the nearest integer: a rational nearer to `n` than to any other
integer rounds to `n`. -/
theorem roundHalfEven_near (q : ℚ) (n : ℕ) (h1 : (n : ℚ) - 1 / 2 < q) (h2 : q < n + 1 / 2)
    (h0 : 0 ≤ q) : roundHalfEven q = n := by
  unfold roundHalfEven
  by_cases hq : (n : ℚ) ≤ q
  · have hf : ⌊q⌋₊ = n := (Nat.floor_eq_iff h0).mpr ⟨hq, by linarith⟩
    simp only [hf]
    rw [if_pos (by linarith)]
  · have hn : 1 ≤ n := by
      rcases Nat.eq_zero_or_pos n with h | h
      · subst h
        exact absurd (by simpa using h0) hq
      · exact h
    have hc : ((n - 1 : ℕ) : ℚ) = (n : ℚ) - 1 := by
      rw [Nat.cast_sub hn, Nat.cast_one]
    have hf : ⌊q⌋₊ = n - 1 :=
      (Nat.floor_eq_iff h0).mpr ⟨by rw [hc]; linarith, by rw [hc]; linarith⟩
    simp only [hf, hc]
    rw [if_neg (by linarith), if_pos (by linarith)]
    omega

/-- Rounding to the nearest integer: halfway above an even `n` rounds to `n`. -/
theorem roundHalfEven_tie (n : ℕ) (he : n % 2 = 0) : roundHalfEven ((n : ℚ) + 1 / 2) = n := by
  unfold roundHalfEven
  have hf : ⌊(n : ℚ) + 1 / 2⌋₊ = n :=
    (Nat.floor_eq_iff (by positivity)).mpr ⟨by linarith, by linarith⟩
  simp only [hf]
  rw [if_neg (by norm_num), if_neg (by norm_num), if_pos he]

/-- The rounding of a positive rational of exponent `e`, given the rounding of its
significand. -/
theorem binary64Round_eq (x : ℚ) (e : ℤ) (n : ℕ) (he : -1022 ≤ e) (h1 : 2 ^ e ≤ x)
    (h2 : x < 2 ^ (e + 1)) (hr : roundHalfEven (x / 2 ^ (e - 52)) = n) :
    binary64Round x = n * 2 ^ (e - 52) := by
  have hpos : 0 < x := lt_of_lt_of_le (zpow_pos (by norm_num) e) h1
  unfold binary64Round
  rw [if_neg (ne_of_gt hpos)]
  simp only [abs_of_pos hpos, binary32Exponent_eq x e h1 h2, max_eq_left he,
    if_neg (not_lt.mpr (le_of_lt hpos)), hr, one_mul]

/-- A positive rational with at most 53 significant bits is a `float64`. -/
theorem binary64Round_exact (x : ℚ) (e : ℤ) (n : ℕ) (he : -1022 ≤ e) (h1 : 2 ^ e ≤ x)
    (h2 : x < 2 ^ (e + 1)) (hn : x = n * 2 ^ (e - 52)) : binary64Round x = x := by
  have hz : (2 : ℚ) ^ (e - 52) ≠ 0 := zpow_ne_zero _ (by norm_num)
  have hq : x / 2 ^ (e - 52) = n := by
    rw [hn, mul_div_assoc, div_self hz, mul_one]
  rw [binary64Round_eq x e n he h1 h2 (by
    rw [hq]
    exact roundHalfEven_near _ n (by linarith) (by linarith) (by positivity))]
  exact hn.symm

/-- Halving an increment `10 / 2^j` is exact. -/
theorem binary64Round_increment (j : ℕ) (hj : j ≤ 1000) :
    binary64Round (10 / 2 ^ j / 2) = 10 / 2 ^ (j + 1) := by
  have hx : (10 : ℚ) / 2 ^ j / 2 = 10 / 2 ^ (j + 1) := by
    rw [pow_succ, div_div]
  rw [hx]
  have hp : (0 : ℚ) < 2 ^ (j + 1) := by positivity
  have hz : (2 : ℚ) ^ ((j + 1 : ℕ) : ℤ) = 2 ^ (j + 1) := zpow_natCast _ _
  apply binary64Round_exact _ (3 - ((j + 1 : ℕ) : ℤ)) (10 * 2 ^ 49) (by push_cast; omega)
  · rw [zpow_sub₀ (by norm_num : (2 : ℚ) ≠ 0), hz]
    apply div_le_div_of_nonneg_right _ (le_of_lt hp)
    norm_num
  · rw [show (3 - ((j + 1 : ℕ) : ℤ) + 1) = 4 - ((j + 1 : ℕ) : ℤ) by ring,
      zpow_sub₀ (by norm_num : (2 : ℚ) ≠ 0), hz]
    apply div_lt_div_of_pos_right _ hp
    norm_num
  · rw [show (3 - ((j + 1 : ℕ) : ℤ) - 52) = -49 - ((j + 1 : ℕ) : ℤ) by ring,
      zpow_sub₀ (by norm_num : (2 : ℚ) ≠ 0), hz]
    field_simp
    ring

/-- At `2^53 - 1`, where the spacing of `float64` is 1, subtracting an increment
below one half changes nothing. -/
theorem binary64Round_stuck (j : ℕ) (hj : 5 ≤ j) :
    binary64Round (2 ^ 53 - 1 - 10 / 2 ^ j) = 2 ^ 53 - 1 := by
  have hp : (0 : ℚ) < 2 ^ j := by positivity
  have h32 : (2 : ℚ) ^ 5 ≤ 2 ^ j := pow_le_pow_right₀ (by norm_num) hj
  have hpos : (0 : ℚ) < 10 / 2 ^ j := by positivity
  have hle : (10 : ℚ) / 2 ^ j ≤ 10 / 2 ^ 5 := div_le_div_of_nonneg_left (by norm_num)
    (by norm_num) h32
  have hle2 : (10 : ℚ) / 2 ^ j ≤ 5 / 16 := by
    refine le_trans hle ?_
    norm_num
  have e0 : (2 : ℚ) ^ ((52 : ℤ) - 52) = 1 := by norm_num
  rw [binary64Round_eq _ 52 (2 ^ 53 - 1) (by norm_num) (by norm_num; linarith)
    (by norm_num; linarith) (by
      rw [e0, div_one]
      apply roundHalfEven_near
      · norm_num; linarith
      · norm_num; linarith
      · norm_num; linarith)]
  rw [e0]
  norm_num

theorem binary64Round_two_pow_53 : binary64Round (2 ^ 53) = 2 ^ 53 := by
  apply binary64Round_exact _ 53 (2 ^ 52) (by norm_num)
  · norm_num
  · norm_num
  · norm_num

theorem binary64Round_ten : binary64Round 10 = 10 := by
  apply binary64Round_exact _ 3 (10 * 2 ^ 49) (by norm_num)
  · norm_num
  · norm_num
  · norm_num

theorem binary64Round_five : binary64Round (10 / 2) = 5 := by
  have h := binary64Round_increment 0 (by norm_num)
  norm_num at h ⊢
  exact h

theorem binary64Round_quarter : binary64Round (10 / 4) = 10 / 2 ^ 2 := by
  have h := binary64Round_increment 1 (by norm_num)
  rw [show (10 : ℚ) / 2 ^ 1 / 2 = 10 / 4 by norm_num] at h
  exact h

/-- `2^53 + 5` lies halfway between the floats `2^53 + 4` and `2^53 + 6`: it rounds
to `2^53 + 4`, whose significand is even. -/
theorem binary64Round_start : binary64Round (2 ^ 53 + 5) = 2 ^ 53 + 4 := by
  rw [binary64Round_eq _ 53 (2 ^ 52 + 2) (by norm_num) (by norm_num) (by norm_num) (by
    have h := roundHalfEven_tie (2 ^ 52 + 2) (by norm_num)
    rw [← h]
    congr 1
    norm_num)]
  norm_num

theorem binary64Round_step_one : binary64Round (2 ^ 53 + 4 - 10 / 2 ^ 2) = 2 ^ 53 + 2 := by
  rw [binary64Round_eq _ 53 (2 ^ 52 + 1) (by norm_num) (by norm_num) (by norm_num) (by
    apply roundHalfEven_near <;> norm_num)]
  norm_num

theorem binary64Round_step_two :
    binary64Round (2 ^ 53 + 2 - 10 / 2 ^ (2 + 1)) = 2 ^ 53 := by
  rw [binary64Round_eq _ 53 (2 ^ 52) (by norm_num) (by norm_num) (by norm_num) (by
    apply roundHalfEven_near <;> norm_num)]
  norm_num

theorem binary64Round_step_three :
    binary64Round (2 ^ 53 - 10 / 2 ^ (2 + 1 + 1)) = 2 ^ 53 - 1 := by
  rw [binary64Round_eq _ 52 (2 ^ 53 - 1) (by norm_num) (by norm_num) (by norm_num) (by
    apply roundHalfEven_near <;> norm_num)]
  norm_num

/-! ## The scalar quantizer in `float64` arithmetic: the walk from `2^53` -/

theorem float64_decode_step (k i : Nat) (c inc : ℚ) :
    Float64.bytesToFloatBST.bitLoop 0 (k + 1) i c inc
      = Float64.bytesToFloatBST.bitLoop 0 k (i + 1) (binary64Round (c - inc))
          (binary64Round (inc / 2)) := by
  rw [Float64.bytesToFloatBST.bitLoop]
  simp

theorem float64_decode_stuck : ∀ (k i j : Nat), 5 ≤ j → j + k ≤ 1000 →
    Float64.bytesToFloatBST.bitLoop 0 k i (2 ^ 53 - 1) (10 / 2 ^ j)
      = (2 ^ 53 - 1, 10 / 2 ^ (j + k))
  | 0, i, j, _, _ => by
    rw [Float64.bytesToFloatBST.bitLoop]
    rfl
  | k + 1, i, j, h5, hk => by
    rw [float64_decode_step, binary64Round_stuck j h5, binary64Round_increment j (by omega),
      float64_decode_stuck k (i + 1) (j + 1) (by omega) (by omega),
      show j + 1 + k = j + (k + 1) by omega]

theorem float64_encode_step (k i b : Nat) (c inc : ℚ) (hc : 0 < c) :
    Float64.floatBSTToBytes.bitLoop 0 (k + 1) i b c inc
      = Float64.floatBSTToBytes.bitLoop 0 k (i + 1) b (binary64Round (c - inc))
          (binary64Round (inc / 2)) := by
  rw [Float64.floatBSTToBytes.bitLoop, if_pos hc]

theorem float64_encode_stuck (b : Nat) : ∀ (k i j : Nat), 5 ≤ j → j + k ≤ 1000 →
    Float64.floatBSTToBytes.bitLoop 0 k i b (2 ^ 53 - 1) (10 / 2 ^ j)
      = (b, 2 ^ 53 - 1, 10 / 2 ^ (j + k))
  | 0, i, j, _, _ => by
    rw [Float64.floatBSTToBytes.bitLoop]
    rfl
  | k + 1, i, j, h5, hk => by
    rw [float64_encode_step _ _ _ _ _ (by norm_num), binary64Round_stuck j h5,
      binary64Round_increment j (by omega),
      float64_encode_stuck b k (i + 1) (j + 1) (by omega) (by omega),
      show j + 1 + k = j + (k + 1) by omega]

/-- The eight steps of the first byte in `float64` arithmetic, from `2^53 + 4` with
the increment `2.5`, every bit 0: `2^53 + 2`, `2^53`, `2^53 - 1`, and `2^53 - 1` from
then on. -/
theorem float64_decode_first_byte :
    Float64.bytesToFloatBST.bitLoop 0 8 0 (2 ^ 53 + 4) (10 / 2 ^ 2)
      = (2 ^ 53 - 1, 10 / 2 ^ (2 + 1 + 1 + 1 + 5)) := by
  rw [float64_decode_step, binary64Round_step_one, binary64Round_increment 2 (by norm_num),
    float64_decode_step, binary64Round_step_two,
    binary64Round_increment (2 + 1) (by norm_num),
    float64_decode_step, binary64Round_step_three,
    binary64Round_increment (2 + 1 + 1) (by norm_num),
    float64_decode_stuck 5 _ (2 + 1 + 1 + 1) (by norm_num) (by norm_num)]

theorem float64_encode_first_byte :
    Float64.floatBSTToBytes.bitLoop 0 8 0 0 (2 ^ 53 + 4) (10 / 2 ^ 2)
      = (0, 2 ^ 53 - 1, 10 / 2 ^ (2 + 1 + 1 + 1 + 5)) := by
  rw [float64_encode_step _ _ _ _ _ (by norm_num), binary64Round_step_one,
    binary64Round_increment 2 (by norm_num),
    float64_encode_step _ _ _ _ _ (by norm_num), binary64Round_step_two,
    binary64Round_increment (2 + 1) (by norm_num),
    float64_encode_step _ _ _ _ _ (by norm_num), binary64Round_step_three,
    binary64Round_increment (2 + 1 + 1) (by norm_num),
    float64_encode_stuck 0 5 _ (2 + 1 + 1 + 1) (by norm_num) (by norm_num)]

theorem float64_decode_at_two_pow_53 :
    Float64.bytesToFloatBST (2 ^ 53) 10 [0, 0] = 2 ^ 53 - 1 := by
  rw [Float64.bytesToFloatBST, binary64Round_five, binary64Round_start, binary64Round_quarter,
    Float64.bytesToFloatBST.byteLoop]
  simp only [float64_decode_first_byte]
  rw [Float64.bytesToFloatBST.byteLoop]
  simp only [float64_decode_stuck 8 0 (2 + 1 + 1 + 1 + 5) (by norm_num) (by norm_num)]
  rw [Float64.bytesToFloatBST.byteLoop]

theorem float64_encode_at_two_pow_53 :
    Float64.floatBSTToBytes 0 (2 ^ 53) 10 [0, 0] = [0, 0] := by
  rw [Float64.floatBSTToBytes, binary64Round_five, binary64Round_start, binary64Round_quarter,
    Float64.floatBSTToBytes.byteLoop]
  simp only [float64_encode_first_byte]
  rw [Float64.floatBSTToBytes.byteLoop]
  simp only [float64_encode_stuck 0 8 0 (2 + 1 + 1 + 1 + 5) (by norm_num) (by norm_num)]
  rw [Float64.floatBSTToBytes.byteLoop]

/-- C3 fails as stated, in the `float64` arithmetic of the code: `0`, `2^53` and `10`
are `float64` values and `0 ≤ 10`; with `start = 2^53` and `duration = 10`,
`floatBSTToBytes(0, start, duration, out)` on a buffer of two bytes writes the bytes
`0, 0`, and `bytesToFloatBST(start, duration, ·)` decodes them to `2^53 - 1`, which
is below `start`. `curValue` starts at `2^53 + 5`, rounded to `2^53 + 4`, and goes
through `2^53 + 2`, `2^53` and `2^53 - 1`, where the spacing of `float64` is 1 and
every later increment, at most `0.3125`, is rounded away. -/
theorem bst_decoded_in_range_counterexample :
    binary64Round 0 = 0 ∧ binary64Round (2 ^ 53) = 2 ^ 53 ∧ binary64Round 10 = 10 ∧
    (0 : ℚ) ≤ 10 ∧
    Float64.floatBSTToBytes 0 (2 ^ 53) 10 [0, 0] = [0, 0] ∧
    Float64.bytesToFloatBST (2 ^ 53) 10 [0, 0] = 2 ^ 53 - 1 ∧
    Float64.bytesToFloatBST (2 ^ 53) 10 (Float64.floatBSTToBytes 0 (2 ^ 53) 10 [0, 0])
      < 2 ^ 53 := by
  refine ⟨by simp [binary64Round], binary64Round_two_pow_53, binary64Round_ten, by norm_num,
    float64_encode_at_two_pow_53, float64_decode_at_two_pow_53, ?_⟩
  rw [float64_encode_at_two_pow_53, float64_decode_at_two_pow_53]
  norm_num

/-! ## Event codec: `Encode` followed by `Decode`, whatever the technique -/

/-- The time that `Decode` reads back from the bytes written for a time, with a
technique that fits the technique byte, whatever follows these bytes. -/
theorem decodeTime_encodeTime_append (cv : FloatConv) (technique time : Nat)
    (htech : technique < 256) (rest : List Nat) :
    decodeTime cv (technique % 256) (encodeTime cv technique time ++ rest)
      = ((decodeTime cv (technique % 256) (encodeTime cv technique time)).1, rest) := by
  have key : ∀ r, decodeTime cv technique (encodeTime cv technique time ++ r)
      = ((decodeTime cv technique (encodeTime cv technique time ++ [])).1, r) := by
    intro r
    unfold decodeTime encodeTime
    by_cases h0 : technique = Raw64
    · simp only [if_pos h0, readFixed_leBytes]
    · by_cases h1 : technique = Raw32
      · simp only [if_neg h0, if_pos h1, readFixed_leBytes]
      · simp only [if_neg h0, if_neg h1, List.nil_append]
  rw [Nat.mod_eq_of_lt htech, key rest, List.append_nil]

theorem forall₂_getElem?_positionOf (keys : List GoString) (md : List (GoString × GoString))
    (hmd : ∀ kv ∈ md, kv.1 ∈ keys) :
    List.Forall₂ (fun i kv => keys[i]? = some kv.1) (md.map fun kv => positionOf kv.1 keys)
      md := by
  induction md with
  | nil => exact List.Forall₂.nil
  | cons kv md ih =>
    exact List.Forall₂.cons (getElem?_positionOf keys kv.1 (hmd kv (List.mem_cons_self _ _)))
      (ih fun kv' h => hmd kv' (List.mem_cons_of_mem _ h))

/-- The capture loop of `Decode` on the bytes of event captures written against the
dictionaries `names` and `keys` returns the captures with their names and metadata
and the times read back from the bytes written for the times. -/
theorem decodeCaptures_eventCaptureBytes_eq (cv : FloatConv) (technique : Nat)
    (names keys : List GoString) (htech : technique < 256) (hN : names.length < 2 ^ 63)
    (hK : keys.length < 2 ^ 64) :
    ∀ (cs : List Capture) (rest : List Nat),
      (∀ c ∈ cs, c.WellFormed ∧ c.isEvent = true ∧ (∀ nm ∈ c.name?, nm ∈ names) ∧
        ∀ k ∈ c.keys, k ∈ keys) →
      decodeCaptures cv names keys (technique % 256) cs.length
          (cs.flatMap (eventCaptureBytes cv technique names keys) ++ rest)
        = .ok ((cs.filterMap Capture.toEvent?).map fun e =>
            ⟨(decodeTime cv (technique % 256) (encodeTime cv technique e.time)).1, e.name,
              e.metadata⟩) := by
  intro cs
  induction cs with
  | nil =>
    intro rest _
    rfl
  | cons c cs ih =>
    intro rest hcs
    obtain ⟨hwf, hev, hnm, hks⟩ := hcs c (List.mem_cons_self _ _)
    have hout := ih rest fun c' hc' => hcs c' (List.mem_cons_of_mem _ hc')
    cases c with
    | other t => simp [Capture.isEvent] at hev
    | event time name md =>
      have hname : name ∈ names := hnm name (by simp [Capture.name?])
      have hmd : ∀ kv ∈ md, kv.1 ∈ keys := fun kv hkv =>
        hks kv.1 (by simp only [Capture.keys, List.mem_map]; exact ⟨kv, hkv, rfl⟩)
      obtain ⟨_, _, e2, e3, e4⟩ := eventCaptureBytes_reads cv technique names keys time name md
        (cs.flatMap (eventCaptureBytes cv technique names keys) ++ rest) htech hwf hname hmd
        (lt_trans hN (by norm_num)) hK
      have e1 : decodeTime cv (technique % 256)
          (eventCaptureBytes cv technique names keys (.event time name md)
            ++ (cs.flatMap (eventCaptureBytes cv technique names keys) ++ rest))
          = ((decodeTime cv (technique % 256) (encodeTime cv technique time)).1,
            uvarintBytes (positionOf name names)
              ++ (UintArrayToBytes (md.map fun kv => positionOf kv.1 keys)
              ++ (StringArrayToBytes (md.map Prod.snd)
              ++ (cs.flatMap (eventCaptureBytes cv technique names keys) ++ rest)))) := by
        simp only [eventCaptureBytes, List.append_assoc]
        exact decodeTime_encodeTime_append cv technique time htech _
      have hm := rehydrate_spec keys md (md.map fun kv => positionOf kv.1 keys) []
        (forall₂_getElem?_positionOf keys md hmd) hwf.2.2.2.1 (by simp)
      rw [List.nil_append] at hm
      have hn63 : ¬ (2 ^ 63 ≤ positionOf name names) :=
        not_le.mpr (lt_trans (positionOf_lt _ _ hname) hN)
      rw [List.flatMap_cons, List.append_assoc, List.length_cons, decodeCaptures]
      simp only [e1, e2, e3, e4, hm, if_neg hn63, getElem?_positionOf names name hname, hout,
        Res.map, List.filterMap_cons, Capture.toEvent?, List.map_cons]

theorem forall₂_map_self {α β : Type} (R : α → β → Prop) (f : α → β) (l : List α)
    (h : ∀ a ∈ l, R a (f a)) : List.Forall₂ R l (l.map f) := by
  induction l with
  | nil => exact List.Forall₂.nil
  | cons a l ih =>
    exact List.Forall₂.cons (h a (List.mem_cons_self _ _))
      (ih fun b hb => h b (List.mem_cons_of_mem _ hb))

/-- `Encode` with a technique that fits the technique byte, followed by `Decode`:
whenever `Encode` returns, every body decodes, against the header, to the stream's
name and its captures, each with its name, its metadata and the time read back from
the bytes written for its time. -/
theorem Decode_Encode_any (cv : FloatConv) (technique p : Nat) (streams : List CaptureStream)
    (header : List Nat) (bodies : List (List Nat)) (htech : technique < 256)
    (hwf : ∀ s ∈ streams, s.WellFormed)
    (hkeys : (allMetadataKeys streams).toFinset.card < 2 ^ 63)
    (h : Encoder.Encode cv technique streams = .ok (header, bodies)) :
    List.Forall₂ (fun s body => Encoder.Decode cv p header body
        = .ok ⟨s.name, (s.captures.filterMap Capture.toEvent?).map fun e =>
            ⟨(decodeTime cv (technique % 256) (encodeTime cv technique e.time)).1, e.name,
              e.metadata⟩⟩) streams bodies := by
  obtain ⟨hh, hb⟩ := Encode_layout cv technique streams header bodies h
  have hev := Encode_ok_events cv technique streams _ h
  have hnd1 := (firstOccurrences_spec (allEventNames streams)).1
  have hnd2 := (firstOccurrences_spec (allMetadataKeys streams)).1
  have hm1 := (firstOccurrences_spec (allEventNames streams)).2.1
  have hm2 := (firstOccurrences_spec (allMetadataKeys streams)).2.1
  have hNl : (firstOccurrences (allEventNames streams)).length ≤ 2 ^ 28 :=
    le_trans (nodup_length_le_card _ _ hnd1 fun k hk => List.mem_toFinset.mpr ((hm1 k).mp hk))
      (Encode_names_le cv technique streams _ h)
  have hKl : (firstOccurrences (allMetadataKeys streams)).length < 2 ^ 63 :=
    lt_of_le_of_lt (nodup_length_le_card _ _ hnd2
      fun k hk => List.mem_toFinset.mpr ((hm2 k).mp hk)) hkeys
  have hN63 : (firstOccurrences (allEventNames streams)).length < 2 ^ 63 :=
    lt_of_le_of_lt hNl (by norm_num)
  have hK64 : (firstOccurrences (allMetadataKeys streams)).length < 2 ^ 64 :=
    lt_trans hKl (by norm_num)
  have hread := readHeader_header (firstOccurrences (allEventNames streams))
    (firstOccurrences (allMetadataKeys streams)) (lt_trans hN63 (by norm_num))
    (fun k hk => allEventNames_short streams hwf k ((hm1 k).mp hk)) hK64
    (fun k hk => allMetadataKeys_short streams hwf k ((hm2 k).mp hk))
  rw [← hh] at hread
  rw [hb]
  apply forall₂_map_self
  intro s hs
  have hl63 : s.captures.length < 2 ^ 63 := (hwf s hs).2.1
  have hout := decodeCaptures_eventCaptureBytes_eq cv technique _ _ htech hN63 hK64
    s.captures [] fun c hc => ⟨(hwf s hs).2.2 c hc, (hev s hs).2 c hc,
      fun nm hn => (hm1 nm).mpr (mem_allEventNames streams s c nm hs hc hn),
      fun k hk => (hm2 k).mpr (mem_allMetadataKeys streams s c k hs hc hk)⟩
  rw [List.append_nil] at hout
  simp only [Encoder.Decode, hread, eventBodyBytes, List.append_assoc, List.singleton_append,
    List.cons_append, List.nil_append,
    ReadString_StringToBytes s.name _ (lt_trans (hwf s hs).1 (by norm_num)),
    ReadUvarint_uvarintBytes s.captures.length _ (lt_trans hl63 (by norm_num)),
    if_neg (not_le.mpr hl63), Nat.mod_mod, hout, Res.map]

theorem sameMap_retimed (f : Nat → Nat) (l l1 : List EventCapture)
    (h : List.Forall₂ EventCapture.SameMap l l1) :
    List.Forall₂ EventCapture.SameMap
      (l.map fun e => ⟨f e.time, e.name, e.metadata⟩)
      (l1.map fun e => ⟨f e.time, e.name, e.metadata⟩) := by
  induction h with
  | nil => exact List.Forall₂.nil
  | cons hab _ ih =>
    refine List.Forall₂.cons ⟨?_, hab.2.1, hab.2.2⟩ ih
    show f _ = f _
    rw [hab.1]

/-- `Encode` returns on streams of event captures within the bounds of the 4-byte
buffers, whatever the technique. -/
theorem Encode_returns (cv : FloatConv) (technique : Nat) (streams : List CaptureStream)
    (hevent : ∀ s ∈ streams, ∀ c ∈ s.captures, c.isEvent = true)
    (hcount : ∀ s ∈ streams, s.captures.length < 2 ^ 28)
    (hnames : (allEventNames streams).toFinset.card ≤ 2 ^ 28) :
    ∃ header bodies, Encoder.Encode cv technique streams = .ok (header, bodies) := by
  obtain ⟨o1, _⟩ := encodeStreams_outcome cv technique (allEventNames streams).toFinset hnames
    streams ([], []) DictOk_nil (by simp [keysOf]) hcount
    (fun s hs c hc nm hn => List.mem_toFinset.mpr (mem_allEventNames streams s c nm hs hc hn))
  obtain ⟨r, hr⟩ := o1 hevent
  exact ⟨StringArrayToBytes (dictToArray r.1.1) ++ StringArrayToBytes (dictToArray r.1.2), r.2,
    by simp only [Encoder.Encode, hr, Res.bind]⟩

/-- C15, amended. Two runs of `Encode`, with the same storage technique (`Raw64`,
`Raw32` or any other that fits the technique byte), on the same event streams (Go
values, each stream of fewer than `2^28` captures, at most `2^28` different event
names) that differ only in the order in which the metadata maps of the captures are
enumerated both return; their headers hold the same event-name array and key arrays
that are permutations of each other; they return the same number of bodies; and
corresponding bodies decode, each against the header of its own run, to streams of
the same name whose captures have the same times, names and key-to-value maps. -/
theorem event_encode_order_independent (cv : FloatConv) (technique p : Nat)
    (A B : List CaptureStream) (htech : technique < 256)
    (hsame : List.Forall₂ CaptureStream.SameUpToOrder A B)
    (hwf : ∀ s ∈ A, s.WellFormed)
    (hkeys : (allMetadataKeys A).toFinset.card < 2 ^ 63)
    (hevent : ∀ s ∈ A, ∀ c ∈ s.captures, c.isEvent = true)
    (hcount : ∀ s ∈ A, s.captures.length < 2 ^ 28)
    (hnames : (allEventNames A).toFinset.card ≤ 2 ^ 28) :
    ∃ headerA bodiesA headerB bodiesB,
      Encoder.Encode cv technique A = .ok (headerA, bodiesA) ∧
      Encoder.Encode cv technique B = .ok (headerB, bodiesB) ∧
      (∃ names keysA keysB : List GoString,
        headerA = StringArrayToBytes names ++ StringArrayToBytes keysA ∧
        headerB = StringArrayToBytes names ++ StringArrayToBytes keysB ∧ keysA.Perm keysB) ∧
      bodiesA.length = bodiesB.length ∧
      ∀ (i : Nat) (bodyA bodyB : List Nat), bodiesA[i]? = some bodyA →
        bodiesB[i]? = some bodyB →
        ∃ outA outB, Encoder.Decode cv p headerA bodyA = .ok outA ∧
          Encoder.Decode cv p headerB bodyB = .ok outB ∧ outA.name = outB.name ∧
          List.Forall₂ EventCapture.SameMap outA.captures outB.captures := by
  obtain ⟨hn, hk⟩ := sameUpToOrder_streams A B hsame
  have hwfB : ∀ s ∈ B, s.WellFormed := by
    intro s1 hs1
    obtain ⟨s, hs, hr⟩ := forall₂_mem_right _ _ _ hsame s1 hs1
    exact (sameUpToOrder_stream s s1 hr).2.2.2.1 (hwf s hs)
  have hkeysB : (allMetadataKeys B).toFinset.card < 2 ^ 63 := by
    have : (allMetadataKeys B).toFinset = (allMetadataKeys A).toFinset := by
      ext k
      simp only [List.mem_toFinset, hk k]
    rw [this]
    exact hkeys
  have heventB : ∀ s ∈ B, ∀ c ∈ s.captures, c.isEvent = true := by
    intro s1 hs1
    obtain ⟨s, hs, hr⟩ := forall₂_mem_right _ _ _ hsame s1 hs1
    exact (sameUpToOrder_stream s s1 hr).2.2.2.2.1 (hevent s hs)
  have hcountB : ∀ s ∈ B, s.captures.length < 2 ^ 28 := by
    intro s1 hs1
    obtain ⟨s, hs, hr⟩ := forall₂_mem_right _ _ _ hsame s1 hs1
    rw [(sameUpToOrder_stream s s1 hr).2.1]
    exact hcount s hs
  have hnamesB : (allEventNames B).toFinset.card ≤ 2 ^ 28 := by rw [hn]; exact hnames
  obtain ⟨headerA, bodiesA, hA⟩ := Encode_returns cv technique A hevent hcount hnames
  obtain ⟨headerB, bodiesB, hB⟩ := Encode_returns cv technique B heventB hcountB hnamesB
  have dA := Decode_Encode_any cv technique p A headerA bodiesA htech hwf hkeys hA
  have dB := Decode_Encode_any cv technique p B headerB bodiesB htech hwfB hkeysB hB
  obtain ⟨lA, _⟩ := Encode_layout cv technique A headerA bodiesA hA
  obtain ⟨lB, _⟩ := Encode_layout cv technique B headerB bodiesB hB
  refine ⟨headerA, bodiesA, headerB, bodiesB, hA, hB, ?_, ?_, ?_⟩
  · refine ⟨_, _, _, lA, by rw [lB, hn], ?_⟩
    apply (List.perm_ext_iff_of_nodup (firstOccurrences_spec _).1 (firstOccurrences_spec _).1).mpr
    intro k
    rw [(firstOccurrences_spec _).2.1 k, (firstOccurrences_spec _).2.1 k, hk k]
  · rw [← dA.length_eq, ← dB.length_eq, hsame.length_eq]
  · intro i bodyA bodyB hbA hbB
    have hiA : i < A.length := by
      rw [dA.length_eq]
      exact (List.getElem?_eq_some_iff.mp hbA).1
    have hiB : i < B.length := by rw [← hsame.length_eq]; exact hiA
    have eA : A[i]? = some A[i] := List.getElem?_eq_getElem hiA
    have eB : B[i]? = some B[i] := List.getElem?_eq_getElem hiB
    have rA := forall₂_getElem? _ _ _ dA i _ _ eA hbA
    have rB := forall₂_getElem? _ _ _ dB i _ _ eB hbB
    have rS := forall₂_getElem? _ _ _ hsame i _ _ eA eB
    refine ⟨_, _, rA, rB, rS.1, ?_⟩
    exact sameMap_retimed
      (fun t => (decodeTime cv (technique % 256) (encodeTime cv technique t)).1) _ _
      ((sameUpToOrder_captures _ _ rS.2.2).2 (hwf _ (List.getElem_mem hiA)).2.2)

set_option maxRecDepth 100000 in
/-- C15 at a concrete input: one capture with the metadata `k = 1`, `l = 2`,
enumerated in the two possible orders, written with technique `Raw32`. -/
theorem event_encode_order_independent_witness :
    Raw32 < 256 ∧
    List.Forall₂ CaptureStream.SameUpToOrder orderedStreams swappedStreams ∧
    (∀ s ∈ orderedStreams, s.WellFormed) ∧
    ∃ headerA bodiesA headerB bodiesB,
      Encoder.Encode ⟨id, id⟩ Raw32 orderedStreams = .ok (headerA, bodiesA) ∧
      Encoder.Encode ⟨id, id⟩ Raw32 swappedStreams = .ok (headerB, bodiesB) ∧
      (∃ names keysA keysB : List GoString,
        headerA = StringArrayToBytes names ++ StringArrayToBytes keysA ∧
        headerB = StringArrayToBytes names ++ StringArrayToBytes keysB ∧ keysA.Perm keysB) ∧
      bodiesA.length = bodiesB.length ∧
      ∀ (i : Nat) (bodyA bodyB : List Nat), bodiesA[i]? = some bodyA →
        bodiesB[i]? = some bodyB →
        ∃ outA outB, Encoder.Decode ⟨id, id⟩ Raw64 headerA bodyA = .ok outA ∧
          Encoder.Decode ⟨id, id⟩ Raw64 headerB bodyB = .ok outB ∧ outA.name = outB.name ∧
          List.Forall₂ EventCapture.SameMap outA.captures outB.captures :=
  ⟨by decide, orderedStreams_same, orderedStreams_wf,
    event_encode_order_independent ⟨id, id⟩ Raw32 Raw64 orderedStreams swappedStreams
      (by decide) orderedStreams_same orderedStreams_wf (by decide) (by decide) (by decide)
      (by decide)⟩

/-! ## Container: round trip, the collections index by index -/

mutual
theorem matches_inOrder (encoders : List encoding.Encoder)
    (P : CaptureStream → CaptureStream → Prop) :
    ∀ r r' : Recording,
      (∀ node ∈ r.nodes, regroup encoders node.collections = node.collections) →
      r.Matches encoders P r' → r.MatchesInOrder P r'
  | .mk id name metadata collections children binaries, r' => by
    intro h hm
    rw [Recording.Matches] at hm
    obtain ⟨h1, h2, h3, h4, h5, h6⟩ := hm
    have hc := h _ (Recording.mem_nodes_self _)
    simp only [Recording.collections] at hc
    rw [hc] at h5
    rw [Recording.MatchesInOrder]
    exact ⟨h1, h2, h3, h4, h5, matchesAll_inOrder encoders P children r'.children
      (fun node hn => h node (by rw [Recording.nodes]; exact List.mem_cons_of_mem _ hn)) h6⟩
theorem matchesAll_inOrder (encoders : List encoding.Encoder)
    (P : CaptureStream → CaptureStream → Prop) :
    ∀ rs rs' : List Recording,
      (∀ node ∈ Recording.nodesOf rs, regroup encoders node.collections = node.collections) →
      Recording.MatchesAll encoders P rs rs' → Recording.MatchesAllInOrder P rs rs'
  | [], rs' => by
    intro _ hm
    rw [Recording.MatchesAll] at hm
    rw [Recording.MatchesAllInOrder]
    exact hm
  | r :: rs, rs' => by
    intro h hm
    rw [Recording.MatchesAll] at hm
    obtain ⟨r', rest, e, m1, m2⟩ := hm
    rw [Recording.MatchesAllInOrder]
    exact ⟨r', rest, e,
      matches_inOrder encoders P r r'
        (fun node hn => h node (by rw [Recording.nodesOf]; exact List.mem_append_left _ hn)) m1,
      matchesAll_inOrder encoders P rs rest
        (fun node hn => h node (by rw [Recording.nodesOf]; exact List.mem_append_right _ hn)) m2⟩
end

theorem interleavedRecording_nodes : interleavedRecording.nodes = [interleavedRecording] := by
  simp [interleavedRecording, Recording.nodes, Recording.nodesOf]

theorem interleavedRecording_wf :
    ∀ node ∈ interleavedRecording.nodes, node.NodeWellFormed stringPayload := by
  intro node hn
  rw [interleavedRecording_nodes, List.mem_singleton] at hn
  subst hn
  exact ⟨by simp [interleavedRecording, Recording.id],
    by simp [interleavedRecording, Recording.name], emptyBlock_wf _,
    by simp [interleavedRecording, Recording.collections],
    by simp [interleavedRecording, Recording.children],
    by simp [interleavedRecording, Recording.binaries],
    by simp [interleavedRecording, Recording.binaries]⟩

set_option maxRecDepth 100000 in
theorem interleavedRecording_decodable :
    ∀ node ∈ interleavedRecording.nodes,
      node.NodeDecodable interleavedEncoders SameNameAndTimes := by
  intro node hn
  rw [interleavedRecording_nodes, List.mem_singleton] at hn
  subst hn
  refine ⟨[⟨0, eventEncoder ⟨id, id⟩ Raw64,
      [⟨[97], eventSignature, [.event 1 [110] []]⟩, ⟨[99], eventSignature, [.event 3 [110] []]⟩]⟩,
    ⟨1, secondEncoder ⟨id, id⟩ Raw64 testSignature,
      [⟨[98], testSignature, [.event 2 [110] []]⟩]⟩], rfl, by simp, ?_⟩
  intro g hg
  simp only [List.mem_cons, List.mem_singleton, List.not_mem_nil, or_false] at hg
  rcases hg with rfl | rfl
  · refine ⟨rfl, by decide, by decide, [1, 1, 110, 0],
      [[1, 97, 0, 1, 1, 0, 0, 0, 0, 0, 0, 0, 0, 0, 0], [1, 99, 0, 1, 3, 0, 0, 0, 0, 0, 0, 0, 0, 0, 0]],
      by decide, by decide, by decide, ?_⟩
    exact List.Forall₂.cons ⟨by decide, _, by decide, rfl, rfl⟩
      (List.Forall₂.cons ⟨by decide, _, by decide, rfl, rfl⟩ List.Forall₂.nil)
  · refine ⟨rfl, by decide, by decide, [1, 1, 110, 0],
      [[1, 98, 0, 1, 2, 0, 0, 0, 0, 0, 0, 0, 0, 0, 0]], by decide, by decide, by decide, ?_⟩
    exact List.Forall₂.cons ⟨by decide, _, by decide, rfl, rfl⟩ List.Forall₂.nil

set_option maxRecDepth 100000 in
/-- C21 fails as stated: with the event encoder and a second encoder registered in
the writer and in the reader, both decoding what they encode, the recording whose
collections `a`, `b`, `c` belong in turn to the event encoder, the second encoder and
the event encoder is written and read back without error, and the recording read
holds the collections in the order `a`, `c`, `b`, the order of the encoder groups of
the layout: the collection at index 1 is `c`, not `b`. -/
theorem container_round_trip_counterexample :
    (∀ node ∈ interleavedRecording.nodes, node.NodeWellFormed stringPayload) ∧
    (∀ node ∈ interleavedRecording.nodes,
      node.NodeDecodable interleavedEncoders SameNameAndTimes) ∧
    Write interleavedEncoders 2 (some interleavedRecording) = .ok (interleavedFile, 99) ∧
    Read interleavedEncoders stringPayload 2 interleavedFile = .ok (interleavedReadBack, 99) ∧
    (interleavedRecording.collections.map fun c => c.name) = [[97], [98], [99]] ∧
    (interleavedReadBack.collections.map fun c => c.name) = [[97], [99], [98]] ∧
    ¬ interleavedRecording.MatchesInOrder SameNameAndTimes interleavedReadBack := by
  refine ⟨interleavedRecording_wf, interleavedRecording_decodable, by decide, rfl, by decide,
    by decide, ?_⟩
  intro h
  rw [interleavedRecording, Recording.MatchesInOrder] at h
  obtain ⟨_, _, _, _, h5, _⟩ := h
  simp only [interleavedReadBack, Recording.collections, List.forall₂_cons] at h5
  exact absurd h5.2.1.1 (by decide)

/-- C21, amended. Container round trip: for every recording tree `r` (a Go value) in
which, at every node, every collection has a registered encoder, the registered
encoders are lossless on the groups of the node (the encoder of a group is the one
found again under its signature and version, it encodes the group, and it decodes
every body into a collection with the name and the capture times of the one encoded)
and the collections come encoder by encoder (the collections of one encoder are
adjacent), with the same encoders in the writer and the reader, `Write` succeeds,
`Read` of the written bytes succeeds, and the tree read matches `r`: at every node the
same id, the same name, the same metadata entries, the same binary references (name,
URI, size, metadata), as many children, matching one by one in order, recursively,
and as many collections, the collection at each index with the name and the capture
times of the collection of `r` at that index. -/
theorem container_round_trip (encoders : List encoding.Encoder)
    (payload : Nat → List Nat → IoRes (List Nat × List Nat)) (version : Nat) (r : Recording)
    (hv : version < 2 ^ 64) (hwf : ∀ node ∈ r.nodes, node.NodeWellFormed payload)
    (hlossless : ∀ node ∈ r.nodes, node.NodeDecodable encoders SameNameAndTimes)
    (hadjacent : ∀ node ∈ r.nodes, AdjacentByEncoder encoders node.collections) :
    ∃ bytes n r' m, Write encoders version (some r) = .ok (bytes, n) ∧
      Read encoders payload version bytes = .ok (r', m) ∧
      r.MatchesInOrder SameNameAndTimes r' := by
  obtain ⟨bytes, r', hw, hr, hm⟩ :=
    Read_Write encoders payload SameNameAndTimes version r hv hwf hlossless
  exact ⟨bytes, bytes.length, r', bytes.length, hw, hr,
    matches_inOrder encoders SameNameAndTimes r r'
      (fun node hn => regroup_of_adjacent encoders node.collections (hadjacent node hn)) hm⟩

theorem sampleRecording_adjacent :
    ∀ node ∈ sampleRecording.nodes,
      AdjacentByEncoder [eventEncoder ⟨id, id⟩ Raw64] node.collections := by
  intro node hn
  rw [sampleRecording_nodes] at hn
  simp only [List.mem_cons, List.mem_singleton, List.not_mem_nil, or_false] at hn
  rcases hn with rfl | rfl | rfl | rfl
  · refine ⟨[⟨0, eventEncoder ⟨id, id⟩ Raw64, sampleStreams⟩], by
      simp [sampleRecording, Recording.collections], ?_, by simp⟩
    intro g hg
    rw [List.mem_singleton.mp hg]
    refine ⟨by simp [sampleStreams], ?_⟩
    intro c hc
    simp only [sampleStreams, List.mem_cons, List.mem_singleton, List.not_mem_nil,
      or_false] at hc
    rcases hc with rfl | rfl <;> rfl
  · exact ⟨[], rfl, by simp, by simp⟩
  · refine ⟨[⟨0, eventEncoder ⟨id, id⟩ Raw64, [⟨[120], eventSignature, [.event 9 [97] []]⟩]⟩],
      by simp [Recording.collections], ?_, by simp⟩
    intro g hg
    rw [List.mem_singleton.mp hg]
    refine ⟨by simp, ?_⟩
    intro c hc
    simp only [List.mem_singleton] at hc
    subst hc
    rfl
  · exact ⟨[], rfl, by simp, by simp⟩

/-- C21, amended, at `sampleRecording`, with the event encoder of technique `Raw64`
registered and string properties. -/
theorem container_round_trip_witness :
    2 < 2 ^ 64 ∧ (∀ node ∈ sampleRecording.nodes, node.NodeWellFormed stringPayload) ∧
    (∀ node ∈ sampleRecording.nodes,
      node.NodeDecodable [eventEncoder ⟨id, id⟩ Raw64] SameNameAndTimes) ∧
    (∀ node ∈ sampleRecording.nodes,
      AdjacentByEncoder [eventEncoder ⟨id, id⟩ Raw64] node.collections) ∧
    ∃ bytes n r' m,
      Write [eventEncoder ⟨id, id⟩ Raw64] 2 (some sampleRecording) = .ok (bytes, n) ∧
      Read [eventEncoder ⟨id, id⟩ Raw64] stringPayload 2 bytes = .ok (r', m) ∧
      sampleRecording.MatchesInOrder SameNameAndTimes r' :=
  ⟨by decide, sampleRecording_wf, sampleRecording_decodable _ fun _ => ⟨rfl, rfl⟩,
    sampleRecording_adjacent,
    container_round_trip _ stringPayload 2 sampleRecording (by decide) sampleRecording_wf
      (sampleRecording_decodable _ fun _ => ⟨rfl, rfl⟩) sampleRecording_adjacent⟩

/-! ## Container: the event encoder is lossless on its groups -/

theorem eventCaptures_times (cs : List Capture) (h : ∀ c ∈ cs, c.isEvent = true) :
    ((cs.filterMap Capture.toEvent?).map fun c => Capture.event c.time c.name c.metadata) = cs := by
  induction cs with
  | nil => rfl
  | cons c cs ih =>
    have hc := h c (List.mem_cons_self _ _)
    cases c with
    | other t => simp [Capture.isEvent] at hc
    | event t n md =>
      simp only [List.filterMap_cons, Capture.toEvent?, List.map_cons,
        ih fun c' hc' => h c' (List.mem_cons_of_mem _ hc')]

/-- The event encoder of technique `Raw64` is lossless on a group: with it alone
registered, a group of event collections (Go values, within the bounds of the 4-byte
buffers of `Encode`, the bytes returned being Go values too) is encoded, and every
body is decoded into the collection encoded. -/
theorem eventEncoder_group_decodable (cv : FloatConv) (index : Nat)
    (collections : List CaptureStream)
    (hwf : ∀ s ∈ collections, s.WellFormed)
    (hkeys : (allMetadataKeys collections).toFinset.card < 2 ^ 63)
    (hevent : ∀ s ∈ collections, ∀ c ∈ s.captures, c.isEvent = true)
    (hcount : ∀ s ∈ collections, s.captures.length < 2 ^ 28)
    (hnames : (allEventNames collections).toFinset.card ≤ 2 ^ 28)
    (hlen : collections.length < 2 ^ 63)
    (hbytes : ∀ header bodies, Encoder.Encode cv Raw64 collections = .ok (header, bodies) →
      header.length < 2 ^ 63 ∧ ∀ body ∈ bodies, body.length < 2 ^ 63) :
    EncoderGroup.Decodable [eventEncoder cv Raw64] SameNameAndTimes
      ⟨index, eventEncoder cv Raw64, collections⟩ := by
  obtain ⟨header, bodies, he, hd⟩ :=
    Decode_Encode cv Raw64 collections hwf hkeys hevent hcount hnames
  obtain ⟨hh, hb⟩ := hbytes header bodies he
  refine ⟨by simp [eventEncoder, Encoder.Signature], by simp [eventEncoder, Encoder.Signature,
    eventSignature], by simp [eventEncoder], header, bodies, he, hh, ?_, ?_⟩
  · rw [← hd.length_eq]
    exact hlen
  · have key : ∀ (l : List CaptureStream) (bs : List (List Nat)),
        (∀ s ∈ l, ∀ c ∈ s.captures, c.isEvent = true) → (∀ body ∈ bs, body.length < 2 ^ 63) →
        List.Forall₂ (fun s body => Encoder.Decode cv Raw64 header body
          = .ok ⟨s.name, s.captures.filterMap Capture.toEvent?⟩) l bs →
        List.Forall₂ (fun c body => body.length < 2 ^ 63 ∧
          ∃ c', (eventEncoder cv Raw64).decode header body = .ok c' ∧ SameNameAndTimes c c')
          l bs := by
      intro l bs hev hbs hf
      induction hf with
      | nil => exact List.Forall₂.nil
      | @cons s body l bs hsb _ ih =>
        refine List.Forall₂.cons ⟨hbs body (List.mem_cons_self _ _),
          ⟨s.name, eventSignature, (s.captures.filterMap Capture.toEvent?).map fun c =>
            Capture.event c.time c.name c.metadata⟩, ?_, ?_⟩
          (ih (fun s' hs' => hev s' (List.mem_cons_of_mem _ hs'))
            fun b hb' => hbs b (List.mem_cons_of_mem _ hb'))
        · simp only [eventEncoder, hsb, Res.map]
        · refine ⟨rfl, ?_⟩
          simp only
          rw [eventCaptures_times s.captures (hev s (List.mem_cons_self _ _))]
    exact key collections bodies hevent hb hd

/-! ## Container: collections of two encoders in turn -/

/-- Whatever the encoders are: three collections of which the first and the third
belong to one encoder and the second to another are held, by the groups of the node,
in the order first, third, second. -/
theorem regroup_interleaved (encoders : List encoding.Encoder) (a b c : CaptureStream)
    (i j : Nat) (e f : encoding.Encoder) (ha : dispatch encoders a = some (i, e))
    (hb : dispatch encoders b = some (j, f)) (hc : dispatch encoders c = some (i, e))
    (hij : i ≠ j) : regroup encoders [a, b, c] = [a, c, b] := by
  simp only [regroup, groupCollections, ha, hb, hc, addToGroup, if_neg hij, if_true,
    List.flatMap_cons, List.flatMap_nil, List.nil_append, List.singleton_append,
    List.cons_append, List.append_nil]

end Rap
